import Mathlib

/-! RawSpeed: prefix-code model, tree decoder, bit streamer and strip geometry.

A shallow embedding of the decoding core of RawSpeed
(`PrefixCode.h`, `PrefixCodeTreeDecoder.h`, `BitStreamerMSB32.h`,
`Cr2Decompressor.h`, `PhaseOneDecompressor.cpp`) together with the properties
proved about it.

Conventions.
* Fallible code returns `Except Fault _`.  A failed `assert`/`invariant` is
  `Fault.assertion`, a `ThrowRDE` is `Fault.rde` or `Fault.badHuffmanCode`, a
  `ThrowIOE` is `Fault.ioe`.
* `assert` is compiled out when `NDEBUG` is defined (the source itself guards
  code with `#ifndef NDEBUG`); the build flavour is the `ndebug` argument.
* `unsigned` arithmetic is taken modulo `2 ^ 32`.
* A bit sequence is a `List Bool`, first bit to be read first.
-/

namespace rawspeed

/-! ## Outcomes -/

/-- Ways in which an operation stops without producing its result. -/
inductive Fault where
  /-- A failed `assert(...)` or `invariant(...)`: a logic error, the process aborts. -/
  | assertion
  /-- Behaviour the language leaves undefined (out-of-bounds access, null dereference). -/
  | undefinedBehaviour
  /-- The exception of `ThrowRDE`: a RawDecoderException with its message. -/
  | rde (msg : String)
  /-- The exception of `ThrowRDE("bad Huffman code: %u (len: %u)", code, code_len)`. -/
  | badHuffmanCode (code len : Nat)
  /-- The exception of `ThrowIOE`: an IOException. -/
  | ioe (msg : String)
deriving DecidableEq, Repr

/-- Whether a fault is a thrown `RawspeedException` (as opposed to an abort). -/
def Fault.isRawspeedException : Fault → Bool
  | .rde _ => true
  | .badHuffmanCode _ _ => true
  | .ioe _ => true
  | _ => false

/-- The effect of `assert(cond)`: nothing when `NDEBUG` is defined. -/
def assertThat (ndebug cond : Bool) : Except Fault Unit :=
  if ndebug || cond then .ok () else .error .assertion

/-! ## `AbstractPrefixCode::CodeSymbol` -/

/-- Modelled from the spec: `AbstractPrefixCode.h` is not among the sources.
`CodeSymbol = {code: unsigned bit pattern, code_len: 1..MaxLen}`, a path in the
binary code tree. -/
structure CodeSymbol where
  code : Nat
  code_len : Nat
deriving DecidableEq, Repr

/-- The low `len` bits of `code`, most significant first. -/
def bitsMSB (code : Nat) : Nat → List Bool
  | 0 => []
  | len + 1 => bitsMSB (code / 2) len ++ [decide (code % 2 = 1)]

/-- The bit pattern of a symbol: its `code_len` bits, most significant first. -/
def CodeSymbol.bits (s : CodeSymbol) : List Bool := bitsMSB s.code s.code_len

/-- The type invariant of a code symbol: the code fits into `code_len` bits and the
length is between 1 and `MaxCodeLenghtBits`. -/
def CodeSymbol.wellFormed (MaxCodeLenghtBits : Nat) (s : CodeSymbol) : Bool :=
  decide (0 < s.code_len) && decide (s.code_len ≤ MaxCodeLenghtBits) &&
    decide (s.code < 2 ^ s.code_len)

/-- Modelled from the spec: `CodeSymbol::HaveCommonPrefix` (`AbstractPrefixCode.h`) is
not among the sources.  Whether the bit pattern of `part` is a prefix of the bit
pattern of `symbol` (the two symbols share a common bit prefix). -/
def HaveCommonPrefix (symbol part : CodeSymbol) : Bool :=
  part.bits.isPrefixOf symbol.bits

/-! ## `PrefixCode` (PrefixCode.h) -/

/-- The members of `PrefixCode` and of its base `AbstractPrefixCode`. -/
structure PrefixCode where
  codeValues : List Nat
  nCodesPerLength : List Nat
  symbols : List CodeSymbol
deriving DecidableEq, Repr

/-- PrefixCode.h, lines 58-61: count the symbols of each length.
`nCodesPerLength` has `unsigned` entries, incremented modulo `2 ^ 32`. -/
def countCodes (MaxCodeLenghtBits : Nat) (ndebug : Bool) :
    List CodeSymbol → List Nat → Except Fault (List Nat)
  | [], n => .ok n
  | s :: rest, n =>
    if ndebug = false ∧ ¬ (0 < s.code_len ∧ s.code_len ≤ MaxCodeLenghtBits) then
      .error .assertion
    else if s.code_len < n.length then
      countCodes MaxCodeLenghtBits ndebug rest
        (n.set s.code_len ((n.getD s.code_len 0 + 1) % 2 ^ 32))
    else .error .undefinedBehaviour

/-- PrefixCode.h, lines 62-63: drop the trailing zero counts. -/
def trimTrailingZeros (n : List Nat) : List Nat :=
  n.rdropWhile (fun c => c == 0)

/-- PrefixCode.h, lines 71-83: the leaf-slot recurrence over the counts of the lengths
`codeLen, codeLen + 1, ...`; `maxCodes` is `unsigned`. -/
def checkCodeSpace (ndebug : Bool) : List Nat → Nat → Except Fault Unit
  | [], _ => .ok ()
  | nCodes :: rest, maxCodes =>
    if ndebug = false ∧ ¬ nCodes ≤ maxCodes then .error .assertion
    else checkCodeSpace ndebug rest (((maxCodes + 2 ^ 32 - nCodes) % 2 ^ 32 * 2) % 2 ^ 32)

/-- PrefixCode.h, lines 90-93: the comparison `symbolSort`. -/
def symbolSort (lhs rhs : CodeSymbol) : Bool :=
  decide (lhs.code < rhs.code) && decide (lhs.code_len ≤ rhs.code_len)

/-- PrefixCode.h, lines 95-100: `std::adjacent_find` with `!symbolSort` finds nothing. -/
def globallyOrdered : List CodeSymbol → Bool
  | a :: b :: rest => symbolSort a b && globallyOrdered (b :: rest)
  | _ => true

/-- PrefixCode.h, lines 104-107: every symbol against every earlier one.
`earlier` holds `symbols[0 .. sId)`. -/
def checkPrefixes (ndebug : Bool) : List CodeSymbol → List CodeSymbol → Except Fault Unit
  | _, [] => .ok ()
  | earlier, s :: rest =>
    if ndebug = false ∧ earlier.any (fun p => HaveCommonPrefix s p) = true then
      .error .assertion
    else checkPrefixes ndebug (earlier ++ [s]) rest

/-- PrefixCode.h, lines 69-108: `verifyCodeSymbols`. -/
def verifyCodeSymbols (ndebug : Bool) (nCodesPerLength : List Nat)
    (symbols : List CodeSymbol) : Except Fault Unit :=
  match checkCodeSpace ndebug (nCodesPerLength.drop 1) 2 with
  | .error e => .error e
  | .ok () =>
    match assertThat ndebug (globallyOrdered symbols) with
    | .error e => .error e
    | .ok () => checkPrefixes ndebug [] symbols

/-- PrefixCode.h, lines 54-66: the constructor `PrefixCode::PrefixCode`.  The constructor
of the base class `AbstractPrefixCode` (not among the sources) is taken to store
`codeValues_`. -/
def PrefixCode.construct (MaxCodeLenghtBits : Nat) (ndebug : Bool)
    (symbols_ : List CodeSymbol) (codeValues_ : List Nat) : Except Fault PrefixCode :=
  match countCodes MaxCodeLenghtBits ndebug symbols_
      (List.replicate (1 + MaxCodeLenghtBits) 0) with
  | .error e => .error e
  | .ok counted =>
    let n := trimTrailingZeros counted
    match verifyCodeSymbols ndebug n symbols_ with
    | .error e => .error e
    | .ok () => .ok { codeValues := codeValues_, nCodesPerLength := n, symbols := symbols_ }

/-! ## `BinaryPrefixTree` -/

/-- Modelled from the spec: `BinaryPrefixTree.h` is not among the sources.
A child slot (`std::unique_ptr<Node>`): absent, a Leaf holding the resolved literal
value, or a Branch with two children indexed by the next bit (left = 0, right = 1). -/
inductive Bud where
  | absent
  | leaf (value : Nat)
  | branch (zero one : Bud)
deriving DecidableEq, Repr

/-- Modelled from the spec: `BinaryPrefixTree::add` is not among the sources.
Insert a symbol's bit path below a slot: branches are created where absent and the
Leaf is put at the end of the path.  Running into a Leaf, or ending on an occupied
slot, is a failed invariant. -/
def Bud.add : Bud → List Bool → Nat → Except Fault Bud
  | .absent, [], v => .ok (.leaf v)
  | .leaf _, _, _ => .error .assertion
  | .branch _ _, [], _ => .error .assertion
  | .absent, false :: bs, v =>
    match Bud.add .absent bs v with
    | .ok z => .ok (.branch z .absent)
    | .error e => .error e
  | .absent, true :: bs, v =>
    match Bud.add .absent bs v with
    | .ok o => .ok (.branch .absent o)
    | .error e => .error e
  | .branch z o, false :: bs, v =>
    match Bud.add z bs v with
    | .ok z2 => .ok (.branch z2 o)
    | .error e => .error e
  | .branch z o, true :: bs, v =>
    match Bud.add o bs v with
    | .ok o2 => .ok (.branch z o2)
    | .error e => .error e

/-! ## `PrefixCodeTreeDecoder` (PrefixCodeTreeDecoder.h) -/

/-- The state of a `PrefixCodeTreeDecoder`: the code and flags of its base
`AbstractPrefixCodeDecoder`, and the root slot of its tree. -/
structure PrefixCodeTreeDecoder where
  code : PrefixCode
  fullDecode : Bool
  fixDNGBug16 : Bool
  tree : Bud
deriving DecidableEq, Repr

/-- PrefixCodeTreeDecoder.h, lines 102-105: the loop of `setup` from `codeIndex` on,
`tree.add(symbols[codeIndex], codeValues[codeIndex])`. -/
def addAll : Bud → List CodeSymbol → List Nat → Except Fault Bud
  | t, [], _ => .ok t
  | _, _ :: _, [] => .error .undefinedBehaviour
  | t, s :: ss, v :: vs =>
    match t.add s.bits v with
    | .ok t2 => addAll t2 ss vs
    | .error e => .error e

/-- PrefixCodeTreeDecoder.h, lines 99-106: `setup`, on a decoder whose tree is empty.
`AbstractPrefixCodeDecoder::setup` (not among the sources) is taken to store the two
flags. -/
def PrefixCodeTreeDecoder.setup (ndebug : Bool) (code : PrefixCode)
    (fullDecode_ fixDNGBug16_ : Bool) : Except Fault PrefixCodeTreeDecoder :=
  match assertThat ndebug (decide (code.symbols.length = code.codeValues.length)) with
  | .error e => .error e
  | .ok () =>
    match addAll .absent code.symbols code.codeValues with
    | .error e => .error e
    | .ok t => .ok { code := code, fullDecode := fullDecode_,
                     fixDNGBug16 := fixDNGBug16_, tree := t }

/-- PrefixCodeTreeDecoder.h, lines 62-92: the loop of `readSymbol` with `top` pointing
to the given Branch, the accumulated `code` and the current `code_len`.  The bits are
those a preceding `fill` put into the cache; reading beyond them is a failed
invariant of the streamer.  On success the symbol, its value and the unread bits are
returned. -/
def readSymbolLoop (MaxCodeLenghtBits : Nat) :
    Bud → Nat → Nat → List Bool → Except Fault ((CodeSymbol × Nat) × List Bool)
  | .branch zero one, code, code_len, bs =>
    if code_len ≤ MaxCodeLenghtBits then
      match bs with
      | [] => .error .assertion
      | false :: rest =>
        match zero with
        | .absent => .error (.badHuffmanCode (2 * code) code_len)
        | .leaf value => .ok ((⟨2 * code, code_len⟩, value), rest)
        | .branch z o =>
          readSymbolLoop MaxCodeLenghtBits (.branch z o) (2 * code) (code_len + 1) rest
      | true :: rest =>
        match one with
        | .absent => .error (.badHuffmanCode (2 * code + 1) code_len)
        | .leaf value => .ok ((⟨2 * code + 1, code_len⟩, value), rest)
        | .branch z o =>
          readSymbolLoop MaxCodeLenghtBits (.branch z o) (2 * code + 1) (code_len + 1) rest
    else .error .assertion
  | .leaf _, _, _, _ => .error .assertion
  | .absent, _, _, _ => .error .undefinedBehaviour

/-- PrefixCodeTreeDecoder.h, lines 51-96: `readSymbol`; `tree.root->getAsBranch()`
then the loop from `code = 0`, `code_len = 1`. -/
def readSymbol (MaxCodeLenghtBits : Nat) (tree : Bud) (bs : List Bool) :
    Except Fault ((CodeSymbol × Nat) × List Bool) :=
  readSymbolLoop MaxCodeLenghtBits tree 0 1 bs

/-! ## Reading a tree: auxiliary notions for the statements -/

/-- The value of the Leaf that sits exactly at the end of the path `p`, if any. -/
def Bud.leafAt : Bud → List Bool → Option Nat
  | .leaf v, [] => some v
  | .branch z _, false :: p => z.leafAt p
  | .branch _ o, true :: p => o.leafAt p
  | _, _ => none

/-- Whether some Leaf sits in or below the slot. -/
def Bud.hasLeaf : Bud → Bool
  | .absent => false
  | .leaf _ => true
  | .branch z o => z.hasLeaf || o.hasLeaf

/-- Every Branch in or below the slot leads to some Leaf. -/
def Bud.tidy : Bud → Prop
  | .absent => True
  | .leaf _ => True
  | .branch z o => (z.hasLeaf = true ∨ o.hasLeaf = true) ∧ z.tidy ∧ o.tidy

/-- The length of the longest path below the slot. -/
def Bud.height : Bud → Nat
  | .absent => 0
  | .leaf _ => 0
  | .branch z o => 1 + max z.height o.height

/-- The code accumulated by `code <<= 1; code |= bit` over the bits read. -/
def accumulate (code : Nat) : List Bool → Nat
  | [] => code
  | b :: bs => accumulate (2 * code + (if b then 1 else 0)) bs

/-- Neither bit pattern is a prefix of the other. -/
def Incomparable (p q : List Bool) : Prop := ¬ p <+: q ∧ ¬ q <+: p

/-- The symbols are pairwise prefix-free. -/
def PrefixFree (symbols : List CodeSymbol) : Prop :=
  symbols.Pairwise (fun a b => Incomparable a.bits b.bits)

/-! ## Canonical feasibility, in the words of the specification -/

/-- The number of symbols whose length is `len` (the entry `nCodesPerLength[len]`). -/
def codesOfLength (symbols : List CodeSymbol) (len : Nat) : Nat :=
  symbols.countP (fun s => s.code_len == len)

/-- The leaf slots available at length `k + 1`: 2 at length 1; each length consumes
its codes and the remainder is doubled for the next length.  Computed in the
integers, where a deficit shows as a negative number. -/
def leafSlots (symbols : List CodeSymbol) : Nat → Int
  | 0 => 2
  | k + 1 => 2 * (leafSlots symbols k - codesOfLength symbols (k + 1))

/-- Canonical feasibility: no length has more codes than leaf slots are left for it. -/
def Feasible (symbols : List CodeSymbol) : Prop :=
  ∀ k : Nat, (codesOfLength symbols (k + 1) : Int) ≤ leafSlots symbols k

/-- The number of bit sequences of length `L` that extend the path `p`. -/
def extensions (L : Nat) (p : List Bool) : Nat :=
  if p.length ≤ L then 2 ^ (L - p.length) else 0

/-- The number of bit sequences of length `L` that extend some path of `ps`, counted
with multiplicity. -/
def kraftSum (L : Nat) (ps : List (List Bool)) : Nat :=
  (ps.map (extensions L)).sum

/-- The tails of the paths that start with the bit `b`. -/
def tailsAfter (b : Bool) (ps : List (List Bool)) : List (List Bool) :=
  ps.filterMap (fun p =>
    match p with
    | [] => none
    | c :: q => if c = b then some q else none)

/-- The bit patterns of the symbols of positive length. -/
def properPaths (symbols : List CodeSymbol) : List (List Bool) :=
  (symbols.filter (fun s => decide (0 < s.code_len))).map CodeSymbol.bits

/-! ## The bit streamer (BitStreamerMSB32.h) -/

/-- Modelled from the spec: `BitStreamer.h` is not among the sources.
The state of a bit streamer: the underlying byte range, the read cursor (in bytes) and
the valid bits of the cache in the order in which they are read (the cache is filled
from the right and read from the left; the valid-bit count is the length). -/
structure BitStreamer where
  input : List Nat
  pos : Nat
  cache : List Bool
deriving DecidableEq, Repr

/-- Modelled from the spec: `getLE<uint32_t>` (`Endianness.h`) is not among the sources.
The 32-bit scalar stored in little-endian byte order in four bytes. -/
def getLE32 (b0 b1 b2 b3 : Nat) : Nat :=
  b0 % 256 + 2 ^ 8 * (b1 % 256) + 2 ^ 16 * (b2 % 256) + 2 ^ 24 * (b3 % 256)

/-- Modelled from the spec: `BitStreamerCacheRightInLeftOut::push` is not among the
sources.  Push the low `count` bits into the cache from the right; they are read from
the left, after the bits already there. -/
def cachePush (cache : List Bool) (bits count : Nat) : List Bool :=
  cache ++ bitsMSB bits count

/-- BitStreamerMSB32.h, lines 56-65: `fillCache`; the new cache and the number of bytes
processed. -/
def BitStreamerMSB32.fillCache (cache : List Bool) (input : List Nat) :
    Except Fault (List Bool × Nat) :=
  match input with
  | [b0, b1, b2, b3] => .ok (cachePush cache (getLE32 b0 b1 b2 b3) 32, 4)
  | _ => .error .assertion

/-- Modelled from the spec: `BitStreamer::fill` is not among the sources.
`fill(nbits)` leaves the streamer alone when `nbits` valid bits are cached; else it
processes the next batch of four bytes, those beyond the byte range read as zero; a
cursor more than `slack` bytes beyond the byte range is the exhaustion error. -/
def BitStreamer.fill (slack : Nat) (s : BitStreamer) (nbits : Nat) :
    Except Fault BitStreamer :=
  if nbits ≤ s.cache.length then .ok s
  else if s.input.length + slack < s.pos then
    .error (.ioe "Buffer overflow read in BitStreamer")
  else
    match BitStreamerMSB32.fillCache s.cache
        ((s.input.drop s.pos ++ List.replicate 4 0).take 4) with
    | .error e => .error e
    | .ok (c, n) => .ok { s with pos := s.pos + n, cache := c }

/-- Modelled from the spec: `BitStreamer::getBitsNoFill` is not among the sources.
Consume `n` cached bits, first bit most significant; asking for more bits than are
cached is a failed invariant. -/
def getBitsNoFill (cache : List Bool) (n : Nat) : Except Fault (Nat × List Bool) :=
  if n ≤ cache.length then .ok (accumulate 0 (cache.take n), cache.drop n)
  else .error .assertion

/-! ## Decoding a difference (PrefixCodeTreeDecoder.h, `AbstractPrefixCodeDecoder`) -/

/-- Modelled from the spec: `AbstractPrefixCodeDecoder::extend` is not among the sources.
The signed residual of a `k`-bit raw value: if the top bit of the `k`-bit field is 0,
the value is negative and equal to `raw - (2 ^ k - 1)`; otherwise it is the raw value;
`k = 0` yields 0. -/
def extend (raw k : Nat) : Int :=
  if k = 0 then 0
  else if raw / 2 ^ (k - 1) % 2 = 0 then (raw : Int) - (2 ^ k - 1)
  else (raw : Int)

/-- Modelled from the spec: `AbstractPrefixCodeDecoder::processSymbol` is not among the
sources.  In value-only mode the resolved literal is returned unmodified; in full-decode
mode it is a bit count `k`, `k` more bits are consumed and the residual is reconstructed.
With the vendor-bug flag set, `k = 16` follows the sign convention `legacy16` of the
buggy encoder. -/
def processSymbol (fullDecode fixDNGBug16 : Bool) (legacy16 : Nat → Int)
    (cache : List Bool) (codeValue : Nat) : Except Fault (Int × List Bool) :=
  if fullDecode = false then .ok ((codeValue : Int), cache)
  else
    match getBitsNoFill cache codeValue with
    | .error e => .error e
    | .ok (raw, rest) =>
      if fixDNGBug16 = true ∧ codeValue = 16 then .ok (legacy16 raw, rest)
      else .ok (extend raw codeValue, rest)

/-- The re-encoding convention: the raw value of a residual is the residual itself
when it is positive and `residual + 2 ^ k - 1` when it is negative. -/
def reencode (k : Nat) (residual : Int) : Int :=
  if residual < 0 then residual + 2 ^ k - 1 else residual

/-- Modelled from the spec: what a pump type `BIT_STREAM` adds to `BitStreamer`
(section 4.3: the variants differ in the byte-to-cache packing only): its `fillCache`
and the number `MaxProcessBytes` of bytes that `fill` shows to it. -/
structure BitPump where
  fillCache : List Bool → List Nat → Except Fault (List Bool × Nat)
  MaxProcessBytes : Nat

/-- Modelled from the spec: `BitStreamer::fill` of the pump `p`, as `BitStreamer.fill`
(which is the case of `BitStreamerMSB32`) with the `fillCache` of the pump: when fewer
than `nbits` bits are cached, `fillCache` is shown the next `MaxProcessBytes` bytes,
those beyond the byte range read as zero, and the cursor moves by the number of bytes
that it processed. -/
def BitPump.fill (p : BitPump) (slack : Nat) (s : BitStreamer) (nbits : Nat) :
    Except Fault BitStreamer :=
  if nbits ≤ s.cache.length then .ok s
  else if s.input.length + slack < s.pos then
    .error (.ioe "Buffer overflow read in BitStreamer")
  else
    match p.fillCache s.cache
        ((s.input.drop s.pos ++ List.replicate p.MaxProcessBytes 0).take
          p.MaxProcessBytes) with
    | .error e => .error e
    | .ok (c, n) => .ok { s with pos := s.pos + n, cache := c }

/-- The pump `BitPumpMSB32` of BitStreamerMSB32.h: four bytes at a time. -/
def BitPumpMSB32 : BitPump := ⟨BitStreamerMSB32.fillCache, 4⟩

/-- PrefixCodeTreeDecoder.h, lines 130-145: `decode<BIT_STREAM, FULL_DECODE>`; the pump
type `BIT_STREAM` is `pump`. -/
def PrefixCodeTreeDecoder.decode (MaxCodeLenghtBits : Nat) (pump : BitPump) (slack : Nat)
    (legacy16 : Nat → Int) (d : PrefixCodeTreeDecoder) (FULL_DECODE : Bool)
    (bs : BitStreamer) : Except Fault (Int × BitStreamer) :=
  if FULL_DECODE ≠ d.fullDecode then .error .assertion
  else
    match pump.fill slack bs 32 with
    | .error e => .error e
    | .ok filled =>
      match readSymbol MaxCodeLenghtBits d.tree filled.cache with
      | .error e => .error e
      | .ok ((_, codeValue), rest) =>
        match processSymbol d.fullDecode d.fixDNGBug16 legacy16 rest codeValue with
        | .error e => .error e
        | .ok (diff, rest2) => .ok (diff, { filled with cache := rest2 })

/-- HuffmanTable/Solo.cpp, lines 51-57: `workloop<Pump, IsFullDecode>`,
`while (true) ht.decode(bits)`, run for at most `fuel` calls of `decode`.  The loop has
no exit but an exception: the result is the fault that ended it, or `none` when it is
still running after `fuel` calls. -/
def workloop (MaxCodeLenghtBits : Nat) (pump : BitPump) (slack : Nat)
    (legacy16 : Nat → Int) (ht : PrefixCodeTreeDecoder) (IsFullDecode : Bool) :
    Nat → BitStreamer → Option Fault
  | 0, _ => none
  | fuel + 1, bits =>
    match ht.decode MaxCodeLenghtBits pump slack legacy16 IsFullDecode bits with
    | .error e => some e
    | .ok (_, bits2) =>
      workloop MaxCodeLenghtBits pump slack legacy16 ht IsFullDecode fuel bits2

/-- HuffmanTable/Solo.cpp, lines 59-65: `checkPump<Pump>` on a freshly constructed pump
over the bytes `input`. -/
def checkPump (MaxCodeLenghtBits : Nat) (pump : BitPump) (slack : Nat)
    (legacy16 : Nat → Int) (ht : PrefixCodeTreeDecoder) (input : List Nat) (fuel : Nat) :
    Option Fault :=
  workloop MaxCodeLenghtBits pump slack legacy16 ht ht.fullDecode fuel
    { input := input, pos := 0, cache := [] }

/-- The contract of section 4.3 on the `fillCache` of a pump, whose cache is a 64-bit
word: shown `MaxProcessBytes` bytes and a cache of fewer than 32 bits, it processes at
least one byte and leaves at least 32 and at most 64 bits cached. -/
def BitPump.Contract (p : BitPump) : Prop :=
  ∀ (cache : List Bool) (chunk : List Nat), cache.length < 32 →
    chunk.length = p.MaxProcessBytes →
    ∃ c n, p.fillCache cache chunk = .ok (c, n) ∧ 32 ≤ c.length ∧ c.length ≤ 64 ∧ 1 ≤ n

/-- The bits still to come: the cached bits and the bits of the bytes that `fill` can
still process. -/
def BitStreamer.remaining (slack : Nat) (s : BitStreamer) : Nat :=
  s.cache.length + 32 * (s.input.length + slack + 1 - s.pos)

/-- An upper bound of the bits still to come that holds for every pump: the cached bits
and, for each byte from which `fill` can still start, the 64 bits that a cache holds at
most. -/
def BitStreamer.budget (slack : Nat) (s : BitStreamer) : Nat :=
  s.cache.length + 64 * (s.input.length + slack + 1 - s.pos)

/-! ## `Cr2SliceWidths` (Cr2Decompressor.h) -/

/-- Cr2Decompressor.h, lines 50-53: the three `int` members. -/
structure Cr2SliceWidths where
  numSlices : Int
  sliceWidth : Int
  lastSliceWidth : Int
deriving DecidableEq, Repr

/-- Cr2Decompressor.h, lines 63-69: the constructor from three `uint16_t` values, given
as natural numbers. -/
def Cr2SliceWidths.construct (numSlices_ sliceWidth_ lastSliceWidth_ : Nat) :
    Except Fault Cr2SliceWidths :=
  let s : Cr2SliceWidths :=
    { numSlices := numSlices_, sliceWidth := sliceWidth_, lastSliceWidth := lastSliceWidth_ }
  if s.numSlices < 1 then .error (.rde "Bad slice count") else .ok s

/-- Cr2Decompressor.h, lines 75-80: `widthOfSlice`. -/
def Cr2SliceWidths.widthOfSlice (s : Cr2SliceWidths) (sliceId : Int) : Except Fault Int :=
  if 0 ≤ sliceId ∧ sliceId < s.numSlices then
    if sliceId + 1 = s.numSlices then .ok s.lastSliceWidth else .ok s.sliceWidth
  else .error .assertion

/-- Cr2Decompressor.h, lines 86-117: the iterator; `slicing` is the object it refers to. -/
structure Cr2SliceWidthIterator where
  slicing : Cr2SliceWidths
  sliceId : Int
deriving DecidableEq, Repr

/-- Cr2Decompressor.h, lines 97-101: the constructor of the iterator. -/
def Cr2SliceWidthIterator.construct (slicing_ : Cr2SliceWidths) (sliceId_ : Int) :
    Except Fault Cr2SliceWidthIterator :=
  if 0 ≤ sliceId_ ∧ sliceId_ ≤ slicing_.numSlices then
    .ok { slicing := slicing_, sliceId := sliceId_ }
  else .error .assertion

/-- Cr2Decompressor.h, lines 103-107: `operator*`. -/
def Cr2SliceWidthIterator.deref (it : Cr2SliceWidthIterator) : Except Fault Int :=
  if 0 ≤ it.sliceId ∧ it.sliceId < it.slicing.numSlices then
    it.slicing.widthOfSlice it.sliceId
  else .error .assertion

/-- Cr2Decompressor.h, lines 108-111: `operator++`. -/
def Cr2SliceWidthIterator.next (it : Cr2SliceWidthIterator) : Cr2SliceWidthIterator :=
  { it with sliceId := it.sliceId + 1 }

/-- Cr2Decompressor.h, lines 112-116: `operator==`. -/
def Cr2SliceWidthIterator.equal (a b : Cr2SliceWidthIterator) : Except Fault Bool :=
  if a.slicing = b.slicing then .ok (decide (a.sliceId = b.sliceId)) else .error .assertion

/-- Cr2Decompressor.h, lines 119-121: `begin()`. -/
def Cr2SliceWidths.begin (s : Cr2SliceWidths) : Except Fault Cr2SliceWidthIterator :=
  Cr2SliceWidthIterator.construct s 0

/-- Cr2Decompressor.h, lines 122-124: `end()`. -/
def Cr2SliceWidths.end (s : Cr2SliceWidths) : Except Fault Cr2SliceWidthIterator :=
  Cr2SliceWidthIterator.construct s s.numSlices

/-- The loop `for (; it != last; ++it) yield *it` over the iterator: the values it
yields.  A step is only taken after `*it` passed its invariant, which bounds the
number of steps. -/
def Cr2SliceWidthIterator.collect (last : Cr2SliceWidthIterator)
    (it : Cr2SliceWidthIterator) : Except Fault (List Int) :=
  match it.equal last with
  | .error e => .error e
  | .ok true => .ok []
  | .ok false =>
    if _h : 0 ≤ it.sliceId ∧ it.sliceId < it.slicing.numSlices then
      match it.deref with
      | .error e => .error e
      | .ok w =>
        match Cr2SliceWidthIterator.collect last it.next with
        | .error e => .error e
        | .ok ws => .ok (w :: ws)
    else .error .assertion
termination_by (it.slicing.numSlices - it.sliceId).toNat
decreasing_by
  simp only [Cr2SliceWidthIterator.next]
  omega

/-- The widths yielded by iterating from `begin()` to `end()`. -/
def Cr2SliceWidths.widths (s : Cr2SliceWidths) : Except Fault (List Int) :=
  match s.begin, s.end with
  | .ok first, .ok last => Cr2SliceWidthIterator.collect last first
  | .error e, _ => .error e
  | _, .error e => .error e

/-! ## `PhaseOneDecompressor::prepareStrips` (PhaseOneDecompressor.cpp) -/

/-- The row index `n` (an `int`) and the bytes of a strip. -/
structure PhaseOneStrip where
  n : Int
  bs : List Nat
deriving DecidableEq, Repr

/-- The conversion `static_cast<size_type>(x)` of an `int` to the 64-bit `size_t`. -/
def toSizeT (x : Int) : Nat := (x % 2 ^ 64).toNat

/-- PhaseOneDecompressor.cpp, lines 79-81: the strips from index `i` on have
`static_cast<size_type>(strips[i].n) == i`. -/
def stripsMatchRows : List PhaseOneStrip → Nat → Bool
  | [], _ => true
  | s :: rest, i => decide (toSizeT s.n = i) && stripsMatchRows rest (i + 1)

/-- PhaseOneDecompressor.cpp, lines 61-83: `prepareStrips` for an image of height
`height = mRaw->dim.y`; on success the sorted `strips`.  `std::sort` is taken to be the
insertion sort on `n`; the order it gives to strips of equal `n` does not matter, as the
validation then fails. -/
def prepareStrips (height : Int) (strips : List PhaseOneStrip) :
    Except Fault (List PhaseOneStrip) :=
  if strips.length ≠ toSizeT height then .error (.rde "Height vs strip count mismatch")
  else
    let sorted := strips.insertionSort (fun a b => a.n ≤ b.n)
    if stripsMatchRows sorted 0 = true then .ok sorted
    else .error (.rde "Strips validation issue.")

/-! ## The image (`RawImage`) as the decompressors see it -/

/-- The data types of an image that `RawImageType` names. -/
inductive RawImageType where
  | UINT16
  | F32
deriving DecidableEq, Repr

/-- A point or size with `int` coordinates (`iPoint2D`). -/
structure iPoint2D where
  x : Int
  y : Int
deriving DecidableEq, Repr

/-- Modelled from the spec: `iPoint2D::hasPositiveArea` (`Point.h`) is not among the
sources.  Both dimensions are positive. -/
def iPoint2D.hasPositiveArea (p : iPoint2D) : Bool :=
  decide (0 < p.x) && decide (0 < p.y)

/-- The phases of a 2x2 Bayer colour filter array (`BayerPhase`). -/
inductive BayerPhase where
  | RGGB
  | GRBG
  | GBRG
  | BGGR
deriving DecidableEq, Repr

/-- Modelled from the spec: `RawImage.h` is not among the sources.  The image metadata
(pixel format, declared dimensions, colour filter array: its size and what
`getAsXTransPhase` and `getAsBayerPhase` make of it), the errors recorded with
`setError`, and the 2-D plane of 16-bit samples addressed by (row, column), sized to
the image's dimensions; a sample that was never written is `none`. -/
structure RawImage where
  dataType : RawImageType
  cpp : Nat
  bpp : Nat
  dim : iPoint2D
  cfaSize : iPoint2D
  xtransPhase : Option iPoint2D
  bayerPhase : Option BayerPhase
  errors : List String
  data : Nat → Nat → Option Nat

/-- The width of the plane of `getU16DataAsUncroppedArray2DRef()`: `cpp` samples per
pixel. -/
def RawImage.width (img : RawImage) : Int := img.dim.x * img.cpp

/-- The height of the plane of `getU16DataAsUncroppedArray2DRef()`. -/
def RawImage.height (img : RawImage) : Int := img.dim.y

/-- The assignment `out(row, col) = value` to the plane; the accessor checks its
indices with invariants. -/
def RawImage.write (img : RawImage) (row : Int) (col : Nat) (value : Nat) :
    Except Fault RawImage :=
  if 0 ≤ row ∧ row < img.height ∧ (col : Int) < img.width then
    .ok { img with data := fun r c =>
            if r = row.toNat ∧ c = col then some value else img.data r c }
  else .error .assertion

/-- The text of an exception, `err.what()`. -/
def Fault.what : Fault → String
  | .rde msg => msg
  | .ioe msg => msg
  | .badHuffmanCode code len =>
    "bad Huffman code: " ++ toString code ++ " (len: " ++ toString len ++ ")"
  | .assertion => ""
  | .undefinedBehaviour => ""

/-- Modelled from the spec: `RawImageData::setError` is not among the sources.  The
error is recorded against the image's error tally, the first one staying first. -/
def RawImage.setError (img : RawImage) (err : String) : RawImage :=
  { img with errors := img.errors ++ [err] }

/-- Modelled from the spec: `RawImageData::isTooManyErrors` is not among the sources.
Whether the tally has reached the threshold `many` (with threshold 1, one error is
too many), and the first recorded error, empty when there is none. -/
def RawImage.isTooManyErrors (img : RawImage) (many : Nat) : Bool × String :=
  (decide (many ≤ img.errors.length), img.errors.headD "")

/-! ## `PhaseOneDecompressor` (PhaseOneDecompressor.cpp) -/

/-- The members of `PhaseOneDecompressor`. -/
structure PhaseOneDecompressor where
  mRaw : RawImage
  strips : List PhaseOneStrip

/-- PhaseOneDecompressor.cpp, lines 46-56: the checks of the constructor on the image. -/
def PhaseOneDecompressor.checkImage (mRaw : RawImage) : Except Fault Unit :=
  if mRaw.dataType ≠ RawImageType.UINT16 then .error (.rde "Unexpected data type")
  else if mRaw.cpp ≠ 1 ∨ mRaw.bpp ≠ 2 then .error (.rde "Unexpected cpp")
  else if mRaw.dim.hasPositiveArea = false ∨ mRaw.dim.x % 2 ≠ 0 ∨
      mRaw.dim.x > 11976 ∨ mRaw.dim.y > 8854 then
    .error (.rde "Unexpected image dimensions found")
  else .ok ()

/-- PhaseOneDecompressor.cpp, lines 43-59: the constructor. -/
def PhaseOneDecompressor.construct (img : RawImage) (strips_ : List PhaseOneStrip) :
    Except Fault PhaseOneDecompressor :=
  match PhaseOneDecompressor.checkImage img with
  | .error e => .error e
  | .ok () =>
    match prepareStrips img.dim.y strips_ with
    | .error e => .error e
    | .ok sorted => .ok { mRaw := img, strips := sorted }

/-- PhaseOneDecompressor.cpp, lines 91-92: the table `length`. -/
def lengthTable : List Nat := [8, 7, 6, 9, 11, 10, 5, 12, 14, 13]

/-- The three ways in which a column treats the lengths
(PhaseOneDecompressor.cpp, lines 102-105). -/
inductive ColumnBranch where
  /-- `col >= (width & ~7U)`: one of the last `width % 8` pixels, both lengths are 14. -/
  | trailer
  /-- `(col & 7) == 0`: the lengths are read from the unary prefixes. -/
  | lengthInit
  /-- Neither: the lengths are kept. -/
  | keep
deriving DecidableEq, Repr

/-- PhaseOneDecompressor.cpp, lines 102-105: which branch column `col` of a row of
`width` samples takes; `width & ~7U` is `width - width % 8`. -/
def columnBranch (width col : Nat) : ColumnBranch :=
  if width - width % 8 ≤ col then .trailer
  else if col % 8 = 0 then .lengthInit
  else .keep

/-- PhaseOneDecompressor.cpp, lines 109-117: the loop `for (; j < 5; j++)` with `more`
rounds to go; the final `j` and the unread bits. -/
def countZeroBits (col : Nat) : Nat → Nat → List Bool → Except Fault (Nat × List Bool)
  | 0, j, cache => .ok (j, cache)
  | more + 1, j, cache =>
    match getBitsNoFill cache 1 with
    | .error e => .error e
    | .ok (bit, rest) =>
      if bit ≠ 0 then
        if col = 0 then .error (.rde "Can not initialize lengths. Data is corrupt.")
        else .ok (j, rest)
      else countZeroBits col more (j + 1) rest

/-- PhaseOneDecompressor.cpp, lines 107-121: the body of `for (int& i : len)` for one
lane; the lane's length (`none` while it has not been assigned) and the unread bits. -/
def readLaneLength (col : Nat) (len : Option Nat) (cache : List Bool) :
    Except Fault (Option Nat × List Bool) :=
  match countZeroBits col 5 0 cache with
  | .error e => .error e
  | .ok (j, rest) =>
    if (col = 0 ∧ 0 < j) ∨ col ≠ 0 then
      if 0 < j then
        match getBitsNoFill rest 1 with
        | .error e => .error e
        | .ok (bit, rest2) => .ok (some (lengthTable.getD (2 * (j - 1) + bit) 0), rest2)
      else .ok (len, rest)
    else .error .assertion

/-- PhaseOneDecompressor.cpp, lines 102-123: the lengths of the two lanes for column
`col`, and the unread bits. -/
def selectLengths (width col : Nat) (len : Option Nat × Option Nat) (cache : List Bool) :
    Except Fault ((Option Nat × Option Nat) × List Bool) :=
  match columnBranch width col with
  | .trailer => .ok ((some 14, some 14), cache)
  | .lengthInit =>
    match readLaneLength col len.1 cache with
    | .error e => .error e
    | .ok (len0, rest) =>
      match readLaneLength col len.2 rest with
      | .error e => .error e
      | .ok (len1, rest2) => .ok ((len0, len1), rest2)
  | .keep => .ok (len, cache)

/-- The lane `col & 1` of a pair. -/
def lane {α : Type} (col : Nat) (p : α × α) : α := if col % 2 = 0 then p.1 else p.2

/-- The pair with lane `col & 1` replaced. -/
def setLane {α : Type} (col : Nat) (p : α × α) (a : α) : α × α :=
  if col % 2 = 0 then (a, p.2) else (p.1, a)

/-- PhaseOneDecompressor.cpp, lines 125-134: read the sample of column `col`; the value
written to `out(row, col)`, the predictors (of type `int32_t`, whose overflow is
undefined) and the unread bits. -/
def readSample (col : Nat) (pred : Int × Int) (len : Option Nat × Option Nat)
    (cache : List Bool) : Except Fault (Nat × (Int × Int) × List Bool) :=
  match lane col len with
  | none => .error .undefinedBehaviour
  | some i =>
    if i = 14 then
      match getBitsNoFill cache 16 with
      | .error e => .error e
      | .ok (v, rest) => .ok (v, setLane col pred (v : Int), rest)
    else if i = 0 ∨ 32 < i then .error .undefinedBehaviour
    else
      match getBitsNoFill cache i with
      | .error e => .error e
      | .ok (raw, rest) =>
        let p : Int := lane col pred + ((raw : Int) + 1 - 2 ^ (i - 1))
        if p < -2 ^ 31 ∨ 2 ^ 31 ≤ p then .error .undefinedBehaviour
        else .ok ((p % 2 ^ 16).toNat, setLane col pred p, rest)

/-- The variables of the loop of `decompressStrip`: the bit pump, the two predictors
and the two lengths. -/
structure StripState where
  pump : BitStreamer
  pred : Int × Int
  len : Option Nat × Option Nat

/-- PhaseOneDecompressor.cpp, lines 101-134: the body of the loop over the columns up
to the assignment to `out(row, col)`; the sample to assign and the new state. -/
def decodeColumn (slack width col : Nat) (st : StripState) :
    Except Fault (Nat × StripState) :=
  match st.pump.fill slack 32 with
  | .error e => .error e
  | .ok filled =>
    match selectLengths width col st.len filled.cache with
    | .error e => .error e
    | .ok (len2, rest) =>
      match readSample col st.pred len2 rest with
      | .error e => .error e
      | .ok (sample, pred2, rest2) =>
        .ok (sample, { pump := { filled with cache := rest2 }, pred := pred2, len := len2 })

/-- PhaseOneDecompressor.cpp, lines 100-135: the loop over the columns from `col` on,
with `more = out.width() - col` columns to go.  The image keeps what was written when
a column raises; the second component is the fault that ended the loop, if any. -/
def decodeColumns (slack width : Nat) (row : Int) :
    Nat → Nat → StripState → RawImage → RawImage × Option Fault
  | 0, _, _, img => (img, none)
  | more + 1, col, st, img =>
    match decodeColumn slack width col st with
    | .error e => (img, some e)
    | .ok (sample, st2) =>
      match img.write row col sample with
      | .error e => (img, some e)
      | .ok img2 => decodeColumns slack width row more (col + 1) st2 img2

/-- PhaseOneDecompressor.cpp, lines 85-136: `decompressStrip`; the image after it and
the fault it ended with, if any. -/
def PhaseOneDecompressor.decompressStrip (slack : Nat) (mRaw : RawImage)
    (strip : PhaseOneStrip) : RawImage × Option Fault :=
  if 0 < mRaw.width ∧ mRaw.width % 2 = 0 then
    decodeColumns slack mRaw.width.toNat strip.n mRaw.width.toNat 0
      { pump := { input := strip.bs, pos := 0, cache := [] }, pred := (0, 0),
        len := (none, none) } mRaw
  else (mRaw, some .assertion)

/-- PhaseOneDecompressor.cpp, lines 138-154: `decompressThread`, built without OpenMP:
the strips one after the other.  A `RawspeedException` of a strip is recorded with
`setError` and the next strip is decoded; any other fault ends the program, and is the
second component. -/
def PhaseOneDecompressor.decompressThread (slack : Nat) :
    List PhaseOneStrip → RawImage → RawImage × Option Fault
  | [], img => (img, none)
  | strip :: rest, img =>
    match PhaseOneDecompressor.decompressStrip slack img strip with
    | (img2, none) => PhaseOneDecompressor.decompressThread slack rest img2
    | (img2, some err) =>
      if err.isRawspeedException = true then
        PhaseOneDecompressor.decompressThread slack rest (img2.setError err.what)
      else (img2, some err)

/-- PhaseOneDecompressor.cpp, lines 156-168: `decompress`; the image after the call and
the fault it ended with, `none` when it returns. -/
def PhaseOneDecompressor.decompress (slack : Nat) (d : PhaseOneDecompressor) :
    RawImage × Option Fault :=
  match PhaseOneDecompressor.decompressThread slack d.strips d.mRaw with
  | (img, some abort) => (img, some abort)
  | (img, none) =>
    if (img.isTooManyErrors 1).1 = true then
      (img, some (.rde ("Too many errors encountered. Giving up. First Error:\n" ++
        (img.isTooManyErrors 1).2)))
    else (img, none)

/-! ## What a strip decodes to: auxiliary notions for the statements -/

/-- The samples that the loop of `decompressStrip` computes from column `col` on, with
`more` columns to go, and the fault that ended it, if any: `decodeColumns` without
the image. -/
def rowSamples (slack width : Nat) : Nat → Nat → StripState → List Nat × Option Fault
  | 0, _, _ => ([], none)
  | more + 1, col, st =>
    match decodeColumn slack width col st with
    | .error e => ([], some e)
    | .ok (sample, st2) =>
      ((sample :: (rowSamples slack width more (col + 1) st2).1),
        (rowSamples slack width more (col + 1) st2).2)

/-- The samples that `decompressStrip` computes from the bytes of a strip for a row of
`width` samples, starting from predictors 0, and the fault that ended it, if any. -/
def stripSamples (slack width : Nat) (bs : List Nat) : List Nat × Option Fault :=
  rowSamples slack width width 0
    { pump := { input := bs, pos := 0, cache := [] }, pred := (0, 0), len := (none, none) }

/-- The image with `samples` written to row `row` from column `col` on. -/
def RawImage.withRow (img : RawImage) (row col : Nat) (samples : List Nat) : RawImage :=
  { img with data := fun r c =>
      if r = row ∧ col ≤ c ∧ c < col + samples.length then some (samples.getD (c - col) 0)
      else img.data r c }

/-- The lengths of both lanes have been assigned from the table. -/
def LengthsAssigned (len : Option Nat × Option Nat) : Prop :=
  (∃ L ∈ lengthTable, len.1 = some L) ∧ (∃ L ∈ lengthTable, len.2 = some L)

/-- The invariant of the loop of `decompressStrip` at the top of column `col`: past
column 0 both lengths are assigned, and the predictors are bounded. -/
def StripInvariant (col : Nat) (st : StripState) : Prop :=
  (col ≠ 0 → LengthsAssigned st.len) ∧
  (-(65535 + 4096 * (col : Int)) ≤ st.pred.1 ∧ st.pred.1 ≤ 65535 + 4096 * (col : Int)) ∧
  (-(65535 + 4096 * (col : Int)) ≤ st.pred.2 ∧ st.pred.2 ≤ 65535 + 4096 * (col : Int))

/-! ## `FujiDecompressor` (FujiDecompressor.cpp): header, parameters, drivers -/

/-- Modelled from the spec: `ByteStream.h` is not among the sources.  A bounds-checked
cursor over a byte range; every read past the bound signals an error. -/
structure ByteStream where
  data : List Nat
  pos : Nat
deriving DecidableEq, Repr

/-- Modelled from the spec: `ByteStream::getByte`, one byte at the cursor. -/
def ByteStream.getByte (bs : ByteStream) : Except Fault (Nat × ByteStream) :=
  if bs.pos < bs.data.length then
    .ok (bs.data.getD bs.pos 0 % 256, { bs with pos := bs.pos + 1 })
  else .error (.ioe "Out of bounds access in ByteStream")

/-- Modelled from the spec: `ByteStream::getU16`, with the byte order set to big-endian
(FujiDecompressor.cpp, line 68). -/
def ByteStream.getU16 (bs : ByteStream) : Except Fault (Nat × ByteStream) :=
  if bs.pos + 2 ≤ bs.data.length then
    .ok (256 * (bs.data.getD bs.pos 0 % 256) + bs.data.getD (bs.pos + 1) 0 % 256,
      { bs with pos := bs.pos + 2 })
  else .error (.ioe "Out of bounds access in ByteStream")

/-- Modelled from the spec: `ByteStream::getU32`, with the byte order set to
big-endian. -/
def ByteStream.getU32 (bs : ByteStream) : Except Fault (Nat × ByteStream) :=
  if bs.pos + 4 ≤ bs.data.length then
    .ok (2 ^ 24 * (bs.data.getD bs.pos 0 % 256) + 2 ^ 16 * (bs.data.getD (bs.pos + 1) 0 % 256) +
        2 ^ 8 * (bs.data.getD (bs.pos + 2) 0 % 256) + bs.data.getD (bs.pos + 3) 0 % 256,
      { bs with pos := bs.pos + 4 })
  else .error (.ioe "Out of bounds access in ByteStream")

/-- Modelled from the spec: `ByteStream::skipBytes`. -/
def ByteStream.skipBytes (bs : ByteStream) (n : Nat) : Except Fault ByteStream :=
  if bs.pos + n ≤ bs.data.length then .ok { bs with pos := bs.pos + n }
  else .error (.ioe "Out of bounds access in ByteStream")

/-- Modelled from the spec: `ByteStream::getStream`, the sub-stream of the next `n`
bytes; the cursor moves past them. -/
def ByteStream.getStream (bs : ByteStream) (n : Nat) :
    Except Fault (ByteStream × ByteStream) :=
  if bs.pos + n ≤ bs.data.length then
    .ok ({ data := (bs.data.drop bs.pos).take n, pos := 0 }, { bs with pos := bs.pos + n })
  else .error (.ioe "Out of bounds access in ByteStream")

/-- Modelled from the spec: `roundUpDivision` (`Common.h`) is not among the sources.
The quotient rounded up. -/
def roundUpDivision (value div : Nat) : Nat :=
  if value ≠ 0 then 1 + (value - 1) / div else 0

/-- The members of `FujiDecompressor::FujiHeader`, unsigned 8- and 16-bit values as they
are read. -/
structure FujiHeader where
  signature : Nat
  version : Nat
  raw_type : Nat
  raw_bits : Nat
  raw_height : Nat
  raw_rounded_width : Nat
  raw_width : Nat
  block_size : Nat
  blocks_in_row : Nat
  total_lines : Nat
  MCU : iPoint2D
deriving DecidableEq, Repr

/-- FujiDecompressor.cpp, lines 726-733: the constructor of `FujiHeader` from the
stream; the header and the stream after it. -/
def FujiHeader.read (bs : ByteStream) : Except Fault (FujiHeader × ByteStream) := do
  let (signature, bs) ← bs.getU16
  let (version, bs) ← bs.getByte
  let (raw_type, bs) ← bs.getByte
  let (raw_bits, bs) ← bs.getByte
  let (raw_height, bs) ← bs.getU16
  let (raw_rounded_width, bs) ← bs.getU16
  let (raw_width, bs) ← bs.getU16
  let (block_size, bs) ← bs.getU16
  let (blocks_in_row, bs) ← bs.getByte
  let (total_lines, bs) ← bs.getU16
  pure ({ signature := signature, version := version, raw_type := raw_type,
          raw_bits := raw_bits, raw_height := raw_height,
          raw_rounded_width := raw_rounded_width, raw_width := raw_width,
          block_size := block_size, blocks_in_row := blocks_in_row,
          total_lines := total_lines,
          MCU := if raw_type = 16 then ⟨6, 6⟩ else ⟨2, 2⟩ }, bs)

/-- FujiDecompressor.cpp, lines 737-750: the condition `invalid`.  The operands are
promoted to `int`; `lineHeight` is `FujiStrip::lineHeight()`, which is not among the
sources and is a positive parameter here. -/
def FujiHeader.invalid (lineHeight : Nat) (h : FujiHeader) : Prop :=
  h.signature ≠ 0x4953 ∨ h.version ≠ 1 ∨ h.raw_height > 0x3000 ∨
  h.raw_height < lineHeight ∨ h.raw_height % lineHeight ≠ 0 ∨ h.raw_width > 0x3000 ∨
  h.raw_width < 0x300 ∨ h.raw_width % 24 ≠ 0 ∨ h.raw_rounded_width > 0x3000 ∨
  h.block_size ≠ 0x300 ∨ h.raw_rounded_width < h.block_size ∨
  h.raw_rounded_width % h.block_size ≠ 0 ∨
  (h.raw_rounded_width : Int) - (h.raw_width : Int) ≥ (h.block_size : Int) ∨
  h.blocks_in_row > 0x10 ∨ h.blocks_in_row = 0 ∨
  h.blocks_in_row ≠ h.raw_rounded_width / h.block_size ∨
  h.blocks_in_row ≠ roundUpDivision h.raw_width h.block_size ∨
  h.total_lines > 0x800 ∨ h.total_lines = 0 ∨
  h.total_lines ≠ h.raw_height / lineHeight ∨
  (h.raw_bits ≠ 12 ∧ h.raw_bits ≠ 14 ∧ h.raw_bits ≠ 16) ∨
  (h.raw_type ≠ 16 ∧ h.raw_type ≠ 0)

instance (lineHeight : Nat) (h : FujiHeader) : Decidable (h.invalid lineHeight) := by
  unfold FujiHeader.invalid
  infer_instance

/-- FujiDecompressor.cpp, lines 735-753: `FujiHeader::operator bool`. -/
def FujiHeader.isValid (lineHeight : Nat) (h : FujiHeader) : Bool :=
  !decide (h.invalid lineHeight)

/-- The members of `fuji_compressed_params`. -/
structure fuji_compressed_params where
  q_table : List Int
  q_point : List Int
  max_bits : Int
  min_value : Int
  raw_bits : Int
  total_values : Int
  maxDiff : Int
  line_width : Int
deriving DecidableEq, Repr

/-- FujiDecompressor.cpp, lines 128-146: the entry of `q_table` for the difference
`cur_val`, with `q1 = q_point[1]`, `q2 = q_point[2]`, `q3 = q_point[3]`. -/
def quantize (q1 q2 q3 cur_val : Int) : Int :=
  if cur_val ≤ -q3 then -4
  else if cur_val ≤ -q2 then -3
  else if cur_val ≤ -q1 then -2
  else if cur_val < 0 then -1
  else if cur_val = 0 then 0
  else if cur_val < q1 then 1
  else if cur_val < q2 then 2
  else if cur_val < q3 then 3
  else 4

/-- FujiDecompressor.cpp, lines 102-171: the constructor of `fuji_compressed_params`
from the header.  The table has `2 * (1 << raw_bits)` entries; the loop fills all but
the last, which stays 0. -/
def fuji_compressed_params.construct (header : FujiHeader) :
    Except Fault fuji_compressed_params :=
  if (header.block_size % 3 ≠ 0 ∧ header.raw_type = 16) ∨
      (header.block_size % 2 ≠ 0 ∧ header.raw_type = 0) then
    .error (.rde "fuji_block_checks")
  else if 31 ≤ header.raw_bits then .error .undefinedBehaviour
  else
    let line_width : Int :=
      if header.raw_type = 16 then (header.block_size * 2) / 3 else header.block_size / 2
    let q4 : Nat := 2 ^ header.raw_bits - 1
    let q_table : List Int :=
      (List.range (2 * q4 + 1)).map
        (fun (k : Nat) => quantize 0x12 0x43 0x114 ((k : Int) - (q4 : Int))) ++ [0]
    let q_point : List Int := [0, 0x12, 0x43, 0x114, q4]
    if q4 = 0xFFFF then
      .ok { q_table := q_table, q_point := q_point, max_bits := 64, min_value := 0x40,
            raw_bits := 16, total_values := 0x10000, maxDiff := 1024,
            line_width := line_width }
    else if q4 = 0x3FFF then
      .ok { q_table := q_table, q_point := q_point, max_bits := 56, min_value := 0x40,
            raw_bits := 14, total_values := 0x4000, maxDiff := 256,
            line_width := line_width }
    else if q4 = 0xFFF then
      .error (.rde "Aha, finally, a 12-bit compressed RAF! Please consider providing samples on <https://raw.pixls.us/>, thanks!")
    else .error (.rde "FUJI q_point")

/-- The members of `FujiDecompressor`; a strip is the byte range of its block. -/
structure FujiDecompressor where
  mRaw : RawImage
  input : ByteStream
  header : FujiHeader
  common_info : fuji_compressed_params
  strips : List ByteStream

/-- FujiDecompressor.cpp, lines 674-677: read `n` block sizes. -/
def readBlockSizes : Nat → ByteStream → Except Fault (List Nat × ByteStream)
  | 0, bs => .ok ([], bs)
  | n + 1, bs =>
    match bs.getU32 with
    | .error e => .error e
    | .ok (size, bs2) =>
      match readBlockSizes n bs2 with
      | .error e => .error e
      | .ok (sizes, bs3) => .ok (size :: sizes, bs3)

/-- FujiDecompressor.cpp, lines 689-690: one sub-stream per block size. -/
def readStrips : List Nat → ByteStream → Except Fault (List ByteStream × ByteStream)
  | [], bs => .ok ([], bs)
  | size :: sizes, bs =>
    match bs.getStream size with
    | .error e => .error e
    | .ok (strip, bs2) =>
      match readStrips sizes bs2 with
      | .error e => .error e
      | .ok (strips, bs3) => .ok (strip :: strips, bs3)

/-- FujiDecompressor.cpp, lines 670-691: `fuji_compressed_load_raw`; the parameters,
the strips and the stream after them. -/
def fuji_compressed_load_raw (header : FujiHeader) (input : ByteStream) :
    Except Fault (fuji_compressed_params × List ByteStream × ByteStream) :=
  match fuji_compressed_params.construct header with
  | .error e => .error e
  | .ok common_info =>
    match readBlockSizes header.blocks_in_row input with
    | .error e => .error e
    | .ok (block_sizes, input2) =>
      let raw_offset := 4 * header.blocks_in_row
      let low := raw_offset / 4 % 4 * 4
      match (if low ≠ 0 then input2.skipBytes (0x10 - low) else .ok input2) with
      | .error e => .error e
      | .ok input3 =>
        match readStrips block_sizes input3 with
        | .error e => .error e
        | .ok (strips, input4) => .ok (common_info, strips, input4)

/-- FujiDecompressor.cpp, lines 82-97: the checks on the colour filter array. -/
def checkCFA (mRaw : RawImage) : Except Fault Unit :=
  if mRaw.cfaSize = ⟨6, 6⟩ then
    match mRaw.xtransPhase with
    | none => .error (.rde "Invalid X-Trans CFA")
    | some p => if p ≠ ⟨0, 0⟩ then .error (.rde "Unexpected X-Trans phase") else .ok ()
  else if mRaw.cfaSize = ⟨2, 2⟩ then
    match mRaw.bayerPhase with
    | none => .error (.rde "Invalid Bayer CFA")
    | some p => if p ≠ BayerPhase.RGGB then .error (.rde "Unexpected Bayer phase") else .ok ()
  else .error (.rde "Unexpected CFA size")

/-- FujiDecompressor.cpp, lines 62-100: the constructor of `FujiDecompressor`. -/
def FujiDecompressor.construct (lineHeight : Nat) (img : RawImage) (input_ : ByteStream) :
    Except Fault FujiDecompressor :=
  if img.cpp ≠ 1 ∨ img.dataType ≠ RawImageType.UINT16 ∨ img.bpp ≠ 2 then
    .error (.rde "Unexpected component count / data type")
  else
    match FujiHeader.read input_ with
    | .error e => .error e
    | .ok (header, input) =>
      if header.isValid lineHeight = false then .error (.rde "compressed RAF header check")
      else if img.dim ≠ ⟨header.raw_width, header.raw_height⟩ then
        .error (.rde "RAF header specifies different dimensions!")
      else if 12 = header.raw_bits then
        .error (.rde "Aha, finally, a 12-bit compressed RAF! Please consider providing samples on <https://raw.pixls.us/>, thanks!")
      else
        match checkCFA img with
        | .error e => .error e
        | .ok () =>
          match fuji_compressed_load_raw header input with
          | .error e => .error e
          | .ok (common_info, strips, input2) =>
            .ok { mRaw := img, input := input2, header := header,
                  common_info := common_info, strips := strips }

/-- The faults of the units of a driver, in the order of the units, those that end
without a fault left out. -/
def unitFaults {α : Type} (fault : α → Option Fault) (units : List α) : List Fault :=
  units.filterMap fault

/-- What `decompress` ends with, given the faults its units raised: nothing when there
is none, else the aggregated error quoting the first. -/
def aggregated : List Fault → Option Fault
  | [] => none
  | first :: _ =>
    some (.rde ("Too many errors encountered. Giving up. First Error:\n" ++ first.what))

/-- An image of the given dimensions of which no sample has been written and for which
no error has been recorded: 16-bit samples, one component, a Bayer RGGB filter. -/
def blankImage (width height : Int) : RawImage :=
  { dataType := .UINT16, cpp := 1, bpp := 2, dim := ⟨width, height⟩, cfaSize := ⟨2, 2⟩,
    xtransPhase := none, bayerPhase := some .RGGB, errors := [], data := fun _ _ => none }

/-- The geometry that the specification promises of an accepted header (this definition
follows the specification's words, to be compared with `FujiHeader.isValid`, which
follows the source). -/
def FujiHeader.consistent (lineHeight : Nat) (h : FujiHeader) : Prop :=
  h.signature = 0x4953 ∧ h.version = 1 ∧ h.block_size = 0x300 ∧
  (h.raw_bits = 12 ∨ h.raw_bits = 14 ∨ h.raw_bits = 16) ∧
  (h.raw_type = 0 ∨ h.raw_type = 16) ∧
  1 ≤ h.blocks_in_row ∧ h.blocks_in_row ≤ 16 ∧
  h.blocks_in_row * h.block_size = h.raw_rounded_width ∧
  (h.blocks_in_row - 1) * h.block_size < h.raw_width ∧
  h.raw_width ≤ h.raw_rounded_width ∧
  h.raw_width % 24 = 0 ∧
  h.total_lines * lineHeight = h.raw_height ∧
  1 ≤ h.total_lines

/-- The number of 0 bits at the head of `cache`, counting `most` bits at most: the
number `j` of 0 bits that a lane reads before the first 1 bit or the fifth 0 bit. -/
def zeroRun : Nat → List Bool → Nat
  | 0, _ => 0
  | _ + 1, [] => 0
  | _ + 1, true :: _ => 0
  | most + 1, false :: tl => 1 + zeroRun most tl

/-- The bucket of an absolute difference, in the words of the specification: 0 for 0,
1 below 0x12, 2 below 0x43, 3 below 0x114, and 4 from 0x114 on. -/
def bucket (a : Nat) : Int :=
  if a = 0 then 0
  else if a < 0x12 then 1
  else if a < 0x43 then 2
  else if a < 0x114 then 3
  else 4

/-! ## The Fuji sample decoder (FujiDecompressor.cpp, lines 284-380) -/

/-- Modelled from the spec: `getBE<uint32_t>` (`Endianness.h`) is not among the sources.
The 32-bit scalar stored in big-endian byte order in four bytes. -/
def getBE32 (b0 b1 b2 b3 : Nat) : Nat :=
  2 ^ 24 * (b0 % 256) + 2 ^ 16 * (b1 % 256) + 2 ^ 8 * (b2 % 256) + b3 % 256

/-- Modelled from the spec: `BitStreamerMSB.h` (`BitPumpMSB`) is not among the sources.
MSB-first within each byte: `fillCache` pushes the next four bytes in their order. -/
def BitStreamerMSB.fillCache (cache : List Bool) (input : List Nat) :
    Except Fault (List Bool × Nat) :=
  match input with
  | [b0, b1, b2, b3] => .ok (cachePush cache (getBE32 b0 b1 b2 b3) 32, 4)
  | _ => .error .assertion

/-- Modelled from the spec: `BitStreamer::fill` for `BitPumpMSB`, as `BitStreamer.fill`
but for the byte order. -/
def BitStreamerMSB.fill (slack : Nat) (s : BitStreamer) (nbits : Nat) :
    Except Fault BitStreamer :=
  if nbits ≤ s.cache.length then .ok s
  else if s.input.length + slack < s.pos then
    .error (.ioe "Buffer overflow read in BitStreamer")
  else
    match BitStreamerMSB.fillCache s.cache
        ((s.input.drop s.pos ++ List.replicate 4 0).take 4) with
    | .error e => .error e
    | .ok (c, n) => .ok { s with pos := s.pos + n, cache := c }

/-- The pump `BitPumpMSB`, not among the sources, with the `fillCache` modelled above. -/
def BitPumpMSB : BitPump := ⟨BitStreamerMSB.fillCache, 4⟩

/-- HuffmanTable/Solo.cpp, lines 74-87: the `switch` of `checkFlavour` on the byte that
selects the pump for `checkPump`.  `BitPumpJPEG` is not among the sources and is the
parameter `jpeg`.  On any other byte the harness throws `Unknown bit pump` and the loop
is not entered: `none`. -/
def selectPump (jpeg : BitPump) : Nat → Option BitPump
  | 0 => some BitPumpMSB
  | 1 => some BitPumpMSB32
  | 2 => some jpeg
  | _ => none

/-- An example of a pump with byte stuffing that meets the contract: of the eight bytes
that it is shown it caches the first four, leaving out a zero byte that follows a
leading `0xFF`. -/
def stuffedPump : BitPump :=
  { fillCache := fun cache chunk =>
      match chunk with
      | [b0, b1, b2, b3, b4, _, _, _] =>
        if b0 = 0xFF ∧ b1 = 0 then .ok (cachePush cache (getBE32 b0 b2 b3 b4) 32, 5)
        else .ok (cachePush cache (getBE32 b0 b1 b2 b3) 32, 4)
      | _ => .error .assertion
    MaxProcessBytes := 8 }

/-- Modelled from the spec: `BitStreamer::peekBitsNoFill` is not among the sources.
The next `n` cached bits, first bit most significant, left in the cache. -/
def peekBitsNoFill (cache : List Bool) (n : Nat) : Except Fault Nat :=
  if n ≤ cache.length then .ok (accumulate 0 (cache.take n)) else .error .assertion

/-- Modelled from the spec: `BitStreamer::skipBitsNoFill` is not among the sources.
Advance past `n` cached bits. -/
def skipBitsNoFill (cache : List Bool) (n : Nat) : Except Fault (List Bool) :=
  if n ≤ cache.length then .ok (cache.drop n) else .error .assertion

/-- Modelled from the spec: `countl_zero` (`Bit.h`) is not among the sources.  The
number of 0 bits above the highest 1 bit of the `width`-bit value `x`; `width` for 0. -/
def countl_zero : Nat → Nat → Nat
  | 0, _ => 0
  | width + 1, x => if x / 2 ^ width % 2 = 1 then 0 else 1 + countl_zero width x

/-- The value of an `int` expression, whose overflow is undefined. -/
def int32 (x : Int) : Except Fault Int :=
  if -2 ^ 31 ≤ x ∧ x < 2 ^ 31 then .ok x else .error .undefinedBehaviour

/-- FujiDecompressor.cpp, lines 288-301: the loop of `fuji_zerobits`, with `fuel`
rounds at most (every round consumes cached bits, and `fill` raises once the bytes are
used up); the count and the pump after it. -/
def fuji_zerobits_loop (slack : Nat) : Nat → Int → BitStreamer →
    Except Fault (Int × BitStreamer)
  | 0, _, _ => .error (.ioe "Buffer overflow read in BitStreamer")
  | fuel + 1, count, pump =>
    match BitStreamerMSB.fill slack pump 32 with
    | .error e => .error e
    | .ok pump1 =>
      match peekBitsNoFill pump1.cache 32 with
      | .error e => .error e
      | .ok batch =>
        let numZerosInThisBatch := countl_zero 32 batch
        let allZeroes := numZerosInThisBatch = 32
        let numBitsToSkip := if allZeroes then numZerosInThisBatch
          else numZerosInThisBatch + 1
        match skipBitsNoFill pump1.cache numBitsToSkip with
        | .error e => .error e
        | .ok cache2 =>
          match int32 (count + numZerosInThisBatch) with
          | .error e => .error e
          | .ok count2 =>
            if allZeroes then
              fuji_zerobits_loop slack fuel count2 { pump1 with cache := cache2 }
            else .ok (count2, { pump1 with cache := cache2 })

/-- FujiDecompressor.cpp, lines 284-304: `fuji_zerobits`.  The fuel is the number of
rounds after which `fill` must have raised. -/
def fuji_zerobits (slack : Nat) (pump : BitStreamer) : Except Fault (Int × BitStreamer) :=
  fuji_zerobits_loop slack (pump.remaining slack + 1) 0 pump

/-- FujiDecompressor.cpp, lines 309-319: `bitDiff`; the two `assert`s are compiled in
unless `ndebug`, and `value2 << decBits` is an `int`. -/
def bitDiff (ndebug : Bool) (value1 value2 : Int) : Except Fault Int :=
  if ndebug = false ∧ ¬ (value1 ≥ 0) then .error .assertion
  else if ndebug = false ∧ ¬ (value2 > 0) then .error .assertion
  else
    let lz1 : Int := countl_zero 32 (value1 % 2 ^ 32).toNat
    let lz2 : Int := countl_zero 32 (value2 % 2 ^ 32).toNat
    let decBits : Int := max (lz2 - lz1) 0
    match int32 (value2 * 2 ^ decBits.toNat) with
    | .error e => .error e
    | .ok shifted => .ok (min (if shifted < value1 then decBits + 1 else decBits) 15)

/-- The members of `int_pair`. -/
structure int_pair where
  value1 : Int
  value2 : Int
deriving DecidableEq, Repr

/-- FujiDecompressor.cpp, lines 327-343: the code read by `fuji_decode_sample` for the
gradient index `gradient`, before the test of its range; the code and the pump after
it.  An index outside `grads` is undefined behaviour. -/
def fuji_read_code (ndebug : Bool) (slack : Nat) (ci : fuji_compressed_params)
    (pump : BitStreamer) (grads : List int_pair) (gradient : Nat) :
    Except Fault (Int × BitStreamer) :=
  match fuji_zerobits slack pump with
  | .error e => .error e
  | .ok (sampleBits, pump1) =>
    match (if sampleBits < ci.max_bits - ci.raw_bits - 1 then
        match grads.get? gradient with
        | none => .error .undefinedBehaviour
        | some g =>
          match bitDiff ndebug g.value1 g.value2 with
          | .error e => .error e
          | .ok codeBits =>
            match int32 (sampleBits * 2 ^ codeBits.toNat) with
            | .error e => .error e
            | .ok codeDelta => .ok (codeBits, codeDelta)
      else .ok (ci.raw_bits, 1) : Except Fault (Int × Int)) with
    | .error e => .error e
    | .ok (codeBits, codeDelta) =>
      match BitStreamerMSB.fill slack pump1 32 with
      | .error e => .error e
      | .ok pump2 =>
        if codeBits ≠ 0 then
          match getBitsNoFill pump2.cache codeBits.toNat with
          | .error e => .error e
          | .ok (code, cache3) =>
            match int32 ((code : Int) + codeDelta) with
            | .error e => .error e
            | .ok code2 => .ok (code2, { pump2 with cache := cache3 })
        else .ok (codeDelta, pump2)

/-- FujiDecompressor.cpp, lines 349-353: the signed residual of an accepted code. -/
def fuji_residual (code : Int) : Int :=
  if code % 2 ≠ 0 then -1 - code / 2 else code / 2

/-- FujiDecompressor.cpp, lines 355-362: the gradient pair after a sample of residual
`code`. -/
def fuji_update_grad (ci : fuji_compressed_params) (g : int_pair) (code : Int) :
    Except Fault int_pair :=
  match int32 (g.value1 + |code|) with
  | .error e => .error e
  | .ok value1 =>
    let halved : int_pair :=
      if g.value2 = ci.min_value then ⟨value1 / 2, g.value2 / 2⟩ else ⟨value1, g.value2⟩
    match int32 (halved.value2 + 1) with
    | .error e => .error e
    | .ok value2 => .ok ⟨halved.value1, value2⟩

/-- FujiDecompressor.cpp, lines 364-379: the sample reconstructed from the predicted
value and the residual: one fold by `total_values`, then the clamp to
`[0, q_point[4]]`. -/
def fuji_fold (ci : fuji_compressed_params) (grad interp_val code : Int) : Int :=
  let v : Int := if grad < 0 then interp_val - code else interp_val + code
  let folded : Int :=
    if v < 0 then v + ci.total_values
    else if v > ci.q_point.getD 4 0 then v - ci.total_values
    else v
  if folded < 0 then 0 else min folded (ci.q_point.getD 4 0)

/-- FujiDecompressor.cpp, lines 321-380: `fuji_decode_sample`; the sample, the pump and
the gradient pairs after it. -/
def fuji_decode_sample (ndebug : Bool) (slack : Nat) (ci : fuji_compressed_params)
    (pump : BitStreamer) (grad interp_val : Int) (grads : List int_pair) :
    Except Fault (Int × BitStreamer × List int_pair) :=
  let gradient : Nat := grad.natAbs
  match fuji_read_code ndebug slack ci pump grads gradient with
  | .error e => .error e
  | .ok (code, pump2) =>
    if code < 0 ∨ code ≥ ci.total_values then .error (.rde "fuji_decode_sample")
    else
      match grads.get? gradient with
      | none => .error .undefinedBehaviour
      | some g =>
        match fuji_update_grad ci g (fuji_residual code) with
        | .error e => .error e
        | .ok g2 =>
          .ok (fuji_fold ci grad interp_val (fuji_residual code), pump2,
            grads.set gradient g2)

/-- A 14-bit X-Trans header of one block of 768 columns and one line. -/
def xtransHeader14 : FujiHeader :=
  ⟨0x4953, 1, 16, 14, 6, 768, 768, 768, 1, 1, ⟨6, 6⟩⟩

/-- The parameters that the constructor computes for `xtransHeader14`. -/
def xtransParams14 : fuji_compressed_params :=
  { q_table := (List.range (2 * 16383 + 1)).map
      (fun (k : Nat) => quantize 0x12 0x43 0x114 ((k : Int) - 16383)) ++ [0]
    q_point := [0, 0x12, 0x43, 0x114, 16383]
    max_bits := 56, min_value := 0x40, raw_bits := 14, total_values := 0x4000
    maxDiff := 256, line_width := 512 }

/-! ## The Fuji line buffer and the interpolation kernels
(FujiDecompressor.cpp, lines 382-464) -/

/-- Modelled from the spec: the enumeration `xt_lines` (`FujiDecompressor.h`) is not
among the sources.  The rows of the line buffer: `R0..R4`, `G0..G7`, `B0..B4`, in this
order, `ltotal` rows in all; rows 0 and 1 of a colour are its carry-in rows. -/
def R0 : Int := 0

/-- Modelled from the spec: see `R0`. -/
def R2 : Int := 2

/-- Modelled from the spec: see `R0`. -/
def R4 : Int := 4

/-- Modelled from the spec: see `R0`. -/
def G0 : Int := 5

/-- Modelled from the spec: see `R0`. -/
def G2 : Int := 7

/-- Modelled from the spec: see `R0`. -/
def G7 : Int := 12

/-- Modelled from the spec: see `R0`. -/
def B0 : Int := 13

/-- Modelled from the spec: see `R0`. -/
def B2 : Int := 15

/-- Modelled from the spec: see `R0`. -/
def B4 : Int := 17

/-- Modelled from the spec: see `R0`. -/
def ltotal : Int := 18

/-- Modelled from the spec: `Array2DRef<uint16_t>` is not among the sources.  The line
buffer `lines`: `ltotal` rows of `width` cells of 16 bits. -/
structure LineBuffer where
  width : Nat
  cell : Nat → Nat → Nat

/-- Modelled from the spec: `Array2DRef::operator()` as a read; an index outside the
array fails its invariant. -/
def LineBuffer.get (lines : LineBuffer) (row col : Int) : Except Fault Int :=
  if 0 ≤ row ∧ row < ltotal ∧ 0 ≤ col ∧ col < lines.width then
    .ok (lines.cell row.toNat col.toNat)
  else .error .assertion

/-- Modelled from the spec: `Array2DRef::operator()` as a write of an `int`, which is
converted to `uint16_t`. -/
def LineBuffer.set (lines : LineBuffer) (row col : Int) (v : Int) :
    Except Fault LineBuffer :=
  if 0 ≤ row ∧ row < ltotal ∧ 0 ≤ col ∧ col < lines.width then
    .ok { lines with cell := fun r c =>
      if r = row.toNat ∧ c = col.toNat then (v % 2 ^ 16).toNat else lines.cell r c }
  else .error .assertion

/-- FujiDecompressor.cpp, line 383: one lookup `ci.q_table[ci.q_point[4] + v]`; an
index outside the table is undefined behaviour. -/
def q_lookup (ci : fuji_compressed_params) (v : Int) : Except Fault Int :=
  if 0 ≤ ci.q_point.getD 4 0 + v then
    match ci.q_table.get? (ci.q_point.getD 4 0 + v).toNat with
    | some q => .ok q
    | none => .error .undefinedBehaviour
  else .error .undefinedBehaviour

/-- FujiDecompressor.cpp, lines 382-383: the macro `fuji_quant_gradient`. -/
def fuji_quant_gradient (ci : fuji_compressed_params) (v1 v2 : Int) : Except Fault Int :=
  match q_lookup ci v1 with
  | .error e => .error e
  | .ok q1 =>
    match q_lookup ci v2 with
    | .error e => .error e
    | .ok q2 => .ok (9 * q1 + q2)

/-- FujiDecompressor.cpp, lines 385-419: `fuji_decode_interpolation_even_inner`; the
gradient and the predicted value. -/
def fuji_decode_interpolation_even_inner (ci : fuji_compressed_params)
    (lines : LineBuffer) (c col : Int) : Except Fault (Int × Int) :=
  match lines.get (c - 1) (1 + 2 * (col + 0) + 0) with
  | .error e => .error e
  | .ok Rb =>
    match lines.get (c - 1) (1 + 2 * (col - 1) + 1) with
    | .error e => .error e
    | .ok Rc =>
      match lines.get (c - 1) (1 + 2 * (col + 0) + 1) with
      | .error e => .error e
      | .ok Rd =>
        match lines.get (c - 2) (1 + 2 * (col + 0) + 0) with
        | .error e => .error e
        | .ok Rf =>
          let diffRcRb : Int := |Rc - Rb|
          let diffRfRb : Int := |Rf - Rb|
          let diffRdRb : Int := |Rd - Rb|
          let Term0 : Int := 2 * Rb
          let Term12 : Int × Int :=
            if diffRcRb > max diffRfRb diffRdRb then (Rf, Rd)
            else ((if diffRdRb > max diffRcRb diffRfRb then Rf else Rd), Rc)
          let interp_val : Int := (Term0 + Term12.1 + Term12.2) / 4
          match fuji_quant_gradient ci (Rb - Rf) (Rc - Rb) with
          | .error e => .error e
          | .ok grad => .ok (grad, interp_val)

/-- FujiDecompressor.cpp, lines 421-441: `fuji_decode_interpolation_odd_inner`; the
gradient and the predicted value. -/
def fuji_decode_interpolation_odd_inner (ci : fuji_compressed_params)
    (lines : LineBuffer) (c col : Int) : Except Fault (Int × Int) :=
  match lines.get (c + 0) (1 + 2 * (col + 0) + 0) with
  | .error e => .error e
  | .ok Ra =>
    match lines.get (c - 1) (1 + 2 * (col + 0) + 1) with
    | .error e => .error e
    | .ok Rb =>
      match lines.get (c - 1) (1 + 2 * (col + 0) + 0) with
      | .error e => .error e
      | .ok Rc =>
        match lines.get (c - 1) (1 + 2 * (col + 1) + 0) with
        | .error e => .error e
        | .ok Rd =>
          match lines.get (c + 0) (1 + 2 * (col + 1) + 0) with
          | .error e => .error e
          | .ok Rg =>
            let interp_val : Int :=
              if Rb < min Rc Rd ∨ Rb > max Rc Rd then (Ra + Rg + 2 * Rb) / 2 / 2
              else (Ra + Rg) / 2
            match fuji_quant_gradient ci (Rb - Rc) (Rc - Ra) with
            | .error e => .error e
            | .ok grad => .ok (grad, interp_val)

/-! ## Decoding a Fuji block (FujiDecompressor.cpp, lines 173-208 and 445-616) -/

/-- The members of `fuji_compressed_block` that the decoder uses: the line buffer, the
gradient pairs of the even and of the odd samples (3 times 41 each) and the pump. -/
structure fuji_compressed_block where
  lines : LineBuffer
  grad_even : List (List int_pair)
  grad_odd : List (List int_pair)
  pump : BitStreamer

/-- Modelled from the spec: `memset`/`memcpy` over `Array2DRef`, whose rows are
contiguous.  Cell `(row, col)` is at the position `row * width + col`. -/
def LineBuffer.position (lines : LineBuffer) (row col : Nat) : Nat :=
  row * lines.width + col

/-- FujiDecompressor.cpp, lines 173-208: `fuji_compressed_block::reset`.  The buffer is
resized to `ltotal` rows of `line_width + 2` cells and keeps what it held; the two
carry-in rows of each colour are zeroed (`memset` of `2 * line_size` bytes from the
first cell of the colour), the last helper column of `R2`, `G2`, `B2` is copied from
the row before, and every gradient pair becomes `(maxDiff, 1)`. -/
def fuji_compressed_block.reset (info : fuji_compressed_block)
    (params : fuji_compressed_params) : Except Fault fuji_compressed_block :=
  let width : Nat := (params.line_width + 2).toNat
  let zeroed : LineBuffer :=
    { width := width
      cell := fun r c =>
        if (r * width + c < 2 * (params.line_width + 2).toNat) ∨
            (5 * width ≤ r * width + c ∧
              r * width + c < 5 * width + 2 * (params.line_width + 2).toNat) ∨
            (13 * width ≤ r * width + c ∧
              r * width + c < 13 * width + 2 * (params.line_width + 2).toNat) then 0
        else info.lines.cell r c }
  match zeroed.get (R2 - 1) ((width : Int) - 2) with
  | .error e => .error e
  | .ok r =>
    match zeroed.set R2 ((width : Int) - 1) r with
    | .error e => .error e
    | .ok l1 =>
      match l1.get (G2 - 1) ((width : Int) - 2) with
      | .error e => .error e
      | .ok g =>
        match l1.set G2 ((width : Int) - 1) g with
        | .error e => .error e
        | .ok l2 =>
          match l2.get (B2 - 1) ((width : Int) - 2) with
          | .error e => .error e
          | .ok b =>
            match l2.set B2 ((width : Int) - 1) b with
            | .error e => .error e
            | .ok l3 =>
              .ok { info with
                lines := l3
                grad_even := List.replicate 3 (List.replicate 41 ⟨params.maxDiff, 1⟩)
                grad_odd := List.replicate 3 (List.replicate 41 ⟨params.maxDiff, 1⟩) }

/-- FujiDecompressor.cpp, lines 445-450: `fuji_decode_sample_even`. -/
def fuji_decode_sample_even (ndebug : Bool) (slack : Nat) (ci : fuji_compressed_params)
    (lines : LineBuffer) (pump : BitStreamer) (c col : Int) (grads : List int_pair) :
    Except Fault (Int × BitStreamer × List int_pair) :=
  match fuji_decode_interpolation_even_inner ci lines c col with
  | .error e => .error e
  | .ok (grad, interp_val) => fuji_decode_sample ndebug slack ci pump grad interp_val grads

/-- FujiDecompressor.cpp, lines 452-457: `fuji_decode_sample_odd`. -/
def fuji_decode_sample_odd (ndebug : Bool) (slack : Nat) (ci : fuji_compressed_params)
    (lines : LineBuffer) (pump : BitStreamer) (c col : Int) (grads : List int_pair) :
    Except Fault (Int × BitStreamer × List int_pair) :=
  match fuji_decode_interpolation_odd_inner ci lines c col with
  | .error e => .error e
  | .ok (grad, interp_val) => fuji_decode_sample ndebug slack ci pump grad interp_val grads

/-- FujiDecompressor.cpp, lines 459-464: `fuji_decode_interpolation_even`. -/
def fuji_decode_interpolation_even (ci : fuji_compressed_params) (lines : LineBuffer)
    (c col : Int) : Except Fault Int :=
  match fuji_decode_interpolation_even_inner ci lines c col with
  | .error e => .error e
  | .ok (_, interp_val) => .ok interp_val

/-- FujiDecompressor.cpp, lines 466-473: the body of the loop of `fuji_extend_generic`
for the row `i`. -/
def fuji_extend_row (lines : LineBuffer) (i : Int) : Except Fault LineBuffer :=
  match lines.get (i - 1) 1 with
  | .error e => .error e
  | .ok first =>
    match lines.set i 0 first with
    | .error e => .error e
    | .ok l1 =>
      match l1.get (i - 1) ((l1.width : Int) - 2) with
      | .error e => .error e
      | .ok last => l1.set i ((l1.width : Int) - 1) last

/-- FujiDecompressor.cpp, lines 466-473: `fuji_extend_generic`, for the rows from
`start` on, `more` of them. -/
def fuji_extend_generic : Nat → Int → LineBuffer → Except Fault LineBuffer
  | 0, _, lines => .ok lines
  | more + 1, start, lines =>
    match fuji_extend_row lines start with
    | .error e => .error e
    | .ok l1 => fuji_extend_generic more (start + 1) l1

/-- Modelled from the spec: `CFAColor` (`ColorFilterArray.h`) is not among the sources;
the three colours that the decoder switches on. -/
inductive CFAColor where
  | RED
  | GREEN
  | BLUE
deriving DecidableEq, Repr

/-- FujiDecompressor.cpp, lines 475-485 and 570-583: `fuji_extend_red`,
`fuji_extend_green`, `fuji_extend_blue`, by colour. -/
def fuji_extend (c : CFAColor) (lines : LineBuffer) : Except Fault LineBuffer :=
  match c with
  | .RED => fuji_extend_generic 3 R2 lines
  | .GREEN => fuji_extend_generic 6 G2 lines
  | .BLUE => fuji_extend_generic 3 B2 lines

/-- Modelled from the spec: `getAsCFAColors(BayerPhase::RGGB)` (`BayerPhase.h`) is not
among the sources; the 2 x 2 pattern red, green / green, blue. -/
def bayerRGGB (row col : Nat) : CFAColor :=
  if row % 2 = 0 then (if col % 2 = 0 then .RED else .GREEN)
  else (if col % 2 = 0 then .GREEN else .BLUE)

/-- The counters `even` and `odd` of `ColorPos` (FujiDecompressor.cpp, lines
498-501). -/
structure ColorPos where
  even : Int
  odd : Int
deriving DecidableEq, Repr

/-- The type of the parameter `func_even` of `fuji_decode_block`, which is given the
line buffer and the pump of the block, the row `c`, the column `col`, the gradient
pairs, `row`, `i` and `comp`, and returns the sample with the pump and the gradient
pairs after it. -/
abbrev FuncEven : Type :=
  LineBuffer → BitStreamer → Int → Int → List int_pair → Int → Int → Int →
    Except Fault (Int × BitStreamer × List int_pair)

/-- FujiDecompressor.cpp, lines 506-512: the body of the loop over `comp` for an even
sample of the row `c`. -/
def pass_even (func_even : FuncEven) (info : fuji_compressed_block) (c : Int)
    (pos : ColorPos) (grad : Nat) (row i comp : Int) :
    Except Fault (fuji_compressed_block × ColorPos) :=
  match info.grad_even.get? grad with
  | none => .error .undefinedBehaviour
  | some grads =>
    match func_even info.lines info.pump c pos.even grads row i comp with
    | .error e => .error e
    | .ok (sample, pump2, grads2) =>
      match info.lines.set c (1 + 2 * pos.even + 0) sample with
      | .error e => .error e
      | .ok lines2 =>
        .ok ({ info with lines := lines2, pump := pump2,
                         grad_even := info.grad_even.set grad grads2 },
          { pos with even := pos.even + 1 })

/-- FujiDecompressor.cpp, lines 516-522: the body of the loop over `comp` for an odd
sample of the row `c`. -/
def pass_odd (ndebug : Bool) (slack : Nat) (ci : fuji_compressed_params)
    (info : fuji_compressed_block) (c : Int) (pos : ColorPos) (grad : Nat) :
    Except Fault (fuji_compressed_block × ColorPos) :=
  match info.grad_odd.get? grad with
  | none => .error .undefinedBehaviour
  | some grads =>
    match fuji_decode_sample_odd ndebug slack ci info.lines info.pump c pos.odd grads with
    | .error e => .error e
    | .ok (sample, pump2, grads2) =>
      match info.lines.set c (1 + 2 * pos.odd + 1) sample with
      | .error e => .error e
      | .ok lines2 =>
        .ok ({ info with lines := lines2, pump := pump2,
                         grad_odd := info.grad_odd.set grad grads2 },
          { pos with odd := pos.odd + 1 })

/-- FujiDecompressor.cpp, lines 504-524: the loop of `pass` over `i`, from `i` on, with
`more` rounds to go; `line_width` is half of the line width of the parameters. -/
def pass_loop (ndebug : Bool) (slack : Nat) (ci : fuji_compressed_params)
    (func_even : FuncEven) (c0 c1 row : Int) (grad : Nat) (line_width : Int) :
    Nat → Int → ColorPos × ColorPos → fuji_compressed_block →
      Except Fault fuji_compressed_block
  | 0, _, _, info => .ok info
  | more + 1, i, pos, info =>
    match (if i < line_width then
        match pass_even func_even info c0 pos.1 grad row i 0 with
        | .error e => .error e
        | .ok (info1, p0) =>
          match pass_even func_even info1 c1 pos.2 grad row i 1 with
          | .error e => .error e
          | .ok (info2, p1) => .ok (info2, (p0, p1))
      else .ok (info, pos) : Except Fault (fuji_compressed_block × ColorPos × ColorPos)) with
    | .error e => .error e
    | .ok (info2, pos2) =>
      match (if i ≥ 4 then
          match pass_odd ndebug slack ci info2 c0 pos2.1 grad with
          | .error e => .error e
          | .ok (info3, p0) =>
            match pass_odd ndebug slack ci info3 c1 pos2.2 grad with
            | .error e => .error e
            | .ok (info4, p1) => .ok (info4, (p0, p1))
        else .ok (info2, pos2) :
          Except Fault (fuji_compressed_block × ColorPos × ColorPos)) with
      | .error e => .error e
      | .ok (info4, pos4) =>
        pass_loop ndebug slack ci func_even c0 c1 row grad line_width more (i + 1) pos4 info4

/-- FujiDecompressor.cpp, lines 494-525: the lambda `pass` for the rows `c0`, `c1` of the
line buffer and the row `row` of the line. -/
def pass (ndebug : Bool) (slack : Nat) (ci : fuji_compressed_params)
    (func_even : FuncEven) (c0 c1 : Int) (row : Nat) (info : fuji_compressed_block) :
    Except Fault fuji_compressed_block :=
  pass_loop ndebug slack ci func_even c0 c1 row (row % 3) (ci.line_width / 2)
    (ci.line_width / 2 + 4).toNat 0 (⟨0, 0⟩, ⟨0, 0⟩) info

/-- FujiDecompressor.cpp, lines 545-564: `CurLineForColor`; the row of the line buffer
and the counters after it. -/
def CurLineForColor (counter : CFAColor → Int) (c : CFAColor) :
    Int × (CFAColor → Int) :=
  ((match c with
    | .RED => R2
    | .GREEN => G2
    | .BLUE => B2) + counter c,
    fun k => if k = c then counter c + 1 else counter k)

/-- FujiDecompressor.cpp, lines 566-585: the loop over the six rows of a line, from
`row` on, with `more` rows to go. -/
def fuji_decode_block_rows (ndebug : Bool) (slack : Nat) (ci : fuji_compressed_params)
    (func_even : FuncEven) :
    Nat → Nat → (CFAColor → Int) → fuji_compressed_block → Except Fault fuji_compressed_block
  | 0, _, _, info => .ok info
  | more + 1, row, counter, info =>
    let c0 := bayerRGGB row 0
    let c1 := bayerRGGB row 1
    let line0 := CurLineForColor counter c0
    let line1 := CurLineForColor line0.2 c1
    match pass ndebug slack ci func_even line0.1 line1.1 row info with
    | .error e => .error e
    | .ok info1 =>
      match fuji_extend c0 info1.lines with
      | .error e => .error e
      | .ok lines2 =>
        match fuji_extend c1 lines2 with
        | .error e => .error e
        | .ok lines3 =>
          fuji_decode_block_rows ndebug slack ci func_even more (row + 1) line1.2
            { info1 with lines := lines3 }

/-- FujiDecompressor.cpp, lines 487-586: `fuji_decode_block`. -/
def fuji_decode_block (ndebug : Bool) (slack : Nat) (ci : fuji_compressed_params)
    (func_even : FuncEven) (info : fuji_compressed_block) :
    Except Fault fuji_compressed_block :=
  if ndebug = false ∧ ci.line_width % 2 ≠ 0 then .error .assertion
  else fuji_decode_block_rows ndebug slack ci func_even 6 0 (fun _ => 0) info

/-- FujiDecompressor.cpp, lines 591-603: the `func_even` of `xtrans_decode_block`. -/
def xtrans_func_even (ndebug : Bool) (slack : Nat) (ci : fuji_compressed_params) :
    FuncEven := fun lines pump c col grads row i comp =>
  if (comp = 0 ∧ (row = 0 ∨ (row = 2 ∧ i % 2 = 0) ∨ (row = 4 ∧ i % 2 ≠ 0) ∨ row = 5)) ∨
      (comp = 1 ∧ (row = 1 ∨ row = 2 ∨ (row = 3 ∧ i % 2 ≠ 0) ∨ (row = 5 ∧ i % 2 = 0))) then
    match fuji_decode_interpolation_even ci lines c col with
    | .error e => .error e
    | .ok interp_val => .ok (interp_val, pump, grads)
  else if ndebug = false ∧
      ¬ ((comp = 0 ∧ (row = 1 ∨ (row = 2 ∧ i % 2 ≠ 0) ∨ row = 3 ∨ (row = 4 ∧ i % 2 = 0))) ∨
        (comp = 1 ∧ (row = 0 ∨ (row = 3 ∧ i % 2 = 0) ∨ row = 4 ∨ (row = 5 ∧ i % 2 ≠ 0)))) then
    .error .assertion
  else fuji_decode_sample_even ndebug slack ci lines pump c col grads

/-- FujiDecompressor.cpp, lines 588-605: `xtrans_decode_block`. -/
def xtrans_decode_block (ndebug : Bool) (slack : Nat) (ci : fuji_compressed_params)
    (info : fuji_compressed_block) : Except Fault fuji_compressed_block :=
  fuji_decode_block ndebug slack ci (xtrans_func_even ndebug slack ci) info

/-- FujiDecompressor.cpp, lines 610-614: the `func_even` of `fuji_bayer_decode_block`. -/
def bayer_func_even (ndebug : Bool) (slack : Nat) (ci : fuji_compressed_params) :
    FuncEven := fun lines pump c col grads _ _ _ =>
  fuji_decode_sample_even ndebug slack ci lines pump c col grads

/-- FujiDecompressor.cpp, lines 607-616: `fuji_bayer_decode_block`. -/
def fuji_bayer_decode_block (ndebug : Bool) (slack : Nat) (ci : fuji_compressed_params)
    (info : fuji_compressed_block) : Except Fault fuji_compressed_block :=
  fuji_decode_block ndebug slack ci (bayer_func_even ndebug slack ci) info

/-! ## Decoding a Fuji strip (FujiDecompressor.cpp, lines 210-282 and 618-668) -/

/-- Modelled from the spec: `FujiStrip` (`FujiDecompressor.h`) is not among the sources.
The header, the number of the block and its bytes; what the member functions
`height()`, `offsetX()`, `offsetY(line)` and `numMCUs(MCU)` return are fields. -/
structure FujiStrip where
  h : FujiHeader
  n : Nat
  bs : ByteStream
  height : Int
  offsetX : Int
  offsetY : Int → Int
  numMCUs : iPoint2D → iPoint2D

/-- The positions that the four loops of `copy_line` visit, in their order
(FujiDecompressor.cpp, lines 228-235): `MCUIdx.x`, `MCUIdx.y`, `MCURow`, `MCUCol`. -/
def copy_line_positions (MCU NumMCUs : iPoint2D) : List (Nat × Nat × Nat × Nat) :=
  (List.range NumMCUs.x.toNat).flatMap fun mx =>
    (List.range NumMCUs.y.toNat).flatMap fun my =>
      (List.range MCU.y.toNat).flatMap fun r =>
        (List.range MCU.x.toNat).map fun c => (mx, my, r, c)

/-- FujiDecompressor.cpp, lines 236-258: the body of the innermost loop of `copy_line`
at one position. -/
def copy_line_cell (MCU : iPoint2D) (CFA : Nat → Nat → CFAColor) (idx : Int → Int)
    (info : fuji_compressed_block) (strip : FujiStrip) (cur_line : Int)
    (img : RawImage) (p : Nat × Nat × Nat × Nat) : Except Fault RawImage :=
  let imgRow : Int := MCU.y * p.2.1 + p.2.2.1
  let imgCol : Int := MCU.x * p.1 + p.2.2.2
  let row : Int :=
    match CFA p.2.2.1 p.2.2.2 with
    | .RED => R2 + imgRow / 2
    | .GREEN => G2 + imgRow
    | .BLUE => B2 + imgRow / 2
  match info.lines.get row (1 + idx imgCol) with
  | .error e => .error e
  | .ok v =>
    if strip.offsetX + imgCol < 0 then .error .assertion
    else img.write (strip.offsetY cur_line + imgRow) (strip.offsetX + imgCol).toNat v.toNat

/-- FujiDecompressor.cpp, lines 210-263: `copy_line<Tag>`, with `MCU<Tag>`, the colours
of the tag and the column map `idx`. -/
def copy_line (ndebug : Bool) (MCU : iPoint2D) (CFA : Nat → Nat → CFAColor)
    (idx : Int → Int) (info : fuji_compressed_block) (strip : FujiStrip) (cur_line : Int)
    (img : RawImage) : Except Fault RawImage :=
  if ndebug = false ∧ MCU ≠ strip.h.MCU then .error .assertion
  else
    (copy_line_positions MCU (strip.numMCUs MCU)).foldlM
      (copy_line_cell MCU CFA idx info strip cur_line) img

/-- FujiDecompressor.cpp, lines 268-271: the column map of `copy_line_to_xtrans`, for a
column that is not negative. -/
def xtrans_index (imgCol : Int) : Int :=
  ((((imgCol * 2 / 3).toNat &&& 0x7FFFFFFE) ||| ((imgCol % 3).toNat &&& 1) : Nat) : Int) +
    (imgCol % 3) / 2

/-- FujiDecompressor.cpp, lines 265-274: `copy_line_to_xtrans`; the colours of
`XTransPhase(0, 0)` are not among the sources and are the parameter `xtransCFA`. -/
def copy_line_to_xtrans (ndebug : Bool) (xtransCFA : Nat → Nat → CFAColor)
    (info : fuji_compressed_block) (strip : FujiStrip) (cur_line : Int) (img : RawImage) :
    Except Fault RawImage :=
  copy_line ndebug ⟨6, 6⟩ xtransCFA xtrans_index info strip cur_line img

/-- FujiDecompressor.cpp, lines 276-282: `copy_line_to_bayer`. -/
def copy_line_to_bayer (ndebug : Bool) (info : fuji_compressed_block) (strip : FujiStrip)
    (cur_line : Int) (img : RawImage) : Except Fault RawImage :=
  copy_line ndebug ⟨2, 2⟩ bayerRGGB (fun imgCol => imgCol / 2) info strip cur_line img

/-- Modelled from the spec: `memcpy` between cells of the line buffer, `count` cells
from the position `src` to the position `dst`; a range outside the buffer is undefined
behaviour. -/
def LineBuffer.memcpy (lines : LineBuffer) (dst src count : Nat) :
    Except Fault LineBuffer :=
  if dst + count ≤ ltotal.toNat * lines.width ∧ src + count ≤ ltotal.toNat * lines.width then
    let moved : Nat → Nat → Nat := fun r c =>
      if dst ≤ lines.position r c ∧ lines.position r c < dst + count then
        lines.cell ((lines.position r c - dst + src) / lines.width)
          ((lines.position r c - dst + src) % lines.width)
      else lines.cell r c
    .ok { lines with cell := moved }
  else .error .undefinedBehaviour

/-- FujiDecompressor.cpp, lines 648-651: the `memcpy` for the colour whose first row is
`a` and which has `b` rows. -/
def fuji_carry_rows (ci : fuji_compressed_params) (lines : LineBuffer) (a b : Int) :
    Except Fault LineBuffer :=
  lines.memcpy (lines.position a.toNat 0) (lines.position (a + b - 2).toNat 0)
    (2 * (ci.line_width + 2).toNat)

/-- FujiDecompressor.cpp, lines 664-665: the last helper column of the first real row
of the colour whose first row is `a`. -/
def fuji_carry_helper (lines : LineBuffer) (a : Int) : Except Fault LineBuffer :=
  match lines.get (a + 2 - 1) ((lines.width : Int) - 2) with
  | .error e => .error e
  | .ok v => lines.set (a + 2) ((lines.width : Int) - 1) v

/-- FujiDecompressor.cpp, lines 647-666: what `fuji_decode_strip` does to the line
buffer between two lines, for the colours `(R0, 5)`, `(G0, 8)`, `(B0, 5)`. -/
def fuji_carry (ci : fuji_compressed_params) (lines : LineBuffer) :
    Except Fault LineBuffer :=
  match fuji_carry_rows ci lines R0 5 with
  | .error e => .error e
  | .ok l1 =>
    match fuji_carry_rows ci l1 G0 8 with
    | .error e => .error e
    | .ok l2 =>
      match fuji_carry_rows ci l2 B0 5 with
      | .error e => .error e
      | .ok l3 =>
        match fuji_carry_helper l3 R0 with
        | .error e => .error e
        | .ok l4 =>
          match fuji_carry_helper l4 G0 with
          | .error e => .error e
          | .ok l5 => fuji_carry_helper l5 B0

/-- The traversal and scatter that decode a line. -/
inductive DecodePath where
  /-- `xtrans_decode_block` and `copy_line_to_xtrans`. -/
  | xtrans
  /-- `fuji_bayer_decode_block` and `copy_line_to_bayer`. -/
  | bayer
deriving DecidableEq, Repr

/-- FujiDecompressor.cpp, lines 632-642: the path that the header selects. -/
def FujiHeader.decodePath (header : FujiHeader) : DecodePath :=
  if header.raw_type = 16 then .xtrans else .bayer

/-- FujiDecompressor.cpp, lines 632-642: one line of the strip along a path: the block
is decoded and its six rows are copied to the image. -/
def fuji_decode_line (ndebug : Bool) (slack : Nat) (xtransCFA : Nat → Nat → CFAColor)
    (ci : fuji_compressed_params) (path : DecodePath) (info : fuji_compressed_block)
    (strip : FujiStrip) (cur_line : Int) (img : RawImage) :
    Except Fault (fuji_compressed_block × RawImage) :=
  match path with
  | .xtrans =>
    match xtrans_decode_block ndebug slack ci info with
    | .error e => .error e
    | .ok info1 =>
      match copy_line_to_xtrans ndebug xtransCFA info1 strip cur_line img with
      | .error e => .error e
      | .ok img1 => .ok (info1, img1)
  | .bayer =>
    match fuji_bayer_decode_block ndebug slack ci info with
    | .error e => .error e
    | .ok info1 =>
      match copy_line_to_bayer ndebug info1 strip cur_line img with
      | .error e => .error e
      | .ok img1 => .ok (info1, img1)

/-- FujiDecompressor.cpp, lines 631-667: the loop of `fuji_decode_strip` from the line
`cur_line` on, with `more` lines to go: the image after it and the fault that ended
it, if any, and the block after it when no fault ended it.  A line that faults has
left the block of the program with the samples stored, the pump advanced and the
gradient pairs updated up to the fault; that state is not followed here, and no block
is given then. -/
def fuji_decode_lines (ndebug : Bool) (slack : Nat) (xtransCFA : Nat → Nat → CFAColor)
    (header : FujiHeader) (ci : fuji_compressed_params) (strip : FujiStrip) :
    Nat → Int → fuji_compressed_block → RawImage →
      Option fuji_compressed_block × RawImage × Option Fault
  | 0, _, info, img => (some info, img, none)
  | more + 1, cur_line, info, img =>
    match fuji_decode_line ndebug slack xtransCFA ci header.decodePath info strip cur_line
        img with
    | .error e => (none, img, some e)
    | .ok (info1, img1) =>
      if cur_line + 1 = strip.height then (some info1, img1, none)
      else
        match fuji_carry ci info1.lines with
        | .error e => (none, img1, some e)
        | .ok lines2 =>
          fuji_decode_lines ndebug slack xtransCFA header ci strip more (cur_line + 1)
            { info1 with lines := lines2 } img1

/-- FujiDecompressor.cpp, lines 618-668: `fuji_decode_strip`. -/
def fuji_decode_strip (ndebug : Bool) (slack : Nat) (xtransCFA : Nat → Nat → CFAColor)
    (header : FujiHeader) (ci : fuji_compressed_params) (info_block : fuji_compressed_block)
    (strip : FujiStrip) (img : RawImage) :
    Option fuji_compressed_block × RawImage × Option Fault :=
  fuji_decode_lines ndebug slack xtransCFA header ci strip strip.height.toNat 0 info_block img

/-- The line buffer has `width` columns and its cells are 16-bit values: what `reset`
lays out and every write keeps. -/
def LineBuffer.Sized (width : Nat) (lines : LineBuffer) : Prop :=
  lines.width = width ∧ ∀ r c, lines.cell r c < 2 ^ 16

/-- A 14-bit Bayer header of one block of 768 columns and two lines. -/
def bayerHeader14 : FujiHeader :=
  ⟨0x4953, 1, 0, 14, 12, 768, 768, 768, 1, 2, ⟨2, 2⟩⟩

/-- Parameters with an empty line: the line buffer has its two helper columns only. -/
def emptyLineParams : fuji_compressed_params :=
  { q_table := [], q_point := [0, 0x12, 0x43, 0x114, 16383]
    max_bits := 56, min_value := 0x40, raw_bits := 14, total_values := 0x4000
    maxDiff := 256, line_width := 0 }

/-- A block over a line buffer of two columns. -/
def emptyLineBlock : fuji_compressed_block :=
  { lines := ⟨2, fun r c => (r + 2 * c) % 5⟩, grad_even := [], grad_odd := [], pump := ⟨[], 0, []⟩ }

/-- A strip of two lines that covers no column of the image. -/
def emptyLineStrip : FujiStrip :=
  { h := bayerHeader14, n := 0, bs := ⟨[], 0⟩, height := 2, offsetX := 0
    offsetY := fun line => 6 * line, numMCUs := fun _ => ⟨0, 0⟩ }

/-- A 14-bit Bayer header whose blocks have no columns, of two lines. -/
def zeroWidthHeader : FujiHeader :=
  ⟨0x4953, 1, 0, 14, 12, 0, 0, 0, 1, 2, ⟨2, 2⟩⟩

/-- The parameters that the constructor computes for `zeroWidthHeader`. -/
def zeroWidthParams : fuji_compressed_params :=
  { xtransParams14 with line_width := 0 }

/-- A 14-bit Bayer header of blocks of four columns, of one line. -/
def smallBayerHeader : FujiHeader :=
  ⟨0x4953, 1, 0, 14, 6, 4, 4, 4, 1, 1, ⟨2, 2⟩⟩

/-- The parameters that the constructor computes for `smallBayerHeader`. -/
def smallBayerParams : fuji_compressed_params :=
  { xtransParams14 with line_width := 2 }

/-- The leaf-slot loop of `verifyCodeSymbols` in exact arithmetic: at each length there are
at most as many codes as slots, and the doubled remainder fits an `unsigned`. -/
def slotsSuffice : List Nat → Nat → Prop
  | [], _ => True
  | nCodes :: rest, maxCodes =>
    nCodes ≤ maxCodes ∧ (maxCodes - nCodes) * 2 < 2 ^ 32 ∧
      slotsSuffice rest ((maxCodes - nCodes) * 2)

/-- The gradient tables that a sequence of `fuji_decode_sample` calls reaches from a table
of a block that was reset. -/
inductive GradsReached (ndebug : Bool) (slack : Nat) (ci : fuji_compressed_params) :
    List int_pair → Prop
  | reset (info blk : fuji_compressed_block) (grads : List int_pair) :
      info.reset ci = .ok blk → grads ∈ blk.grad_even ∨ grads ∈ blk.grad_odd →
      GradsReached ndebug slack ci grads
  | sample (grads : List int_pair) (pump : BitStreamer) (grad interp_val : Int)
      (r : Int × BitStreamer × List int_pair) :
      GradsReached ndebug slack ci grads →
      fuji_decode_sample ndebug slack ci pump grad interp_val grads = .ok r →
      GradsReached ndebug slack ci r.2.2

/-- Bit `k` of a byte sequence, each byte most significant bit first; 0 beyond the
bytes (the bytes that `fill` pads). -/
def streamBit (input : List Nat) (k : Nat) : Bool :=
  decide (input.getD (k / 8) 0 / 2 ^ (7 - k % 8) % 2 = 1)

/-- The `i`-th upcoming bit of a `BitPumpMSB`: the cached bits, then the bits of the
bytes from the read cursor on. -/
def BitStreamer.upcoming (s : BitStreamer) (i : Nat) : Bool :=
  if i < s.cache.length then s.cache.getD i false
  else streamBit s.input (8 * s.pos + (i - s.cache.length))

/-- In the words of the specification: a loop that reads one bit at a time (`getBits(1)`:
`fill(1)`, then `getBitsNoFill(1)`) until it sees a 1; the number of 0 bits read and
the pump after the 1. -/
def zerobits_bitwise (slack : Nat) : Nat → Int → BitStreamer →
    Except Fault (Int × BitStreamer)
  | 0, _, _ => .error (.ioe "Buffer overflow read in BitStreamer")
  | fuel + 1, count, pump =>
    match BitStreamerMSB.fill slack pump 1 with
    | .error e => .error e
    | .ok pump1 =>
      match getBitsNoFill pump1.cache 1 with
      | .error e => .error e
      | .ok (bit, cache2) =>
        if bit = 1 then .ok (count, { pump1 with cache := cache2 })
        else zerobits_bitwise slack fuel (count + 1) { pump1 with cache := cache2 }

/-- Every cell of the line buffer is at most `M` (the cells are unsigned, so that they
lie in `[0, M]`). -/
def LineBuffer.Bounded (M : Int) (lines : LineBuffer) : Prop :=
  ∀ r c, (lines.cell r c : Int) ≤ M

/-- FujiDecompressor.cpp, lines 505-513: the even half of the round `i` of the loop of
`pass`, as it stands in `pass_loop`: the even samples of both rows. -/
def pass_evens (func_even : FuncEven) (c0 c1 row : Int) (grad : Nat) (line_width : Int)
    (i : Int) (pos : ColorPos × ColorPos) (info : fuji_compressed_block) :
    Except Fault (fuji_compressed_block × ColorPos × ColorPos) :=
  if i < line_width then
    match pass_even func_even info c0 pos.1 grad row i 0 with
    | .error e => .error e
    | .ok (info1, p0) =>
      match pass_even func_even info1 c1 pos.2 grad row i 1 with
      | .error e => .error e
      | .ok (info2, p1) => .ok (info2, (p0, p1))
  else .ok (info, pos)

/-- FujiDecompressor.cpp, lines 515-523: the odd half of the round `i` of the loop of
`pass`, as it stands in `pass_loop`: the odd samples of both rows. -/
def pass_odds (ndebug : Bool) (slack : Nat) (ci : fuji_compressed_params) (c0 c1 : Int)
    (grad : Nat) (i : Int) (pos : ColorPos × ColorPos) (info : fuji_compressed_block) :
    Except Fault (fuji_compressed_block × ColorPos × ColorPos) :=
  if i ≥ 4 then
    match pass_odd ndebug slack ci info c0 pos.1 grad with
    | .error e => .error e
    | .ok (info3, p0) =>
      match pass_odd ndebug slack ci info3 c1 pos.2 grad with
      | .error e => .error e
      | .ok (info4, p1) => .ok (info4, (p0, p1))
  else .ok (info, pos)

/-- The two line buffers have the same width, and the same cell wherever `S` holds. -/
def LineBuffer.AgreeOn (S : Nat → Nat → Prop) (l1 l2 : LineBuffer) : Prop :=
  l1.width = l2.width ∧ ∀ r c, S r c → l1.cell r c = l2.cell r c

/-- The two blocks have the same pump and gradient pairs, and line buffers that agree
on `S`. -/
def fuji_compressed_block.AgreeOn (S : Nat → Nat → Prop) (b1 b2 : fuji_compressed_block) :
    Prop :=
  LineBuffer.AgreeOn S b1.lines b2.lines ∧ b1.grad_even = b2.grad_even ∧
    b1.grad_odd = b2.grad_odd ∧ b1.pump = b2.pump

/-- The two results are the same fault, or two values that `R` relates. -/
def ExceptRel {α : Type} (R : α → α → Prop) : Except Fault α → Except Fault α → Prop
  | .ok a, .ok b => R a b
  | .error e1, .error e2 => e1 = e2
  | _, _ => False

/-- The cells of a line buffer of `w` columns that hold a value written since the reset or
the carry, when `nR`, `nG` and `nB` rows of red, green and blue have been decoded: the
two carry-in rows and the decoded rows of each colour, and the last helper column of the
row of each colour that is decoded next. -/
def Decoded (w nR nG nB : Nat) (r k : Nat) : Prop :=
  k < w ∧ (r < 2 + nR ∨ (r = 2 + nR ∧ nR < 3 ∧ k = w - 1) ∨
    (5 ≤ r ∧ r < 7 + nG) ∨ (r = 7 + nG ∧ nG < 6 ∧ k = w - 1) ∨
    (13 ≤ r ∧ r < 15 + nB) ∨ (r = 15 + nB ∧ nB < 3 ∧ k = w - 1))

/-- FujiDecompressor.cpp, lines 699-708: the body of the loop of `decompressThread` for
one strip: the block is reset, gets a pump over the bytes of the strip, and the strip is
decoded.  The image after it and the fault that ended it, if any, and the block after
it when no fault ended it. -/
def decompressThread_strip (ndebug : Bool) (slack : Nat) (xtransCFA : Nat → Nat → CFAColor)
    (header : FujiHeader) (ci : fuji_compressed_params) (block_info : fuji_compressed_block)
    (strip : FujiStrip) (img : RawImage) :
    Option fuji_compressed_block × RawImage × Option Fault :=
  match block_info.reset ci with
  | .error e => (none, img, some e)
  | .ok info =>
    fuji_decode_strip ndebug slack xtransCFA header ci
      { info with pump := ⟨strip.bs.data.drop strip.bs.pos, 0, []⟩ } strip img

/-- `FujiStrip strip(header, block, strips[block])` (FujiDecompressor.cpp, line 700):
the strip has the header, the number of the block and its bytes.  What its member
functions `height()`, `offsetX()`, `offsetY(line)` and `numMCUs(MCU)` return is not
among the sources and is taken from `geometry block`, a parameter. -/
def FujiStrip.construct (geometry : Nat → FujiStrip) (header : FujiHeader) (block : Nat)
    (bs : ByteStream) : FujiStrip :=
  { geometry block with h := header, n := block, bs := bs }

/-- FujiDecompressor.cpp, lines 693-710: `decompressThread`, built without OpenMP: the
blocks `block, block + 1, ...`, `more` of them, one after the other on the one
`block_info`.  A `RawspeedException` of a block is recorded with `setError` and the
next block is decoded; any other fault ends the program, and is the second component.
The reset stands before the `try` in the code and inside the unit here; its only fault
is a failed invariant, which ends the program either way.  The state in which a block
that raises leaves `block_info` is not followed by the embedding: it is `left block`, a
parameter. -/
def FujiDecompressor.decompressThread (ndebug : Bool) (slack : Nat)
    (xtransCFA : Nat → Nat → CFAColor) (geometry : Nat → FujiStrip)
    (left : Nat → fuji_compressed_block) (d : FujiDecompressor) :
    Nat → Nat → fuji_compressed_block → RawImage → RawImage × Option Fault
  | 0, _, _, img => (img, none)
  | more + 1, block, block_info, img =>
    match d.strips.get? block with
    | none => (img, some .undefinedBehaviour)
    | some bs =>
      match decompressThread_strip ndebug slack xtransCFA d.header d.common_info block_info
          (FujiStrip.construct geometry d.header block bs) img with
      | (info, img2, none) =>
        FujiDecompressor.decompressThread ndebug slack xtransCFA geometry left d more
          (block + 1) (info.getD (left block)) img2
      | (_, img2, some err) =>
        if err.isRawspeedException = true then
          FujiDecompressor.decompressThread ndebug slack xtransCFA geometry left d more
            (block + 1) (left block) (img2.setError err.what)
        else (img2, some err)

/-- FujiDecompressor.cpp, lines 712-724: `decompress`; the image after the call and the
fault it ended with, `none` when it returns.  The default-constructed `block_info` of
`decompressThread` is `fresh`. -/
def FujiDecompressor.decompress (ndebug : Bool) (slack : Nat)
    (xtransCFA : Nat → Nat → CFAColor) (geometry : Nat → FujiStrip)
    (left : Nat → fuji_compressed_block) (fresh : fuji_compressed_block)
    (d : FujiDecompressor) : RawImage × Option Fault :=
  match FujiDecompressor.decompressThread ndebug slack xtransCFA geometry left d
      d.header.blocks_in_row 0 fresh d.mRaw with
  | (img, some abort) => (img, some abort)
  | (img, none) =>
    if (img.isTooManyErrors 1).1 = true then
      (img, some (.rde ("Too many errors encountered. Giving up. First Error:\n" ++
        (img.isTooManyErrors 1).2)))
    else (img, none)

/-- The fault that the block `block` of the decompressor ends with when it is decoded on
its own, from the block `info` and into the image `img`; `none` when it decodes. -/
def FujiDecompressor.unitFault (ndebug : Bool) (slack : Nat)
    (xtransCFA : Nat → Nat → CFAColor) (geometry : Nat → FujiStrip) (d : FujiDecompressor)
    (info : fuji_compressed_block) (img : RawImage) (block : Nat) : Option Fault :=
  match d.strips.get? block with
  | none => some .undefinedBehaviour
  | some bs =>
    (decompressThread_strip ndebug slack xtransCFA d.header d.common_info info
      (FujiStrip.construct geometry d.header block bs) img).2.2

/-- The image has the dimensions `dim`, `cpp` components per pixel and the recorded
errors `errors`: what a write to the plane leaves alone. -/
def RawImage.Framed (dim : iPoint2D) (cpp : Nat) (errors : List String) (img : RawImage) :
    Prop :=
  img.dim = dim ∧ img.cpp = cpp ∧ img.errors = errors

/-- The columns of a row that `pass` has written when `e` even samples and `o` odd
samples of the row are decoded: the odd columns below `1 + 2 e`, and the even columns
from 2 on below `2 + 2 o`. -/
def Written (e o : Int) (k : Nat) : Prop :=
  (k % 2 = 1 ∧ (k : Int) < 1 + 2 * e) ∨ (k % 2 = 0 ∧ 2 ≤ k ∧ (k : Int) < 2 + 2 * o)

/-- The cells of `S`, and the cells of the rows `c0` and `c1` that `pass` has written at
the positions `p`. -/
def PassSet (S : Nat → Nat → Prop) (c0 c1 : Nat) (p : ColorPos × ColorPos) (r k : Nat) :
    Prop :=
  S r k ∨ (r = c0 ∧ Written p.1.even p.1.odd k) ∨ (r = c1 ∧ Written p.2.even p.2.odd k)

/-- FujiDecompressor.cpp, lines 566-585: the body of the loop over the six rows of a
line, copied from `fuji_decode_block_rows`: the pass over the row and the two calls of
`fuji_extend`. -/
def fuji_decode_row (ndebug : Bool) (slack : Nat) (ci : fuji_compressed_params)
    (func_even : FuncEven) (row : Nat) (counter : CFAColor → Int)
    (info : fuji_compressed_block) : Except Fault fuji_compressed_block :=
  let c0 := bayerRGGB row 0
  let c1 := bayerRGGB row 1
  let line0 := CurLineForColor counter c0
  let line1 := CurLineForColor line0.2 c1
  match pass ndebug slack ci func_even line0.1 line1.1 row info with
  | .error e => .error e
  | .ok info1 =>
    match fuji_extend c0 info1.lines with
    | .error e => .error e
    | .ok lines2 =>
      match fuji_extend c1 lines2 with
      | .error e => .error e
      | .ok lines3 => .ok { info1 with lines := lines3 }

/-- A Fuji decompressor of two blocks of four columns, whose strips have no bytes. -/
def twoBlockFuji : FujiDecompressor :=
  { mRaw := blankImage 8 6
    input := ⟨[], 0⟩
    header := ⟨0x4953, 1, 0, 14, 6, 8, 8, 4, 2, 1, ⟨2, 2⟩⟩
    common_info := smallBayerParams
    strips := [⟨[], 0⟩, ⟨[], 0⟩] }

/-- The geometry of the strips of `twoBlockFuji`: one line of six rows, the block
`block` from the column `4 * block` on. -/
def twoBlockGeometry (block : Nat) : FujiStrip :=
  { h := smallBayerHeader, n := block, bs := ⟨[], 0⟩, height := 1, offsetX := 4 * block
    offsetY := fun line => 6 * line, numMCUs := fun _ => ⟨2, 3⟩ }

/-- A block as `reset` leaves it for `smallBayerParams`, with a pump over eight bytes. -/
def smallBayerBlock : fuji_compressed_block :=
  { lines := ⟨4, fun _ _ => 0⟩
    grad_even := List.replicate 3 (List.replicate 41 ⟨256, 1⟩)
    grad_odd := List.replicate 3 (List.replicate 41 ⟨256, 1⟩)
    pump := ⟨[0x40, 0x80, 0, 0, 0, 0, 0, 0], 0, []⟩ }

/-! # Properties -/

/-! ## Bit patterns -/

theorem bitsMSB_length (code len : Nat) : (bitsMSB code len).length = len := by
  induction len generalizing code with
  | zero => rfl
  | succ n ih => simp [bitsMSB, ih]

theorem accumulate_append (code : Nat) (p q : List Bool) :
    accumulate code (p ++ q) = accumulate (accumulate code p) q := by
  induction p generalizing code with
  | nil => rfl
  | cons b p ih => simp [accumulate, ih]

theorem accumulate_bitsMSB (c code len : Nat) (h : code < 2 ^ len) :
    accumulate c (bitsMSB code len) = c * 2 ^ len + code := by
  induction len generalizing code with
  | zero =>
    have : code = 0 := by simpa using h
    simp [bitsMSB, accumulate, this]
  | succ n ih =>
    have h2 : code / 2 < 2 ^ n := by
      rw [Nat.div_lt_iff_lt_mul (by norm_num)]
      rw [pow_succ] at h
      exact h
    rw [bitsMSB, accumulate_append, ih _ h2]
    simp only [accumulate]
    have hm : code % 2 = 0 ∨ code % 2 = 1 := Nat.mod_two_eq_zero_or_one code
    have hd := Nat.div_add_mod code 2
    rcases hm with hm | hm
    · simp only [hm]
      simp
      rw [pow_succ]
      have : code = 2 * (code / 2) := by omega
      nlinarith [this]
    · simp only [hm]
      simp
      rw [pow_succ]
      have : code = 2 * (code / 2) + 1 := by omega
      nlinarith [this]

theorem CodeSymbol.bits_length (s : CodeSymbol) : s.bits.length = s.code_len :=
  bitsMSB_length _ _

theorem CodeSymbol.accumulate_bits (s : CodeSymbol) (h : s.code < 2 ^ s.code_len) :
    accumulate 0 s.bits = s.code := by
  simp [CodeSymbol.bits, accumulate_bitsMSB 0 _ _ h]


/-! ## The tree -/

theorem Bud.hasLeaf_iff (t : Bud) : t.hasLeaf = true ↔ ∃ q w, t.leafAt q = some w := by
  induction t with
  | absent => simp [Bud.hasLeaf, Bud.leafAt]
  | leaf v => exact ⟨fun _ => ⟨[], v, rfl⟩, fun _ => rfl⟩
  | branch z o ihz iho =>
    simp only [Bud.hasLeaf, Bool.or_eq_true, ihz, iho]
    constructor
    · rintro (⟨q, w, h⟩ | ⟨q, w, h⟩)
      · exact ⟨false :: q, w, h⟩
      · exact ⟨true :: q, w, h⟩
    · rintro ⟨q, w, h⟩
      match q, h with
      | false :: q, h => exact Or.inl ⟨q, w, h⟩
      | true :: q, h => exact Or.inr ⟨q, w, h⟩

theorem Bud.leafAt_absent (q : List Bool) : Bud.absent.leafAt q = none := by
  cases q <;> rfl

theorem Bud.add_absent (p : List Bool) (v : Nat) :
    ∃ t2, Bud.absent.add p v = .ok t2 ∧ t2.tidy ∧ t2.hasLeaf = true ∧
      (∀ q, t2.leafAt q = if q = p then some v else none) ∧ t2.height = p.length := by
  induction p with
  | nil =>
    refine ⟨.leaf v, rfl, trivial, rfl, ?_, rfl⟩
    intro q
    cases q <;> simp [Bud.leafAt]
  | cons b p ih =>
    obtain ⟨t, ht, htidy, hleaf, hat, hh⟩ := ih
    cases b
    · refine ⟨.branch t .absent, by simp [Bud.add, ht], ⟨Or.inl hleaf, htidy, trivial⟩,
        by simp [Bud.hasLeaf, hleaf], ?_, by simp [Bud.height, hh]; omega⟩
      intro q
      match q with
      | [] => simp [Bud.leafAt]
      | false :: q => simp [Bud.leafAt, hat]
      | true :: q => simp [Bud.leafAt, Bud.leafAt_absent]
    · refine ⟨.branch .absent t, by simp [Bud.add, ht], ⟨Or.inr hleaf, trivial, htidy⟩,
        by simp [Bud.hasLeaf, hleaf], ?_, by simp [Bud.height, hh]; omega⟩
      intro q
      match q with
      | [] => simp [Bud.leafAt]
      | false :: q => simp [Bud.leafAt, Bud.leafAt_absent]
      | true :: q => simp [Bud.leafAt, hat]

/-- Adding a path that is incomparable with every Leaf path already present succeeds,
adds exactly that Leaf and does not make the tree higher than the path is long. -/
theorem Bud.add_spec (p : List Bool) (v : Nat) :
    ∀ t : Bud, t.tidy → (∀ q w, t.leafAt q = some w → Incomparable q p) →
      ∃ t2, t.add p v = .ok t2 ∧ t2.tidy ∧ t2.hasLeaf = true ∧
        (∀ q, t2.leafAt q = if q = p then some v else t.leafAt q) ∧
        t2.height ≤ max t.height p.length := by
  induction p with
  | nil =>
    intro t htidy hinc
    cases t with
    | absent =>
      obtain ⟨t2, h1, h2, h3, h4, h5⟩ := Bud.add_absent [] v
      exact ⟨t2, h1, h2, h3, by simpa [Bud.leafAt_absent] using h4, by simp [h5]⟩
    | leaf w => exact absurd List.nil_prefix (hinc [] w rfl).1
    | branch z o =>
      have hl : (Bud.branch z o).hasLeaf = true := by
        simpa [Bud.hasLeaf] using htidy.1
      obtain ⟨q, w, hq⟩ := (Bud.hasLeaf_iff _).1 hl
      exact absurd List.nil_prefix (hinc q w hq).2
  | cons b p ih =>
    intro t htidy hinc
    cases t with
    | absent =>
      obtain ⟨t2, h1, h2, h3, h4, h5⟩ := Bud.add_absent (b :: p) v
      exact ⟨t2, h1, h2, h3, by simpa [Bud.leafAt_absent] using h4, by simp [h5, Bud.height]⟩
    | leaf w => exact absurd List.nil_prefix (hinc [] w rfl).1
    | branch z o =>
      obtain ⟨hlf, hz, ho⟩ := htidy
      cases b
      · have hincz : ∀ q w, z.leafAt q = some w → Incomparable q p := by
          intro q w hq
          have := hinc (false :: q) w hq
          simpa [Incomparable, List.cons_prefix_cons] using this
        obtain ⟨z2, h1, h2, h3, h4, h5⟩ := ih z hz hincz
        refine ⟨.branch z2 o, by simp [Bud.add, h1], ⟨Or.inl h3, h2, ho⟩,
          by simp [Bud.hasLeaf, h3], ?_, ?_⟩
        · intro q
          match q with
          | [] => simp [Bud.leafAt]
          | false :: q => simp [Bud.leafAt, h4]
          | true :: q => simp [Bud.leafAt]
        · simp only [Bud.height, List.length_cons]
          omega
      · have hinco : ∀ q w, o.leafAt q = some w → Incomparable q p := by
          intro q w hq
          have := hinc (true :: q) w hq
          simpa [Incomparable, List.cons_prefix_cons] using this
        obtain ⟨o2, h1, h2, h3, h4, h5⟩ := ih o ho hinco
        refine ⟨.branch z o2, by simp [Bud.add, h1], ⟨Or.inr h3, hz, h2⟩,
          by simp [Bud.hasLeaf, h3], ?_, ?_⟩
        · intro q
          match q with
          | [] => simp [Bud.leafAt]
          | false :: q => simp [Bud.leafAt]
          | true :: q => simp [Bud.leafAt, h4]
        · simp only [Bud.height, List.length_cons]
          omega


theorem Bud.leafAt_leaf_cons (w : Nat) (b : Bool) (q : List Bool) :
    (Bud.leaf w).leafAt (b :: q) = none := by
  cases b <;> rfl

/-- All symbols are inserted when they are pairwise prefix-free and incomparable with
the Leaf paths already in the tree; the Leaves of the result are those of the tree
and one per symbol. -/
theorem addAll_spec (H : Nat) : ∀ (ss : List CodeSymbol) (vs : List Nat) (t : Bud),
    ss.length = vs.length → t.tidy → PrefixFree ss →
    (∀ s ∈ ss, ∀ q w, t.leafAt q = some w → Incomparable q s.bits) →
    (∀ s ∈ ss, s.code_len ≤ H) → t.height ≤ H →
    ∃ t2, addAll t ss vs = .ok t2 ∧ t2.tidy ∧ t2.height ≤ H ∧
      ∀ q w, t2.leafAt q = some w ↔
        (t.leafAt q = some w ∨ ∃ sv ∈ ss.zip vs, sv.1.bits = q ∧ sv.2 = w) := by
  intro ss
  induction ss with
  | nil =>
    intro vs t _ htidy _ _ _ hh
    exact ⟨t, rfl, htidy, hh, by simp⟩
  | cons s ss ih =>
    intro vs t hlen htidy hpf hinc hH hh
    match vs, hlen with
    | v :: vs, hlen =>
      have hpf2 := List.pairwise_cons.1 hpf
      obtain ⟨t1, h1, h2, -, h4, h5⟩ :=
        Bud.add_spec s.bits v t htidy (hinc s (List.mem_cons_self _ _))
      have hinc1 : ∀ s2 ∈ ss, ∀ q w, t1.leafAt q = some w → Incomparable q s2.bits := by
        intro s2 hs2 q w hq
        rw [h4] at hq
        by_cases hqs : q = s.bits
        · subst hqs
          exact hpf2.1 s2 hs2
        · rw [if_neg hqs] at hq
          exact hinc s2 (List.mem_cons_of_mem _ hs2) q w hq
      have hh1 : t1.height ≤ H := by
        have := hH s (List.mem_cons_self _ _)
        rw [← CodeSymbol.bits_length] at this
        omega
      obtain ⟨t2, g1, g2, g3, g4⟩ := ih vs t1 (by simpa using hlen) h2 hpf2.2 hinc1
        (fun s2 hs2 => hH s2 (List.mem_cons_of_mem _ hs2)) hh1
      refine ⟨t2, by simp [addAll, h1, g1], g2, g3, ?_⟩
      intro q w
      rw [g4, h4]
      by_cases hqs : q = s.bits
      · subst hqs
        have hno : ∀ w, t.leafAt s.bits ≠ some w := by
          intro w hw
          exact (hinc s (List.mem_cons_self _ _) _ w hw).1 (List.prefix_refl _)
        simp only [if_true, List.zip_cons_cons, List.mem_cons, exists_eq_or_imp, true_and]
        constructor
        · rintro (h | h)
          · exact Or.inr (Or.inl (Option.some.inj h))
          · exact Or.inr (Or.inr h)
        · rintro (h | h | h)
          · exact absurd h (hno w)
          · exact Or.inl (congrArg some h)
          · exact Or.inr h
      · have hqs2 : ¬ s.bits = q := fun h => hqs h.symm
        simp only [if_neg hqs, List.zip_cons_cons, List.mem_cons, exists_eq_or_imp, hqs2,
          false_and, false_or]

/-! ## The walk of `readSymbol` -/

/-- A walk along a bit sequence that starts with the path of a Leaf returns that Leaf,
with the path as the code and as the bits consumed. -/
theorem readSymbolLoop_hit (M : Nat) : ∀ (p : List Bool) (t : Bud) (code len v : Nat)
    (rest : List Bool), t.leafAt p = some v → (∃ z o, t = .branch z o) →
    len + p.length ≤ M + 1 →
    readSymbolLoop M t code len (p ++ rest) =
      .ok ((⟨accumulate code p, len + p.length - 1⟩, v), rest) := by
  intro p
  induction p with
  | nil =>
    rintro t code len v rest h ⟨z, o, rfl⟩ _
    simp [Bud.leafAt] at h
  | cons b p ih =>
    rintro t code len v rest h ⟨z, o, rfl⟩ hlen
    have hM : len ≤ M := by simp at hlen; omega
    cases b
    · simp only [Bud.leafAt] at h
      cases z with
      | absent => simp [Bud.leafAt_absent] at h
      | leaf w =>
        cases p with
        | nil =>
          simp only [Bud.leafAt, Option.some.injEq] at h
          simp [readSymbolLoop, hM, accumulate, h]
        | cons c p => simp [Bud.leafAt_leaf_cons] at h
      | branch z2 o2 =>
        have := ih (.branch z2 o2) (2 * code) (len + 1) v rest h ⟨_, _, rfl⟩
          (by simp at hlen ⊢; omega)
        have e : len + 1 + p.length - 1 = len + (p.length + 1) - 1 := by omega
        rw [e] at this
        simp [readSymbolLoop, hM, this, accumulate]
    · simp only [Bud.leafAt] at h
      cases o with
      | absent => simp [Bud.leafAt_absent] at h
      | leaf w =>
        cases p with
        | nil =>
          simp only [Bud.leafAt, Option.some.injEq] at h
          simp [readSymbolLoop, hM, accumulate, h]
        | cons c p => simp [Bud.leafAt_leaf_cons] at h
      | branch z2 o2 =>
        have := ih (.branch z2 o2) (2 * code + 1) (len + 1) v rest h ⟨_, _, rfl⟩
          (by simp at hlen ⊢; omega)
        have e : len + 1 + p.length - 1 = len + (p.length + 1) - 1 := by omega
        rw [e] at this
        simp [readSymbolLoop, hM, this, accumulate]

/-- A walk along a bit sequence that starts with no Leaf path raises `bad Huffman code`
after at most `M` bits. -/
theorem readSymbolLoop_miss (M : Nat) : ∀ (t : Bud) (code len : Nat) (bs : List Bool),
    (∃ z o, t = .branch z o) → len + t.height ≤ M + 1 → t.height ≤ bs.length →
    (∀ p v, t.leafAt p = some v → ¬ p <+: bs) →
    ∃ c l, l ≤ M ∧ readSymbolLoop M t code len bs = .error (.badHuffmanCode c l) := by
  intro t
  induction t with
  | absent => rintro _ _ _ ⟨z, o, h⟩; cases h
  | leaf w => rintro _ _ _ ⟨z, o, h⟩; cases h
  | branch z o ihz iho =>
    intro code len bs _ hlen hbs hno
    simp only [Bud.height] at hlen hbs
    have hM : len ≤ M := by omega
    match bs, hbs with
    | [], hbs => simp at hbs
    | false :: rest, hbs =>
      cases z with
      | absent => exact ⟨2 * code, len, hM, by simp [readSymbolLoop, hM]⟩
      | leaf w => exact absurd (by simp) (hno [false] w rfl)
      | branch z2 o2 =>
        obtain ⟨c, l, hl, hr⟩ := ihz (2 * code) (len + 1) rest ⟨_, _, rfl⟩
          (by omega) (by simp at hbs; omega)
          (fun p v hp hpre => hno (false :: p) v hp (by simpa using hpre))
        exact ⟨c, l, hl, by simp [readSymbolLoop, hM, hr]⟩
    | true :: rest, hbs =>
      cases o with
      | absent => exact ⟨2 * code + 1, len, hM, by simp [readSymbolLoop, hM]⟩
      | leaf w => exact absurd (by simp) (hno [true] w rfl)
      | branch z2 o2 =>
        obtain ⟨c, l, hl, hr⟩ := iho (2 * code + 1) (len + 1) rest ⟨_, _, rfl⟩
          (by omega) (by simp at hbs; omega)
          (fun p v hp hpre => hno (true :: p) v hp (by simpa using hpre))
        exact ⟨c, l, hl, by simp [readSymbolLoop, hM, hr]⟩


/-! ## What the constructor of `PrefixCode` establishes -/

theorem countCodes_ok_range (M : Nat) : ∀ (ss : List CodeSymbol) (n r : List Nat),
    countCodes M false ss n = .ok r → ∀ s ∈ ss, 0 < s.code_len ∧ s.code_len ≤ M := by
  intro ss
  induction ss with
  | nil => intro _ _ _ s hs; simp at hs
  | cons a ss ih =>
    intro n r h s hs
    simp only [countCodes, true_and] at h
    split at h
    · cases h
    · rename_i hr
      split at h
      · rcases List.mem_cons.1 hs with rfl | hs
        · exact not_not.1 hr
        · exact ih _ _ h s hs
      · cases h

theorem countCodes_error_kind (M : Nat) : ∀ (ss : List CodeSymbol) (n : List Nat) (e : Fault),
    M < n.length → countCodes M false ss n = .error e → e = .assertion := by
  intro ss
  induction ss with
  | nil => intro n e _ h; cases h
  | cons a ss ih =>
    intro n e hn h
    simp only [countCodes, true_and] at h
    split at h
    · cases h; rfl
    · rename_i hr
      have hr := not_not.1 hr
      rw [if_pos (by omega)] at h
      exact ih _ e (by simpa using hn) h

theorem checkCodeSpace_error_kind : ∀ (n : List Nat) (m : Nat) (e : Fault),
    checkCodeSpace false n m = .error e → e = .assertion := by
  intro n
  induction n with
  | nil => intro m e h; cases h
  | cons a n ih =>
    intro m e h
    simp only [checkCodeSpace, true_and] at h
    split at h
    · cases h; rfl
    · exact ih _ e h

theorem checkPrefixes_error_kind : ∀ (todo earlier : List CodeSymbol) (e : Fault),
    checkPrefixes false earlier todo = .error e → e = .assertion := by
  intro todo
  induction todo with
  | nil => intro earlier e h; cases h
  | cons a todo ih =>
    intro earlier e h
    simp only [checkPrefixes, true_and] at h
    split at h
    · cases h; rfl
    · exact ih _ e h

theorem globallyOrdered_cons (a : CodeSymbol) : ∀ (l : List CodeSymbol),
    globallyOrdered (a :: l) = true →
      (∀ b ∈ l, a.code < b.code ∧ a.code_len ≤ b.code_len) ∧ globallyOrdered l = true := by
  intro l
  induction l generalizing a with
  | nil => intro _; exact ⟨by simp, rfl⟩
  | cons b l ih =>
    intro h
    simp only [globallyOrdered, Bool.and_eq_true, symbolSort, decide_eq_true_eq] at h
    obtain ⟨⟨h1, h2⟩, h3⟩ := h
    refine ⟨?_, h3⟩
    intro c hc
    rcases List.mem_cons.1 hc with rfl | hc
    · exact ⟨h1, h2⟩
    · have := (ih b h3).1 c hc
      exact ⟨by omega, by omega⟩

theorem globallyOrdered_pairwise : ∀ (l : List CodeSymbol), globallyOrdered l = true →
    l.Pairwise (fun a b => a.code < b.code ∧ a.code_len ≤ b.code_len) := by
  intro l
  induction l with
  | nil => intro _; exact List.Pairwise.nil
  | cons a l ih =>
    intro h
    have := globallyOrdered_cons a l h
    exact List.pairwise_cons.2 ⟨this.1, ih this.2⟩

theorem checkPrefixes_ok : ∀ (todo earlier : List CodeSymbol),
    checkPrefixes false earlier todo = .ok () →
      (∀ s ∈ todo, ∀ p ∈ earlier, HaveCommonPrefix s p = false) ∧
      todo.Pairwise (fun p s => HaveCommonPrefix s p = false) := by
  intro todo
  induction todo with
  | nil => intro _ _; exact ⟨by simp, List.Pairwise.nil⟩
  | cons a todo ih =>
    intro earlier h
    simp only [checkPrefixes, true_and] at h
    split at h
    · cases h
    · rename_i hany
      have hany : ∀ p ∈ earlier, HaveCommonPrefix a p = false := by
        intro p hp
        by_contra hc
        exact hany (List.any_eq_true.2 ⟨p, hp, by simpa using hc⟩)
      obtain ⟨h1, h2⟩ := ih _ h
      constructor
      · intro s hs p hp
        rcases List.mem_cons.1 hs with rfl | hs
        · exact hany p hp
        · exact h1 s hs p (List.mem_append_left _ hp)
      · refine List.pairwise_cons.2 ⟨?_, h2⟩
        intro s hs
        exact h1 s hs a (by simp)

theorem HaveCommonPrefix_eq_false (s p : CodeSymbol) :
    HaveCommonPrefix s p = false ↔ ¬ p.bits <+: s.bits := by
  unfold HaveCommonPrefix
  rw [← List.isPrefixOf_iff_prefix, Bool.not_eq_true]

/-- Symbols that are globally ordered and of which none has an earlier one as a prefix
are pairwise prefix-free. -/
theorem prefixFree_of_checks (l : List CodeSymbol)
    (hord : l.Pairwise (fun a b => a.code < b.code ∧ a.code_len ≤ b.code_len))
    (hpre : l.Pairwise (fun p s => HaveCommonPrefix s p = false)) : PrefixFree l := by
  have := hord.and hpre
  refine this.imp ?_
  rintro a b ⟨⟨-, hlen⟩, h⟩
  rw [HaveCommonPrefix_eq_false] at h
  refine ⟨h, ?_⟩
  intro hba
  have hl := hba.length_le
  rw [CodeSymbol.bits_length, CodeSymbol.bits_length] at hl
  have heq : b.bits = a.bits :=
    hba.eq_of_length (by rw [CodeSymbol.bits_length, CodeSymbol.bits_length]; omega)
  exact h (heq ▸ List.prefix_refl _)

/-- A successful construction (assertions enabled) stores its arguments and has checked
the length range, the global order and prefix-freedom. -/
theorem PrefixCode.construct_ok (M : Nat) (ss : List CodeSymbol) (vs : List Nat)
    (pc : PrefixCode) (h : PrefixCode.construct M false ss vs = .ok pc) :
    pc.symbols = ss ∧ pc.codeValues = vs ∧
      (∀ s ∈ ss, 0 < s.code_len ∧ s.code_len ≤ M) ∧
      ss.Pairwise (fun a b => a.code < b.code ∧ a.code_len ≤ b.code_len) ∧
      PrefixFree ss := by
  unfold PrefixCode.construct at h
  split at h
  · cases h
  · rename_i counted hc
    simp only at h
    split at h
    · cases h
    · rename_i hv
      cases h
      refine ⟨rfl, rfl, countCodes_ok_range M ss _ _ hc, ?_⟩
      unfold verifyCodeSymbols at hv
      split at hv
      · cases hv
      · split at hv
        · cases hv
        · rename_i ho
          have hord : globallyOrdered ss = true := by
            unfold assertThat at ho
            simp only [Bool.false_or] at ho
            by_contra hne
            rw [if_neg hne] at ho
            cases ho
          have hp := globallyOrdered_pairwise ss hord
          exact ⟨hp, prefixFree_of_checks ss hp (checkPrefixes_ok ss [] hv).2⟩

theorem PrefixCode.construct_error_kind (M : Nat) (ss : List CodeSymbol) (vs : List Nat)
    (e : Fault) (h : PrefixCode.construct M false ss vs = .error e) : e = .assertion := by
  unfold PrefixCode.construct at h
  split at h
  · rename_i e2 hc
    cases h
    exact countCodes_error_kind M ss _ _ (by simp) hc
  · simp only at h
    split at h
    · rename_i e2 hv
      cases h
      unfold verifyCodeSymbols at hv
      split at hv
      · rename_i e3 h3
        cases hv
        exact checkCodeSpace_error_kind _ _ _ h3
      · split at hv
        · rename_i e3 h3
          cases hv
          unfold assertThat at h3
          split at h3
          · cases h3
          · cases h3; rfl
        · exact checkPrefixes_error_kind _ _ _ hv
    · cases h

theorem Bud.leafAt_length_le_height : ∀ (t : Bud) (q : List Bool) (w : Nat),
    t.leafAt q = some w → q.length ≤ t.height := by
  intro t
  induction t with
  | absent => intro q w h; simp [Bud.leafAt_absent] at h
  | leaf v =>
    intro q w h
    cases q with
    | nil => simp [Bud.height]
    | cons b q => simp [Bud.leafAt_leaf_cons] at h
  | branch z o ihz iho =>
    intro q w h
    match q, h with
    | [], h => simp
    | false :: q, h =>
      have := ihz q w h
      simp only [Bud.height, List.length_cons]
      omega
    | true :: q, h =>
      have := iho q w h
      simp only [Bud.height, List.length_cons]
      omega

/-- On a Branch of height at most `M` and at least `M` cached bits, `readSymbol` either
returns the Leaf whose path starts the bits, or raises `bad Huffman code` when there is
no such Leaf; in both cases after at most `M` bits. -/
theorem readSymbol_cases (M : Nat) (t : Bud) (bs : List Bool)
    (hb : ∃ z o, t = .branch z o) (hh : t.height ≤ M) (hbs : M ≤ bs.length) :
    (∃ p v, t.leafAt p = some v ∧ p <+: bs ∧ p.length ≤ M ∧
        readSymbol M t bs = .ok ((⟨accumulate 0 p, p.length⟩, v), bs.drop p.length)) ∨
    ((∀ p v, t.leafAt p = some v → ¬ p <+: bs) ∧
        ∃ c l, l ≤ M ∧ readSymbol M t bs = .error (.badHuffmanCode c l)) := by
  by_cases hex : ∃ p v, t.leafAt p = some v ∧ p <+: bs
  · left
    obtain ⟨p, v, hp, hpre⟩ := hex
    have hl := Bud.leafAt_length_le_height t p v hp
    refine ⟨p, v, hp, hpre, by omega, ?_⟩
    have := readSymbolLoop_hit M p t 0 1 v (bs.drop p.length) hp hb (by omega)
    rw [List.prefix_iff_eq_append.1 hpre] at this
    rw [readSymbol, this]
    simp
  · right
    have hno : ∀ p v, t.leafAt p = some v → ¬ p <+: bs :=
      fun p v hp hpre => hex ⟨p, v, hp, hpre⟩
    exact ⟨hno, readSymbolLoop_miss M t 0 1 bs hb (by omega) (by omega) hno⟩

/-- The tree that `setup` builds from a successfully constructed code: its Leaves are
exactly the symbols with their values, and no path is longer than `M`. -/
theorem PrefixCodeTreeDecoder.setup_spec (M : Nat) (ss : List CodeSymbol) (vs : List Nat)
    (pc : PrefixCode) (nd fd fx : Bool)
    (hc : PrefixCode.construct M false ss vs = .ok pc) (hlen : ss.length = vs.length) :
    ∃ d, PrefixCodeTreeDecoder.setup nd pc fd fx = .ok d ∧ d.code = pc ∧
      d.fullDecode = fd ∧ d.fixDNGBug16 = fx ∧ d.tree.height ≤ M ∧
      (∀ q w, d.tree.leafAt q = some w ↔ ∃ sv ∈ ss.zip vs, sv.1.bits = q ∧ sv.2 = w) ∧
      (ss ≠ [] → ∃ z o, d.tree = .branch z o) := by
  obtain ⟨h1, h2, hrange, -, hpf⟩ := PrefixCode.construct_ok M ss vs pc hc
  obtain ⟨t, ht, -, hh, hleaf⟩ := addAll_spec M ss vs .absent hlen trivial hpf
    (fun s _ q w hq => by simp [Bud.leafAt_absent] at hq) (fun s hs => (hrange s hs).2)
    (by simp [Bud.height])
  refine ⟨⟨pc, fd, fx, t⟩, ?_, rfl, rfl, rfl, hh, ?_, ?_⟩
  · simp [PrefixCodeTreeDecoder.setup, assertThat, h1, h2, hlen, ht]
  · intro q w
    rw [hleaf]
    simp [Bud.leafAt_absent]
  · intro hne
    match ss, vs, hlen, hne with
    | s :: ss, v :: vs, _, _ =>
      have hs : t.leafAt s.bits = some v := by
        rw [hleaf]; right; exact ⟨(s, v), by simp, rfl, rfl⟩
      have hpos : 0 < s.bits.length := by
        rw [CodeSymbol.bits_length]; exact (hrange s (List.mem_cons_self _ _)).1
      cases t with
      | absent => simp [Bud.leafAt_absent] at hs
      | leaf w =>
        match hb : s.bits, hpos with
        | b :: q, _ => rw [hb] at hs; simp [Bud.leafAt_leaf_cons] at hs
      | branch z o => exact ⟨z, o, rfl⟩

theorem mem_zip_getElem (ss : List CodeSymbol) (vs : List Nat) (i : Nat)
    (hi : i < ss.length) (hv : i < vs.length) : (ss[i], vs[i]) ∈ ss.zip vs := by
  rw [List.mem_iff_getElem]
  exact ⟨i, by simp [hi, hv], by simp⟩

/-! ## Claims on the prefix-code tree decoder -/

/-- C1: for a prefix-code model that the constructor accepts (assertions enabled: every
`code_len` in `1..MaxCodeLenghtBits`, globally ordered, pairwise prefix-free) and whose
codes fit their lengths, `setup` inserts all symbols, and then `readSymbol` on any bit
sequence that starts with the `code_len` bits of symbol `i`, most significant first,
returns `(symbols[i], codeValues[i])` and leaves exactly the bits after those
`code_len` bits unread. -/
theorem readSymbol_roundtrip (M : Nat) (symbols : List CodeSymbol) (codeValues : List Nat)
    (pc : PrefixCode) (nd fd fx : Bool)
    (hc : PrefixCode.construct M false symbols codeValues = .ok pc)
    (hlen : symbols.length = codeValues.length)
    (hfit : ∀ s ∈ symbols, s.code < 2 ^ s.code_len) :
    ∃ d, PrefixCodeTreeDecoder.setup nd pc fd fx = .ok d ∧
      ∀ (i : Nat) (hi : i < symbols.length) (hv : i < codeValues.length) (rest : List Bool),
        (symbols[i].bits ++ rest).length = symbols[i].code_len + rest.length ∧
        readSymbol M d.tree (symbols[i].bits ++ rest) =
          .ok ((symbols[i], codeValues[i]), rest) := by
  obtain ⟨d, hd, -, -, -, -, hleaf, hbr⟩ :=
    PrefixCodeTreeDecoder.setup_spec M symbols codeValues pc nd fd fx hc hlen
  obtain ⟨-, -, hrange, -, -⟩ := PrefixCode.construct_ok M symbols codeValues pc hc
  refine ⟨d, hd, ?_⟩
  intro i hi hv rest
  have hmem : symbols[i] ∈ symbols := List.getElem_mem _
  have hat : d.tree.leafAt symbols[i].bits = some codeValues[i] :=
    (hleaf _ _).2 ⟨_, mem_zip_getElem symbols codeValues i hi hv, rfl, rfl⟩
  have hne : symbols ≠ [] := by
    intro h; rw [h] at hi; simp at hi
  have hr := readSymbolLoop_hit M symbols[i].bits d.tree 0 1 codeValues[i] rest hat (hbr hne)
    (by rw [CodeSymbol.bits_length]; have := (hrange _ hmem).2; omega)
  refine ⟨by simp [CodeSymbol.bits_length], ?_⟩
  rw [readSymbol, hr, CodeSymbol.accumulate_bits _ (hfit _ hmem), CodeSymbol.bits_length]
  simp

/-- Witness for C1: the three-symbol code `0`, `10`, `110`. -/
theorem readSymbol_roundtrip_witness :
    ∃ d, PrefixCodeTreeDecoder.setup false
        ⟨[5, 6, 7], [0, 1, 1, 1], [⟨0, 1⟩, ⟨2, 2⟩, ⟨6, 3⟩]⟩ true false = .ok d ∧
      ∀ (i : Nat) (hi : i < [(⟨0, 1⟩ : CodeSymbol), ⟨2, 2⟩, ⟨6, 3⟩].length)
        (hv : i < [5, 6, 7].length) (rest : List Bool),
        (([(⟨0, 1⟩ : CodeSymbol), ⟨2, 2⟩, ⟨6, 3⟩][i]).bits ++ rest).length =
          ([(⟨0, 1⟩ : CodeSymbol), ⟨2, 2⟩, ⟨6, 3⟩][i]).code_len + rest.length ∧
        readSymbol 16 d.tree (([(⟨0, 1⟩ : CodeSymbol), ⟨2, 2⟩, ⟨6, 3⟩][i]).bits ++ rest) =
          .ok (([(⟨0, 1⟩ : CodeSymbol), ⟨2, 2⟩, ⟨6, 3⟩][i], [5, 6, 7][i]), rest) :=
  readSymbol_roundtrip 16 [⟨0, 1⟩, ⟨2, 2⟩, ⟨6, 3⟩] [5, 6, 7]
    ⟨[5, 6, 7], [0, 1, 1, 1], [⟨0, 1⟩, ⟨2, 2⟩, ⟨6, 3⟩]⟩ false true false rfl rfl (by decide)

/-- C3: for the tree that `setup` builds from a non-empty model accepted by the
constructor, and every bit sequence holding at least `MaxCodeLenghtBits` cached bits,
`readSymbol` raises `bad Huffman code` exactly when no symbol of the model is a prefix
of the bits; and when symbol `i` is a prefix of the bits it is the only such symbol,
and `readSymbol` returns it with its code value, the unread bits being the bits after
its `code_len` bits. -/
theorem readSymbol_error_iff (M : Nat) (symbols : List CodeSymbol) (codeValues : List Nat)
    (pc : PrefixCode) (nd fd fx : Bool)
    (hc : PrefixCode.construct M false symbols codeValues = .ok pc)
    (hlen : symbols.length = codeValues.length)
    (hfit : ∀ s ∈ symbols, s.code < 2 ^ s.code_len)
    (hne : symbols ≠ []) :
    ∃ d, PrefixCodeTreeDecoder.setup nd pc fd fx = .ok d ∧
      ∀ bs : List Bool, M ≤ bs.length →
        ((∃ c l, readSymbol M d.tree bs = .error (.badHuffmanCode c l)) ↔
          ∀ s ∈ symbols, ¬ s.bits <+: bs) ∧
        ∀ (i : Nat) (hi : i < symbols.length) (hv : i < codeValues.length),
          symbols[i].bits <+: bs →
            readSymbol M d.tree bs =
              .ok ((symbols[i], codeValues[i]), bs.drop symbols[i].code_len) ∧
            symbols[i].bits ++ bs.drop symbols[i].code_len = bs ∧
            ∀ (j : Nat) (hj : j < symbols.length), symbols[j].bits <+: bs → j = i := by
  obtain ⟨d, hd, -, -, -, hh, hleaf, hbr⟩ :=
    PrefixCodeTreeDecoder.setup_spec M symbols codeValues pc nd fd fx hc hlen
  obtain ⟨-, -, hrange, -, hpf⟩ := PrefixCode.construct_ok M symbols codeValues pc hc
  refine ⟨d, hd, ?_⟩
  intro bs hbs
  have hcases := readSymbol_cases M d.tree bs (hbr hne) hh hbs
  constructor
  · constructor
    · rintro ⟨c, l, herr⟩ s hs
      rcases hcases with ⟨p, v, -, -, -, hok⟩ | ⟨hno, -⟩
      · rw [hok] at herr; cases herr
      · obtain ⟨i, hi, rfl⟩ := List.mem_iff_getElem.1 hs
        have hv : i < codeValues.length := by omega
        exact hno _ codeValues[i]
          ((hleaf _ _).2 ⟨_, mem_zip_getElem symbols codeValues i hi hv, rfl, rfl⟩)
    · intro hall
      rcases hcases with ⟨p, v, hp, hpre, -, -⟩ | ⟨-, c, l, -, herr⟩
      · obtain ⟨sv, hsv, rfl, -⟩ := (hleaf _ _).1 hp
        exact absurd hpre (hall _ (List.of_mem_zip hsv).1)
      · exact ⟨c, l, herr⟩
  · intro i hi hv hpre
    have hmem : symbols[i] ∈ symbols := List.getElem_mem _
    have hat : d.tree.leafAt symbols[i].bits = some codeValues[i] :=
      (hleaf _ _).2 ⟨_, mem_zip_getElem symbols codeValues i hi hv, rfl, rfl⟩
    have happ := List.prefix_iff_eq_append.1 hpre
    rw [CodeSymbol.bits_length] at happ
    have hr := readSymbolLoop_hit M symbols[i].bits d.tree 0 1 codeValues[i]
      (bs.drop symbols[i].code_len) hat (hbr hne)
      (by rw [CodeSymbol.bits_length]; have := (hrange _ hmem).2; omega)
    rw [happ, CodeSymbol.accumulate_bits _ (hfit _ hmem), CodeSymbol.bits_length] at hr
    refine ⟨?_, happ, ?_⟩
    · rw [readSymbol, hr]
      simp
    · intro j hj hprej
      have hpw := List.pairwise_iff_getElem.1 hpf
      rcases Nat.lt_trichotomy j i with hlt | heq | hgt
      · have := hpw j i hj hi hlt
        rcases List.prefix_or_prefix_of_prefix hprej hpre with h | h
        · exact absurd h this.1
        · exact absurd h this.2
      · exact heq
      · have := hpw i j hi hj hgt
        rcases List.prefix_or_prefix_of_prefix hpre hprej with h | h
        · exact absurd h this.1
        · exact absurd h this.2

/-- Witness for C3: the three-symbol code `0`, `10`, `110`. -/
theorem readSymbol_error_iff_witness :
    ∃ d, PrefixCodeTreeDecoder.setup false
        ⟨[5, 6, 7], [0, 1, 1, 1], [⟨0, 1⟩, ⟨2, 2⟩, ⟨6, 3⟩]⟩ true false = .ok d ∧
      ∀ bs : List Bool, 16 ≤ bs.length →
        ((∃ c l, readSymbol 16 d.tree bs = .error (.badHuffmanCode c l)) ↔
          ∀ s ∈ [(⟨0, 1⟩ : CodeSymbol), ⟨2, 2⟩, ⟨6, 3⟩], ¬ s.bits <+: bs) ∧
        ∀ (i : Nat) (hi : i < [(⟨0, 1⟩ : CodeSymbol), ⟨2, 2⟩, ⟨6, 3⟩].length)
          (hv : i < [5, 6, 7].length),
          ([(⟨0, 1⟩ : CodeSymbol), ⟨2, 2⟩, ⟨6, 3⟩][i]).bits <+: bs →
            readSymbol 16 d.tree bs =
              .ok (([(⟨0, 1⟩ : CodeSymbol), ⟨2, 2⟩, ⟨6, 3⟩][i], [5, 6, 7][i]),
                bs.drop ([(⟨0, 1⟩ : CodeSymbol), ⟨2, 2⟩, ⟨6, 3⟩][i]).code_len) ∧
            ([(⟨0, 1⟩ : CodeSymbol), ⟨2, 2⟩, ⟨6, 3⟩][i]).bits ++
              bs.drop ([(⟨0, 1⟩ : CodeSymbol), ⟨2, 2⟩, ⟨6, 3⟩][i]).code_len = bs ∧
            ∀ (j : Nat) (hj : j < [(⟨0, 1⟩ : CodeSymbol), ⟨2, 2⟩, ⟨6, 3⟩].length),
              ([(⟨0, 1⟩ : CodeSymbol), ⟨2, 2⟩, ⟨6, 3⟩][j]).bits <+: bs → j = i :=
  readSymbol_error_iff 16 [⟨0, 1⟩, ⟨2, 2⟩, ⟨6, 3⟩] [5, 6, 7]
    ⟨[5, 6, 7], [0, 1, 1, 1], [⟨0, 1⟩, ⟨2, 2⟩, ⟨6, 3⟩]⟩ false true false rfl rfl (by decide)
    (by decide)

/-- C4: for the tree that `setup` builds from a non-empty model accepted by the
constructor, and every bit sequence holding at least `MaxCodeLenghtBits` cached bits,
`readSymbol` never fails an invariant (no step runs with `code_len` above
`MaxCodeLenghtBits`, no bit is read beyond the cache): it either returns a symbol after
consuming `code_len ≤ MaxCodeLenghtBits` bits, or raises `bad Huffman code` with a
partial length of at most `MaxCodeLenghtBits`. -/
theorem readSymbol_bounded (M : Nat) (symbols : List CodeSymbol) (codeValues : List Nat)
    (pc : PrefixCode) (nd fd fx : Bool)
    (hc : PrefixCode.construct M false symbols codeValues = .ok pc)
    (hlen : symbols.length = codeValues.length)
    (hne : symbols ≠ []) :
    ∃ d, PrefixCodeTreeDecoder.setup nd pc fd fx = .ok d ∧
      ∀ bs : List Bool, M ≤ bs.length →
        readSymbol M d.tree bs ≠ .error .assertion ∧
        ((∃ s v rest, readSymbol M d.tree bs = .ok ((s, v), rest) ∧
            s.code_len ≤ M ∧ rest = bs.drop s.code_len ∧
            bs.length = s.code_len + rest.length) ∨
          (∃ c l, readSymbol M d.tree bs = .error (.badHuffmanCode c l) ∧ l ≤ M)) := by
  obtain ⟨d, hd, -, -, -, hh, -, hbr⟩ :=
    PrefixCodeTreeDecoder.setup_spec M symbols codeValues pc nd fd fx hc hlen
  refine ⟨d, hd, ?_⟩
  intro bs hbs
  rcases readSymbol_cases M d.tree bs (hbr hne) hh hbs with
    ⟨p, v, -, -, hpl, hok⟩ | ⟨-, c, l, hl, herr⟩
  · refine ⟨by rw [hok]; simp, Or.inl ⟨_, v, _, hok, hpl, rfl, ?_⟩⟩
    simp only [List.length_drop]
    omega
  · exact ⟨by rw [herr]; simp, Or.inr ⟨c, l, herr, hl⟩⟩

/-- Witness for C4: the three-symbol code `0`, `10`, `110`. -/
theorem readSymbol_bounded_witness :
    ∃ d, PrefixCodeTreeDecoder.setup false
        ⟨[5, 6, 7], [0, 1, 1, 1], [⟨0, 1⟩, ⟨2, 2⟩, ⟨6, 3⟩]⟩ true false = .ok d ∧
      ∀ bs : List Bool, 16 ≤ bs.length →
        readSymbol 16 d.tree bs ≠ .error .assertion ∧
        ((∃ s v rest, readSymbol 16 d.tree bs = .ok ((s, v), rest) ∧
            s.code_len ≤ 16 ∧ rest = bs.drop s.code_len ∧
            bs.length = s.code_len + rest.length) ∨
          (∃ c l, readSymbol 16 d.tree bs = .error (.badHuffmanCode c l) ∧ l ≤ 16)) :=
  readSymbol_bounded 16 [⟨0, 1⟩, ⟨2, 2⟩, ⟨6, 3⟩] [5, 6, 7]
    ⟨[5, 6, 7], [0, 1, 1, 1], [⟨0, 1⟩, ⟨2, 2⟩, ⟨6, 3⟩]⟩ false true false rfl rfl (by decide)

/-! ## Prefix-free codes are feasible (Kraft) -/

theorem incomparable_nil_mem (ps : List (List Bool)) (h : ps.Pairwise Incomparable)
    (hn : [] ∈ ps) : ps = [[]] := by
  cases ps with
  | nil => simp at hn
  | cons a rest =>
    obtain ⟨h1, -⟩ := List.pairwise_cons.1 h
    cases a with
    | nil =>
      cases rest with
      | nil => rfl
      | cons r rest => exact absurd List.nil_prefix (h1 r (List.mem_cons_self _ _)).1
    | cons b a =>
      have hr : [] ∈ rest := by simpa using hn
      exact absurd List.nil_prefix (h1 [] hr).2

theorem kraftSum_split (L : Nat) : ∀ ps : List (List Bool), [] ∉ ps →
    kraftSum (L + 1) ps = kraftSum L (tailsAfter false ps) + kraftSum L (tailsAfter true ps) := by
  intro ps
  induction ps with
  | nil => intro _; rfl
  | cons a ps ih =>
    intro hn
    have hn2 : [] ∉ ps := fun h => hn (List.mem_cons_of_mem _ h)
    have ih := ih hn2
    simp only [kraftSum, tailsAfter] at ih ⊢
    cases a with
    | nil => simp at hn
    | cons b q =>
      have hw : extensions (L + 1) (b :: q) = extensions L q := by
        simp [extensions]
      cases b
      · simp only [List.map_cons, List.sum_cons, hw, ih]
        simp [List.filterMap_cons]
        omega
      · simp only [List.map_cons, List.sum_cons, hw, ih]
        simp [List.filterMap_cons]
        omega

theorem incomparable_tailsAfter (b : Bool) (ps : List (List Bool))
    (h : ps.Pairwise Incomparable) : (tailsAfter b ps).Pairwise Incomparable := by
  unfold tailsAfter
  refine List.Pairwise.filterMap _ ?_ h
  intro p q hpq p2 hp2 q2 hq2
  cases p with
  | nil => simp at hp2
  | cons c p =>
    cases q with
    | nil => simp at hq2
    | cons d q =>
      simp only [Option.mem_def, Option.ite_none_right_eq_some, Option.some.injEq] at hp2 hq2
      obtain ⟨rfl, rfl⟩ := hp2
      obtain ⟨rfl, rfl⟩ := hq2
      simpa [Incomparable, List.cons_prefix_cons] using hpq

/-- The Kraft inequality for pairwise incomparable paths. -/
theorem kraftSum_le (L : Nat) : ∀ ps : List (List Bool), ps.Pairwise Incomparable →
    kraftSum L ps ≤ 2 ^ L := by
  induction L with
  | zero =>
    intro ps h
    by_cases hn : [] ∈ ps
    · rw [incomparable_nil_mem ps h hn]
      simp [kraftSum, extensions]
    · have : ∀ p ∈ ps, extensions 0 p = 0 := by
        intro p hp
        cases p with
        | nil => exact absurd hp hn
        | cons b p => simp [extensions]
      have hz : ps.map (extensions 0) = ps.map (fun _ => 0) := List.map_congr_left this
      simp [kraftSum, hz]
  | succ L ih =>
    intro ps h
    by_cases hn : [] ∈ ps
    · rw [incomparable_nil_mem ps h hn]
      simp [kraftSum, extensions]
    · rw [kraftSum_split L ps hn, pow_succ]
      have h0 := ih _ (incomparable_tailsAfter false ps h)
      have h1 := ih _ (incomparable_tailsAfter true ps h)
      omega

theorem extensions_succ (L : Nat) (p : List Bool) :
    extensions (L + 1) p = 2 * extensions L p + (if p.length = L + 1 then 1 else 0) := by
  unfold extensions
  by_cases h1 : p.length ≤ L
  · have e : L + 1 - p.length = (L - p.length) + 1 := by omega
    rw [if_pos h1, if_pos (by omega), if_neg (by omega), e, pow_succ]
    omega
  · by_cases h2 : p.length = L + 1
    · rw [if_neg h1, if_pos (by omega), if_pos h2, h2]
      simp
    · rw [if_neg h1, if_neg (by omega), if_neg h2]

theorem kraftSum_succ (L : Nat) : ∀ ps : List (List Bool),
    kraftSum (L + 1) ps =
      2 * kraftSum L ps + ps.countP (fun p => decide (p.length = L + 1)) := by
  intro ps
  induction ps with
  | nil => rfl
  | cons a ps ih =>
    simp only [kraftSum] at ih
    simp only [kraftSum, List.map_cons, List.sum_cons, ih, extensions_succ L a,
      List.countP_cons, decide_eq_true_eq]
    omega

theorem kraftSum_zero_properPaths (symbols : List CodeSymbol) :
    kraftSum 0 (properPaths symbols) = 0 := by
  induction symbols with
  | nil => rfl
  | cons s ss ih =>
    simp only [properPaths, kraftSum, List.map_map] at ih ⊢
    by_cases h : 0 < s.code_len
    · have hx : extensions 0 s.bits = 0 := by
        simp [extensions, CodeSymbol.bits_length]
        omega
      simp [List.filter_cons, h, ih, hx]
    · simp [List.filter_cons, h, ih]

theorem countP_properPaths (symbols : List CodeSymbol) (k : Nat) :
    (properPaths symbols).countP (fun p => decide (p.length = k + 1)) =
      codesOfLength symbols (k + 1) := by
  induction symbols with
  | nil => rfl
  | cons s ss ih =>
    simp only [properPaths, codesOfLength] at ih ⊢
    by_cases h : 0 < s.code_len
    · by_cases h2 : s.code_len = k + 1
      · simp [List.filter_cons, h, List.countP_cons, CodeSymbol.bits_length, h2, ih]
      · simp [List.filter_cons, h, List.countP_cons, CodeSymbol.bits_length, h2, ih]
    · have h2 : ¬ s.code_len = k + 1 := by omega
      simp [List.filter_cons, h, List.countP_cons, h2, ih]

theorem leafSlots_eq (symbols : List CodeSymbol) (k : Nat)
    (hk : kraftSum k (properPaths symbols) ≤ 2 ^ k) :
    leafSlots symbols k = 2 * ((2 ^ k : Nat) - (kraftSum k (properPaths symbols) : Nat) : Int) := by
  induction k with
  | zero => simp [leafSlots, kraftSum_zero_properPaths]
  | succ k ih =>
    have hs := kraftSum_succ k (properPaths symbols)
    rw [countP_properPaths] at hs
    have hk2 : kraftSum k (properPaths symbols) ≤ 2 ^ k := by
      rw [hs, pow_succ] at hk
      omega
    rw [leafSlots, ih hk2, hs, pow_succ]
    push_cast
    ring

theorem incomparable_properPaths (symbols : List CodeSymbol) (h : PrefixFree symbols) :
    (properPaths symbols).Pairwise Incomparable := by
  unfold properPaths
  rw [List.pairwise_map]
  exact List.Pairwise.filter _ h

/-- Pairwise prefix-free symbols satisfy canonical feasibility. -/
theorem feasible_of_prefixFree (symbols : List CodeSymbol) (h : PrefixFree symbols) :
    Feasible symbols := by
  intro k
  have hK := fun L => kraftSum_le L _ (incomparable_properPaths symbols h)
  have hs := kraftSum_succ k (properPaths symbols)
  rw [countP_properPaths] at hs
  have h1 := hK (k + 1)
  rw [hs, pow_succ] at h1
  rw [leafSlots_eq symbols k (hK k)]
  have h0 := hK k
  omega

/-! ## Claims on the construction of `PrefixCode` -/

/-- C2 (as stated, refuted): the symbols `0`, `0`, `1` of length 1 violate canonical
feasibility (three codes for the two slots of length 1) and prefix-freedom, yet the
constructor built with `NDEBUG` returns a `PrefixCode`; built with assertions it stops
on a failed assertion, which is not a thrown `RawspeedException`. -/
theorem construct_infeasible_not_validation_error :
    ¬ Feasible [⟨0, 1⟩, ⟨0, 1⟩, ⟨1, 1⟩] ∧ ¬ PrefixFree [⟨0, 1⟩, ⟨0, 1⟩, ⟨1, 1⟩] ∧
    PrefixCode.construct 16 true [⟨0, 1⟩, ⟨0, 1⟩, ⟨1, 1⟩] [5, 6, 7] =
      .ok ⟨[5, 6, 7], [0, 3], [⟨0, 1⟩, ⟨0, 1⟩, ⟨1, 1⟩]⟩ ∧
    PrefixCode.construct 16 false [⟨0, 1⟩, ⟨0, 1⟩, ⟨1, 1⟩] [5, 6, 7] = .error .assertion ∧
    Fault.assertion.isRawspeedException = false := by
  refine ⟨fun h => absurd (h 0) (by decide), ?_, rfl, rfl, rfl⟩
  intro h
  have := (List.pairwise_cons.1 h).1 ⟨0, 1⟩ (by simp)
  exact this.1 (List.prefix_refl _)

/-- C2 (amended): with assertions enabled, constructing a `PrefixCode` from symbols that
violate canonical feasibility or prefix-freedom stops on a failed assertion of the
constructor; the constructor returns no `PrefixCode`, so no tree is built from it. -/
theorem construct_rejects_invalid (M : Nat) (symbols : List CodeSymbol)
    (codeValues : List Nat) (h : ¬ Feasible symbols ∨ ¬ PrefixFree symbols) :
    PrefixCode.construct M false symbols codeValues = .error .assertion ∧
      ∀ pc, PrefixCode.construct M false symbols codeValues ≠ .ok pc := by
  have hno : ∀ pc, PrefixCode.construct M false symbols codeValues ≠ .ok pc := by
    intro pc hc
    have hpf := (PrefixCode.construct_ok M symbols codeValues pc hc).2.2.2.2
    rcases h with h | h
    · exact h (feasible_of_prefixFree symbols hpf)
    · exact h hpf
  refine ⟨?_, hno⟩
  cases hr : PrefixCode.construct M false symbols codeValues with
  | error e => rw [PrefixCode.construct_error_kind M symbols codeValues e hr]
  | ok pc => exact absurd hr (hno pc)

/-- Witness for C2 (amended): the codes `0`, `1` use both slots of length 1, and `10`
is a third code. -/
theorem construct_rejects_invalid_witness :
    (¬ Feasible [⟨0, 1⟩, ⟨1, 1⟩, ⟨2, 2⟩] ∨ ¬ PrefixFree [⟨0, 1⟩, ⟨1, 1⟩, ⟨2, 2⟩]) ∧
    PrefixCode.construct 16 false [⟨0, 1⟩, ⟨1, 1⟩, ⟨2, 2⟩] [1, 2, 3] = .error .assertion ∧
      ∀ pc, PrefixCode.construct 16 false [⟨0, 1⟩, ⟨1, 1⟩, ⟨2, 2⟩] [1, 2, 3] ≠ .ok pc :=
  ⟨Or.inl (fun h => absurd (h 1) (by decide)),
    construct_rejects_invalid 16 [⟨0, 1⟩, ⟨1, 1⟩, ⟨2, 2⟩] [1, 2, 3]
      (Or.inl (fun h => absurd (h 1) (by decide)))⟩

/-! ## Claims on the residual and on the bit streamer -/

theorem bitsMSB_split (n : Nat) : ∀ (a b m : Nat),
    bitsMSB (a % 2 ^ n + 2 ^ n * b) (n + m) = bitsMSB b m ++ bitsMSB a n := by
  induction n with
  | zero =>
    intro a b m
    simp [bitsMSB, Nat.mod_one]
  | succ n ih =>
    intro a b m
    have e : n + 1 + m = (n + m) + 1 := by omega
    rw [e, bitsMSB, bitsMSB, ← List.append_assoc, ← ih (a / 2) b m]
    have hm : a % 2 ^ (n + 1) = a % 2 + 2 * (a / 2 % 2 ^ n) := by
      rw [pow_succ, Nat.mul_comm, Nat.mod_mul]
    have hp : 2 ^ (n + 1) * b = 2 * (2 ^ n * b) := by rw [pow_succ]; ring
    have hr : a % 2 < 2 := Nat.mod_lt _ (by norm_num)
    have h1 : (a % 2 ^ (n + 1) + 2 ^ (n + 1) * b) / 2 = a / 2 % 2 ^ n + 2 ^ n * b := by
      rw [hm, hp]; omega
    have h2 : (a % 2 ^ (n + 1) + 2 ^ (n + 1) * b) % 2 = a % 2 := by
      rw [hm, hp]; omega
    rw [h1, h2]

theorem bitsMSB_mod (n a : Nat) : bitsMSB (a % 2 ^ n) n = bitsMSB a n := by
  have := bitsMSB_split n a 0 0
  simpa [bitsMSB] using this

theorem bitsMSB_getLE32 (b0 b1 b2 b3 : Nat) :
    bitsMSB (getLE32 b0 b1 b2 b3) 32 =
      bitsMSB b3 8 ++ bitsMSB b2 8 ++ bitsMSB b1 8 ++ bitsMSB b0 8 := by
  have e : getLE32 b0 b1 b2 b3 =
      b0 % 2 ^ 8 + 2 ^ 8 * (b1 % 2 ^ 8 + 2 ^ 8 * (b2 % 2 ^ 8 + 2 ^ 8 * (b3 % 2 ^ 8))) := by
    unfold getLE32; norm_num; ring
  rw [e, show (32 : Nat) = 8 + 24 from rfl, bitsMSB_split, show (24 : Nat) = 8 + 16 from rfl,
    bitsMSB_split, show (16 : Nat) = 8 + 8 from rfl, bitsMSB_split, bitsMSB_mod]

/-- C7 (as stated, refuted): after `fillCache` on the bytes `0x80, 0, 0, 1` the first
bit read is 0, the top bit of the last byte, while the top bit of the first byte is 1;
the 32 bits are not those of the bytes in input order. -/
theorem fillCache_not_big_endian :
    ∃ c, BitStreamerMSB32.fillCache [] [0x80, 0, 0, 1] = .ok (c, 4) ∧
      c.head? = some false ∧ (bitsMSB 0x80 8).head? = some true ∧
      c ≠ bitsMSB 0x80 8 ++ bitsMSB 0 8 ++ bitsMSB 0 8 ++ bitsMSB 1 8 :=
  ⟨_, rfl, by decide, by decide, by decide⟩

/-- C7 (amended): `fillCache` takes the 4 input bytes as one little-endian 32-bit word
and appends its 32 bits to the cache, to be read most significant bit first: after
`fillCache` on the bytes `b0, b1, b2, b3` the 32 bits read are those of `b3, b2, b1, b0`
in that order, so the first bit read is the top bit of `b3`. -/
theorem fillCache_little_endian (cache : List Bool) (b0 b1 b2 b3 : Nat) :
    BitStreamerMSB32.fillCache cache [b0, b1, b2, b3] =
      .ok (cache ++ (bitsMSB b3 8 ++ bitsMSB b2 8 ++ bitsMSB b1 8 ++ bitsMSB b0 8), 4) ∧
    getBitsNoFill (bitsMSB b3 8 ++ bitsMSB b2 8 ++ bitsMSB b1 8 ++ bitsMSB b0 8) 32 =
      .ok (getLE32 b0 b1 b2 b3, []) := by
  have hlt : getLE32 b0 b1 b2 b3 < 2 ^ 32 := by
    unfold getLE32; omega
  constructor
  · simp only [BitStreamerMSB32.fillCache, cachePush, bitsMSB_getLE32]
  · rw [← bitsMSB_getLE32]
    have hl := bitsMSB_length (getLE32 b0 b1 b2 b3) 32
    have ha := accumulate_bitsMSB 0 _ 32 hlt
    simp only [getBitsNoFill, hl, le_refl, if_true]
    rw [List.take_of_length_le (by omega), List.drop_of_length_le (by omega), ha]
    simp

/-- C6: for `k` in `1..16` and a `k`-bit raw value, with the vendor-bug flag unset,
full-decode mode consumes the `k` bits and reconstructs a residual from which the
re-encoding convention recovers the raw value; so no other `k`-bit raw value gives the
same residual. -/
theorem residual_reencode (k raw : Nat) (legacy16 : Nat → Int) (rest : List Bool)
    (hk1 : 1 ≤ k) (hk16 : k ≤ 16) (hraw : raw < 2 ^ k) :
    processSymbol true false legacy16 (bitsMSB raw k ++ rest) k = .ok (extend raw k, rest) ∧
      reencode k (extend raw k) = raw ∧
      ∀ raw2 : Nat, raw2 < 2 ^ k → extend raw2 k = extend raw k → raw2 = raw := by
  have hre : ∀ r : Nat, r < 2 ^ k → reencode k (extend r k) = r := by
    intro r hr
    have hk : k = (k - 1) + 1 := by omega
    have hpow : 2 ^ k = 2 * 2 ^ (k - 1) := by
      conv_lhs => rw [hk, pow_succ]
      ring
    have hpos : 0 < 2 ^ (k - 1) := pow_pos (by norm_num) _
    have hq : r / 2 ^ (k - 1) < 2 :=
      Nat.div_lt_of_lt_mul (by omega)
    have hpowZ : (2 : Int) ^ k = 2 * ((2 ^ (k - 1) : Nat) : Int) := by
      have := congrArg (fun n : Nat => (n : Int)) hpow
      simpa using this
    have hk0 : ¬ k = 0 := by omega
    by_cases htop : r / 2 ^ (k - 1) % 2 = 0
    · have hlt : r < 2 ^ (k - 1) := by
        have : r / 2 ^ (k - 1) = 0 := by
          generalize r / 2 ^ (k - 1) = x at hq htop ⊢
          omega
        exact (Nat.div_eq_zero_iff hpos).1 this
      have hx : extend r k = (r : Int) - (2 ^ k - 1) := by
        unfold extend
        rw [if_neg hk0, if_pos htop]
      have hneg : (r : Int) - (2 ^ k - 1) < 0 := by
        rw [hpowZ]; omega
      rw [hx, reencode, if_pos hneg]
      ring
    · have hx : extend r k = (r : Int) := by
        unfold extend
        rw [if_neg hk0, if_neg htop]
      rw [hx, reencode, if_neg (by omega)]
  refine ⟨?_, hre raw hraw, ?_⟩
  · have hl := bitsMSB_length raw k
    have ha := accumulate_bitsMSB 0 raw k hraw
    simp only [processSymbol, getBitsNoFill, List.length_append, hl]
    simp [List.take_append_of_le_length, List.drop_append_of_le_length, hl, ha]
  · intro raw2 h2 heq
    have := hre raw2 h2
    rw [heq, hre raw hraw] at this
    exact_mod_cast this.symm

/-- Witness for C6: `k = 3`, raw value `2` (residual `-5`). -/
theorem residual_reencode_witness :
    processSymbol true false (fun _ => 0) (bitsMSB 2 3 ++ [true]) 3 =
        .ok (extend 2 3, [true]) ∧
      reencode 3 (extend 2 3) = (2 : Nat) ∧
      ∀ raw2 : Nat, raw2 < 2 ^ 3 → extend raw2 3 = extend 2 3 → raw2 = 2 :=
  residual_reencode 3 2 (fun _ => 0) [true] (by decide) (by decide) (by decide)

/-! ## Claims on `Cr2SliceWidths` -/

theorem Cr2SliceWidths.construct_zero (sliceWidth lastSliceWidth : Nat) :
    Cr2SliceWidths.construct 0 sliceWidth lastSliceWidth = .error (.rde "Bad slice count") := by
  simp [Cr2SliceWidths.construct]

theorem Cr2SliceWidths.construct_pos (numSlices sliceWidth lastSliceWidth : Nat)
    (h : numSlices ≠ 0) :
    Cr2SliceWidths.construct numSlices sliceWidth lastSliceWidth =
      .ok { numSlices := numSlices, sliceWidth := sliceWidth,
            lastSliceWidth := lastSliceWidth } := by
  have h1 : ¬ ((numSlices : Int) < 1) := by omega
  simp [Cr2SliceWidths.construct, h1]

/-- C8: constructing `Cr2SliceWidths(numSlices, sliceWidth, lastSliceWidth)` raises
`Bad slice count` if and only if `numSlices` is 0; otherwise it succeeds and stores the
three values unchanged, whatever the two widths are. -/
theorem Cr2SliceWidths.construct_iff (numSlices sliceWidth lastSliceWidth : Nat) :
    (Cr2SliceWidths.construct numSlices sliceWidth lastSliceWidth =
        .error (.rde "Bad slice count") ↔ numSlices = 0) ∧
    (numSlices ≠ 0 →
      Cr2SliceWidths.construct numSlices sliceWidth lastSliceWidth =
        .ok { numSlices := numSlices, sliceWidth := sliceWidth,
              lastSliceWidth := lastSliceWidth }) := by
  refine ⟨⟨?_, ?_⟩, Cr2SliceWidths.construct_pos numSlices sliceWidth lastSliceWidth⟩
  · intro h
    by_contra hne
    rw [Cr2SliceWidths.construct_pos numSlices sliceWidth lastSliceWidth hne] at h
    cases h
  · rintro rfl
    exact Cr2SliceWidths.construct_zero sliceWidth lastSliceWidth

theorem Cr2SliceWidthIterator.collect_from (s : Cr2SliceWidths) (hn : 1 ≤ s.numSlices) :
    ∀ (k : Nat) (i : Int), 0 ≤ i → i + k + 1 = s.numSlices →
      Cr2SliceWidthIterator.collect ⟨s, s.numSlices⟩ ⟨s, i⟩ =
        .ok (List.replicate k s.sliceWidth ++ [s.lastSliceWidth]) := by
  intro k
  induction k with
  | zero =>
    intro i hi hk
    have hne : ¬ i = s.numSlices := by omega
    have hlt : 0 ≤ i ∧ i < s.numSlices := by omega
    have hlast : i + 1 = s.numSlices := by omega
    rw [Cr2SliceWidthIterator.collect]
    simp only [Cr2SliceWidthIterator.equal, if_true, hne, decide_False, hlt, and_self,
      dite_true, Cr2SliceWidthIterator.deref, Cr2SliceWidths.widthOfSlice, hlast,
      Cr2SliceWidthIterator.next]
    rw [Cr2SliceWidthIterator.collect]
    simp [Cr2SliceWidthIterator.equal]
  | succ k ih =>
    intro i hi hk
    have hne : ¬ i = s.numSlices := by omega
    have hlt : 0 ≤ i ∧ i < s.numSlices := by omega
    have hlast : ¬ i + 1 = s.numSlices := by omega
    rw [Cr2SliceWidthIterator.collect]
    simp only [Cr2SliceWidthIterator.equal, if_true, hne, decide_False, hlt, and_self,
      dite_true, Cr2SliceWidthIterator.deref, Cr2SliceWidths.widthOfSlice, hlast, if_false,
      Cr2SliceWidthIterator.next]
    rw [ih (i + 1) (by omega) (by push_cast at hk ⊢; omega)]
    simp [List.replicate_succ]

/-- C9: for every successfully constructed `Cr2SliceWidths`, iterating from `begin()` to
`end()` yields exactly `numSlices` widths in slice order, `sliceWidth` for every slice
before the last and `lastSliceWidth` for the last, as `widthOfSlice` gives them; their
sum is `(numSlices - 1) * sliceWidth + lastSliceWidth`. -/
theorem Cr2SliceWidths.widths_eq (numSlices sliceWidth lastSliceWidth : Nat)
    (s : Cr2SliceWidths)
    (h : Cr2SliceWidths.construct numSlices sliceWidth lastSliceWidth = .ok s) :
    ∃ ws, s.widths = .ok ws ∧ ws.length = numSlices ∧
      ws = List.replicate (numSlices - 1) (sliceWidth : Int) ++ [(lastSliceWidth : Int)] ∧
      (∀ (i : Nat) (hi : i < ws.length), s.widthOfSlice i = .ok ws[i] ∧
        ws[i] = if i + 1 = numSlices then (lastSliceWidth : Int) else sliceWidth) ∧
      ws.sum = ((numSlices : Int) - 1) * sliceWidth + lastSliceWidth := by
  have hn : numSlices ≠ 0 := by
    rintro rfl
    rw [Cr2SliceWidths.construct_zero] at h
    cases h
  rw [Cr2SliceWidths.construct_pos numSlices sliceWidth lastSliceWidth hn] at h
  cases h
  have hcol := Cr2SliceWidthIterator.collect_from
    ⟨numSlices, sliceWidth, lastSliceWidth⟩ (by simp; omega) (numSlices - 1) 0 (le_refl _)
    (by simp; omega)
  refine ⟨_, ?_, ?_, rfl, ?_, ?_⟩
  · simp only [Cr2SliceWidths.widths, Cr2SliceWidths.begin, Cr2SliceWidths.end,
      Cr2SliceWidthIterator.construct]
    have h1 : (0 : Int) ≤ numSlices := by omega
    simp only [le_refl, h1, and_self, if_true]
    exact hcol
  · simp; omega
  · intro i hi
    have hi2 : i < numSlices := by simp at hi; omega
    have hlt : (0 : Int) ≤ i ∧ (i : Int) < numSlices := by omega
    by_cases hl : i + 1 = numSlices
    · have hlZ : (i : Int) + 1 = numSlices := by omega
      have e : i = (List.replicate (numSlices - 1) (sliceWidth : Int)).length := by
        simp; omega
      have hg : (List.replicate (numSlices - 1) (sliceWidth : Int) ++
          [(lastSliceWidth : Int)])[i] = lastSliceWidth := by
        simp [List.getElem_append_right, e]
      rw [hg]
      simp [Cr2SliceWidths.widthOfSlice, hlt, hlZ, hl]
    · have hlZ : ¬ (i : Int) + 1 = numSlices := by omega
      have hg : (List.replicate (numSlices - 1) (sliceWidth : Int) ++
          [(lastSliceWidth : Int)])[i] = sliceWidth := by
        rw [List.getElem_append_left (by simp; omega)]
        simp
      rw [hg]
      simp [Cr2SliceWidths.widthOfSlice, hlt, hlZ, hl]
  · simp only [List.sum_append, List.sum_replicate, List.sum_cons, List.sum_nil, smul_eq_mul]
    have : ((numSlices - 1 : Nat) : Int) = (numSlices : Int) - 1 := by omega
    simp [this]

/-- Witness for C9: three slices of widths 10, 10 and 7. -/
theorem Cr2SliceWidths.widths_eq_witness :
    ∃ ws, (⟨3, 10, 7⟩ : Cr2SliceWidths).widths = .ok ws ∧ ws.length = 3 ∧
      ws = List.replicate (3 - 1) ((10 : Nat) : Int) ++ [((7 : Nat) : Int)] ∧
      (∀ (i : Nat) (hi : i < ws.length),
        (⟨3, 10, 7⟩ : Cr2SliceWidths).widthOfSlice i = .ok ws[i] ∧
        ws[i] = if i + 1 = 3 then ((7 : Nat) : Int) else ((10 : Nat) : Int)) ∧
      ws.sum = (((3 : Nat) : Int) - 1) * ((10 : Nat) : Int) + ((7 : Nat) : Int) :=
  Cr2SliceWidths.widths_eq 3 10 7 ⟨3, 10, 7⟩ rfl

/-- Witness for C8: three slices are accepted and stored. -/
theorem Cr2SliceWidths.construct_iff_witness :
    Cr2SliceWidths.construct 3 10 7 =
      .ok { numSlices := (3 : Nat), sliceWidth := (10 : Nat), lastSliceWidth := (7 : Nat) } :=
  (Cr2SliceWidths.construct_iff 3 10 7).2 (by decide)

/-! ## Claims on `PhaseOneDecompressor::prepareStrips` -/

theorem toSizeT_eq_iff (x : Int) (k : Nat) (hx : -2 ^ 31 ≤ x ∧ x < 2 ^ 31) (hk : k ≤ 2 ^ 31) :
    toSizeT x = k ↔ x = k := by
  unfold toSizeT
  constructor
  · intro h
    omega
  · intro h
    omega

theorem stripsMatchRows_iff : ∀ (l : List PhaseOneStrip) (i : Nat),
    (∀ s ∈ l, -2 ^ 31 ≤ s.n ∧ s.n < 2 ^ 31) → i + l.length ≤ 2 ^ 31 →
    (stripsMatchRows l i = true ↔
      l.map (fun s => s.n) = (List.range' i l.length).map Int.ofNat) := by
  intro l
  induction l with
  | nil => intro i _ _; simp [stripsMatchRows]
  | cons s l ih =>
    intro i hr hlen
    simp only [List.length_cons] at hlen
    have h1 := toSizeT_eq_iff s.n i (hr s (List.mem_cons_self _ _)) (by omega)
    have h2 := ih (i + 1) (fun t ht => hr t (List.mem_cons_of_mem _ ht)) (by omega)
    simp only [stripsMatchRows, Bool.and_eq_true, decide_eq_true_eq, h1, h2, List.map_cons,
      List.length_cons, List.range'_succ, List.cons.injEq, Int.ofNat_eq_coe]

theorem sorted_rows (k : Nat) :
    ((List.range k).map Int.ofNat).Sorted (fun a b => a ≤ b) := by
  unfold List.Sorted
  rw [List.pairwise_map]
  exact (List.pairwise_le_range k).imp (fun h => by simpa using h)

/-- C10: for an image height and row indices that are `int` values, and a vector of
fewer than `2 ^ 63` strips, `prepareStrips` succeeds if and only if the number of strips
equals the height and the row indices are a permutation of `0..height-1`; it then leaves
the strips sorted by row, strip `i` being the one of row `i`; in every other case it
raises a decode error. -/
theorem prepareStrips_iff (height : Int) (strips : List PhaseOneStrip)
    (hh : -2 ^ 31 ≤ height ∧ height < 2 ^ 31)
    (hn : ∀ s ∈ strips, -2 ^ 31 ≤ s.n ∧ s.n < 2 ^ 31)
    (hsize : strips.length < 2 ^ 63) :
    ((∃ sorted, prepareStrips height strips = .ok sorted) ↔
      ((strips.length : Int) = height ∧
        (strips.map (fun s => s.n)).Perm ((List.range strips.length).map Int.ofNat))) ∧
    (∀ sorted, prepareStrips height strips = .ok sorted →
      sorted.Perm strips ∧
      sorted.map (fun s => s.n) = (List.range strips.length).map Int.ofNat) ∧
    ((∀ sorted, prepareStrips height strips ≠ .ok sorted) →
      ∃ msg, prepareStrips height strips = .error (.rde msg)) := by
  haveI : IsTotal PhaseOneStrip (fun a b => a.n ≤ b.n) := ⟨fun a b => le_total a.n b.n⟩
  haveI : IsTrans PhaseOneStrip (fun a b => a.n ≤ b.n) :=
    ⟨fun a b c hab hbc => le_trans hab hbc⟩
  have hperm := List.perm_insertionSort (fun a b : PhaseOneStrip => a.n ≤ b.n) strips
  have hsorted := List.sorted_insertionSort (fun a b : PhaseOneStrip => a.n ≤ b.n) strips
  have hlen_iff : strips.length = toSizeT height ↔ (strips.length : Int) = height := by
    unfold toSizeT
    constructor
    · intro h; omega
    · intro h; omega
  have hmatch : (strips.length : Int) = height →
      (stripsMatchRows (strips.insertionSort (fun a b => a.n ≤ b.n)) 0 = true ↔
        (strips.insertionSort (fun a b => a.n ≤ b.n)).map (fun s => s.n) =
          (List.range strips.length).map Int.ofNat) := by
    intro hl
    rw [stripsMatchRows_iff _ 0 (fun s hs => hn s (hperm.mem_iff.1 hs))
      (by rw [hperm.length_eq]; omega), hperm.length_eq, List.range_eq_range']
  have hok : ∀ sorted, prepareStrips height strips = .ok sorted →
      (strips.length : Int) = height ∧ sorted = strips.insertionSort (fun a b => a.n ≤ b.n) ∧
      sorted.map (fun s => s.n) = (List.range strips.length).map Int.ofNat := by
    intro sorted h
    unfold prepareStrips at h
    split at h
    · cases h
    · rename_i hl
      have hl := hlen_iff.1 (not_not.1 hl)
      simp only at h
      split at h
      · rename_i hm
        cases h
        exact ⟨hl, rfl, (hmatch hl).1 hm⟩
      · cases h
  refine ⟨⟨?_, ?_⟩, ?_, ?_⟩
  · rintro ⟨sorted, h⟩
    obtain ⟨hl, rfl, hm⟩ := hok sorted h
    refine ⟨hl, ?_⟩
    rw [← hm]
    exact (hperm.map _).symm
  · rintro ⟨hl, hp⟩
    have hm : (strips.insertionSort (fun a b => a.n ≤ b.n)).map (fun s => s.n) =
        (List.range strips.length).map Int.ofNat := by
      refine List.eq_of_perm_of_sorted ((hperm.map _).trans hp) ?_ (sorted_rows _)
      unfold List.Sorted
      rw [List.pairwise_map]
      exact hsorted
    refine ⟨strips.insertionSort (fun a b => a.n ≤ b.n), ?_⟩
    unfold prepareStrips
    rw [if_neg (not_not.2 (hlen_iff.2 hl))]
    simp only
    rw [if_pos ((hmatch hl).2 hm)]
  · intro sorted h
    obtain ⟨-, rfl, hm⟩ := hok sorted h
    exact ⟨hperm, hm⟩
  · intro hno
    by_cases hl : strips.length = toSizeT height
    · by_cases hm : stripsMatchRows (strips.insertionSort (fun a b => a.n ≤ b.n)) 0 = true
      · have hsucc : prepareStrips height strips =
            .ok (strips.insertionSort (fun a b => a.n ≤ b.n)) := by
          unfold prepareStrips
          rw [if_neg (not_not.2 hl)]
          simp only
          rw [if_pos hm]
        exact absurd hsucc (hno _)
      · refine ⟨"Strips validation issue.", ?_⟩
        unfold prepareStrips
        rw [if_neg (not_not.2 hl)]
        simp only
        rw [if_neg hm]
    · refine ⟨"Height vs strip count mismatch", ?_⟩
      unfold prepareStrips
      rw [if_pos hl]

/-- Witness for C10: three strips given in the order of rows 2, 0, 1. -/
theorem prepareStrips_iff_witness :
    ((∃ sorted, prepareStrips 3 [⟨2, [7]⟩, ⟨0, [8]⟩, ⟨1, [9]⟩] = .ok sorted) ↔
      ((([⟨2, [7]⟩, ⟨0, [8]⟩, ⟨1, [9]⟩] : List PhaseOneStrip).length : Int) = 3 ∧
        (([⟨2, [7]⟩, ⟨0, [8]⟩, ⟨1, [9]⟩] : List PhaseOneStrip).map (fun s => s.n)).Perm
          ((List.range ([⟨2, [7]⟩, ⟨0, [8]⟩, ⟨1, [9]⟩] : List PhaseOneStrip).length).map
            Int.ofNat))) ∧
    (∀ sorted, prepareStrips 3 [⟨2, [7]⟩, ⟨0, [8]⟩, ⟨1, [9]⟩] = .ok sorted →
      sorted.Perm [⟨2, [7]⟩, ⟨0, [8]⟩, ⟨1, [9]⟩] ∧
      sorted.map (fun s => s.n) =
        (List.range ([⟨2, [7]⟩, ⟨0, [8]⟩, ⟨1, [9]⟩] : List PhaseOneStrip).length).map
          Int.ofNat) ∧
    ((∀ sorted, prepareStrips 3 [⟨2, [7]⟩, ⟨0, [8]⟩, ⟨1, [9]⟩] ≠ .ok sorted) →
      ∃ msg, prepareStrips 3 [⟨2, [7]⟩, ⟨0, [8]⟩, ⟨1, [9]⟩] = .error (.rde msg)) :=
  prepareStrips_iff 3 [⟨2, [7]⟩, ⟨0, [8]⟩, ⟨1, [9]⟩] (by decide) (by decide) (by decide)

/-! ## Claims on the fuzz harness loop -/

theorem BitStreamerMSB32.fillCache_four (cache : List Bool) (chunk : List Nat)
    (h : chunk.length = 4) :
    ∃ c, BitStreamerMSB32.fillCache cache chunk = .ok (c, 4) ∧ c.length = cache.length + 32 := by
  match chunk, h with
  | [b0, b1, b2, b3], _ =>
    exact ⟨_, rfl, by simp [cachePush, bitsMSB_length]⟩

/-- What `fill(32)` does: it raises the exhaustion error, or it leaves at least 32 bits
cached without increasing the bits still to come. -/
theorem BitStreamer.fill_spec (slack : Nat) (s : BitStreamer) :
    (∃ msg, s.fill slack 32 = .error (.ioe msg)) ∨
    (∃ s2, s.fill slack 32 = .ok s2 ∧ 32 ≤ s2.cache.length ∧
      s2.remaining slack ≤ s.remaining slack) := by
  unfold BitStreamer.fill
  by_cases h1 : 32 ≤ s.cache.length
  · exact Or.inr ⟨s, by rw [if_pos h1], h1, le_refl _⟩
  · rw [if_neg h1]
    by_cases h2 : s.input.length + slack < s.pos
    · exact Or.inl ⟨_, by rw [if_pos h2]⟩
    · rw [if_neg h2]
      obtain ⟨c, hc, hl⟩ := BitStreamerMSB32.fillCache_four s.cache
        ((s.input.drop s.pos ++ List.replicate 4 0).take 4) (by simp)
      refine Or.inr ⟨{ s with pos := s.pos + 4, cache := c }, by rw [hc], ?_, ?_⟩
      · simp only [hl]; omega
      · simp only [BitStreamer.remaining, hl]
        omega

theorem processSymbol_ok (fd fx : Bool) (legacy16 : Nat → Int) (cache : List Bool) (v : Nat)
    (h : fd = true → v ≤ cache.length) :
    ∃ r rest, processSymbol fd fx legacy16 cache v = .ok (r, rest) ∧
      rest.length ≤ cache.length := by
  cases fd with
  | false => exact ⟨v, cache, rfl, le_refl _⟩
  | true =>
    have hv := h rfl
    by_cases hbug : fx = true ∧ v = 16
    · refine ⟨legacy16 (accumulate 0 (cache.take v)), cache.drop v, ?_, by simp⟩
      simp only [processSymbol, getBitsNoFill, if_pos hv, if_pos hbug]
      simp
    · refine ⟨extend (accumulate 0 (cache.take v)) v, cache.drop v, ?_, by simp⟩
      simp only [processSymbol, getBitsNoFill, if_pos hv, if_neg hbug]
      simp

/-- The `fill` of the pumps `BitPumpMSB32` and `BitPumpMSB` is the `fill` that the
decoders of Phase One and Fuji use. -/
theorem BitPump.fill_embedded (slack : Nat) (s : BitStreamer) (nbits : Nat) :
    BitPumpMSB32.fill slack s nbits = s.fill slack nbits ∧
    BitPumpMSB.fill slack s nbits = BitStreamerMSB.fill slack s nbits :=
  ⟨rfl, rfl⟩

/-- The pump of BitStreamerMSB32.h meets the contract. -/
theorem BitPumpMSB32_contract : BitPumpMSB32.Contract := by
  intro cache chunk hc hl
  obtain ⟨c, h1, h2⟩ := BitStreamerMSB32.fillCache_four cache chunk hl
  exact ⟨c, 4, h1, by omega, by omega, by omega⟩

/-- The pump `BitPumpMSB` meets the contract. -/
theorem BitPumpMSB_contract : BitPumpMSB.Contract := by
  intro cache chunk hc hl
  match chunk, hl with
  | [b0, b1, b2, b3], _ =>
    refine ⟨_, 4, rfl, ?_, ?_, by omega⟩
    · simp only [cachePush, List.length_append, bitsMSB_length]
      omega
    · simp only [cachePush, List.length_append, bitsMSB_length]
      omega

/-- The example pump with byte stuffing meets the contract. -/
theorem stuffedPump_contract : stuffedPump.Contract := by
  intro cache chunk hc hl
  match chunk, hl with
  | [b0, b1, b2, b3, b4, b5, b6, b7], _ =>
    by_cases hs : b0 = 0xFF ∧ b1 = 0
    · refine ⟨cachePush cache (getBE32 b0 b2 b3 b4) 32, 5, ?_, ?_, ?_, by omega⟩
      · simp only [stuffedPump, if_pos hs]
      · simp only [cachePush, List.length_append, bitsMSB_length]
        omega
      · simp only [cachePush, List.length_append, bitsMSB_length]
        omega
    · refine ⟨cachePush cache (getBE32 b0 b1 b2 b3) 32, 4, ?_, ?_, ?_, by omega⟩
      · simp only [stuffedPump, if_neg hs]
      · simp only [cachePush, List.length_append, bitsMSB_length]
        omega
      · simp only [cachePush, List.length_append, bitsMSB_length]
        omega

/-- Every pump that the harness selects meets the contract when the JPEG pump does. -/
theorem selectPump_contract (jpeg : BitPump) (hjpeg : jpeg.Contract) (pumpByte : Nat)
    (pump : BitPump) (h : selectPump jpeg pumpByte = some pump) : pump.Contract := by
  match pumpByte, h with
  | 0, h =>
    cases h
    exact BitPumpMSB_contract
  | 1, h =>
    cases h
    exact BitPumpMSB32_contract
  | 2, h =>
    cases h
    exact hjpeg

/-- What `fill(32)` of a pump that meets the contract does: it raises the exhaustion
error, or it leaves at least 32 bits cached without increasing the budget of bits. -/
theorem BitPump.fill_contract (p : BitPump) (hp : p.Contract) (slack : Nat) (s : BitStreamer) :
    (∃ msg, p.fill slack s 32 = .error (.ioe msg)) ∨
    (∃ s2, p.fill slack s 32 = .ok s2 ∧ 32 ≤ s2.cache.length ∧
      s2.budget slack ≤ s.budget slack) := by
  unfold BitPump.fill
  by_cases h1 : 32 ≤ s.cache.length
  · exact Or.inr ⟨s, by rw [if_pos h1], h1, le_refl _⟩
  · rw [if_neg h1]
    by_cases h2 : s.input.length + slack < s.pos
    · exact Or.inl ⟨_, by rw [if_pos h2]⟩
    · rw [if_neg h2]
      obtain ⟨c, n, hc, hl32, hl64, hn⟩ := hp s.cache
        ((s.input.drop s.pos ++ List.replicate p.MaxProcessBytes 0).take p.MaxProcessBytes)
        (by omega) (by simp)
      refine Or.inr ⟨{ s with pos := s.pos + n, cache := c }, by rw [hc], hl32, ?_⟩
      simp only [BitStreamer.budget]
      omega

/-- Every call of `decode` on a pump that meets the contract either raises a
`RawspeedException` or consumes at least one of the bits still to come. -/
theorem PrefixCodeTreeDecoder.decode_progress (M : Nat) (pump : BitPump)
    (hp : pump.Contract) (slack : Nat) (legacy16 : Nat → Int)
    (d : PrefixCodeTreeDecoder) (s : BitStreamer)
    (hb : ∃ z o, d.tree = .branch z o) (hh : d.tree.height ≤ M) (hM : M ≤ 32)
    (hfull : d.fullDecode = true → M ≤ 16 ∧ ∀ q w, d.tree.leafAt q = some w → w ≤ 16) :
    (∃ e, d.decode M pump slack legacy16 d.fullDecode s = .error e ∧
      e.isRawspeedException = true) ∨
    (∃ v s2, d.decode M pump slack legacy16 d.fullDecode s = .ok (v, s2) ∧
      s2.budget slack < s.budget slack) := by
  unfold PrefixCodeTreeDecoder.decode
  rw [if_neg (by simp)]
  rcases BitPump.fill_contract pump hp slack s with ⟨msg, hf⟩ | ⟨s2, hf, h32, hrem⟩
  · exact Or.inl ⟨.ioe msg, by rw [hf], rfl⟩
  · rw [hf]
    simp only
    rcases readSymbol_cases M d.tree s2.cache hb hh (by omega) with
      ⟨p, v, hp, hpre, hpl, hok⟩ | ⟨-, c, l, -, herr⟩
    · rw [hok]
      simp only
      have hp1 : 1 ≤ p.length := by
        obtain ⟨z, o, hz⟩ := hb
        rw [hz] at hp
        cases p with
        | nil => simp [Bud.leafAt] at hp
        | cons b p => simp
      have hle : d.fullDecode = true → v ≤ (s2.cache.drop p.length).length := by
        intro hfd
        obtain ⟨hM16, hv⟩ := hfull hfd
        have hv16 := hv p v hp
        simp only [List.length_drop]; omega
      obtain ⟨r, rest, hps, hrl⟩ := processSymbol_ok d.fullDecode d.fixDNGBug16 legacy16
        (s2.cache.drop p.length) v hle
      rw [hps]
      refine Or.inr ⟨r, { s2 with cache := rest }, rfl, ?_⟩
      simp only [BitStreamer.budget, List.length_drop] at hrem hrl ⊢
      omega
    · rw [herr]
      exact Or.inl ⟨.badHuffmanCode c l, rfl, rfl⟩

theorem workloop_ends (M : Nat) (pump : BitPump) (hp : pump.Contract) (slack : Nat)
    (legacy16 : Nat → Int) (d : PrefixCodeTreeDecoder)
    (hb : ∃ z o, d.tree = .branch z o) (hh : d.tree.height ≤ M) (hM : M ≤ 32)
    (hfull : d.fullDecode = true → M ≤ 16 ∧ ∀ q w, d.tree.leafAt q = some w → w ≤ 16) :
    ∀ (fuel : Nat) (s : BitStreamer), s.budget slack < fuel →
      ∃ e, workloop M pump slack legacy16 d d.fullDecode fuel s = some e ∧
        e.isRawspeedException = true := by
  intro fuel
  induction fuel with
  | zero => intro s h; omega
  | succ fuel ih =>
    intro s h
    rcases PrefixCodeTreeDecoder.decode_progress M pump hp slack legacy16 d s hb hh hM
      hfull with ⟨e, he, hx⟩ | ⟨v, s2, hok, hlt⟩
    · exact ⟨e, by simp [workloop, he], hx⟩
    · obtain ⟨e, he, hx⟩ := ih s2 (by omega)
      exact ⟨e, by simp [workloop, hok, he], hx⟩

theorem workloop_mono (M : Nat) (pump : BitPump) (slack : Nat) (legacy16 : Nat → Int)
    (d : PrefixCodeTreeDecoder)
    (fd : Bool) : ∀ (fuel k : Nat) (s : BitStreamer) (e : Fault),
      workloop M pump slack legacy16 d fd fuel s = some e →
      workloop M pump slack legacy16 d fd (fuel + k) s = some e := by
  intro fuel
  induction fuel with
  | zero => intro k s e h; simp [workloop] at h
  | succ fuel ih =>
    intro k s e h
    have e1 : fuel + 1 + k = (fuel + k) + 1 := by omega
    rw [e1]
    simp only [workloop] at h ⊢
    split
    · rename_i e2 he
      rw [he] at h
      exact h
    · rename_i v s2 hok
      rw [hok] at h
      exact ih k s2 e h

/-- C5: for the decoder that `setup` builds from a non-empty model accepted by the
constructor (code lengths of at most 32 bits; in full-decode mode of at most 16 bits,
with difference lengths of at most 16), every pump that the harness selects by its
input byte (`BitPumpMSB`, `BitPumpMSB32`, and `BitPumpJPEG`, of which the contract of
section 4.3 is assumed) and every finite input buffer, every successful call of
`decode` consumes at least one of the bits still to come, and the loop of the fuzz
harness ends after finitely many calls of `decode` by raising a `RawspeedException`: it
neither returns normally nor runs forever. -/
theorem workloop_raises (M slack : Nat) (legacy16 : Nat → Int)
    (symbols : List CodeSymbol) (codeValues : List Nat) (pc : PrefixCode)
    (nd fd fx : Bool) (input : List Nat) (jpeg pump : BitPump) (pumpByte : Nat)
    (hc : PrefixCode.construct M false symbols codeValues = .ok pc)
    (hlen : symbols.length = codeValues.length) (hne : symbols ≠ [])
    (hM : M ≤ 32) (hfull : fd = true → M ≤ 16 ∧ ∀ v ∈ codeValues, v ≤ 16)
    (hjpeg : jpeg.Contract) (hpump : selectPump jpeg pumpByte = some pump) :
    ∃ d, PrefixCodeTreeDecoder.setup nd pc fd fx = .ok d ∧
      (∀ s v s2, d.decode M pump slack legacy16 d.fullDecode s = .ok (v, s2) →
        s2.budget slack < s.budget slack) ∧
      ∃ calls e, calls ≤ 64 * (input.length + slack + 1) + 1 ∧
        e.isRawspeedException = true ∧
        ∀ more, checkPump M pump slack legacy16 d input (calls + more) = some e := by
  have hp := selectPump_contract jpeg hjpeg pumpByte pump hpump
  obtain ⟨d, hd, -, hfd, -, hh, hleaf, hbr⟩ :=
    PrefixCodeTreeDecoder.setup_spec M symbols codeValues pc nd fd fx hc hlen
  have hb := hbr hne
  have hfull2 : d.fullDecode = true →
      M ≤ 16 ∧ ∀ q w, d.tree.leafAt q = some w → w ≤ 16 := by
    intro h
    rw [hfd] at h
    obtain ⟨h16, hv⟩ := hfull h
    refine ⟨h16, ?_⟩
    intro q w hq
    obtain ⟨sv, hsv, -, rfl⟩ := (hleaf q w).1 hq
    exact hv _ (List.of_mem_zip hsv).2
  refine ⟨d, hd, ?_, ?_⟩
  · intro s v s2 hok
    rcases PrefixCodeTreeDecoder.decode_progress M pump hp slack legacy16 d s hb hh hM
      hfull2 with ⟨e, he, -⟩ | ⟨v2, s3, hok2, hlt⟩
    · rw [he] at hok; cases hok
    · rw [hok2] at hok
      cases hok
      exact hlt
  · obtain ⟨e, he, hx⟩ := workloop_ends M pump hp slack legacy16 d hb hh hM hfull2
      (64 * (input.length + slack + 1) + 1) { input := input, pos := 0, cache := [] }
      (by simp [BitStreamer.budget])
    refine ⟨_, e, le_refl _, hx, ?_⟩
    intro more
    exact workloop_mono M pump slack legacy16 d d.fullDecode _ more _ e he

/-- Witness for C5: the three-symbol code `0`, `10`, `110` in full-decode mode on a
buffer of five bytes, with the pump that the byte 2 selects, an example pump with byte
stuffing in the place of `BitPumpJPEG`. -/
theorem workloop_raises_witness :
    ∃ d, PrefixCodeTreeDecoder.setup false
        ⟨[5, 6, 7], [0, 1, 1, 1], [⟨0, 1⟩, ⟨2, 2⟩, ⟨6, 3⟩]⟩ true false = .ok d ∧
      (∀ s v s2, d.decode 16 stuffedPump 8 (fun _ => -32768) d.fullDecode s = .ok (v, s2) →
        s2.budget 8 < s.budget 8) ∧
      ∃ calls e, calls ≤ 64 * ([0xA5, 0x5A, 0x00, 0xFF, 0x13].length + 8 + 1) + 1 ∧
        e.isRawspeedException = true ∧
        ∀ more, checkPump 16 stuffedPump 8 (fun _ => -32768) d
          [0xA5, 0x5A, 0x00, 0xFF, 0x13] (calls + more) = some e :=
  workloop_raises 16 8 (fun _ => -32768) [⟨0, 1⟩, ⟨2, 2⟩, ⟨6, 3⟩] [5, 6, 7]
    ⟨[5, 6, 7], [0, 1, 1, 1], [⟨0, 1⟩, ⟨2, 2⟩, ⟨6, 3⟩]⟩ false true false
    [0xA5, 0x5A, 0x00, 0xFF, 0x13] stuffedPump stuffedPump 2 rfl rfl (by decide)
    (by decide) (fun _ => ⟨by decide, by decide⟩) stuffedPump_contract rfl

/-! ## Claims on the constructor of `PhaseOneDecompressor` -/

/-- C12: constructing a `PhaseOneDecompressor` raises a decode error in the checks on the
image, before the strips are looked at, whenever the data type is not UINT16, or
components-per-pixel is not 1, or bytes-per-pixel is not 2, or the dimensions do not
have positive area, or the width is odd, or the width exceeds 11976, or the height
exceeds 8854; an image of width exactly 11976 and height exactly 8854 passes these
checks, and the constructor then succeeds whenever `prepareStrips` does. -/
theorem PhaseOneDecompressor.construct_checks (img : RawImage)
    (strips : List PhaseOneStrip) :
    ((img.dataType ≠ RawImageType.UINT16 ∨ img.cpp ≠ 1 ∨ img.bpp ≠ 2 ∨
        img.dim.hasPositiveArea = false ∨ img.dim.x % 2 ≠ 0 ∨ img.dim.x > 11976 ∨
        img.dim.y > 8854) →
      ∃ msg, PhaseOneDecompressor.checkImage img = .error (.rde msg) ∧
        PhaseOneDecompressor.construct img strips = .error (.rde msg)) ∧
    ((img.dataType = RawImageType.UINT16 ∧ img.cpp = 1 ∧ img.bpp = 2 ∧
        img.dim = ⟨11976, 8854⟩) →
      PhaseOneDecompressor.checkImage img = .ok () ∧
      ∀ sorted, prepareStrips 8854 strips = .ok sorted →
        ∃ d, PhaseOneDecompressor.construct img strips = .ok d ∧ d.strips = sorted) := by
  constructor
  · intro h
    by_cases h1 : img.dataType ≠ RawImageType.UINT16
    · exact ⟨"Unexpected data type", by rw [PhaseOneDecompressor.checkImage, if_pos h1],
        by rw [PhaseOneDecompressor.construct, PhaseOneDecompressor.checkImage, if_pos h1]⟩
    · by_cases h2 : img.cpp ≠ 1 ∨ img.bpp ≠ 2
      · exact ⟨"Unexpected cpp",
          by rw [PhaseOneDecompressor.checkImage, if_neg h1, if_pos h2],
          by rw [PhaseOneDecompressor.construct, PhaseOneDecompressor.checkImage,
            if_neg h1, if_pos h2]⟩
      · have h3 : img.dim.hasPositiveArea = false ∨ img.dim.x % 2 ≠ 0 ∨
            img.dim.x > 11976 ∨ img.dim.y > 8854 := by
          rcases h with h | h | h | h
          · exact absurd h h1
          · exact absurd (Or.inl h) h2
          · exact absurd (Or.inr h) h2
          · exact h
        exact ⟨"Unexpected image dimensions found",
          by rw [PhaseOneDecompressor.checkImage, if_neg h1, if_neg h2, if_pos h3],
          by rw [PhaseOneDecompressor.construct, PhaseOneDecompressor.checkImage,
            if_neg h1, if_neg h2, if_pos h3]⟩
  · rintro ⟨h1, h2, h3, h4⟩
    have hc : PhaseOneDecompressor.checkImage img = .ok () := by
      simp [PhaseOneDecompressor.checkImage, h1, h2, h3, h4, iPoint2D.hasPositiveArea]
    refine ⟨hc, ?_⟩
    intro sorted hs
    refine ⟨⟨img, sorted⟩, ?_, rfl⟩
    simp [PhaseOneDecompressor.construct, hc, h4, hs]

/-- Witness for C12: an image of odd width is rejected; an image of 11976 x 8854 passes
the checks. -/
theorem PhaseOneDecompressor.construct_checks_witness :
    (∃ msg, PhaseOneDecompressor.checkImage
        ⟨.UINT16, 1, 2, ⟨7, 4⟩, ⟨2, 2⟩, none, none, [], fun _ _ => none⟩ = .error (.rde msg) ∧
      PhaseOneDecompressor.construct
        ⟨.UINT16, 1, 2, ⟨7, 4⟩, ⟨2, 2⟩, none, none, [], fun _ _ => none⟩ [] =
          .error (.rde msg)) ∧
    PhaseOneDecompressor.checkImage
      ⟨.UINT16, 1, 2, ⟨11976, 8854⟩, ⟨2, 2⟩, none, none, [], fun _ _ => none⟩ = .ok () :=
  ⟨(PhaseOneDecompressor.construct_checks
      ⟨.UINT16, 1, 2, ⟨7, 4⟩, ⟨2, 2⟩, none, none, [], fun _ _ => none⟩ []).1
      (Or.inr (Or.inr (Or.inr (Or.inr (Or.inl (by decide)))))),
    ((PhaseOneDecompressor.construct_checks
      ⟨.UINT16, 1, 2, ⟨11976, 8854⟩, ⟨2, 2⟩, none, none, [], fun _ _ => none⟩ []).2
      ⟨rfl, rfl, rfl, rfl⟩).1⟩

/-! ## Claims on the columns of `decompressStrip` -/

theorem accumulate_lt (bs : List Bool) : ∀ c : Nat,
    accumulate c bs < (c + 1) * 2 ^ bs.length := by
  induction bs with
  | nil => intro c; simp [accumulate]
  | cons b bs ih =>
    intro c
    have h := ih (2 * c + (if b then 1 else 0))
    have hb : (2 * c + (if b then 1 else 0) + 1) ≤ 2 * (c + 1) := by
      cases b <;> simp <;> omega
    have hp : 0 < 2 ^ bs.length := pow_pos (by norm_num) _
    simp only [accumulate, List.length_cons]
    calc accumulate (2 * c + (if b then 1 else 0)) bs
        < (2 * c + (if b then 1 else 0) + 1) * 2 ^ bs.length := h
      _ ≤ (2 * (c + 1)) * 2 ^ bs.length := Nat.mul_le_mul_right _ hb
      _ = (c + 1) * 2 ^ (bs.length + 1) := by rw [pow_succ]; ring

theorem bitsMSB_eight_head (b : Nat) (h : 128 ≤ b % 256) :
    ∃ tail, bitsMSB b 8 = true :: tail ∧ tail.length = 7 := by
  have h7 : b / 2 / 2 / 2 / 2 / 2 / 2 / 2 % 2 = 1 := by omega
  refine ⟨(bitsMSB b 8).tail, ?_, ?_⟩
  · simp [bitsMSB, h7]
  · simp [bitsMSB]

theorem columnBranch_trailer (width col : Nat) (h : width - width % 8 ≤ col) :
    columnBranch width col = .trailer := by
  simp [columnBranch, h]

theorem columnBranch_zero (width : Nat) (h : 8 ≤ width) :
    columnBranch width 0 = .lengthInit := by
  have : ¬ width - width % 8 ≤ 0 := by omega
  simp [columnBranch, this]

/-- C13 (as stated, refuted): an image of width 2 is accepted by the checks of the
constructor, yet column 0 of its rows takes the trailer branch: no unary prefix is read,
both lengths are set to 14 and the sample is the first 16 bits of the strip. -/
theorem decodeColumn_narrow_image_skips_lengthInit :
    PhaseOneDecompressor.checkImage
      ⟨.UINT16, 1, 2, ⟨2, 1⟩, ⟨2, 2⟩, none, none, [], fun _ _ => none⟩ = .ok () ∧
    columnBranch 2 0 = .trailer ∧
    (decodeColumn 8 2 0 ⟨⟨[0x34, 0x12, 0xCD, 0xAB], 0, []⟩, (0, 0), (none, none)⟩).map
      (fun r => (r.1, r.2.len, r.2.pump.cache.length)) =
      .ok (0xABCD, (some 14, some 14), 16) :=
  ⟨rfl, rfl, rfl⟩

/-- C13 (amended): for every strip of every image accepted by the checks of the
constructor whose width is at least 8, column 0 of the row takes the
length-initialization branch: the unary prefixes of both lanes are read, and the first
sample is read from the bits after them.  For the accepted widths 2, 4 and 6, column 0
belongs to the row trailer. -/
theorem decodeColumn_zero_lengthInit (slack : Nat) (img : RawImage) (st : StripState)
    (filled : BitStreamer)
    (hc : PhaseOneDecompressor.checkImage img = .ok ())
    (hf : st.pump.fill slack 32 = .ok filled) :
    (8 ≤ img.width →
      columnBranch img.width.toNat 0 = .lengthInit ∧
      decodeColumn slack img.width.toNat 0 st =
        match readLaneLength 0 st.len.1 filled.cache with
        | .error e => .error e
        | .ok (len0, rest) =>
          match readLaneLength 0 st.len.2 rest with
          | .error e => .error e
          | .ok (len1, rest2) =>
            match readSample 0 st.pred (len0, len1) rest2 with
            | .error e => .error e
            | .ok (sample, pred2, rest3) =>
              .ok (sample, { pump := { filled with cache := rest3 }, pred := pred2,
                             len := (len0, len1) })) ∧
    (img.width < 8 → columnBranch img.width.toNat 0 = .trailer ∧
      (img.width = 2 ∨ img.width = 4 ∨ img.width = 6)) := by
  constructor
  · intro h8
    have hb := columnBranch_zero img.width.toNat (by omega)
    refine ⟨hb, ?_⟩
    simp only [decodeColumn, hf, selectLengths, hb]
    cases h0 : readLaneLength 0 st.len.1 filled.cache with
    | error e => rfl
    | ok r0 =>
      obtain ⟨len0, rest⟩ := r0
      simp only
      cases h1 : readLaneLength 0 st.len.2 rest with
      | error e => rfl
      | ok r1 => rfl
  · intro h8
    refine ⟨columnBranch_trailer _ _ (by omega), ?_⟩
    unfold PhaseOneDecompressor.checkImage at hc
    split at hc
    · cases hc
    · split at hc
      · cases hc
      · rename_i hcpp
        split at hc
        · cases hc
        · rename_i hdim
          simp only [iPoint2D.hasPositiveArea, Bool.and_eq_false_iff, decide_eq_false_iff_not,
            not_or, not_not, not_lt, ne_eq, gt_iff_lt, not_le] at hdim hcpp
          have hw : img.width = img.dim.x := by
            simp [RawImage.width, hcpp.1]
          rw [hw] at h8 ⊢
          omega

/-- Witness for C13 (amended): an image of width 8, a fresh pump over four bytes. -/
theorem decodeColumn_zero_lengthInit_witness :
    columnBranch 8 0 = .lengthInit :=
  ((decodeColumn_zero_lengthInit 8
      ⟨.UINT16, 1, 2, ⟨8, 1⟩, ⟨2, 2⟩, none, none, [], fun _ _ => none⟩
      ⟨⟨[0, 0, 0, 0], 0, []⟩, (0, 0), (none, none)⟩
      ⟨[0, 0, 0, 0], 4, cachePush [] (getLE32 0 0 0 0) 32⟩ rfl rfl).1 (by decide)).1

theorem BitStreamer.fill_fresh (slack : Nat) (b0 b1 b2 b3 : Nat) (rest : List Nat) :
    BitStreamer.fill slack ⟨b0 :: b1 :: b2 :: b3 :: rest, 0, []⟩ 32 =
      .ok ⟨b0 :: b1 :: b2 :: b3 :: rest, 4,
        bitsMSB b3 8 ++ bitsMSB b2 8 ++ bitsMSB b1 8 ++ bitsMSB b0 8⟩ := by
  simp [BitStreamer.fill, BitStreamerMSB32.fillCache, cachePush, bitsMSB_getLE32]

/-- C14 (as stated, refuted): in an image of width 2 the strip `0, 0, 0, 0xF8`, whose
bit stream begins with five 1 bits, is decoded without any error: column 0 is a trailer
column and its sample is the literal `0xF800`. -/
theorem decompressStrip_five_ones_narrow_image :
    (PhaseOneDecompressor.decompressStrip 8
      ⟨.UINT16, 1, 2, ⟨2, 1⟩, ⟨2, 2⟩, none, none, [], fun _ _ => none⟩
      ⟨0, [0, 0, 0, 0xF8]⟩).2 = none ∧
    (PhaseOneDecompressor.decompressStrip 8
      ⟨.UINT16, 1, 2, ⟨2, 1⟩, ⟨2, 2⟩, none, none, [], fun _ _ => none⟩
      ⟨0, [0, 0, 0, 0xF8]⟩).1.data 0 0 = some 0xF800 ∧
    (BitStreamer.fill 8 ⟨[0, 0, 0, 0xF8], 0, []⟩ 32).map (fun s => s.cache.take 5) =
      .ok [true, true, true, true, true] :=
  ⟨rfl, rfl, rfl⟩

/-- C14 (amended): for every strip of an image at least 8 samples wide whose bit stream
begins with a 1 bit (in particular with five 1 bits: the top bits of the fourth byte),
`decompressStrip` ends by raising `Can not initialize lengths. Data is corrupt.` at
column 0, without having written a sample. -/
theorem decompressStrip_leading_one (slack : Nat) (img : RawImage) (row : Int)
    (b0 b1 b2 b3 : Nat) (rest : List Nat)
    (hw : 8 ≤ img.width) (heven : img.width % 2 = 0) (hone : 128 ≤ b3 % 256) :
    PhaseOneDecompressor.decompressStrip slack img ⟨row, b0 :: b1 :: b2 :: b3 :: rest⟩ =
      (img, some (.rde "Can not initialize lengths. Data is corrupt.")) := by
  obtain ⟨tail, ht, -⟩ := bitsMSB_eight_head b3 hone
  have hpos : 0 < img.width ∧ img.width % 2 = 0 := ⟨by omega, heven⟩
  obtain ⟨w, hwe⟩ : ∃ w, img.width.toNat = w + 1 := ⟨img.width.toNat - 1, by omega⟩
  have hb := columnBranch_zero img.width.toNat (by omega)
  have hcol : decodeColumn slack img.width.toNat 0
      ⟨⟨b0 :: b1 :: b2 :: b3 :: rest, 0, []⟩, (0, 0), (none, none)⟩ =
      .error (.rde "Can not initialize lengths. Data is corrupt.") := by
    simp only [decodeColumn, BitStreamer.fill_fresh, selectLengths, hb, ht, readLaneLength,
      countZeroBits, getBitsNoFill]
    simp [accumulate]
  unfold PhaseOneDecompressor.decompressStrip
  rw [if_pos hpos]
  simp only
  conv_lhs => arg 4; rw [hwe]
  simp only [decodeColumns, hcol]

/-- Witness for C14 (amended): an image 8 samples wide, a strip starting with five 1
bits. -/
theorem decompressStrip_leading_one_witness :
    (PhaseOneDecompressor.decompressStrip 8
      ⟨.UINT16, 1, 2, ⟨8, 1⟩, ⟨2, 2⟩, none, none, [], fun _ _ => none⟩
      ⟨0, 0 :: 0 :: 0 :: 0xF8 :: [1, 2, 3, 4]⟩).2 =
      some (.rde "Can not initialize lengths. Data is corrupt.") :=
  congrArg Prod.snd (decompressStrip_leading_one 8
    ⟨.UINT16, 1, 2, ⟨8, 1⟩, ⟨2, 2⟩, none, none, [], fun _ _ => none⟩ 0 0 0 0 0xF8 [1, 2, 3, 4]
    (by decide) (by decide) (by decide))

theorem BitStreamer.fill_ok_length (slack : Nat) (s filled : BitStreamer)
    (h : s.fill slack 32 = .ok filled) : 32 ≤ filled.cache.length := by
  rcases BitStreamer.fill_spec slack s with ⟨msg, hf⟩ | ⟨s2, hf, h32, -⟩
  · rw [hf] at h; cases h
  · rw [hf] at h
    cases h
    exact h32

/-- C15: every column `col` with `col ≥ width - width % 8` (the row trailer) is decoded
as a 16-bit literal: no length-selection bits are read for it (both lengths become 14
and the bits are untouched), the sample is the next 16 bits of the stream, and the
predictor of the column's lane is set to that value, the other lane's being kept. -/
theorem decodeColumn_trailer (slack width col : Nat) (st : StripState)
    (filled : BitStreamer) (hf : st.pump.fill slack 32 = .ok filled)
    (ht : width - width % 8 ≤ col) :
    selectLengths width col st.len filled.cache = .ok ((some 14, some 14), filled.cache) ∧
    decodeColumn slack width col st =
      .ok (accumulate 0 (filled.cache.take 16),
        { pump := { filled with cache := filled.cache.drop 16 },
          pred := setLane col st.pred (accumulate 0 (filled.cache.take 16) : Int),
          len := (some 14, some 14) }) ∧
    lane col (setLane col st.pred (accumulate 0 (filled.cache.take 16) : Int)) =
      (accumulate 0 (filled.cache.take 16) : Int) ∧
    lane (col + 1) (setLane col st.pred (accumulate 0 (filled.cache.take 16) : Int)) =
      lane (col + 1) st.pred ∧
    accumulate 0 (filled.cache.take 16) < 2 ^ 16 := by
  have h32 := BitStreamer.fill_ok_length slack st.pump filled hf
  have hsel : selectLengths width col st.len filled.cache =
      .ok ((some 14, some 14), filled.cache) := by
    simp [selectLengths, columnBranch_trailer width col ht]
  have h16 : 16 ≤ filled.cache.length := by omega
  refine ⟨hsel, ?_, ?_, ?_, ?_⟩
  · simp only [decodeColumn, hf, hsel, readSample, getBitsNoFill, if_pos h16]
    by_cases hc : col % 2 = 0 <;> simp [lane, hc]
  · by_cases hc : col % 2 = 0 <;> simp [lane, setLane, hc]
  · by_cases hc : col % 2 = 0
    · have : (col + 1) % 2 ≠ 0 := by omega
      simp [lane, setLane, hc, this]
    · have : (col + 1) % 2 = 0 := by omega
      simp [lane, setLane, hc, this]
  · have := accumulate_lt (filled.cache.take 16) 0
    simp only [List.length_take, Nat.min_eq_left h16] at this
    omega

/-- Witness for C15: column 9 of a row of 10 samples, on a fresh pump. -/
theorem decodeColumn_trailer_witness :
    selectLengths 10 9 (none, none) (cachePush [] (getLE32 0x34 0x12 0xCD 0xAB) 32) =
      .ok ((some 14, some 14), cachePush [] (getLE32 0x34 0x12 0xCD 0xAB) 32) :=
  (decodeColumn_trailer 8 10 9 ⟨⟨[0x34, 0x12, 0xCD, 0xAB], 0, []⟩, (0, 0), (none, none)⟩
    ⟨[0x34, 0x12, 0xCD, 0xAB], 4, cachePush [] (getLE32 0x34 0x12 0xCD 0xAB) 32⟩ rfl
    (by decide)).1

/-- C16: when the length `L` of the current lane is not 14 (and is one of the lengths
of the table, which are at most 16), the lane's predictor becomes the previous
predictor plus `raw + 1 - 2 ^ (L - 1)`, where `raw` is the next `L` bits of the stream
read most significant bit first, so that the delta lies in
`[1 - 2 ^ (L - 1), 2 ^ (L - 1)]`; the other lane's predictor is unchanged; and the
sample written is the new predictor reduced modulo `2 ^ 16`.  The sum is an `int32_t`
and is assumed not to overflow. -/
theorem readSample_delta (col L : Nat) (pred : Int × Int) (len : Option Nat × Option Nat)
    (cache : List Bool)
    (hL : lane col len = some L) (h14 : L ≠ 14) (hpos : 1 ≤ L) (h16 : L ≤ 16)
    (hbits : L ≤ cache.length)
    (hfit : -2 ^ 31 ≤ lane col pred + ((accumulate 0 (cache.take L) : Int) + 1 - 2 ^ (L - 1)) ∧
      lane col pred + ((accumulate 0 (cache.take L) : Int) + 1 - 2 ^ (L - 1)) < 2 ^ 31) :
    readSample col pred len cache =
      .ok (((lane col pred + ((accumulate 0 (cache.take L) : Int) + 1 - 2 ^ (L - 1))) %
              2 ^ 16).toNat,
        setLane col pred
          (lane col pred + ((accumulate 0 (cache.take L) : Int) + 1 - 2 ^ (L - 1))),
        cache.drop L) ∧
    (1 - 2 ^ (L - 1) ≤ (accumulate 0 (cache.take L) : Int) + 1 - 2 ^ (L - 1) ∧
      (accumulate 0 (cache.take L) : Int) + 1 - 2 ^ (L - 1) ≤ 2 ^ (L - 1)) ∧
    lane col (setLane col pred
        (lane col pred + ((accumulate 0 (cache.take L) : Int) + 1 - 2 ^ (L - 1)))) =
      lane col pred + ((accumulate 0 (cache.take L) : Int) + 1 - 2 ^ (L - 1)) ∧
    lane (col + 1) (setLane col pred
        (lane col pred + ((accumulate 0 (cache.take L) : Int) + 1 - 2 ^ (L - 1)))) =
      lane (col + 1) pred := by
  have hraw := accumulate_lt (cache.take L) 0
  simp only [List.length_take, Nat.min_eq_left hbits, Nat.zero_add, Nat.one_mul] at hraw
  have hk : L = (L - 1) + 1 := by omega
  have hpow : (2 : Nat) ^ L = 2 * 2 ^ (L - 1) := by
    conv_lhs => rw [hk, pow_succ]
    ring
  have hpowZ : ((2 ^ (L - 1) : Nat) : Int) = (2 : Int) ^ (L - 1) := by push_cast; rfl
  refine ⟨?_, ⟨by omega, ?_⟩, ?_, ?_⟩
  · have h0 : ¬ (L = 0 ∨ 32 < L) := by omega
    have hno : ¬ (lane col pred + ((accumulate 0 (cache.take L) : Int) + 1 - 2 ^ (L - 1)) <
        -2 ^ 31 ∨ 2 ^ 31 ≤
          lane col pred + ((accumulate 0 (cache.take L) : Int) + 1 - 2 ^ (L - 1))) := by
      omega
    simp only [readSample, hL, if_neg h14, if_neg h0, getBitsNoFill, if_pos hbits]
    rw [if_neg hno]
  · rw [← hpowZ]
    omega
  · by_cases hc : col % 2 = 0 <;> simp [lane, setLane, hc]
  · by_cases hc : col % 2 = 0
    · have : (col + 1) % 2 ≠ 0 := by omega
      simp [lane, setLane, hc, this]
    · have : (col + 1) % 2 = 0 := by omega
      simp [lane, setLane, hc, this]

/-- Witness for C16: length 5 on an even column, the bits `10110` (raw 22, delta 7),
predictors 100 and 200. -/
theorem readSample_delta_witness :
    readSample 2 (100, 200) (some 5, some 14) [true, false, true, true, false, true] =
      .ok (((lane 2 ((100 : Int), (200 : Int)) +
          ((accumulate 0 ([true, false, true, true, false, true].take 5) : Int) + 1 -
            2 ^ (5 - 1))) % 2 ^ 16).toNat,
        setLane 2 (100, 200) (lane 2 ((100 : Int), (200 : Int)) +
          ((accumulate 0 ([true, false, true, true, false, true].take 5) : Int) + 1 -
            2 ^ (5 - 1))),
        [true, false, true, true, false, true].drop 5) :=
  (readSample_delta 2 5 (100, 200) (some 5, some 14) [true, false, true, true, false, true]
    rfl (by decide) (by decide) (by decide) (by decide) (by decide)).1

/-! ## The loop of `decompressStrip` never fails an invariant -/

theorem lengthTable_getD_mem : ∀ k : Nat, k < 10 → lengthTable.getD k 0 ∈ lengthTable := by
  decide

theorem lengthTable_bounds : ∀ L ∈ lengthTable, 5 ≤ L ∧ L ≤ 14 := by
  decide

theorem countZeroBits_spec (col : Nat) : ∀ (more j : Nat) (cache : List Bool),
    more ≤ cache.length →
    (col = 0 ∧ countZeroBits col more j cache =
        .error (.rde "Can not initialize lengths. Data is corrupt.")) ∨
    (∃ j2 rest, countZeroBits col more j cache = .ok (j2, rest) ∧ j ≤ j2 ∧ j2 ≤ j + more ∧
      (col = 0 → j2 = j + more) ∧ rest.length ≤ cache.length ∧
      cache.length ≤ rest.length + more) := by
  intro more
  induction more with
  | zero =>
    intro j cache _
    exact Or.inr ⟨j, cache, rfl, le_refl _, le_refl _, fun _ => rfl, le_refl _, le_refl _⟩
  | succ more ih =>
    intro j cache h
    match cache, h with
    | true :: rest, h =>
      by_cases hc : col = 0
      · left
        refine ⟨hc, ?_⟩
        simp [countZeroBits, getBitsNoFill, accumulate, hc]
      · right
        refine ⟨j, rest, ?_, le_refl _, by omega, fun h0 => absurd h0 hc, by simp, by simp⟩
        simp [countZeroBits, getBitsNoFill, accumulate, hc]
    | false :: rest, h =>
      have hstep : countZeroBits col (more + 1) j (false :: rest) =
          countZeroBits col more (j + 1) rest := by
        simp [countZeroBits, getBitsNoFill, accumulate]
      rw [hstep]
      rcases ih (j + 1) rest (by simpa using h) with ⟨h0, he⟩ | ⟨j2, r2, hok, h1, h2, h3, h4, h5⟩
      · exact Or.inl ⟨h0, he⟩
      · refine Or.inr ⟨j2, r2, hok, by omega, by omega, fun h0 => by have := h3 h0; omega, ?_, ?_⟩
        · simp only [List.length_cons]; omega
        · simp only [List.length_cons]; omega

theorem readLaneLength_spec (col : Nat) (len : Option Nat) (cache : List Bool)
    (h : 6 ≤ cache.length) :
    (col = 0 ∧ readLaneLength col len cache =
        .error (.rde "Can not initialize lengths. Data is corrupt.")) ∨
    (∃ len2 rest, readLaneLength col len cache = .ok (len2, rest) ∧
      rest.length ≤ cache.length ∧ cache.length ≤ rest.length + 6 ∧
      (len2 = len ∨ ∃ L ∈ lengthTable, len2 = some L) ∧
      (col = 0 → ∃ L ∈ lengthTable, len2 = some L)) := by
  rcases countZeroBits_spec col 5 0 cache (by omega) with
    ⟨h0, he⟩ | ⟨j2, rest, hok, -, h2, h3, h4, h5⟩
  · exact Or.inl ⟨h0, by simp [readLaneLength, he]⟩
  · right
    have hinv : (col = 0 ∧ 0 < j2) ∨ col ≠ 0 := by
      by_cases hc : col = 0
      · exact Or.inl ⟨hc, by have := h3 hc; omega⟩
      · exact Or.inr hc
    by_cases hj : 0 < j2
    · have h1 : 1 ≤ rest.length := by omega
      have hbit := accumulate_lt (rest.take 1) 0
      simp only [List.length_take, Nat.min_eq_left h1] at hbit
      have hmem := lengthTable_getD_mem (2 * (j2 - 1) + accumulate 0 (rest.take 1)) (by omega)
      refine ⟨some (lengthTable.getD (2 * (j2 - 1) + accumulate 0 (rest.take 1)) 0),
        rest.drop 1, ?_, ?_, ?_, Or.inr ⟨_, hmem, rfl⟩, fun _ => ⟨_, hmem, rfl⟩⟩
      · simp only [readLaneLength, hok, if_pos hinv, if_pos hj, getBitsNoFill, if_pos h1]
      · simp only [List.length_drop]; omega
      · simp only [List.length_drop]; omega
    · refine ⟨len, rest, ?_, h4, by omega, Or.inl rfl, ?_⟩
      · simp only [readLaneLength, hok, if_pos hinv, if_neg hj]
      · intro hc
        have := h3 hc
        omega

theorem selectLengths_spec (width col : Nat) (len : Option Nat × Option Nat)
    (cache : List Bool) (h : 12 ≤ cache.length) (hlen : col ≠ 0 → LengthsAssigned len) :
    (col = 0 ∧ selectLengths width col len cache =
        .error (.rde "Can not initialize lengths. Data is corrupt.")) ∨
    (∃ len2 rest, selectLengths width col len cache = .ok (len2, rest) ∧
      LengthsAssigned len2 ∧ rest.length ≤ cache.length ∧
      cache.length ≤ rest.length + 12) := by
  unfold selectLengths
  cases hb : columnBranch width col with
  | trailer =>
    exact Or.inr ⟨_, _, rfl, ⟨⟨14, by decide, rfl⟩, ⟨14, by decide, rfl⟩⟩, le_refl _, by omega⟩
  | keep =>
    have hc : col ≠ 0 := by
      rintro rfl
      unfold columnBranch at hb
      split at hb
      · cases hb
      · simp at hb
    exact Or.inr ⟨_, _, rfl, hlen hc, le_refl _, by omega⟩
  | lengthInit =>
    simp only
    rcases readLaneLength_spec col len.1 cache (by omega) with
      ⟨h0, he⟩ | ⟨l0, r0, hok0, ha0, hb0, hc0, hd0⟩
    · exact Or.inl ⟨h0, by rw [he]⟩
    · rw [hok0]
      simp only
      rcases readLaneLength_spec col len.2 r0 (by omega) with
        ⟨h0, he⟩ | ⟨l1, r1, hok1, ha1, hb1, hc1, hd1⟩
      · exact Or.inl ⟨h0, by rw [he]⟩
      · rw [hok1]
        refine Or.inr ⟨(l0, l1), r1, rfl, ?_, by omega, by omega⟩
        by_cases hc : col = 0
        · exact ⟨hd0 hc, hd1 hc⟩
        · obtain ⟨g0, g1⟩ := hlen hc
          constructor
          · rcases hc0 with h | h
            · simpa [h] using g0
            · exact h
          · rcases hc1 with h | h
            · simpa [h] using g1
            · exact h

theorem readSample_spec (col : Nat) (pred : Int × Int) (len : Option Nat × Option Nat)
    (cache : List Bool) (B : Int) (hl : LengthsAssigned len) (h16 : 16 ≤ cache.length)
    (hB : 65535 ≤ B) (hB2 : B + 4096 < 2 ^ 31)
    (hp1 : -B ≤ pred.1 ∧ pred.1 ≤ B) (hp2 : -B ≤ pred.2 ∧ pred.2 ≤ B) :
    ∃ sample pred2 rest, readSample col pred len cache = .ok (sample, pred2, rest) ∧
      sample < 2 ^ 16 ∧ rest.length ≤ cache.length ∧ cache.length ≤ rest.length + 16 ∧
      (-(B + 4096) ≤ pred2.1 ∧ pred2.1 ≤ B + 4096) ∧
      (-(B + 4096) ≤ pred2.2 ∧ pred2.2 ≤ B + 4096) := by
  have hlane : ∃ L ∈ lengthTable, lane col len = some L := by
    unfold lane
    split
    · exact hl.1
    · exact hl.2
  obtain ⟨L, hmem, hL⟩ := hlane
  have hLb := lengthTable_bounds L hmem
  have hpl : -B ≤ lane col pred ∧ lane col pred ≤ B := by
    unfold lane
    split
    · exact hp1
    · exact hp2
  by_cases h14 : L = 14
  · subst h14
    have hv := accumulate_lt (cache.take 16) 0
    simp only [List.length_take, Nat.min_eq_left h16] at hv
    refine ⟨accumulate 0 (cache.take 16), setLane col pred (accumulate 0 (cache.take 16) : Int),
      cache.drop 16, ?_, by omega, by simp, by simp only [List.length_drop]; omega, ?_, ?_⟩
    · simp only [readSample, hL, if_true, getBitsNoFill, if_pos h16]
    · unfold setLane
      split
      · simp only; omega
      · simp only; omega
    · unfold setLane
      split
      · simp only; omega
      · simp only; omega
  · have hbits : L ≤ cache.length := by omega
    have hraw := accumulate_lt (cache.take L) 0
    simp only [List.length_take, Nat.min_eq_left hbits, Nat.zero_add, Nat.one_mul] at hraw
    have hk : L = (L - 1) + 1 := by omega
    have hpow : (2 : Nat) ^ L = 2 * 2 ^ (L - 1) := by
      conv_lhs => rw [hk, pow_succ]
      ring
    have hle : (2 : Nat) ^ (L - 1) ≤ 2 ^ 12 := Nat.pow_le_pow_right (by norm_num) (by omega)
    have hpowZ : ((2 ^ (L - 1) : Nat) : Int) = (2 : Int) ^ (L - 1) := by push_cast; rfl
    have hd : -4096 ≤ (accumulate 0 (cache.take L) : Int) + 1 - 2 ^ (L - 1) ∧
        (accumulate 0 (cache.take L) : Int) + 1 - 2 ^ (L - 1) ≤ 4096 := by
      rw [← hpowZ]
      omega
    generalize hdelta : (accumulate 0 (cache.take L) : Int) + 1 - 2 ^ (L - 1) = delta at hd
    have h0 : ¬ (L = 0 ∨ 32 < L) := by omega
    have hno : ¬ (lane col pred + delta < -2 ^ 31 ∨ 2 ^ 31 ≤ lane col pred + delta) := by
      omega
    refine ⟨((lane col pred + delta) % 2 ^ 16).toNat, setLane col pred (lane col pred + delta),
      cache.drop L, ?_, by omega, by simp, by simp only [List.length_drop]; omega, ?_, ?_⟩
    · simp only [readSample, hL, if_neg h14, if_neg h0, getBitsNoFill, if_pos hbits, hdelta]
      rw [if_neg hno]
    · unfold setLane
      split
      · simp only; omega
      · simp only; omega
    · unfold setLane
      split
      · simp only; omega
      · simp only; omega

theorem decodeColumn_spec (slack width col : Nat) (st : StripState)
    (hinv : StripInvariant col st) (hcol : col < 500000) :
    (∃ e, decodeColumn slack width col st = .error e ∧ e.isRawspeedException = true) ∨
    (∃ sample st2, decodeColumn slack width col st = .ok (sample, st2) ∧
      sample < 2 ^ 16 ∧ StripInvariant (col + 1) st2) := by
  obtain ⟨hlen, hp1, hp2⟩ := hinv
  unfold decodeColumn
  rcases BitStreamer.fill_spec slack st.pump with ⟨msg, hf⟩ | ⟨filled, hf, h32, -⟩
  · exact Or.inl ⟨.ioe msg, by rw [hf], rfl⟩
  · rw [hf]
    simp only
    rcases selectLengths_spec width col st.len filled.cache (by omega) hlen with
      ⟨-, he⟩ | ⟨len2, rest, hok, hass, hr1, hr2⟩
    · exact Or.inl ⟨.rde "Can not initialize lengths. Data is corrupt.", by rw [he], rfl⟩
    · rw [hok]
      simp only
      obtain ⟨sample, pred2, rest2, hs, hlt, -, -, hq1, hq2⟩ :=
        readSample_spec col st.pred len2 rest (65535 + 4096 * (col : Int)) hass (by omega)
          (by omega) (by omega) hp1 hp2
      rw [hs]
      refine Or.inr ⟨sample, _, rfl, hlt, fun _ => hass, ?_, ?_⟩
      · simp only; push_cast; omega
      · simp only; push_cast; omega

/-- Decoding a row never fails an invariant: it ends without a fault after all
columns, or with a `RawspeedException` before the last one. -/
theorem rowSamples_spec (slack width : Nat) : ∀ (more col : Nat) (st : StripState),
    StripInvariant col st → col + more ≤ 500000 →
    ((rowSamples slack width more col st).2 = none ∧
      (rowSamples slack width more col st).1.length = more) ∨
    (∃ e, (rowSamples slack width more col st).2 = some e ∧ e.isRawspeedException = true ∧
      (rowSamples slack width more col st).1.length < more) := by
  intro more
  induction more with
  | zero => intro col st _ _; exact Or.inl ⟨rfl, rfl⟩
  | succ more ih =>
    intro col st hinv hcol
    rcases decodeColumn_spec slack width col st hinv (by omega) with
      ⟨e, he, hx⟩ | ⟨sample, st2, hok, -, hinv2⟩
    · exact Or.inr ⟨e, by simp [rowSamples, he], hx, by simp [rowSamples, he]⟩
    · rcases ih (col + 1) st2 hinv2 (by omega) with ⟨h1, h2⟩ | ⟨e, h1, h2, h3⟩
      · exact Or.inl ⟨by simp [rowSamples, hok, h1], by simp [rowSamples, hok, h2]⟩
      · exact Or.inr ⟨e, by simp [rowSamples, hok, h1], h2, by simp [rowSamples, hok]; omega⟩

theorem stripSamples_spec (slack width : Nat) (bs : List Nat) (hw : width ≤ 500000) :
    ((stripSamples slack width bs).2 = none ∧ (stripSamples slack width bs).1.length = width) ∨
    (∃ e, (stripSamples slack width bs).2 = some e ∧ e.isRawspeedException = true ∧
      (stripSamples slack width bs).1.length < width) := by
  refine rowSamples_spec slack width width 0 _ ?_ (by omega)
  refine ⟨fun h => absurd rfl h, ?_, ?_⟩ <;> simp

/-! ## The image after `decompressStrip` and `decompressThread` -/

theorem RawImage.withRow_nil (img : RawImage) (row col : Nat) :
    img.withRow row col [] = img := by
  cases img
  simp only [RawImage.withRow, List.length_nil, Nat.add_zero]
  congr
  funext r c
  have : ¬ (r = row ∧ col ≤ c ∧ c < col) := by omega
  rw [if_neg this]

theorem RawImage.withRow_cons (img : RawImage) (row col v : Nat) (rest : List Nat) :
    (img.withRow row col [v]).withRow row (col + 1) rest = img.withRow row col (v :: rest) := by
  cases img
  simp only [RawImage.withRow, List.length_cons, List.length_nil]
  congr
  funext r c
  by_cases h1 : r = row ∧ col + 1 ≤ c ∧ c < col + 1 + rest.length
  · have h2 : r = row ∧ col ≤ c ∧ c < col + (rest.length + 1) := by omega
    have e : c - col = (c - (col + 1)) + 1 := by omega
    rw [if_pos h1, if_pos h2, e]
    rfl
  · rw [if_neg h1]
    by_cases h3 : r = row ∧ col ≤ c ∧ c < col + (0 + 1)
    · have h2 : r = row ∧ col ≤ c ∧ c < col + (rest.length + 1) := by omega
      have e : c - col = 0 := by omega
      rw [if_pos h3, if_pos h2, e]
      rfl
    · have h2 : ¬ (r = row ∧ col ≤ c ∧ c < col + (rest.length + 1)) := by omega
      rw [if_neg h3, if_neg h2]

theorem RawImage.write_eq (img : RawImage) (row : Int) (col v : Nat)
    (h : 0 ≤ row ∧ row < img.height ∧ (col : Int) < img.width) :
    img.write row col v = .ok (img.withRow row.toNat col [v]) := by
  cases img
  simp only [RawImage.write, if_pos h, RawImage.withRow, List.length_cons, List.length_nil]
  congr
  funext r c
  by_cases h1 : r = row.toNat ∧ c = col
  · have h2 : r = row.toNat ∧ col ≤ c ∧ c < col + (0 + 1) := by omega
    have e : c - col = 0 := by omega
    rw [if_pos h1, if_pos h2, e]
    rfl
  · have h2 : ¬ (r = row.toNat ∧ col ≤ c ∧ c < col + (0 + 1)) := by omega
    rw [if_neg h1, if_neg h2]

/-- The loop over the columns writes to the image the samples it computes, to the row
of the strip and nowhere else. -/
theorem decodeColumns_eq (slack width : Nat) (row : Int) :
    ∀ (more col : Nat) (st : StripState) (img : RawImage),
    0 ≤ row → row < img.height → ((col + more : Nat) : Int) ≤ img.width →
    decodeColumns slack width row more col st img =
      (img.withRow row.toNat col (rowSamples slack width more col st).1,
        (rowSamples slack width more col st).2) := by
  intro more
  induction more with
  | zero =>
    intro col st img _ _ _
    simp [decodeColumns, rowSamples, RawImage.withRow_nil]
  | succ more ih =>
    intro col st img h0 h1 h2
    cases hd : decodeColumn slack width col st with
    | error e => simp [decodeColumns, rowSamples, hd, RawImage.withRow_nil]
    | ok r =>
      obtain ⟨sample, st2⟩ := r
      have hw := RawImage.write_eq img row col sample ⟨h0, h1, by push_cast at h2 ⊢; omega⟩
      have := ih (col + 1) st2 (img.withRow row.toNat col [sample]) h0 h1
        (by simp only [RawImage.withRow, RawImage.width] at h2 ⊢; push_cast at h2 ⊢; omega)
      simp only [decodeColumns, rowSamples, hd, hw, this, RawImage.withRow_cons]

theorem PhaseOneDecompressor.decompressStrip_eq (slack : Nat) (img : RawImage)
    (strip : PhaseOneStrip) (hw : 0 < img.width) (heven : img.width % 2 = 0)
    (hrow : 0 ≤ strip.n ∧ strip.n < img.height) :
    PhaseOneDecompressor.decompressStrip slack img strip =
      (img.withRow strip.n.toNat 0 (stripSamples slack img.width.toNat strip.bs).1,
        (stripSamples slack img.width.toNat strip.bs).2) := by
  unfold PhaseOneDecompressor.decompressStrip stripSamples
  rw [if_pos ⟨hw, heven⟩]
  exact decodeColumns_eq slack _ strip.n _ 0 _ img hrow.1 hrow.2 (by simp; omega)

/-- The strips are all decoded, one after the other: each writes the samples it computes
to its own row, each `RawspeedException` is recorded, and no strip ends the thread. -/
theorem PhaseOneDecompressor.decompressThread_spec (slack : Nat) :
    ∀ (strips : List PhaseOneStrip) (img : RawImage),
    0 < img.width → img.width % 2 = 0 → img.width ≤ 500000 →
    (∀ s ∈ strips, 0 ≤ s.n ∧ s.n < img.height) →
    strips.Pairwise (fun a b => a.n ≠ b.n) →
    ∃ img2, PhaseOneDecompressor.decompressThread slack strips img = (img2, none) ∧
      img2.width = img.width ∧ img2.height = img.height ∧
      img2.errors = img.errors ++ strips.filterMap
        (fun s => (stripSamples slack img.width.toNat s.bs).2.map Fault.what) ∧
      (∀ s ∈ strips, ∀ c, c < (stripSamples slack img.width.toNat s.bs).1.length →
        img2.data s.n.toNat c =
          some ((stripSamples slack img.width.toNat s.bs).1.getD c 0)) ∧
      (∀ r c, (∀ s ∈ strips, s.n.toNat ≠ r) → img2.data r c = img.data r c) := by
  intro strips
  induction strips with
  | nil =>
    intro img _ _ _ _ _
    exact ⟨img, rfl, rfl, rfl, by simp, by simp, fun _ _ _ => rfl⟩
  | cons s rest ih =>
    intro img hw heven hmax hrows hpw
    have hs := hrows s (List.mem_cons_self _ _)
    obtain ⟨hsrest, hpw2⟩ := List.pairwise_cons.1 hpw
    have heq := PhaseOneDecompressor.decompressStrip_eq slack img s hw heven hs
    have hspec := stripSamples_spec slack img.width.toNat s.bs (by omega)
    -- the image after the strip
    have key : ∃ img1, PhaseOneDecompressor.decompressThread slack (s :: rest) img =
        PhaseOneDecompressor.decompressThread slack rest img1 ∧
        img1.width = img.width ∧ img1.height = img.height ∧
        img1.errors = img.errors ++
          ((stripSamples slack img.width.toNat s.bs).2.map Fault.what).toList ∧
        img1.data = (img.withRow s.n.toNat 0 (stripSamples slack img.width.toNat s.bs).1).data := by
      rcases hspec with ⟨hnone, -⟩ | ⟨e, hsome, hx, -⟩
      · refine ⟨img.withRow s.n.toNat 0 (stripSamples slack img.width.toNat s.bs).1,
          ?_, rfl, rfl, by simp [hnone, RawImage.withRow], rfl⟩
        simp only [PhaseOneDecompressor.decompressThread, heq, hnone]
      · refine ⟨(img.withRow s.n.toNat 0
            (stripSamples slack img.width.toNat s.bs).1).setError e.what,
          ?_, rfl, rfl, by simp [hsome, RawImage.withRow, RawImage.setError], rfl⟩
        simp only [PhaseOneDecompressor.decompressThread, heq, hsome, hx, if_true]
    obtain ⟨img1, hthread, hw1, hh1, herr1, hdata1⟩ := key
    obtain ⟨img2, h1, h2, h3, h4, h5, h6⟩ := ih img1 (by rw [hw1]; exact hw)
      (by rw [hw1]; exact heven) (by rw [hw1]; exact hmax)
      (fun t ht => by rw [hh1]; exact hrows t (List.mem_cons_of_mem _ ht)) hpw2
    rw [hw1] at h4 h5
    refine ⟨img2, by rw [hthread, h1], by rw [h2, hw1], by rw [h3, hh1], ?_, ?_, ?_⟩
    · rw [h4, herr1, List.filterMap_cons]
      cases (stripSamples slack img.width.toNat s.bs).2 with
      | none => simp
      | some e => simp
    · intro t ht c hc
      rcases List.mem_cons.1 ht with rfl | ht
      · have hne : ∀ u ∈ rest, u.n.toNat ≠ t.n.toNat := by
          intro u hu heq2
          have hu2 := hrows u (List.mem_cons_of_mem _ hu)
          have := hsrest u hu
          omega
        rw [h6 _ _ hne, hdata1]
        simp [RawImage.withRow, hc]
      · exact h5 t ht c hc
    · intro r c hr
      rw [h6 r c (fun u hu => hr u (List.mem_cons_of_mem _ hu)), hdata1]
      simp only [RawImage.withRow]
      have : ¬ (r = s.n.toNat ∧ 0 ≤ c ∧ c < 0 + (stripSamples slack img.width.toNat s.bs).1.length) := by
        intro h
        exact hr s (List.mem_cons_self _ _) h.1.symm
      rw [if_neg this]

theorem prepareStrips_sorted (height : Int) (strips sorted : List PhaseOneStrip)
    (hh : 0 ≤ height ∧ height < 2 ^ 31)
    (hn : ∀ s ∈ strips, -2 ^ 31 ≤ s.n ∧ s.n < 2 ^ 31)
    (h : prepareStrips height strips = .ok sorted) :
    sorted.Perm strips ∧ (strips.length : Int) = height ∧
      sorted.map (fun s => s.n) = (List.range strips.length).map Int.ofNat := by
  have hperm := List.perm_insertionSort (fun a b : PhaseOneStrip => a.n ≤ b.n) strips
  unfold prepareStrips at h
  split at h
  · cases h
  · rename_i hl
    have hl : (strips.length : Int) = height := by
      have := not_not.1 hl
      unfold toSizeT at this
      omega
    simp only at h
    split at h
    · rename_i hm
      cases h
      refine ⟨hperm, hl, ?_⟩
      have := (stripsMatchRows_iff _ 0 (fun s hs => hn s (hperm.mem_iff.1 hs))
        (by rw [hperm.length_eq]; omega)).1 hm
      rw [this, hperm.length_eq, List.range_eq_range']
    · cases h

theorem PhaseOneDecompressor.checkImage_ok (img : RawImage)
    (h : PhaseOneDecompressor.checkImage img = .ok ()) :
    img.dataType = RawImageType.UINT16 ∧ img.cpp = 1 ∧ img.bpp = 2 ∧
      0 < img.width ∧ img.width % 2 = 0 ∧ img.width ≤ 11976 ∧
      0 < img.height ∧ img.height ≤ 8854 := by
  unfold PhaseOneDecompressor.checkImage at h
  split at h
  · cases h
  · rename_i h1
    split at h
    · cases h
    · rename_i h2
      split at h
      · cases h
      · rename_i h3
        simp only [iPoint2D.hasPositiveArea, Bool.and_eq_false_iff, decide_eq_false_iff_not,
          not_or, not_not, not_lt, ne_eq, gt_iff_lt, not_le] at h1 h2 h3
        have hw : img.width = img.dim.x := by simp [RawImage.width, h2.1]
        rw [hw, RawImage.height]
        refine ⟨h1, h2.1, h2.2, ?_, ?_, ?_, ?_, ?_⟩ <;> omega

/-- What `decompress` does for a decompressor that the constructor returned: the strips
are those given, sorted by row; every strip is decoded, its samples go to its row,
its `RawspeedException` to the tally; and the call raises exactly when the tally is not
empty. -/
theorem PhaseOneDecompressor.decompress_spec (slack : Nat) (img : RawImage)
    (strips : List PhaseOneStrip) (d : PhaseOneDecompressor)
    (hn : ∀ s ∈ strips, -2 ^ 31 ≤ s.n ∧ s.n < 2 ^ 31)
    (hc : PhaseOneDecompressor.construct img strips = .ok d) :
    d.strips.Perm strips ∧
    d.strips.map (fun s => s.n) = (List.range strips.length).map Int.ofNat ∧
    (strips.length : Int) = img.height ∧ 0 < img.width ∧ img.width ≤ 11976 ∧
    ∃ img2, (d.decompress slack).1 = img2 ∧
      img2.errors = img.errors ++ (unitFaults
        (fun s => (stripSamples slack img.width.toNat s.bs).2) d.strips).map Fault.what ∧
      (d.decompress slack).2 =
        (if 1 ≤ img2.errors.length then
          some (.rde ("Too many errors encountered. Giving up. First Error:\n" ++
            img2.errors.headD ""))
         else none) ∧
      (∀ s ∈ d.strips, ∀ c, c < (stripSamples slack img.width.toNat s.bs).1.length →
        img2.data s.n.toNat c =
          some ((stripSamples slack img.width.toNat s.bs).1.getD c 0)) := by
  unfold PhaseOneDecompressor.construct at hc
  split at hc
  · cases hc
  · rename_i hchk
    split at hc
    · cases hc
    · rename_i sorted hprep
      cases hc
      obtain ⟨-, -, -, hw, heven, hmax, hh, hhmax⟩ := PhaseOneDecompressor.checkImage_ok img hchk
      have hh' : 0 ≤ img.dim.y ∧ img.dim.y < 2 ^ 31 := by
        simp only [RawImage.height] at hh hhmax
        constructor <;> omega
      obtain ⟨hperm, hlen, hmap⟩ := prepareStrips_sorted img.dim.y strips sorted hh' hn hprep
      have hrows : ∀ s ∈ sorted, 0 ≤ s.n ∧ s.n < img.height := by
        intro s hs
        have : s.n ∈ sorted.map (fun s => s.n) := List.mem_map_of_mem _ hs
        rw [hmap] at this
        obtain ⟨k, hk, hk2⟩ := List.mem_map.1 this
        have hk3 := List.mem_range.1 hk
        simp only [Int.ofNat_eq_coe] at hk2
        rw [RawImage.height]
        omega
      have hpw : sorted.Pairwise (fun a b => a.n ≠ b.n) := by
        have h1 : (sorted.map (fun s => s.n)).Pairwise (fun a b => a ≠ b) := by
          rw [hmap, List.pairwise_map]
          exact (List.pairwise_lt_range _).imp (fun h => by simp only [Int.ofNat_eq_coe]; omega)
        exact List.pairwise_map.1 h1
      obtain ⟨img2, ht, -, -, herrs, hdata, -⟩ :=
        PhaseOneDecompressor.decompressThread_spec slack sorted img hw heven (by omega)
          hrows hpw
      refine ⟨hperm, hmap, hlen, hw, hmax, img2, ?_, ?_, ?_, hdata⟩
      · simp only [PhaseOneDecompressor.decompress, ht]
        split <;> rfl
      · rw [herrs, unitFaults, List.map_filterMap]
      · simp only [PhaseOneDecompressor.decompress, ht, RawImage.isTooManyErrors,
          decide_eq_true_eq]
        split <;> rfl

/-! ## Claims on `PhaseOneDecompressor::decompress` -/

/-- C11: if the construction of a `PhaseOneDecompressor` and its `decompress()` both
succeed, then every sample `(row, col)` with `row < height` and `col < width` has been
written, row `row` with the samples decoded from the bytes of the one strip whose `n`
equals `row`, that strip having decoded without a fault; after sorting, strip `i` has
`n = i` and the strips are the given ones, each with its own bytes. -/
theorem PhaseOneDecompressor.decompress_populates (slack : Nat) (img : RawImage)
    (strips : List PhaseOneStrip) (d : PhaseOneDecompressor)
    (hn : ∀ s ∈ strips, -2 ^ 31 ≤ s.n ∧ s.n < 2 ^ 31)
    (hc : PhaseOneDecompressor.construct img strips = .ok d)
    (hd : (d.decompress slack).2 = none) :
    d.strips.Perm strips ∧
    d.strips.map (fun s => s.n) = (List.range strips.length).map Int.ofNat ∧
    ∀ (row col : Nat), (row : Int) < img.height → (col : Int) < img.width →
      ∃ s ∈ strips, s.n = row ∧ (∀ t ∈ strips, t.n = row → t = s) ∧
        (stripSamples slack img.width.toNat s.bs).2 = none ∧
        (d.decompress slack).1.data row col =
          some ((stripSamples slack img.width.toNat s.bs).1.getD col 0) := by
  obtain ⟨hperm, hmap, hlen, hw, hmax, img2, himg, herrs, hout, hdata⟩ :=
    PhaseOneDecompressor.decompress_spec slack img strips d hn hc
  refine ⟨hperm, hmap, ?_⟩
  have hnil : img2.errors = [] := by
    rw [hout] at hd
    split at hd
    · cases hd
    · rename_i hlt
      exact List.length_eq_zero.1 (by omega)
  have hfaults : ∀ s ∈ d.strips, (stripSamples slack img.width.toNat s.bs).2 = none := by
    rw [herrs] at hnil
    have h2 := (List.append_eq_nil.1 hnil).2
    have h3 := List.map_eq_nil_iff.1 h2
    exact List.filterMap_eq_nil_iff.1 h3
  have hnodup : (strips.map (fun s => s.n)).Nodup := by
    have : (d.strips.map (fun s => s.n)).Nodup := by
      rw [hmap]
      exact (List.nodup_range _).map (fun a b h => by simpa using h)
    exact ((hperm.map _).nodup_iff).1 this
  intro row col hrow hcol
  have hmem : (row : Int) ∈ d.strips.map (fun s => s.n) := by
    rw [hmap]
    exact List.mem_map.2 ⟨row, List.mem_range.2 (by omega), rfl⟩
  obtain ⟨s, hs, hsn⟩ := List.mem_map.1 hmem
  have hs2 := hperm.mem_iff.1 hs
  refine ⟨s, hs2, hsn, ?_, hfaults s hs, ?_⟩
  · intro t ht htn
    exact List.inj_on_of_nodup_map hnodup ht hs2 (by rw [htn, hsn])
  · rcases stripSamples_spec slack img.width.toNat s.bs (by omega) with ⟨-, hl⟩ | ⟨e, he, -, -⟩
    · have := hdata s hs col (by omega)
      rw [hsn] at this
      rw [himg]
      simpa using this
    · rw [hfaults s hs] at he
      cases he

/-- C17: when a strip of a constructed `PhaseOneDecompressor` raises during decoding and
every other strip decodes without a fault (so exactly one of the strips raises), the
`decompress` call as a whole raises, and every row whose strip decoded without a fault
holds exactly the samples that `decompressStrip` computes from that strip's own bytes,
starting from predictors 0, whichever strip it was that failed. -/
theorem PhaseOneDecompressor.decompress_isolates_failure (slack : Nat) (img : RawImage)
    (strips : List PhaseOneStrip) (d : PhaseOneDecompressor) (bad : PhaseOneStrip)
    (hn : ∀ s ∈ strips, -2 ^ 31 ≤ s.n ∧ s.n < 2 ^ 31)
    (hc : PhaseOneDecompressor.construct img strips = .ok d)
    (hbad : bad ∈ d.strips)
    (hfail : (stripSamples slack img.width.toNat bad.bs).2 ≠ none)
    (hothers : ∀ s ∈ d.strips, s ≠ bad →
      (stripSamples slack img.width.toNat s.bs).2 = none) :
    (∃ msg, (d.decompress slack).2 = some (.rde msg)) ∧
    ∀ s ∈ d.strips, s ≠ bad → ∀ col : Nat, (col : Int) < img.width →
      (d.decompress slack).1.data s.n.toNat col =
        some ((stripSamples slack img.width.toNat s.bs).1.getD col 0) := by
  obtain ⟨-, -, -, hw, hmax, img2, himg, herrs, hout, hdata⟩ :=
    PhaseOneDecompressor.decompress_spec slack img strips d hn hc
  constructor
  · have hne : unitFaults (fun s => (stripSamples slack img.width.toNat s.bs).2) d.strips ≠
        [] := by
      intro h
      exact hfail (List.filterMap_eq_nil_iff.1 h bad hbad)
    have hlen : 1 ≤ img2.errors.length := by
      rw [herrs, List.length_append, List.length_map]
      have := List.length_pos.2 hne
      omega
    rw [hout, if_pos hlen]
    exact ⟨_, rfl⟩
  · intro s hs hsb col hcol
    rcases stripSamples_spec slack img.width.toNat s.bs (by omega) with ⟨-, hl⟩ | ⟨e, he, -, -⟩
    · rw [himg]
      exact hdata s hs col (by omega)
    · rw [hothers s hs hsb] at he
      cases he

/-- Witness for C11: an image of 2 x 2 samples whose strips are given in the order of
rows 1, 0; sample (1, 0) is the first literal of the strip of row 1. -/
theorem PhaseOneDecompressor.decompress_populates_witness :
    ∃ s ∈ [(⟨1, [1, 2, 3, 4]⟩ : PhaseOneStrip), ⟨0, [5, 6, 7, 8]⟩], s.n = ((1 : Nat) : Int) ∧
      (∀ t ∈ [(⟨1, [1, 2, 3, 4]⟩ : PhaseOneStrip), ⟨0, [5, 6, 7, 8]⟩],
        t.n = ((1 : Nat) : Int) → t = s) ∧
      (stripSamples 8 (blankImage 2 2).width.toNat s.bs).2 = none ∧
      ((⟨blankImage 2 2, [⟨0, [5, 6, 7, 8]⟩, ⟨1, [1, 2, 3, 4]⟩]⟩ :
          PhaseOneDecompressor).decompress 8).1.data 1 0 =
        some ((stripSamples 8 (blankImage 2 2).width.toNat s.bs).1.getD 0 0) :=
  (PhaseOneDecompressor.decompress_populates 8 (blankImage 2 2)
    [⟨1, [1, 2, 3, 4]⟩, ⟨0, [5, 6, 7, 8]⟩]
    ⟨blankImage 2 2, [⟨0, [5, 6, 7, 8]⟩, ⟨1, [1, 2, 3, 4]⟩]⟩
    (by decide) rfl rfl).2.2 1 0 (by decide) (by decide)

/-- Witness for C17: an image of 2 x 2 samples; the strip of row 0 has no bytes and
raises at its second column, the strip of row 1 decodes. -/
theorem PhaseOneDecompressor.decompress_isolates_failure_witness :
    (∃ msg, ((⟨blankImage 2 2, [⟨0, []⟩, ⟨1, [1, 2, 3, 4]⟩]⟩ :
        PhaseOneDecompressor).decompress 0).2 = some (.rde msg)) ∧
    ∀ s ∈ [(⟨0, []⟩ : PhaseOneStrip), ⟨1, [1, 2, 3, 4]⟩], s ≠ ⟨0, []⟩ →
      ∀ col : Nat, (col : Int) < (blankImage 2 2).width →
        ((⟨blankImage 2 2, [⟨0, []⟩, ⟨1, [1, 2, 3, 4]⟩]⟩ :
            PhaseOneDecompressor).decompress 0).1.data s.n.toNat col =
          some ((stripSamples 0 (blankImage 2 2).width.toNat s.bs).1.getD col 0) :=
  PhaseOneDecompressor.decompress_isolates_failure 0 (blankImage 2 2)
    [⟨1, [1, 2, 3, 4]⟩, ⟨0, []⟩] ⟨blankImage 2 2, [⟨0, []⟩, ⟨1, [1, 2, 3, 4]⟩]⟩ ⟨0, []⟩
    (by decide) rfl (by decide) (by decide) (by decide)

/-! ## Claims on the drivers: every unit is attempted, one error fails the call -/

theorem aggregated_eq_none_iff (faults : List Fault) : aggregated faults = none ↔ faults = [] := by
  cases faults <;> simp [aggregated]

theorem aggregated_of_errors (faults : List Fault) :
    (if 1 ≤ (faults.map Fault.what).length then
        some (Fault.rde ("Too many errors encountered. Giving up. First Error:\n" ++
          (faults.map Fault.what).headD ""))
      else none) = aggregated faults := by
  cases faults <;> simp [aggregated]

/-! ## Claims on the Fuji constructor and header -/

theorem FujiHeader.isValid_raw_bits (lineHeight : Nat) (h : FujiHeader)
    (hv : h.isValid lineHeight = true) :
    h.raw_bits = 12 ∨ h.raw_bits = 14 ∨ h.raw_bits = 16 := by
  simp only [FujiHeader.isValid, Bool.not_eq_true', decide_eq_false_iff_not,
    FujiHeader.invalid, not_or] at hv
  have h21 := hv.2.2.2.2.2.2.2.2.2.2.2.2.2.2.2.2.2.2.2.2.1
  by_cases h1 : h.raw_bits = 12
  · exact Or.inl h1
  · by_cases h2 : h.raw_bits = 14
    · exact Or.inr (Or.inl h2)
    · by_cases h3 : h.raw_bits = 16
      · exact Or.inr (Or.inr h3)
      · exact absurd ⟨h1, h2, h3⟩ h21

/-- C19: when the image has one component of 16-bit samples and the header read from
the input passes the validity check, agrees with the image in its dimensions and has
`raw_bits = 12`, the constructor of `FujiDecompressor` raises the `12-bit compressed
RAF` error, whatever follows the header in the input (the block sizes are not read) and
whatever the colour filter array; and a construction that succeeds has the header read
from the input, with `raw_bits` 14 or 16. -/
theorem FujiDecompressor.construct_twelve_bits (lineHeight : Nat) (img : RawImage)
    (input rest : ByteStream) (header : FujiHeader)
    (hr : FujiHeader.read input = .ok (header, rest)) :
    (img.cpp = 1 → img.dataType = .UINT16 → img.bpp = 2 →
      header.isValid lineHeight = true →
      img.dim = ⟨header.raw_width, header.raw_height⟩ → header.raw_bits = 12 →
      FujiDecompressor.construct lineHeight img input = .error (.rde
        "Aha, finally, a 12-bit compressed RAF! Please consider providing samples on <https://raw.pixls.us/>, thanks!")) ∧
    (∀ d, FujiDecompressor.construct lineHeight img input = .ok d →
      d.header = header ∧ (header.raw_bits = 14 ∨ header.raw_bits = 16)) := by
  constructor
  · intro h1 h2 h3 hv hd hb
    have hc : ¬ (img.cpp ≠ 1 ∨ img.dataType ≠ RawImageType.UINT16 ∨ img.bpp ≠ 2) := by
      simp [h1, h2, h3]
    simp only [FujiDecompressor.construct, if_neg hc, hr, hv, hd, hb]
    simp
  · intro d hd
    unfold FujiDecompressor.construct at hd
    rw [hr] at hd
    simp only at hd
    split at hd
    · cases hd
    · split at hd
      · cases hd
      · rename_i hv
        split at hd
        · cases hd
        · split at hd
          · cases hd
          · rename_i hb
            split at hd
            · cases hd
            · split at hd
              · cases hd
              · cases hd
                refine ⟨rfl, ?_⟩
                have hv2 : header.isValid lineHeight = true := by simpa using hv
                rcases FujiHeader.isValid_raw_bits lineHeight header hv2 with h | h | h
                · exact absurd h.symm hb
                · exact Or.inl h
                · exact Or.inr h

/-- Witness for C19: a 12-bit header with nothing after it is refused with the 12-bit
error; the same header with 14 bits, one block size, the padding and the two bytes of
the block is accepted. -/
theorem FujiDecompressor.construct_twelve_bits_witness :
    FujiDecompressor.construct 6 (blankImage 768 6)
        ⟨[0x49, 0x53, 1, 16, 12, 0, 6, 3, 0, 3, 0, 3, 0, 1, 0, 1], 0⟩ = .error (.rde
      "Aha, finally, a 12-bit compressed RAF! Please consider providing samples on <https://raw.pixls.us/>, thanks!") ∧
    ∃ d, FujiDecompressor.construct 6 (blankImage 768 6)
        ⟨([0x49, 0x53, 1, 16, 14, 0, 6, 3, 0, 3, 0, 3, 0, 1, 0, 1] ++
          [0, 0, 0, 2, 0, 0, 0, 0, 0, 0, 0, 0, 0, 0, 0, 0, 0xAA, 0xBB]), 0⟩ = .ok d ∧
      (d.header.raw_bits = 14 ∨ d.header.raw_bits = 16) := by
  refine ⟨(FujiDecompressor.construct_twelve_bits 6 (blankImage 768 6)
      ⟨[0x49, 0x53, 1, 16, 12, 0, 6, 3, 0, 3, 0, 3, 0, 1, 0, 1], 0⟩
      ⟨[0x49, 0x53, 1, 16, 12, 0, 6, 3, 0, 3, 0, 3, 0, 1, 0, 1], 16⟩
      ⟨0x4953, 1, 16, 12, 6, 768, 768, 768, 1, 1, ⟨6, 6⟩⟩ rfl).1 rfl rfl rfl (by decide) rfl rfl,
    ?_⟩
  have hx : ∃ d, FujiDecompressor.construct 6 (blankImage 768 6)
      ⟨([0x49, 0x53, 1, 16, 14, 0, 6, 3, 0, 3, 0, 3, 0, 1, 0, 1] ++
          [0, 0, 0, 2, 0, 0, 0, 0, 0, 0, 0, 0, 0, 0, 0, 0, 0xAA, 0xBB]), 0⟩ = .ok d := ⟨_, rfl⟩
  obtain ⟨d, hd⟩ := hx
  have hr : FujiHeader.read
      ⟨([0x49, 0x53, 1, 16, 14, 0, 6, 3, 0, 3, 0, 3, 0, 1, 0, 1] ++
          [0, 0, 0, 2, 0, 0, 0, 0, 0, 0, 0, 0, 0, 0, 0, 0, 0xAA, 0xBB]), 0⟩ =
      .ok (⟨0x4953, 1, 16, 14, 6, 768, 768, 768, 1, 1, ⟨6, 6⟩⟩,
        ⟨([0x49, 0x53, 1, 16, 14, 0, 6, 3, 0, 3, 0, 3, 0, 1, 0, 1] ++
          [0, 0, 0, 2, 0, 0, 0, 0, 0, 0, 0, 0, 0, 0, 0, 0, 0xAA, 0xBB]), 16⟩) := rfl
  have h := (FujiDecompressor.construct_twelve_bits 6 (blankImage 768 6) _ _ _ hr).2 d hd
  exact ⟨d, hd, by rw [h.1]; exact h.2⟩

theorem FujiHeader.consistent_of_isValid (lineHeight : Nat) (h : FujiHeader)
    (hv : h.isValid lineHeight = true) : h.consistent lineHeight := by
  simp only [FujiHeader.isValid, Bool.not_eq_true', decide_eq_false_iff_not,
    FujiHeader.invalid, not_or, not_and, not_not, ne_eq, gt_iff_lt, ge_iff_le, not_lt,
    not_le, roundUpDivision] at hv
  obtain ⟨h1, h2, -, -, h5, -, h7, h8, -, h10, -, h12, -, h14, h15, h16, h17, -, h19, h20,
    h21, h22⟩ := hv
  have hw : h.raw_width ≠ 0 := by omega
  rw [if_pos hw, h10] at h17
  rw [h10] at h16 h12
  have hl : h.raw_height / lineHeight * lineHeight = h.raw_height :=
    Nat.div_mul_cancel (Nat.dvd_of_mod_eq_zero h5)
  refine ⟨h1, h2, h10, ?_, ?_, by omega, h14, ?_, ?_, ?_, h8, ?_, by omega⟩
  · by_cases a : h.raw_bits = 12
    · exact Or.inl a
    · by_cases b : h.raw_bits = 14
      · exact Or.inr (Or.inl b)
      · exact Or.inr (Or.inr (h21 a b))
  · by_cases a : h.raw_type = 16
    · exact Or.inr a
    · exact Or.inl (h22 a)
  · rw [h10]; omega
  · rw [h10]; omega
  · omega
  · rw [h20]; exact hl

/-- C20: a `FujiHeader` that passes the validity check, whatever the line height, has
signature 0x4953, version 1, `block_size` 0x300, `raw_bits` one of 12, 14, 16,
`raw_type` one of 0, 16, `1 ≤ blocks_in_row ≤ 16`,
`blocks_in_row * block_size = raw_rounded_width`,
`(blocks_in_row - 1) * block_size < raw_width ≤ raw_rounded_width`, `raw_width` a
multiple of 24, `total_lines * lineHeight = raw_height` and `total_lines ≥ 1`; and a
header that violates one of these is rejected. -/
theorem FujiHeader.isValid_consistent (lineHeight : Nat) (h : FujiHeader) :
    (h.isValid lineHeight = true → h.consistent lineHeight) ∧
    (¬ h.consistent lineHeight → h.isValid lineHeight = false) := by
  refine ⟨FujiHeader.consistent_of_isValid lineHeight h, fun hn => ?_⟩
  cases hv : h.isValid lineHeight
  · rfl
  · exact absurd (FujiHeader.consistent_of_isValid lineHeight h hv) hn

/-- Witness for C20: the header of a 768 x 6 image in one block is accepted and
consistent; with `blocks_in_row = 2` it is inconsistent and rejected. -/
theorem FujiHeader.isValid_consistent_witness :
    (⟨0x4953, 1, 16, 14, 6, 768, 768, 768, 1, 1, ⟨6, 6⟩⟩ : FujiHeader).consistent 6 ∧
    (⟨0x4953, 1, 16, 14, 6, 768, 768, 768, 2, 1, ⟨6, 6⟩⟩ : FujiHeader).isValid 6 = false :=
  ⟨(FujiHeader.isValid_consistent 6 ⟨0x4953, 1, 16, 14, 6, 768, 768, 768, 1, 1, ⟨6, 6⟩⟩).1
      (by decide),
    (FujiHeader.isValid_consistent 6 ⟨0x4953, 1, 16, 14, 6, 768, 768, 768, 2, 1, ⟨6, 6⟩⟩).2
      (by simp [FujiHeader.consistent])⟩

/-! ## Claims on the lengths of the Phase One lanes -/

theorem countZeroBits_zero_ok : ∀ (more j : Nat) (cache : List Bool) (j2 : Nat)
    (rest : List Bool), countZeroBits 0 more j cache = .ok (j2, rest) →
    j2 = j + more ∧ cache = List.replicate more false ++ rest := by
  intro more
  induction more with
  | zero =>
    intro j cache j2 rest h
    simp only [countZeroBits, Except.ok.injEq, Prod.mk.injEq] at h
    exact ⟨by omega, by simp [h.2]⟩
  | succ more ih =>
    intro j cache j2 rest h
    match cache, h with
    | [], h => simp [countZeroBits, getBitsNoFill] at h
    | true :: tl, h => simp [countZeroBits, getBitsNoFill, accumulate] at h
    | false :: tl, h =>
      have hstep : countZeroBits 0 (more + 1) j (false :: tl) =
          countZeroBits 0 more (j + 1) tl := by
        simp [countZeroBits, getBitsNoFill, accumulate]
      rw [hstep] at h
      obtain ⟨h1, h2⟩ := ih (j + 1) tl j2 rest h
      exact ⟨by omega, by rw [h2]; rfl⟩

theorem readLaneLength_zero_ok (len len2 : Option Nat) (cache rest : List Bool)
    (h : readLaneLength 0 len cache = .ok (len2, rest)) :
    ∃ b : Bool, cache = List.replicate 5 false ++ b :: rest ∧
      len2 = some (if b then 13 else 14) := by
  unfold readLaneLength at h
  cases hc : countZeroBits 0 5 0 cache with
  | error e => rw [hc] at h; cases h
  | ok r =>
    obtain ⟨j, rest1⟩ := r
    obtain ⟨hj, hcache⟩ := countZeroBits_zero_ok 5 0 cache j rest1 hc
    have hj5 : j = 5 := by omega
    subst hj5
    rw [hc] at h
    simp only [getBitsNoFill] at h
    match rest1, h with
    | [], h => simp at h
    | b :: tl, h =>
      simp only [List.length_cons, Nat.le_add_left, if_true, List.take_succ_cons,
        List.take_zero, List.drop_succ_cons, List.drop_zero] at h
      cases b with
      | false =>
        simp [accumulate, lengthTable] at h
        exact ⟨false, by rw [hcache, h.2], by simp [h.1]⟩
      | true =>
        simp [accumulate, lengthTable] at h
        exact ⟨true, by rw [hcache, h.2], by simp [h.1]⟩

/-- C27: in a row of width at least 8, from a state in which the predictors are those
of the start of a row, column 0 never fails the invariant `col == 0 implies j > 0` and
never reads an unassigned length; and when column 0 is decoded without raising, the
cache after `fill(32)` began with five 0 bits, a selector bit, five 0 bits and a
selector bit, so that both lengths have been assigned from the table and each is 14
(selector 0) or 13 (selector 1). -/
theorem decodeColumn_zero_lengths (slack width : Nat) (st : StripState)
    (hw : 8 ≤ width) (hinv : StripInvariant 0 st) :
    decodeColumn slack width 0 st ≠ .error .assertion ∧
    decodeColumn slack width 0 st ≠ .error .undefinedBehaviour ∧
    ∀ sample st2, decodeColumn slack width 0 st = .ok (sample, st2) →
      ∃ (filled : BitStreamer) (b0 b1 : Bool) (rest : List Bool),
        st.pump.fill slack 32 = .ok filled ∧
        filled.cache = List.replicate 5 false ++ b0 ::
          (List.replicate 5 false ++ b1 :: rest) ∧
        st2.len = (some (if b0 then 13 else 14), some (if b1 then 13 else 14)) ∧
        (st2.len.1 = some 14 ∨ st2.len.1 = some 13) ∧
        (st2.len.2 = some 14 ∨ st2.len.2 = some 13) ∧
        LengthsAssigned st2.len := by
  refine ⟨?_, ?_, ?_⟩
  · intro h
    rcases decodeColumn_spec slack width 0 st hinv (by omega) with
      ⟨e, he, hx⟩ | ⟨s, st2, hok, -⟩
    · rw [h] at he; cases he; cases hx
    · rw [h] at hok; cases hok
  · intro h
    rcases decodeColumn_spec slack width 0 st hinv (by omega) with
      ⟨e, he, hx⟩ | ⟨s, st2, hok, -⟩
    · rw [h] at he; cases he; cases hx
    · rw [h] at hok; cases hok
  · intro sample st2 hok
    have hinv2 : StripInvariant 1 st2 := by
      rcases decodeColumn_spec slack width 0 st hinv (by omega) with
        ⟨e, he, -⟩ | ⟨s, st3, hok3, -, h3⟩
      · rw [hok] at he; cases he
      · rw [hok] at hok3; cases hok3; exact h3
    unfold decodeColumn at hok
    cases hf : st.pump.fill slack 32 with
    | error e => rw [hf] at hok; cases hok
    | ok filled =>
      rw [hf] at hok
      simp only [selectLengths, columnBranch_zero width hw] at hok
      cases h1 : readLaneLength 0 st.len.1 filled.cache with
      | error e => rw [h1] at hok; cases hok
      | ok r1 =>
        obtain ⟨len0, rest1⟩ := r1
        rw [h1] at hok
        simp only at hok
        cases h2 : readLaneLength 0 st.len.2 rest1 with
        | error e => rw [h2] at hok; cases hok
        | ok r2 =>
          obtain ⟨len1, rest2⟩ := r2
          rw [h2] at hok
          simp only at hok
          cases h3 : readSample 0 st.pred (len0, len1) rest2 with
          | error e => rw [h3] at hok; cases hok
          | ok r3 =>
            obtain ⟨s, pred2, rest3⟩ := r3
            rw [h3] at hok
            simp only [Except.ok.injEq, Prod.mk.injEq] at hok
            obtain ⟨b0, hc0, hl0⟩ := readLaneLength_zero_ok _ _ _ _ h1
            obtain ⟨b1, hc1, hl1⟩ := readLaneLength_zero_ok _ _ _ _ h2
            have hlen : st2.len = (len0, len1) := by rw [← hok.2]
            refine ⟨filled, b0, b1, rest2, rfl, by rw [hc0, hc1], by rw [hlen, hl0, hl1],
              ?_, ?_, hinv2.1 (by omega)⟩
            · rw [hlen, hl0]; cases b0 <;> simp
            · rw [hlen, hl1]; cases b1 <;> simp

/-- Witness for C27: a row of width 8 over 32 zero bits; both lengths become 14. -/
theorem decodeColumn_zero_lengths_witness :
    ∃ (filled : BitStreamer) (b0 b1 : Bool) (rest : List Bool),
      BitStreamer.fill 0 ⟨[0, 0, 0, 0], 0, []⟩ 32 = .ok filled ∧
      filled.cache = List.replicate 5 false ++ b0 ::
        (List.replicate 5 false ++ b1 :: rest) ∧
      (⟨⟨[0, 0, 0, 0], 4, List.replicate 4 false⟩, (0, 0), (some 14, some 14)⟩ :
          StripState).len = (some (if b0 then 13 else 14), some (if b1 then 13 else 14)) ∧
      ((some 14 : Option Nat) = some 14 ∨ (some 14 : Option Nat) = some 13) ∧
      ((some 14 : Option Nat) = some 14 ∨ (some 14 : Option Nat) = some 13) ∧
      LengthsAssigned (some 14, some 14) :=
  (decodeColumn_zero_lengths 0 8 ⟨⟨[0, 0, 0, 0], 0, []⟩, (0, 0), (none, none)⟩
    (by decide) (by simp [StripInvariant])).2.2 0
    ⟨⟨[0, 0, 0, 0], 4, List.replicate 4 false⟩, (0, 0), (some 14, some 14)⟩ rfl

theorem zeroRun_le : ∀ (most : Nat) (cache : List Bool), zeroRun most cache ≤ most := by
  intro most
  induction most with
  | zero => intro cache; simp [zeroRun]
  | succ most ih =>
    intro cache
    match cache with
    | [] => simp [zeroRun]
    | true :: tl => simp [zeroRun]
    | false :: tl => have := ih tl; simp only [zeroRun]; omega

theorem countZeroBits_pos_col (col : Nat) (hcol : col ≠ 0) :
    ∀ (more j : Nat) (cache : List Bool), more ≤ cache.length →
    countZeroBits col more j cache =
      .ok (j + zeroRun more cache,
        cache.drop (if zeroRun more cache < more then zeroRun more cache + 1
          else more)) := by
  intro more
  induction more with
  | zero => intro j cache _; simp [countZeroBits, zeroRun]
  | succ more ih =>
    intro j cache h
    match cache, h with
    | true :: tl, h => simp [countZeroBits, getBitsNoFill, accumulate, hcol, zeroRun]
    | false :: tl, h =>
      have hstep : countZeroBits col (more + 1) j (false :: tl) =
          countZeroBits col more (j + 1) tl := by
        simp [countZeroBits, getBitsNoFill, accumulate]
      rw [hstep, ih (j + 1) tl (by simpa using h)]
      have hle := zeroRun_le more tl
      simp only [zeroRun]
      by_cases hlt : zeroRun more tl < more
      · have h2 : 1 + zeroRun more tl < more + 1 := by omega
        rw [if_pos hlt, if_pos h2]
        have e1 : j + 1 + zeroRun more tl = j + (1 + zeroRun more tl) := by omega
        have e2 : 1 + zeroRun more tl + 1 = (zeroRun more tl + 1) + 1 := by omega
        rw [e1, e2, List.drop_succ_cons]
      · have h2 : ¬ 1 + zeroRun more tl < more + 1 := by omega
        rw [if_neg hlt, if_neg h2]
        have e1 : j + 1 + zeroRun more tl = j + (1 + zeroRun more tl) := by omega
        rw [e1, List.drop_succ_cons]

/-- C28: at a column other than 0 that takes the length branch (`col % 8 == 0`, not a
trailer column) the two lanes are read in turn, lane 0 first.  For a lane, with `j`
the number of 0 bits before the first 1 bit among the next five bits: if `j = 0` the
lane's length is left unchanged and exactly one bit is consumed; if `j` is 1..5, the
`j` zero bits (and the 1 bit that ended them, if `j < 5`) are followed by one further
selector bit `b`, and the lane's length becomes `table[2 (j - 1) + b]`, the index
lying in 0..9. -/
theorem readLaneLength_later_column (width col : Nat) (len : Option Nat × Option Nat)
    (cache : List Bool) (hb : columnBranch width col = .lengthInit) (hcol : col ≠ 0)
    (h6 : 6 ≤ cache.length) :
    selectLengths width col len cache =
      (match readLaneLength col len.1 cache with
        | .error e => .error e
        | .ok (len0, rest) =>
          match readLaneLength col len.2 rest with
          | .error e => .error e
          | .ok (len1, rest2) => .ok ((len0, len1), rest2)) ∧
    ∀ lane : Option Nat,
      zeroRun 5 cache ≤ 5 ∧
      (zeroRun 5 cache = 0 → readLaneLength col lane cache = .ok (lane, cache.drop 1)) ∧
      (0 < zeroRun 5 cache →
        2 * (zeroRun 5 cache - 1) +
            (if cache.getD (if zeroRun 5 cache < 5 then zeroRun 5 cache + 1 else 5) false
              then 1 else 0) < 10 ∧
        readLaneLength col lane cache =
          .ok (some (lengthTable.getD (2 * (zeroRun 5 cache - 1) +
              (if cache.getD (if zeroRun 5 cache < 5 then zeroRun 5 cache + 1 else 5) false
                then 1 else 0)) 0),
            cache.drop ((if zeroRun 5 cache < 5 then zeroRun 5 cache + 1 else 5) + 1))) := by
  refine ⟨by simp only [selectLengths, hb], fun lane => ⟨zeroRun_le 5 cache, ?_, ?_⟩⟩
  · intro h0
    have hc := countZeroBits_pos_col col hcol 5 0 cache (by omega)
    rw [h0] at hc
    simp only [readLaneLength, hc, hcol]
    simp [hcol]
  · intro hpos
    have hle := zeroRun_le 5 cache
    have hc := countZeroBits_pos_col col hcol 5 0 cache (by omega)
    generalize hu : (if zeroRun 5 cache < 5 then zeroRun 5 cache + 1 else 5) = used at hc ⊢
    have hused : used ≤ 5 := by rw [← hu]; split <;> omega
    have hlen : 1 ≤ (cache.drop used).length := by simp only [List.length_drop]; omega
    have hbit : accumulate 0 ((cache.drop used).take 1) =
        (if cache.getD used false then 1 else 0) := by
      have hlt : used < cache.length := by omega
      rw [List.drop_eq_getElem_cons hlt]
      simp only [List.take_succ_cons, List.take_zero, accumulate, Nat.mul_zero, Nat.zero_add]
      rw [List.getD_eq_getElem _ _ hlt]
    refine ⟨by split <;> omega, ?_⟩
    simp only [readLaneLength, hc, hcol, Nat.zero_add, getBitsNoFill, if_pos hlen, hbit,
      List.drop_drop]
    simp [hpos, hcol, Nat.add_comm]

/-- Witness for C28: column 8 of a row of width 16; the bits 0, 0, 1 give `j = 2`, the
selector bit 1 gives the index 3 and the length 9. -/
theorem readLaneLength_later_column_witness :
    readLaneLength 8 (some 14) [false, false, true, true, true, false, true, true] =
      .ok (some 9, [true, false, true, true]) :=
  (((readLaneLength_later_column 16 8 (some 14, some 13)
    [false, false, true, true, true, false, true, true]
    (by decide) (by decide) (by decide)).2 (some 14)).2.2 (by decide)).2

/-! ## Claim on the bits consumed between two calls of `fill(32)` -/

theorem readSample_bits (col : Nat) (pred : Int × Int) (len : Option Nat × Option Nat)
    (cache : List Bool) (hl : LengthsAssigned len) (h16 : 16 ≤ cache.length) :
    readSample col pred len cache ≠ .error .assertion ∧
    ∀ sample pred2 rest, readSample col pred len cache = .ok (sample, pred2, rest) →
      rest.length ≤ cache.length ∧ cache.length ≤ rest.length + 16 := by
  have hlane : ∃ L ∈ lengthTable, lane col len = some L := by
    unfold lane
    split
    · exact hl.1
    · exact hl.2
  obtain ⟨L, hmem, hL⟩ := hlane
  have hLb := lengthTable_bounds L hmem
  by_cases h14 : L = 14
  · subst h14
    have he : readSample col pred len cache = .ok (accumulate 0 (cache.take 16),
        setLane col pred (accumulate 0 (cache.take 16) : Int), cache.drop 16) := by
      simp only [readSample, hL, if_true, getBitsNoFill, if_pos h16]
    rw [he]
    refine ⟨by simp, ?_⟩
    intro sample pred2 rest h
    simp only [Except.ok.injEq, Prod.mk.injEq] at h
    rw [← h.2.2]
    simp only [List.length_drop]
    omega
  · have hbits : L ≤ cache.length := by omega
    have h0 : ¬ (L = 0 ∨ 32 < L) := by omega
    have he : readSample col pred len cache =
        if lane col pred + ((accumulate 0 (cache.take L) : Int) + 1 - 2 ^ (L - 1)) < -2 ^ 31 ∨
            2 ^ 31 ≤ lane col pred + ((accumulate 0 (cache.take L) : Int) + 1 - 2 ^ (L - 1))
        then .error .undefinedBehaviour
        else .ok (((lane col pred + ((accumulate 0 (cache.take L) : Int) + 1 - 2 ^ (L - 1))) %
              2 ^ 16).toNat,
            setLane col pred
              (lane col pred + ((accumulate 0 (cache.take L) : Int) + 1 - 2 ^ (L - 1))),
            cache.drop L) := by
      simp only [readSample, hL, if_neg h14, if_neg h0, getBitsNoFill, if_pos hbits]
    rw [he]
    split
    · exact ⟨by simp, fun _ _ _ h => by cases h⟩
    · refine ⟨by simp, ?_⟩
      intro sample pred2 rest h
      simp only [Except.ok.injEq, Prod.mk.injEq] at h
      rw [← h.2.2]
      simp only [List.length_drop]
      omega

theorem decodeColumn_bits (slack width col : Nat) (st : StripState)
    (hlen : col ≠ 0 → LengthsAssigned st.len) :
    decodeColumn slack width col st ≠ .error .assertion ∧
    ∀ filled, st.pump.fill slack 32 = .ok filled →
      32 ≤ filled.cache.length ∧
      ∀ sample st2, decodeColumn slack width col st = .ok (sample, st2) →
        st2.pump.cache.length ≤ filled.cache.length ∧
        filled.cache.length ≤ st2.pump.cache.length + 28 ∧
        LengthsAssigned st2.len := by
  unfold decodeColumn
  rcases BitStreamer.fill_spec slack st.pump with ⟨msg, hf⟩ | ⟨filled, hf, h32, -⟩
  · rw [hf]
    exact ⟨by simp, fun _ h => by cases h⟩
  · rw [hf]
    simp only
    rcases selectLengths_spec width col st.len filled.cache (by omega) hlen with
      ⟨-, he⟩ | ⟨len2, rest, hok, hass, hr1, hr2⟩
    · rw [he]
      refine ⟨by simp, ?_⟩
      intro f hfe
      cases hfe
      exact ⟨h32, fun _ _ h => by cases h⟩
    · rw [hok]
      simp only
      obtain ⟨hna, hbits⟩ := readSample_bits col st.pred len2 rest hass (by omega)
      constructor
      · intro h
        cases hs : readSample col st.pred len2 rest with
        | error e =>
          rw [hs] at h
          simp only [Except.error.injEq] at h
          exact hna (by rw [hs, h])
        | ok r => rw [hs] at h; cases h
      · intro f hfe
        cases hfe
        refine ⟨h32, ?_⟩
        intro sample st2 h
        cases hs : readSample col st.pred len2 rest with
        | error e => rw [hs] at h; cases h
        | ok r =>
          obtain ⟨s, pred2, rest2⟩ := r
          rw [hs] at h
          simp only [Except.ok.injEq, Prod.mk.injEq] at h
          obtain ⟨h1, h2⟩ := hbits s pred2 rest2 hs
          rw [← h.2]
          exact ⟨by simp only; omega, by simp only; omega, hass⟩

theorem rowSamples_no_assertion (slack width : Nat) :
    ∀ (more col : Nat) (st : StripState), (col ≠ 0 → LengthsAssigned st.len) →
    (rowSamples slack width more col st).2 ≠ some .assertion := by
  intro more
  induction more with
  | zero => intro col st _; simp [rowSamples]
  | succ more ih =>
    intro col st hlen
    obtain ⟨hna, hrest⟩ := decodeColumn_bits slack width col st hlen
    unfold rowSamples
    cases hd : decodeColumn slack width col st with
    | error e =>
      simp only
      intro h
      simp only [Option.some.injEq] at h
      exact hna (by rw [hd, h])
    | ok r =>
      obtain ⟨sample, st2⟩ := r
      simp only
      cases hf : st.pump.fill slack 32 with
      | error e => simp [decodeColumn, hf] at hd
      | ok filled =>
        have h3 := ((hrest filled hf).2 sample st2 hd).2.2
        exact ih (col + 1) st2 (fun _ => h3)

/-- C29: in the loop of `decompressStrip`, at a column which is column 0 or at which
both lengths are assigned, `fill(32)` leaves at least 32 bits in the cache and the
column consumes at most 28 of them (12 at most for the two lengths, 16 at most for the
sample), leaving the lengths assigned for the next column; no `getBitsNoFill` asks for
more bits than are cached (the failed invariant of the model), at any column and, for
every width and every byte range, along the whole row. -/
theorem decodeColumn_consumes_at_most_28 (slack width col : Nat) (st : StripState)
    (bs : List Nat) (hlen : col ≠ 0 → LengthsAssigned st.len) :
    decodeColumn slack width col st ≠ .error .assertion ∧
    (∀ filled, st.pump.fill slack 32 = .ok filled →
      32 ≤ filled.cache.length ∧
      ∀ sample st2, decodeColumn slack width col st = .ok (sample, st2) →
        st2.pump.cache.length ≤ filled.cache.length ∧
        filled.cache.length ≤ st2.pump.cache.length + 28 ∧
        LengthsAssigned st2.len) ∧
    (stripSamples slack width bs).2 ≠ some .assertion := by
  obtain ⟨h1, h2⟩ := decodeColumn_bits slack width col st hlen
  refine ⟨h1, h2, ?_⟩
  exact rowSamples_no_assertion slack width width 0 _ (fun h => absurd rfl h)

/-- Witness for C29: column 1 of a row of width 16 with lengths 14 and 13 over 32 one
bits: the 13 bits of the sample are consumed. -/
theorem decodeColumn_consumes_at_most_28_witness :
    32 ≤ (List.replicate 32 true).length ∧
    ∀ sample st2,
      decodeColumn 0 16 1 ⟨⟨[], 0, List.replicate 32 true⟩, (0, 0), (some 14, some 13)⟩ =
        .ok (sample, st2) →
      st2.pump.cache.length ≤ (List.replicate 32 true).length ∧
      (List.replicate 32 true).length ≤ st2.pump.cache.length + 28 ∧
      LengthsAssigned st2.len :=
  (decodeColumn_consumes_at_most_28 0 16 1
    ⟨⟨[], 0, List.replicate 32 true⟩, (0, 0), (some 14, some 13)⟩ []
    (fun _ => ⟨⟨14, by decide, rfl⟩, ⟨13, by decide, rfl⟩⟩)).2.1
    ⟨[], 0, List.replicate 32 true⟩ rfl

/-! ## Claims on the Fuji quantisation table -/

theorem quantize_eq (v : Int) :
    quantize 0x12 0x43 0x114 v = Int.sign v * bucket v.natAbs := by
  rcases lt_trichotomy v 0 with h | h | h
  · rw [Int.sign_eq_neg_one_of_neg h]
    unfold quantize bucket
    split_ifs <;> omega
  · subst h
    simp [quantize, bucket]
  · rw [Int.sign_eq_one_of_pos h]
    unfold quantize bucket
    split_ifs <;> omega

theorem quantize_bounds (v : Int) :
    -4 ≤ quantize 0x12 0x43 0x114 v ∧ quantize 0x12 0x43 0x114 v ≤ 4 := by
  unfold quantize
  split_ifs <;> omega

theorem quantize_neg (v : Int) :
    quantize 0x12 0x43 0x114 (-v) = - quantize 0x12 0x43 0x114 v := by
  rw [quantize_eq, quantize_eq, Int.sign_neg, Int.natAbs_neg]
  ring

theorem quantize_lower (w : Int) :
    (-0x114 < w → -3 ≤ quantize 0x12 0x43 0x114 w) ∧
    (-0x43 < w → -2 ≤ quantize 0x12 0x43 0x114 w) ∧
    (-0x12 < w → -1 ≤ quantize 0x12 0x43 0x114 w) ∧
    (0 ≤ w → 0 ≤ quantize 0x12 0x43 0x114 w) ∧
    (0 < w → 1 ≤ quantize 0x12 0x43 0x114 w) ∧
    (0x12 ≤ w → 2 ≤ quantize 0x12 0x43 0x114 w) ∧
    (0x43 ≤ w → 3 ≤ quantize 0x12 0x43 0x114 w) ∧
    (0x114 ≤ w → 4 ≤ quantize 0x12 0x43 0x114 w) := by
  unfold quantize
  split_ifs <;> omega

theorem quantize_mono (v w : Int) (h : v ≤ w) :
    quantize 0x12 0x43 0x114 v ≤ quantize 0x12 0x43 0x114 w := by
  obtain ⟨h1, h2, h3, h4, h5, h6, h7, h8⟩ := quantize_lower w
  have hb := quantize_bounds w
  generalize quantize 0x12 0x43 0x114 w = qw at *
  unfold quantize
  split_ifs <;> omega

/-- The parameters that the constructor computes for 14 and 16 bits. -/
theorem fuji_compressed_params.construct_for_supported_bits (header : FujiHeader)
    (hb : header.raw_bits = 14 ∨ header.raw_bits = 16)
    (hchk : ¬ ((header.block_size % 3 ≠ 0 ∧ header.raw_type = 16) ∨
      (header.block_size % 2 ≠ 0 ∧ header.raw_type = 0))) :
    ∃ ci, fuji_compressed_params.construct header = .ok ci ∧
      ci.q_point = [0, 0x12, 0x43, 0x114, ((2 ^ header.raw_bits - 1 : Nat) : Int)] ∧
      ci.q_table = (List.range (2 * (2 ^ header.raw_bits - 1) + 1)).map
        (fun (k : Nat) =>
          quantize 0x12 0x43 0x114 ((k : Int) - ((2 ^ header.raw_bits - 1 : Nat) : Int))) ++
        [0] ∧
      ci.total_values = 2 ^ header.raw_bits ∧ ci.raw_bits = header.raw_bits ∧
      ci.max_bits = (if header.raw_bits = 16 then 64 else 56) ∧ ci.min_value = 0x40 ∧
      ci.maxDiff = (if header.raw_bits = 16 then 1024 else 256) ∧
      ci.line_width = (if header.raw_type = 16 then ((header.block_size : Int) * 2) / 3
        else (header.block_size : Int) / 2) := by
  rcases hb with h | h
  · simp only [fuji_compressed_params.construct, if_neg hchk, h]
    rw [if_neg (by decide), if_neg (by decide), if_pos (by decide)]
    exact ⟨_, rfl, rfl, rfl, by norm_num, rfl, by simp, rfl, by simp, rfl⟩
  · simp only [fuji_compressed_params.construct, if_neg hchk, h]
    rw [if_neg (by decide), if_pos (by decide)]
    exact ⟨_, rfl, rfl, rfl, by norm_num, rfl, by simp, rfl, by simp, rfl⟩

theorem q_table_getD (q4 k : Nat) (hk : k ≤ 2 * q4) :
    ((List.range (2 * q4 + 1)).map
      (fun (k : Nat) => quantize 0x12 0x43 0x114 ((k : Int) - (q4 : Int))) ++ [0]).getD k 0 =
      quantize 0x12 0x43 0x114 ((k : Int) - q4) := by
  have hlt : k < ((List.range (2 * q4 + 1)).map
      (fun (k : Nat) => quantize 0x12 0x43 0x114 ((k : Int) - (q4 : Int)))).length := by
    simp only [List.length_map, List.length_range]; omega
  rw [List.getD_eq_getElem?_getD, List.getElem?_append_left hlt]
  simp only [List.getElem?_map, List.getElem?_range (by omega : k < 2 * q4 + 1),
    Option.map_some', Option.getD_some]

theorem q_table_entry (q4 : Nat) (v : Int) (h1 : -(q4 : Int) ≤ v) (h2 : v ≤ q4) :
    ((List.range (2 * q4 + 1)).map
      (fun (k : Nat) => quantize 0x12 0x43 0x114 ((k : Int) - (q4 : Int))) ++
        [0]).getD ((q4 : Int) + v).toNat 0 = quantize 0x12 0x43 0x114 v := by
  have hk : (((q4 : Int) + v).toNat : Int) = (q4 : Int) + v := Int.toNat_of_nonneg (by omega)
  rw [q_table_getD q4 _ (by omega), hk]
  congr 1
  omega

/-- C30: for `raw_bits` 14 or 16 (and a block size that passes the block checks) the
constructor succeeds, `q_point[4]` is `maxValue = 2 ^ raw_bits - 1`, the table has
`2 * 2 ^ raw_bits` entries, and for every difference `v` with
`-maxValue ≤ v ≤ maxValue` the index `maxValue + v` is one of the `2 * maxValue + 1`
entries written and `q_table[maxValue + v] = sign v * bucket |v|`; the table is therefore
odd-symmetric and monotone non-decreasing. -/
theorem fuji_compressed_params.q_table_buckets (header : FujiHeader)
    (hb : header.raw_bits = 14 ∨ header.raw_bits = 16)
    (hchk : ¬ ((header.block_size % 3 ≠ 0 ∧ header.raw_type = 16) ∨
      (header.block_size % 2 ≠ 0 ∧ header.raw_type = 0))) :
    ∃ ci, fuji_compressed_params.construct header = .ok ci ∧
      ci.q_point.getD 4 0 = 2 ^ header.raw_bits - 1 ∧
      ci.q_table.length = 2 * 2 ^ header.raw_bits ∧
      ∀ v : Int, -(2 ^ header.raw_bits - 1) ≤ v → v ≤ 2 ^ header.raw_bits - 1 →
        (ci.q_point.getD 4 0 + v).toNat < 2 * (2 ^ header.raw_bits - 1) + 1 ∧
        2 * (2 ^ header.raw_bits - 1) + 1 ≤ ci.q_table.length ∧
        ci.q_table.getD (ci.q_point.getD 4 0 + v).toNat 0 = Int.sign v * bucket v.natAbs ∧
        ci.q_table.getD (ci.q_point.getD 4 0 - v).toNat 0 =
          - ci.q_table.getD (ci.q_point.getD 4 0 + v).toNat 0 ∧
        ∀ w : Int, v ≤ w → w ≤ 2 ^ header.raw_bits - 1 →
          ci.q_table.getD (ci.q_point.getD 4 0 + v).toNat 0 ≤
            ci.q_table.getD (ci.q_point.getD 4 0 + w).toNat 0 := by
  obtain ⟨ci, hok, hqp, hqt, -⟩ := fuji_compressed_params.construct_for_supported_bits header hb hchk
  have hpos : 1 ≤ 2 ^ header.raw_bits := Nat.one_le_two_pow
  have hM : ((2 ^ header.raw_bits - 1 : Nat) : Int) = 2 ^ header.raw_bits - 1 := by
    push_cast [Nat.cast_sub hpos]
    rfl
  have hq4 : ci.q_point.getD 4 0 = ((2 ^ header.raw_bits - 1 : Nat) : Int) := by
    rw [hqp]; rfl
  refine ⟨ci, hok, by rw [hq4, hM], ?_, ?_⟩
  · rw [hqt]
    simp only [List.length_append, List.length_map, List.length_range, List.length_singleton]
    omega
  · intro v hv1 hv2
    rw [← hM] at hv1 hv2
    have hlen : ci.q_table.length = 2 * (2 ^ header.raw_bits - 1) + 1 + 1 := by
      rw [hqt]
      simp only [List.length_append, List.length_map, List.length_range,
        List.length_singleton]
    have hneg : ci.q_point.getD 4 0 - v = ci.q_point.getD 4 0 + -v := by ring
    refine ⟨by rw [hq4]; omega, by rw [hlen]; omega, ?_, ?_, ?_⟩
    · rw [hq4, hqt, q_table_entry _ v hv1 hv2, quantize_eq]
    · rw [hneg, hq4, hqt, q_table_entry _ v hv1 hv2, q_table_entry _ (-v) (by omega) (by omega),
        quantize_neg]
    · intro w hw1 hw2
      rw [← hM] at hw2
      rw [hq4, hqt, q_table_entry _ v hv1 hv2, q_table_entry _ w (by omega) hw2]
      exact quantize_mono v w hw1

/-- Witness for C30: a 14-bit X-Trans header with the block size 0x300; the entry for
the difference -18 is -2. -/
theorem fuji_compressed_params.q_table_buckets_witness :
    ∃ ci, fuji_compressed_params.construct
        ⟨0x4953, 1, 16, 14, 6, 768, 768, 768, 1, 1, ⟨6, 6⟩⟩ = .ok ci ∧
      ci.q_point.getD 4 0 = 16383 ∧ ci.q_table.length = 32768 ∧
      ci.q_table.getD (ci.q_point.getD 4 0 + -18).toNat 0 = -2 := by
  obtain ⟨ci, h1, h2, h3, h4⟩ := fuji_compressed_params.q_table_buckets
    ⟨0x4953, 1, 16, 14, 6, 768, 768, 768, 1, 1, ⟨6, 6⟩⟩ (Or.inl rfl) (by decide)
  refine ⟨ci, h1, h2, h3, ?_⟩
  rw [(h4 (-18) (by norm_num) (by norm_num)).2.2.1]
  decide

/-! ## Claims on `fuji_decode_sample` -/

/-- The constructor succeeds for 14 and 16 bits only, and only when the block checks
pass. -/
theorem fuji_compressed_params.construct_inv (header : FujiHeader)
    (ci : fuji_compressed_params)
    (hc : fuji_compressed_params.construct header = .ok ci) :
    (header.raw_bits = 14 ∨ header.raw_bits = 16) ∧
    ¬ ((header.block_size % 3 ≠ 0 ∧ header.raw_type = 16) ∨
      (header.block_size % 2 ≠ 0 ∧ header.raw_type = 0)) := by
  unfold fuji_compressed_params.construct at hc
  split at hc
  · cases hc
  · rename_i hchk
    refine ⟨?_, hchk⟩
    split at hc
    · cases hc
    · rename_i h31
      simp only at hc
      have hlt : header.raw_bits < 31 := by omega
      have hmono : ∀ a b : Nat, a < b → 2 ^ a < 2 ^ b :=
        fun a b h => Nat.pow_lt_pow_right (by norm_num) h
      have hpos : 1 ≤ 2 ^ header.raw_bits := Nat.one_le_two_pow
      split at hc
      · rename_i h16
        right
        by_contra hne
        rcases Nat.lt_or_gt_of_ne hne with h | h
        · have := hmono _ _ h; omega
        · have := hmono _ _ h; omega
      · split at hc
        · rename_i h14
          left
          by_contra hne
          rcases Nat.lt_or_gt_of_ne hne with h | h
          · have := hmono _ _ h; omega
          · have := hmono _ _ h; omega
        · split at hc <;> cases hc

/-- The fields of the parameters of a successful construction. -/
theorem fuji_compressed_params.construct_fields (header : FujiHeader)
    (ci : fuji_compressed_params)
    (hc : fuji_compressed_params.construct header = .ok ci) :
    (header.raw_bits = 14 ∨ header.raw_bits = 16) ∧
    ci.q_point.getD 4 0 = 2 ^ header.raw_bits - 1 ∧
    ci.total_values = 2 ^ header.raw_bits ∧ ci.raw_bits = header.raw_bits ∧
    ci.max_bits = (if header.raw_bits = 16 then 64 else 56) ∧ ci.min_value = 0x40 ∧
    ci.maxDiff = (if header.raw_bits = 16 then 1024 else 256) := by
  obtain ⟨hb, hchk⟩ := fuji_compressed_params.construct_inv header ci hc
  obtain ⟨ci2, hok, hqp, -, htv, hrb, hmb, hmv, hmd, -⟩ :=
    fuji_compressed_params.construct_for_supported_bits header hb hchk
  rw [hc] at hok
  cases hok
  refine ⟨hb, ?_, htv, hrb, hmb, hmv, hmd⟩
  rw [hqp]
  rcases hb with h | h <;> rw [h] <;> rfl

theorem fuji_fold_range (ci : fuji_compressed_params) (grad interp_val code : Int)
    (h : 0 ≤ ci.q_point.getD 4 0) :
    0 ≤ fuji_fold ci grad interp_val code ∧
    fuji_fold ci grad interp_val code ≤ ci.q_point.getD 4 0 := by
  have hclamp : ∀ f q : Int, 0 ≤ q →
      0 ≤ (if f < 0 then 0 else min f q) ∧ (if f < 0 then 0 else min f q) ≤ q := by
    intro f q hq
    split
    · exact ⟨le_refl _, hq⟩
    · exact ⟨le_min (by omega) hq, min_le_right _ _⟩
  exact hclamp _ _ h

/-- C22: for parameters that the constructor computed, every value that
`fuji_decode_sample` returns, whatever the gradient, the predicted value, the gradient
pairs and the bit stream, lies in `[0, maxValue]`, where
`maxValue = q_point[4] = 2 ^ raw_bits - 1`. -/
theorem fuji_decode_sample_range (ndebug : Bool) (slack : Nat) (header : FujiHeader)
    (ci : fuji_compressed_params) (pump pump2 : BitStreamer) (grad interp_val v : Int)
    (grads grads2 : List int_pair)
    (hc : fuji_compressed_params.construct header = .ok ci)
    (hv : fuji_decode_sample ndebug slack ci pump grad interp_val grads =
      .ok (v, pump2, grads2)) :
    ci.q_point.getD 4 0 = 2 ^ header.raw_bits - 1 ∧
    0 ≤ v ∧ v ≤ 2 ^ header.raw_bits - 1 := by
  obtain ⟨-, hq, -⟩ := fuji_compressed_params.construct_fields header ci hc
  have hpos : (1 : Int) ≤ 2 ^ header.raw_bits := one_le_pow₀ (by norm_num)
  have h0 : 0 ≤ ci.q_point.getD 4 0 := by rw [hq]; omega
  refine ⟨hq, ?_⟩
  unfold fuji_decode_sample at hv
  simp only at hv
  split at hv
  · cases hv
  · split at hv
    · cases hv
    · split at hv
      · cases hv
      · split at hv
        · cases hv
        · simp only [Except.ok.injEq, Prod.mk.injEq] at hv
          rw [← hv.1, ← hq]
          exact fuji_fold_range ci grad interp_val _ h0

theorem xtransParams14_eq :
    fuji_compressed_params.construct xtransHeader14 = .ok xtransParams14 := rfl

/-- Witness for C22: the first sample of a reset block, read from the bits `1`,
`00000001`: the code 1, the residual -1. -/
theorem fuji_decode_sample_range_witness :
    ∃ v pump2 grads2,
      fuji_decode_sample false 0 xtransParams14 ⟨[0x80, 0x80, 0, 0, 0, 0, 0, 0], 0, []⟩
        0 100 (List.replicate 41 ⟨256, 1⟩) = .ok (v, pump2, grads2) ∧
      0 ≤ v ∧ v ≤ 2 ^ xtransHeader14.raw_bits - 1 := by
  have hx : ∃ r, fuji_decode_sample false 0 xtransParams14
      ⟨[0x80, 0x80, 0, 0, 0, 0, 0, 0], 0, []⟩ 0 100 (List.replicate 41 ⟨256, 1⟩) =
        .ok r := ⟨_, rfl⟩
  obtain ⟨⟨v, p, g⟩, hv⟩ := hx
  exact ⟨v, p, g, hv, (fuji_decode_sample_range false 0 xtransHeader14 xtransParams14
    _ p 0 100 v _ g xtransParams14_eq hv).2⟩

theorem fuji_residual_range (code T : Int) (hT : T = 16384 ∨ T = 65536)
    (h : 0 ≤ code ∧ code < T) :
    fuji_residual code = (if code % 2 = 0 then code / 2 else -1 - code / 2) ∧
    -(T / 2) ≤ fuji_residual code ∧ fuji_residual code < T / 2 := by
  unfold fuji_residual
  rcases hT with hT | hT <;> subst hT <;> split_ifs <;> omega

theorem fuji_fold_mod (ci : fuji_compressed_params) (grad interp_val r T : Int)
    (hT : T = 16384 ∨ T = 65536) (htv : ci.total_values = T)
    (hqp : ci.q_point.getD 4 0 = T - 1)
    (hi : 0 ≤ interp_val ∧ interp_val ≤ T - 1) (hr : -(T / 2) ≤ r ∧ r < T / 2) :
    fuji_fold ci grad interp_val r =
      (if grad < 0 then interp_val - r else interp_val + r) % T ∧
    (0 ≤ (if (if grad < 0 then interp_val - r else interp_val + r) < 0 then
          (if grad < 0 then interp_val - r else interp_val + r) + T
        else if (if grad < 0 then interp_val - r else interp_val + r) > T - 1 then
          (if grad < 0 then interp_val - r else interp_val + r) - T
        else (if grad < 0 then interp_val - r else interp_val + r)) ∧
      (if (if grad < 0 then interp_val - r else interp_val + r) < 0 then
          (if grad < 0 then interp_val - r else interp_val + r) + T
        else if (if grad < 0 then interp_val - r else interp_val + r) > T - 1 then
          (if grad < 0 then interp_val - r else interp_val + r) - T
        else (if grad < 0 then interp_val - r else interp_val + r)) ≤ T - 1) := by
  unfold fuji_fold
  simp only [htv, hqp]
  have hv : -(T / 2) ≤ (if grad < 0 then interp_val - r else interp_val + r) ∧
      (if grad < 0 then interp_val - r else interp_val + r) < T + T / 2 := by
    split <;> omega
  generalize (if grad < 0 then interp_val - r else interp_val + r) = v at hv ⊢
  rcases hT with hT | hT <;> subst hT <;> refine ⟨?_, ?_, ?_⟩ <;> split_ifs <;> omega

/-- C23: for parameters that the constructor computed, a predicted value in
`[0, maxValue]` and an accepted code (`0 ≤ code < total_values`), the residual is
`r = code / 2` for an even code and `-1 - code / 2` for an odd one, with
`-total_values / 2 ≤ r < total_values / 2`, and `fuji_decode_sample` returns exactly
`(interp_val + r) mod total_values` when `grad ≥ 0` and
`(interp_val - r) mod total_values` when `grad < 0`: the value after the one fold by
`total_values` lies in `[0, maxValue]`, so that the final clamp does not change it. -/
theorem fuji_decode_sample_modular (ndebug : Bool) (slack : Nat) (header : FujiHeader)
    (ci : fuji_compressed_params) (pump pump2 : BitStreamer) (grad interp_val code : Int)
    (grads : List int_pair) (g g2 : int_pair)
    (hc : fuji_compressed_params.construct header = .ok ci)
    (hi : 0 ≤ interp_val ∧ interp_val ≤ 2 ^ header.raw_bits - 1)
    (hcode : fuji_read_code ndebug slack ci pump grads grad.natAbs = .ok (code, pump2))
    (hacc : 0 ≤ code ∧ code < ci.total_values)
    (hg : grads.get? grad.natAbs = some g)
    (hu : fuji_update_grad ci g (fuji_residual code) = .ok g2) :
    ci.total_values = 2 ^ header.raw_bits ∧
    fuji_residual code = (if code % 2 = 0 then code / 2 else -1 - code / 2) ∧
    -(2 ^ header.raw_bits / 2) ≤ fuji_residual code ∧
    fuji_residual code < 2 ^ header.raw_bits / 2 ∧
    fuji_decode_sample ndebug slack ci pump grad interp_val grads =
      .ok ((if grad < 0 then interp_val - fuji_residual code
          else interp_val + fuji_residual code) % 2 ^ header.raw_bits,
        pump2, grads.set grad.natAbs g2) ∧
    (0 ≤ (if (if grad < 0 then interp_val - fuji_residual code
            else interp_val + fuji_residual code) < 0 then
          (if grad < 0 then interp_val - fuji_residual code
            else interp_val + fuji_residual code) + 2 ^ header.raw_bits
        else if (if grad < 0 then interp_val - fuji_residual code
            else interp_val + fuji_residual code) > 2 ^ header.raw_bits - 1 then
          (if grad < 0 then interp_val - fuji_residual code
            else interp_val + fuji_residual code) - 2 ^ header.raw_bits
        else (if grad < 0 then interp_val - fuji_residual code
            else interp_val + fuji_residual code)) ∧
      (if (if grad < 0 then interp_val - fuji_residual code
            else interp_val + fuji_residual code) < 0 then
          (if grad < 0 then interp_val - fuji_residual code
            else interp_val + fuji_residual code) + 2 ^ header.raw_bits
        else if (if grad < 0 then interp_val - fuji_residual code
            else interp_val + fuji_residual code) > 2 ^ header.raw_bits - 1 then
          (if grad < 0 then interp_val - fuji_residual code
            else interp_val + fuji_residual code) - 2 ^ header.raw_bits
        else (if grad < 0 then interp_val - fuji_residual code
            else interp_val + fuji_residual code)) ≤ 2 ^ header.raw_bits - 1) := by
  obtain ⟨hb, hqp, htv, -⟩ := fuji_compressed_params.construct_fields header ci hc
  have hT : ((2 : Int) ^ header.raw_bits = 16384 ∨ (2 : Int) ^ header.raw_bits = 65536) := by
    rcases hb with h | h <;> rw [h] <;> norm_num
  rw [htv] at hacc
  obtain ⟨hr1, hr2, hr3⟩ := fuji_residual_range code _ hT hacc
  obtain ⟨hf1, hf2⟩ := fuji_fold_mod ci grad interp_val (fuji_residual code) _ hT htv hqp hi
    ⟨hr2, hr3⟩
  refine ⟨htv, hr1, hr2, hr3, ?_, hf2⟩
  have hno : ¬ (code < 0 ∨ code ≥ ci.total_values) := by rw [htv]; omega
  simp only [fuji_decode_sample, hcode, if_neg hno, hg, hu, hf1]

/-- Witness for C23: the first sample of a reset block, read from the bits `1`,
`00000001`: the code 1 gives the residual -1 and the sample 99 for the predicted
value 100. -/
theorem fuji_decode_sample_modular_witness :
    fuji_decode_sample false 0 xtransParams14 ⟨[0x80, 0x80, 0, 0, 0, 0, 0, 0], 0, []⟩
        0 100 (List.replicate 41 ⟨256, 1⟩) =
      .ok (99, ⟨[0x80, 0x80, 0, 0, 0, 0, 0, 0], 8, List.replicate 55 false⟩,
        (List.replicate 41 ⟨256, 1⟩).set 0 ⟨257, 2⟩) :=
  (fuji_decode_sample_modular false 0 xtransHeader14 xtransParams14
    ⟨[0x80, 0x80, 0, 0, 0, 0, 0, 0], 0, []⟩
    ⟨[0x80, 0x80, 0, 0, 0, 0, 0, 0], 8, List.replicate 55 false⟩ 0 100 1
    (List.replicate 41 ⟨256, 1⟩) ⟨256, 1⟩ ⟨257, 2⟩ xtransParams14_eq
    (by norm_num [xtransHeader14]) rfl (by norm_num [xtransParams14]) rfl rfl).2.2.2.2.1

/-! ## Claim on the gradients of the interpolation kernels -/

theorem LineBuffer.get_ok (lines : LineBuffer) (row col : Int) (r k : Nat)
    (hr : row = r) (hk : col = k) (hr2 : r < 18) (hk2 : k < lines.width) :
    lines.get row col = .ok (lines.cell r k : Int) := by
  subst hr hk
  have h : 0 ≤ (r : Int) ∧ (r : Int) < ltotal ∧ 0 ≤ (k : Int) ∧ (k : Int) < lines.width := by
    unfold ltotal
    omega
  simp only [LineBuffer.get, if_pos h, Int.toNat_ofNat]

theorem q_lookup_ok (header : FujiHeader) (ci : fuji_compressed_params)
    (hc : fuji_compressed_params.construct header = .ok ci) (v : Int)
    (hv1 : -(2 ^ header.raw_bits - 1) ≤ v) (hv2 : v ≤ 2 ^ header.raw_bits - 1) :
    q_lookup ci v = .ok (quantize 0x12 0x43 0x114 v) ∧
    (ci.q_point.getD 4 0 + v).toNat < ci.q_table.length ∧
    ci.q_table.getD (ci.q_point.getD 4 0 + v).toNat 0 = quantize 0x12 0x43 0x114 v := by
  obtain ⟨hb, hchk⟩ := fuji_compressed_params.construct_inv header ci hc
  obtain ⟨ci2, hok, hqp, hqt, -⟩ := fuji_compressed_params.construct_for_supported_bits header hb hchk
  rw [hc] at hok
  cases hok
  have hpos : 1 ≤ 2 ^ header.raw_bits := Nat.one_le_two_pow
  have hM : ((2 ^ header.raw_bits - 1 : Nat) : Int) = 2 ^ header.raw_bits - 1 := by
    push_cast [Nat.cast_sub hpos]
    rfl
  have hq4 : ci.q_point.getD 4 0 = ((2 ^ header.raw_bits - 1 : Nat) : Int) := by
    rw [hqp]; rfl
  rw [← hM] at hv1 hv2
  have hlen : ci.q_table.length = 2 * (2 ^ header.raw_bits - 1) + 1 + 1 := by
    rw [hqt]
    simp only [List.length_append, List.length_map, List.length_range,
      List.length_singleton]
  have hlt : (ci.q_point.getD 4 0 + v).toNat < ci.q_table.length := by
    rw [hlen, hq4]; omega
  have hentry : ci.q_table.getD (ci.q_point.getD 4 0 + v).toNat 0 =
      quantize 0x12 0x43 0x114 v := by
    rw [hq4, hqt, q_table_entry _ v hv1 hv2]
  refine ⟨?_, hlt, hentry⟩
  have h0 : 0 ≤ ci.q_point.getD 4 0 + v := by rw [hq4]; omega
  have hget : ci.q_table.get? (ci.q_point.getD 4 0 + v).toNat =
      some (quantize 0x12 0x43 0x114 v) := by
    rw [List.get?_eq_getElem?, List.getElem?_eq_getElem hlt, ← hentry,
      List.getD_eq_getElem _ _ hlt]
  simp only [q_lookup, if_pos h0, hget]

theorem fuji_quant_gradient_ok (header : FujiHeader) (ci : fuji_compressed_params)
    (hc : fuji_compressed_params.construct header = .ok ci) (a b c d : Nat)
    (ha : (a : Int) ≤ 2 ^ header.raw_bits - 1) (hb : (b : Int) ≤ 2 ^ header.raw_bits - 1)
    (hc2 : (c : Int) ≤ 2 ^ header.raw_bits - 1) (hd : (d : Int) ≤ 2 ^ header.raw_bits - 1) :
    fuji_quant_gradient ci ((a : Int) - b) ((c : Int) - d) =
      .ok (9 * quantize 0x12 0x43 0x114 ((a : Int) - b) +
        quantize 0x12 0x43 0x114 ((c : Int) - d)) ∧
    |9 * quantize 0x12 0x43 0x114 ((a : Int) - b) +
        quantize 0x12 0x43 0x114 ((c : Int) - d)| ≤ 40 ∧
    (9 * quantize 0x12 0x43 0x114 ((a : Int) - b) +
        quantize 0x12 0x43 0x114 ((c : Int) - d)).natAbs < 41 := by
  obtain ⟨h1, -, -⟩ := q_lookup_ok header ci hc ((a : Int) - b) (by omega) (by omega)
  obtain ⟨h2, -, -⟩ := q_lookup_ok header ci hc ((c : Int) - d) (by omega) (by omega)
  have b1 := quantize_bounds ((a : Int) - b)
  have b2 := quantize_bounds ((c : Int) - d)
  refine ⟨by simp only [fuji_quant_gradient, h1, h2], ?_, ?_⟩
  · rw [abs_le]; omega
  · omega

/-- C25: for parameters that the constructor computed and a line buffer whose cells lie
in `[0, maxValue]`, every lookup `q_table[maxValue + d]` with `|d| ≤ maxValue` is inside
the table and its entry lies in `[-4, 4]`; both interpolation kernels return the
gradient `9 q(d1) + q(d2)`, where `q(d) = q_table[maxValue + d]` and `d1`, `d2` are
the differences of neighbours that the kernel reads (`Rb - Rf`, `Rc - Rb` for the even
kernel, `Rb - Rc`, `Rc - Ra` for the odd one); hence the absolute gradient is at most
40 and is an index into the 41 gradient pairs. -/
theorem kernel_gradients (header : FujiHeader) (ci : fuji_compressed_params)
    (lines : LineBuffer) (c col : Nat)
    (hc : fuji_compressed_params.construct header = .ok ci)
    (hcells : ∀ r k, (lines.cell r k : Int) ≤ 2 ^ header.raw_bits - 1)
    (hrow : 2 ≤ c ∧ c < 18) (hcol : 2 * col + 3 < lines.width) :
    (∀ d : Int, -(2 ^ header.raw_bits - 1) ≤ d → d ≤ 2 ^ header.raw_bits - 1 →
      (ci.q_point.getD 4 0 + d).toNat < ci.q_table.length ∧
      -4 ≤ ci.q_table.getD (ci.q_point.getD 4 0 + d).toNat 0 ∧
      ci.q_table.getD (ci.q_point.getD 4 0 + d).toNat 0 ≤ 4) ∧
    (∃ grad interp_val,
      fuji_decode_interpolation_even_inner ci lines c col = .ok (grad, interp_val) ∧
      grad = 9 * ci.q_table.getD (ci.q_point.getD 4 0 +
          ((lines.cell (c - 1) (2 * col + 1) : Int) - lines.cell (c - 2) (2 * col + 1))).toNat 0 +
        ci.q_table.getD (ci.q_point.getD 4 0 +
          ((lines.cell (c - 1) (2 * col) : Int) - lines.cell (c - 1) (2 * col + 1))).toNat 0 ∧
      |grad| ≤ 40 ∧ grad.natAbs < 41) ∧
    (∃ grad interp_val,
      fuji_decode_interpolation_odd_inner ci lines c col = .ok (grad, interp_val) ∧
      grad = 9 * ci.q_table.getD (ci.q_point.getD 4 0 +
          ((lines.cell (c - 1) (2 * col + 2) : Int) - lines.cell (c - 1) (2 * col + 1))).toNat 0 +
        ci.q_table.getD (ci.q_point.getD 4 0 +
          ((lines.cell (c - 1) (2 * col + 1) : Int) - lines.cell c (2 * col + 1))).toNat 0 ∧
      |grad| ≤ 40 ∧ grad.natAbs < 41) := by
  have hq : ∀ a b : Nat, (a : Int) ≤ 2 ^ header.raw_bits - 1 →
      (b : Int) ≤ 2 ^ header.raw_bits - 1 →
      ci.q_table.getD (ci.q_point.getD 4 0 + ((a : Int) - b)).toNat 0 =
        quantize 0x12 0x43 0x114 ((a : Int) - b) := fun a b ha hb =>
    (q_lookup_ok header ci hc ((a : Int) - b) (by omega) (by omega)).2.2
  refine ⟨?_, ?_, ?_⟩
  · intro d hd1 hd2
    obtain ⟨-, h2, h3⟩ := q_lookup_ok header ci hc d hd1 hd2
    have hb := quantize_bounds d
    rw [h3]
    exact ⟨h2, hb.1, hb.2⟩
  · have g1 := lines.get_ok ((c : Int) - 1) (1 + 2 * ((col : Int) + 0) + 0) (c - 1)
      (2 * col + 1) (by omega) (by omega) (by omega) (by omega)
    have g2 := lines.get_ok ((c : Int) - 1) (1 + 2 * ((col : Int) - 1) + 1) (c - 1)
      (2 * col) (by omega) (by omega) (by omega) (by omega)
    have g3 := lines.get_ok ((c : Int) - 1) (1 + 2 * ((col : Int) + 0) + 1) (c - 1)
      (2 * col + 2) (by omega) (by omega) (by omega) (by omega)
    have g4 := lines.get_ok ((c : Int) - 2) (1 + 2 * ((col : Int) + 0) + 0) (c - 2)
      (2 * col + 1) (by omega) (by omega) (by omega) (by omega)
    obtain ⟨h1, h2, h3⟩ := fuji_quant_gradient_ok header ci hc
      (lines.cell (c - 1) (2 * col + 1)) (lines.cell (c - 2) (2 * col + 1))
      (lines.cell (c - 1) (2 * col)) (lines.cell (c - 1) (2 * col + 1))
      (hcells _ _) (hcells _ _) (hcells _ _) (hcells _ _)
    have he : ∃ interp_val, fuji_decode_interpolation_even_inner ci lines c col =
        .ok (9 * quantize 0x12 0x43 0x114 ((lines.cell (c - 1) (2 * col + 1) : Int) -
            lines.cell (c - 2) (2 * col + 1)) +
          quantize 0x12 0x43 0x114 ((lines.cell (c - 1) (2 * col) : Int) -
            lines.cell (c - 1) (2 * col + 1)), interp_val) := by
      simp only [fuji_decode_interpolation_even_inner, g1, g2, g3, g4, h1]
      exact ⟨_, rfl⟩
    obtain ⟨interp_val, he⟩ := he
    refine ⟨_, interp_val, he, ?_, h2, h3⟩
    rw [hq _ _ (hcells _ _) (hcells _ _), hq _ _ (hcells _ _) (hcells _ _)]
  · have g1 := lines.get_ok ((c : Int) + 0) (1 + 2 * ((col : Int) + 0) + 0) c
      (2 * col + 1) (by omega) (by omega) (by omega) (by omega)
    have g2 := lines.get_ok ((c : Int) - 1) (1 + 2 * ((col : Int) + 0) + 1) (c - 1)
      (2 * col + 2) (by omega) (by omega) (by omega) (by omega)
    have g3 := lines.get_ok ((c : Int) - 1) (1 + 2 * ((col : Int) + 0) + 0) (c - 1)
      (2 * col + 1) (by omega) (by omega) (by omega) (by omega)
    have g4 := lines.get_ok ((c : Int) - 1) (1 + 2 * ((col : Int) + 1) + 0) (c - 1)
      (2 * col + 3) (by omega) (by omega) (by omega) (by omega)
    have g5 := lines.get_ok ((c : Int) + 0) (1 + 2 * ((col : Int) + 1) + 0) c
      (2 * col + 3) (by omega) (by omega) (by omega) (by omega)
    obtain ⟨h1, h2, h3⟩ := fuji_quant_gradient_ok header ci hc
      (lines.cell (c - 1) (2 * col + 2)) (lines.cell (c - 1) (2 * col + 1))
      (lines.cell (c - 1) (2 * col + 1)) (lines.cell c (2 * col + 1))
      (hcells _ _) (hcells _ _) (hcells _ _) (hcells _ _)
    have he : ∃ interp_val, fuji_decode_interpolation_odd_inner ci lines c col =
        .ok (9 * quantize 0x12 0x43 0x114 ((lines.cell (c - 1) (2 * col + 2) : Int) -
            lines.cell (c - 1) (2 * col + 1)) +
          quantize 0x12 0x43 0x114 ((lines.cell (c - 1) (2 * col + 1) : Int) -
            lines.cell c (2 * col + 1)), interp_val) := by
      simp only [fuji_decode_interpolation_odd_inner, g1, g2, g3, g4, g5, h1]
      exact ⟨_, rfl⟩
    obtain ⟨interp_val, he⟩ := he
    refine ⟨_, interp_val, he, ?_, h2, h3⟩
    rw [hq _ _ (hcells _ _) (hcells _ _), hq _ _ (hcells _ _) (hcells _ _)]

/-- Witness for C25: a line buffer of 8 columns whose cells are all 100, the row `R2`
and the column 0. -/
theorem kernel_gradients_witness :
    ∃ grad interp_val,
      fuji_decode_interpolation_even_inner xtransParams14 ⟨8, fun _ _ => 100⟩
        ((2 : Nat) : Int) ((0 : Nat) : Int) = .ok (grad, interp_val) ∧
      |grad| ≤ 40 ∧ grad.natAbs < 41 := by
  obtain ⟨g, i, h1, -, h3, h4⟩ := (kernel_gradients xtransHeader14 xtransParams14
    ⟨8, fun _ _ => 100⟩ 2 0 xtransParams14_eq
    (fun _ _ => by norm_num [xtransHeader14]) (by decide) (by decide)).2.1
  exact ⟨g, i, h1, h3, h4⟩

/-! ## Claim on the carry-in rows of a Fuji strip -/

theorem LineBuffer.memcpy_rows (lines : LineBuffer) (a s : Nat) (hW : 0 < lines.width)
    (ha : a + 2 ≤ 18) (hs : s + 2 ≤ 18) :
    ∃ l, lines.memcpy (lines.position a 0) (lines.position s 0) (2 * lines.width) = .ok l ∧
      l.width = lines.width ∧
      ∀ r c, c < lines.width →
        l.cell r c = if r = a ∨ r = a + 1 then lines.cell (r - a + s) c else lines.cell r c := by
  have h18 : ltotal.toNat = 18 := rfl
  have ha2 : a * lines.width + 2 * lines.width ≤ 18 * lines.width := by
    have := Nat.mul_le_mul_right lines.width ha
    rw [Nat.add_mul] at this
    exact this
  have hs2 : s * lines.width + 2 * lines.width ≤ 18 * lines.width := by
    have := Nat.mul_le_mul_right lines.width hs
    rw [Nat.add_mul] at this
    exact this
  have hcond : lines.position a 0 + 2 * lines.width ≤ ltotal.toNat * lines.width ∧
      lines.position s 0 + 2 * lines.width ≤ ltotal.toNat * lines.width := by
    rw [h18]
    simp only [LineBuffer.position, Nat.add_zero]
    exact ⟨ha2, hs2⟩
  have hm : lines.memcpy (lines.position a 0) (lines.position s 0) (2 * lines.width) =
      .ok { width := lines.width
            cell := fun r c =>
              if lines.position a 0 ≤ lines.position r c ∧
                  lines.position r c < lines.position a 0 + 2 * lines.width then
                lines.cell ((lines.position r c - lines.position a 0 + lines.position s 0) /
                    lines.width)
                  ((lines.position r c - lines.position a 0 + lines.position s 0) %
                    lines.width)
              else lines.cell r c } := by
    simp only [LineBuffer.memcpy, if_pos hcond]
  refine ⟨_, hm, rfl, ?_⟩
  intro r c hc
  simp only [LineBuffer.position, Nat.add_zero]
  by_cases hr : r = a ∨ r = a + 1
  · rw [if_pos hr]
    have hin : a * lines.width ≤ r * lines.width + c ∧
        r * lines.width + c < a * lines.width + 2 * lines.width := by
      rcases hr with h | h
      · subst h; omega
      · subst h; rw [Nat.add_mul]; omega
    rw [if_pos hin]
    have hsum : r * lines.width + c - a * lines.width + s * lines.width =
        c + (r - a + s) * lines.width := by
      rcases hr with h | h
      · subst h; simp only [Nat.sub_self, Nat.zero_add]; omega
      · subst h
        have e1 : a + 1 - a + s = s + 1 := by omega
        rw [e1, Nat.add_mul, Nat.add_mul]
        omega
    rw [hsum, Nat.add_mul_div_right _ _ hW, Nat.add_mul_mod_self_right,
      Nat.div_eq_of_lt hc, Nat.mod_eq_of_lt hc, Nat.zero_add]
  · rw [if_neg hr]
    have hout : ¬ (a * lines.width ≤ r * lines.width + c ∧
        r * lines.width + c < a * lines.width + 2 * lines.width) := by
      intro ⟨h1, h2⟩
      rcases Nat.lt_or_ge r a with h | h
      · have := Nat.mul_le_mul_right lines.width (Nat.succ_le_of_lt h)
        rw [Nat.succ_mul] at this
        omega
      · have h3 : a + 2 ≤ r := by
          rcases Nat.lt_or_ge r (a + 2) with h4 | h4
          · exact absurd (by omega : r = a ∨ r = a + 1) hr
          · exact h4
        have := Nat.mul_le_mul_right lines.width h3
        rw [Nat.add_mul] at this
        omega
    rw [if_neg hout]

theorem fuji_carry_rows_spec (ci : fuji_compressed_params) (lines : LineBuffer)
    (a b : Int) (an sn : Nat) (hw : lines.width = (ci.line_width + 2).toNat)
    (hW : 0 < lines.width) (han : a.toNat = an) (hsn : (a + b - 2).toNat = sn)
    (ha : an + 2 ≤ 18) (hs : sn + 2 ≤ 18) :
    ∃ l, fuji_carry_rows ci lines a b = .ok l ∧ l.width = lines.width ∧
      ∀ r c, c < lines.width →
        l.cell r c =
          if r = an ∨ r = an + 1 then lines.cell (r - an + sn) c else lines.cell r c := by
  unfold fuji_carry_rows
  rw [han, hsn, ← hw]
  exact LineBuffer.memcpy_rows lines an sn hW ha hs

theorem fuji_carry_helper_spec (lines : LineBuffer) (a : Int) (an : Nat)
    (hW : 2 ≤ lines.width) (han : a = an) (ha : an + 2 < 18)
    (hcell : lines.cell (an + 1) (lines.width - 2) < 2 ^ 16) :
    ∃ l, fuji_carry_helper lines a = .ok l ∧ l.width = lines.width ∧
      ∀ r c, l.cell r c =
        if r = an + 2 ∧ c = lines.width - 1 then lines.cell (an + 1) (lines.width - 2)
        else lines.cell r c := by
  subst han
  have g := lines.get_ok ((an : Int) + 2 - 1) ((lines.width : Int) - 2) (an + 1)
    (lines.width - 2) (by omega) (by omega) (by omega) (by omega)
  have hin : 0 ≤ (an : Int) + 2 ∧ (an : Int) + 2 < ltotal ∧ 0 ≤ (lines.width : Int) - 1 ∧
      (lines.width : Int) - 1 < lines.width := by
    unfold ltotal
    omega
  have hv : ((lines.cell (an + 1) (lines.width - 2) : Int) % 2 ^ 16).toNat =
      lines.cell (an + 1) (lines.width - 2) := by
    omega
  have e1 : ((an : Int) + 2).toNat = an + 2 := by omega
  have e2 : ((lines.width : Int) - 1).toNat = lines.width - 1 := by omega
  have hm : fuji_carry_helper lines (an : Int) =
      .ok { width := lines.width
            cell := fun r c =>
              if r = ((an : Int) + 2).toNat ∧ c = ((lines.width : Int) - 1).toNat then
                ((lines.cell (an + 1) (lines.width - 2) : Int) % 2 ^ 16).toNat
              else lines.cell r c } := by
    simp only [fuji_carry_helper, g, LineBuffer.set, if_pos hin]
  refine ⟨_, hm, rfl, ?_⟩
  intro r c
  simp only [hv, e1, e2]

/-- What `fuji_carry` does to a line buffer of `line_width + 2` columns whose cells are
16-bit values. -/
theorem fuji_carry_spec (ci : fuji_compressed_params) (lines : LineBuffer)
    (hw : lines.width = (ci.line_width + 2).toNat) (hW : 2 ≤ lines.width)
    (hcells : ∀ r c, lines.cell r c < 2 ^ 16) :
    ∃ l, fuji_carry ci lines = .ok l ∧ l.width = lines.width ∧
      (∀ c, c < lines.width →
        l.cell 0 c = lines.cell 3 c ∧ l.cell 1 c = lines.cell 4 c ∧
        l.cell 5 c = lines.cell 11 c ∧ l.cell 6 c = lines.cell 12 c ∧
        l.cell 13 c = lines.cell 16 c ∧ l.cell 14 c = lines.cell 17 c) ∧
      l.cell 2 (lines.width - 1) = l.cell 1 (lines.width - 2) ∧
      l.cell 7 (lines.width - 1) = l.cell 6 (lines.width - 2) ∧
      l.cell 15 (lines.width - 1) = l.cell 14 (lines.width - 2) := by
  obtain ⟨l1, h1, w1, c1⟩ := fuji_carry_rows_spec ci lines R0 5 0 3 hw (by omega) rfl rfl
    (by omega) (by omega)
  obtain ⟨l2, h2, w2, c2⟩ := fuji_carry_rows_spec ci l1 G0 8 5 11 (by rw [w1, hw])
    (by omega) rfl rfl (by omega) (by omega)
  obtain ⟨l3, h3, w3, c3⟩ := fuji_carry_rows_spec ci l2 B0 5 13 16 (by rw [w2, w1, hw])
    (by omega) rfl rfl (by omega) (by omega)
  rw [w1] at w2 c2
  rw [w2] at w3 c3
  have hlt : lines.width - 2 < lines.width := by omega
  have hlt1 : lines.width - 1 < lines.width := by omega
  have b1 : ∀ r c, c < lines.width → l1.cell r c < 2 ^ 16 := by
    intro r c hc
    rw [c1 r c hc]
    split <;> exact hcells _ _
  have b2 : ∀ r c, c < lines.width → l2.cell r c < 2 ^ 16 := by
    intro r c hc
    rw [c2 r c hc]
    split <;> exact b1 _ _ hc
  have b3 : ∀ r c, c < lines.width → l3.cell r c < 2 ^ 16 := by
    intro r c hc
    rw [c3 r c hc]
    split <;> exact b2 _ _ hc
  obtain ⟨l4, h4, w4, c4⟩ := fuji_carry_helper_spec l3 R0 0 (by omega) rfl (by omega)
    (b3 _ _ (by omega))
  rw [w3] at w4 c4
  have b4 : ∀ r c, c < lines.width → l4.cell r c < 2 ^ 16 := by
    intro r c hc
    rw [c4 r c]
    split
    · exact b3 _ _ hlt
    · exact b3 _ _ hc
  obtain ⟨l5, h5, w5, c5⟩ := fuji_carry_helper_spec l4 G0 5 (by omega) rfl (by omega)
    (b4 _ _ (by omega))
  rw [w4] at w5 c5
  have b5 : ∀ r c, c < lines.width → l5.cell r c < 2 ^ 16 := by
    intro r c hc
    rw [c5 r c]
    split
    · exact b4 _ _ hlt
    · exact b4 _ _ hc
  obtain ⟨l6, h6, w6, c6⟩ := fuji_carry_helper_spec l5 B0 13 (by omega) rfl (by omega)
    (b5 _ _ (by omega))
  rw [w5] at w6 c6
  refine ⟨l6, by simp only [fuji_carry, h1, h2, h3, h4, h5, h6], w6, ?_, ?_, ?_, ?_⟩
  · intro c hc
    simp only [c6, c5, c4, c3 _ _ hc, c2 _ _ hc, c1 _ _ hc]
    norm_num
  · simp only [c6, c5, c4, c3 _ _ hlt, c2 _ _ hlt, c1 _ _ hlt, c3 _ _ hlt1, c2 _ _ hlt1,
      c1 _ _ hlt1]
    have : ¬ lines.width - 2 = lines.width - 1 := by omega
    simp [this]
  · simp only [c6, c5, c4, c3 _ _ hlt, c2 _ _ hlt, c1 _ _ hlt, c3 _ _ hlt1, c2 _ _ hlt1,
      c1 _ _ hlt1]
    have : ¬ lines.width - 2 = lines.width - 1 := by omega
    simp [this]
  · simp only [c6, c5, c4, c3 _ _ hlt, c2 _ _ hlt, c1 _ _ hlt, c3 _ _ hlt1, c2 _ _ hlt1,
      c1 _ _ hlt1]
    have : ¬ lines.width - 2 = lines.width - 1 := by omega
    simp [this]

theorem LineBuffer.set_sized (W : Nat) (lines l : LineBuffer) (row col v : Int)
    (h : lines.Sized W) (hs : lines.set row col v = .ok l) : l.Sized W := by
  unfold LineBuffer.set at hs
  split at hs
  · cases hs
    refine ⟨h.1, ?_⟩
    intro r c
    simp only
    split
    · have h0 : 0 ≤ v % 2 ^ 16 := Int.emod_nonneg _ (by norm_num)
      have h1 : v % 2 ^ 16 < 2 ^ 16 := Int.emod_lt_of_pos _ (by norm_num)
      omega
    · exact h.2 r c
  · cases hs

theorem pass_even_sized (W : Nat) (func_even : FuncEven) (info info2 : fuji_compressed_block)
    (c : Int) (pos pos2 : ColorPos) (grad : Nat) (row i comp : Int)
    (h : info.lines.Sized W)
    (hs : pass_even func_even info c pos grad row i comp = .ok (info2, pos2)) :
    info2.lines.Sized W := by
  unfold pass_even at hs
  split at hs
  · cases hs
  · split at hs
    · cases hs
    · split at hs
      · cases hs
      · rename_i lines2 hset
        cases hs
        exact LineBuffer.set_sized W _ _ _ _ _ h hset

theorem pass_odd_sized (W : Nat) (ndebug : Bool) (slack : Nat) (ci : fuji_compressed_params)
    (info info2 : fuji_compressed_block) (c : Int) (pos pos2 : ColorPos) (grad : Nat)
    (h : info.lines.Sized W)
    (hs : pass_odd ndebug slack ci info c pos grad = .ok (info2, pos2)) :
    info2.lines.Sized W := by
  unfold pass_odd at hs
  split at hs
  · cases hs
  · split at hs
    · cases hs
    · split at hs
      · cases hs
      · rename_i lines2 hset
        cases hs
        exact LineBuffer.set_sized W _ _ _ _ _ h hset

theorem pass_loop_sized (W : Nat) (ndebug : Bool) (slack : Nat) (ci : fuji_compressed_params)
    (func_even : FuncEven) (c0 c1 row : Int) (grad : Nat) (line_width : Int) :
    ∀ (more : Nat) (i : Int) (pos : ColorPos × ColorPos) (info info2 : fuji_compressed_block),
    info.lines.Sized W →
    pass_loop ndebug slack ci func_even c0 c1 row grad line_width more i pos info =
      .ok info2 →
    info2.lines.Sized W := by
  intro more
  induction more with
  | zero =>
    intro i pos info info2 h hs
    simp only [pass_loop, Except.ok.injEq] at hs
    rw [← hs]; exact h
  | succ more ih =>
    intro i pos info info2 h hs
    unfold pass_loop at hs
    have hA : ∀ r, (if i < line_width then
        match pass_even func_even info c0 pos.1 grad row i 0 with
        | .error e => .error e
        | .ok (info1, p0) =>
          match pass_even func_even info1 c1 pos.2 grad row i 1 with
          | .error e => .error e
          | .ok (info2, p1) => .ok (info2, (p0, p1))
      else .ok (info, pos) : Except Fault (fuji_compressed_block × ColorPos × ColorPos)) =
        .ok r → r.1.lines.Sized W := by
      intro r hr
      split at hr
      · cases h1 : pass_even func_even info c0 pos.1 grad row i 0 with
        | error e => rw [h1] at hr; cases hr
        | ok r1 =>
          obtain ⟨info1, p0⟩ := r1
          rw [h1] at hr
          simp only at hr
          cases h2 : pass_even func_even info1 c1 pos.2 grad row i 1 with
          | error e => rw [h2] at hr; cases hr
          | ok r2 =>
            obtain ⟨info2b, p1⟩ := r2
            rw [h2] at hr
            cases hr
            exact pass_even_sized W _ _ _ _ _ _ _ _ _ _
              (pass_even_sized W _ _ _ _ _ _ _ _ _ _ h h1) h2
      · cases hr; exact h
    generalize (if i < line_width then
        match pass_even func_even info c0 pos.1 grad row i 0 with
        | .error e => .error e
        | .ok (info1, p0) =>
          match pass_even func_even info1 c1 pos.2 grad row i 1 with
          | .error e => .error e
          | .ok (info2, p1) => .ok (info2, (p0, p1))
      else .ok (info, pos) : Except Fault (fuji_compressed_block × ColorPos × ColorPos)) = A
      at hs hA
    cases A with
    | error e => cases hs
    | ok ra =>
      obtain ⟨infoA, posA⟩ := ra
      have hAs := hA _ rfl
      simp only at hs hAs
      have hB : ∀ r, (if i ≥ 4 then
          match pass_odd ndebug slack ci infoA c0 posA.1 grad with
          | .error e => .error e
          | .ok (info3, p0) =>
            match pass_odd ndebug slack ci info3 c1 posA.2 grad with
            | .error e => .error e
            | .ok (info4, p1) => .ok (info4, (p0, p1))
        else .ok (infoA, posA) :
          Except Fault (fuji_compressed_block × ColorPos × ColorPos)) = .ok r →
          r.1.lines.Sized W := by
        intro r hr
        split at hr
        · cases h1 : pass_odd ndebug slack ci infoA c0 posA.1 grad with
          | error e => rw [h1] at hr; cases hr
          | ok r1 =>
            obtain ⟨info3, p0⟩ := r1
            rw [h1] at hr
            simp only at hr
            cases h2 : pass_odd ndebug slack ci info3 c1 posA.2 grad with
            | error e => rw [h2] at hr; cases hr
            | ok r2 =>
              obtain ⟨info4, p1⟩ := r2
              rw [h2] at hr
              cases hr
              exact pass_odd_sized W _ _ _ _ _ _ _ _ _
                (pass_odd_sized W _ _ _ _ _ _ _ _ _ hAs h1) h2
        · cases hr; exact hAs
      generalize (if i ≥ 4 then
          match pass_odd ndebug slack ci infoA c0 posA.1 grad with
          | .error e => .error e
          | .ok (info3, p0) =>
            match pass_odd ndebug slack ci info3 c1 posA.2 grad with
            | .error e => .error e
            | .ok (info4, p1) => .ok (info4, (p0, p1))
        else .ok (infoA, posA) :
          Except Fault (fuji_compressed_block × ColorPos × ColorPos)) = B at hs hB
      cases B with
      | error e => cases hs
      | ok rb =>
        obtain ⟨infoB, posB⟩ := rb
        exact ih _ _ _ _ (hB _ rfl) hs

theorem fuji_extend_row_sized (W : Nat) (lines l : LineBuffer) (i : Int)
    (h : lines.Sized W) (hs : fuji_extend_row lines i = .ok l) : l.Sized W := by
  unfold fuji_extend_row at hs
  split at hs
  · cases hs
  · split at hs
    · cases hs
    · rename_i l1 hset
      split at hs
      · cases hs
      · exact LineBuffer.set_sized W _ _ _ _ _ (LineBuffer.set_sized W _ _ _ _ _ h hset) hs

theorem fuji_extend_generic_sized (W : Nat) : ∀ (more : Nat) (start : Int)
    (lines l : LineBuffer), lines.Sized W → fuji_extend_generic more start lines = .ok l →
    l.Sized W := by
  intro more
  induction more with
  | zero =>
    intro start lines l h hs
    simp only [fuji_extend_generic, Except.ok.injEq] at hs
    rw [← hs]; exact h
  | succ more ih =>
    intro start lines l h hs
    unfold fuji_extend_generic at hs
    cases h1 : fuji_extend_row lines start with
    | error e => rw [h1] at hs; cases hs
    | ok l1 =>
      rw [h1] at hs
      exact ih _ _ _ (fuji_extend_row_sized W _ _ _ h h1) hs

theorem fuji_extend_sized (W : Nat) (c : CFAColor) (lines l : LineBuffer)
    (h : lines.Sized W) (hs : fuji_extend c lines = .ok l) : l.Sized W := by
  cases c <;> exact fuji_extend_generic_sized W _ _ _ _ h hs

theorem fuji_decode_block_rows_sized (W : Nat) (ndebug : Bool) (slack : Nat)
    (ci : fuji_compressed_params) (func_even : FuncEven) :
    ∀ (more row : Nat) (counter : CFAColor → Int) (info info2 : fuji_compressed_block),
    info.lines.Sized W →
    fuji_decode_block_rows ndebug slack ci func_even more row counter info = .ok info2 →
    info2.lines.Sized W := by
  intro more
  induction more with
  | zero =>
    intro row counter info info2 h hs
    simp only [fuji_decode_block_rows, Except.ok.injEq] at hs
    rw [← hs]; exact h
  | succ more ih =>
    intro row counter info info2 h hs
    unfold fuji_decode_block_rows at hs
    simp only at hs
    cases h1 : pass ndebug slack ci func_even (CurLineForColor counter (bayerRGGB row 0)).1
        (CurLineForColor (CurLineForColor counter (bayerRGGB row 0)).2 (bayerRGGB row 1)).1
        row info with
    | error e => rw [h1] at hs; cases hs
    | ok info1 =>
      rw [h1] at hs
      simp only at hs
      have s1 : info1.lines.Sized W := pass_loop_sized W _ _ _ _ _ _ _ _ _ _ _ _ _ _ h h1
      cases h2 : fuji_extend (bayerRGGB row 0) info1.lines with
      | error e => rw [h2] at hs; cases hs
      | ok lines2 =>
        rw [h2] at hs
        simp only at hs
        cases h3 : fuji_extend (bayerRGGB row 1) lines2 with
        | error e => rw [h3] at hs; cases hs
        | ok lines3 =>
          rw [h3] at hs
          exact ih _ _ _ _
            (fuji_extend_sized W _ _ _ (fuji_extend_sized W _ _ _ s1 h2) h3) hs

theorem fuji_decode_block_sized (W : Nat) (ndebug : Bool) (slack : Nat)
    (ci : fuji_compressed_params) (func_even : FuncEven)
    (info info2 : fuji_compressed_block) (h : info.lines.Sized W)
    (hs : fuji_decode_block ndebug slack ci func_even info = .ok info2) :
    info2.lines.Sized W := by
  unfold fuji_decode_block at hs
  split at hs
  · cases hs
  · exact fuji_decode_block_rows_sized W _ _ _ _ _ _ _ _ _ h hs

theorem fuji_decode_line_sized (W : Nat) (ndebug : Bool) (slack : Nat)
    (xtransCFA : Nat → Nat → CFAColor) (ci : fuji_compressed_params) (path : DecodePath)
    (info info1 : fuji_compressed_block) (strip : FujiStrip) (cur_line : Int)
    (img img1 : RawImage) (h : info.lines.Sized W)
    (hs : fuji_decode_line ndebug slack xtransCFA ci path info strip cur_line img =
      .ok (info1, img1)) :
    info1.lines.Sized W := by
  unfold fuji_decode_line at hs
  cases path with
  | xtrans =>
    simp only at hs
    cases h1 : xtrans_decode_block ndebug slack ci info with
    | error e => rw [h1] at hs; cases hs
    | ok infoA =>
      rw [h1] at hs
      simp only at hs
      cases h2 : copy_line_to_xtrans ndebug xtransCFA infoA strip cur_line img with
      | error e => rw [h2] at hs; cases hs
      | ok imgA =>
        rw [h2] at hs
        cases hs
        exact fuji_decode_block_sized W _ _ _ _ _ _ h h1
  | bayer =>
    simp only at hs
    cases h1 : fuji_bayer_decode_block ndebug slack ci info with
    | error e => rw [h1] at hs; cases hs
    | ok infoA =>
      rw [h1] at hs
      simp only at hs
      cases h2 : copy_line_to_bayer ndebug infoA strip cur_line img with
      | error e => rw [h2] at hs; cases hs
      | ok imgA =>
        rw [h2] at hs
        cases hs
        exact fuji_decode_block_sized W _ _ _ _ _ _ h h1

/-- C24: in `fuji_decode_strip`, for a block whose line buffer has `line_width + 2`
columns of 16-bit cells (as `reset` lays it out), after a line that is decoded and is
not the strip's last, the loop goes on from the buffer that `fuji_carry` returns, in
which the two carry-in rows of each colour are the last two rows of that colour of the
line just decoded, over all `line_width + 2` columns (rows 0, 1 = old rows 3, 4 for red;
rows 5, 6 = old rows 11, 12 for green; rows 13, 14 = old rows 16, 17 for blue), and the
last helper column of `R2`, `G2`, `B2` (rows 2, 7, 15) is the last real sample (column
`width - 2`) of `R1`, `G1`, `B1` (rows 1, 6, 14). -/
theorem fuji_decode_strip_carry (ndebug : Bool) (slack : Nat)
    (xtransCFA : Nat → Nat → CFAColor) (header : FujiHeader) (ci : fuji_compressed_params)
    (strip : FujiStrip) (more : Nat) (cur_line : Int) (info info1 : fuji_compressed_block)
    (img img1 : RawImage)
    (hsized : info.lines.Sized (ci.line_width + 2).toNat)
    (hW : 2 ≤ (ci.line_width + 2).toNat)
    (hline : fuji_decode_line ndebug slack xtransCFA ci header.decodePath info strip
      cur_line img = .ok (info1, img1))
    (hlast : cur_line + 1 ≠ strip.height) :
    ∃ lines2, fuji_carry ci info1.lines = .ok lines2 ∧
      fuji_decode_lines ndebug slack xtransCFA header ci strip (more + 1) cur_line info img =
        fuji_decode_lines ndebug slack xtransCFA header ci strip more (cur_line + 1)
          { info1 with lines := lines2 } img1 ∧
      lines2.width = (ci.line_width + 2).toNat ∧
      (∀ c, c < (ci.line_width + 2).toNat →
        lines2.cell 0 c = info1.lines.cell 3 c ∧ lines2.cell 1 c = info1.lines.cell 4 c ∧
        lines2.cell 5 c = info1.lines.cell 11 c ∧ lines2.cell 6 c = info1.lines.cell 12 c ∧
        lines2.cell 13 c = info1.lines.cell 16 c ∧
        lines2.cell 14 c = info1.lines.cell 17 c) ∧
      lines2.cell 2 ((ci.line_width + 2).toNat - 1) =
        lines2.cell 1 ((ci.line_width + 2).toNat - 2) ∧
      lines2.cell 7 ((ci.line_width + 2).toNat - 1) =
        lines2.cell 6 ((ci.line_width + 2).toNat - 2) ∧
      lines2.cell 15 ((ci.line_width + 2).toNat - 1) =
        lines2.cell 14 ((ci.line_width + 2).toNat - 2) := by
  have h1 := fuji_decode_line_sized _ _ _ _ _ _ _ _ _ _ _ _ hsized hline
  obtain ⟨hw1, hc1⟩ := h1
  obtain ⟨l, hl, wl, ha, hb, hc, hd⟩ := fuji_carry_spec ci info1.lines hw1 (by rw [hw1]; exact hW)
    hc1
  rw [hw1] at wl ha hb hc hd
  refine ⟨l, hl, ?_, wl, ha, hb, hc, hd⟩
  simp only [fuji_decode_lines, hline, if_neg hlast, hl]

/-- Witness for C24: the first of two lines of a strip whose lines are empty; the line
buffer has its two helper columns only. -/
theorem fuji_decode_strip_carry_witness :
    ∃ info1 img1 lines2,
      fuji_decode_line false 0 (fun _ _ => CFAColor.GREEN) emptyLineParams
        bayerHeader14.decodePath emptyLineBlock emptyLineStrip 0 (blankImage 768 12) =
        .ok (info1, img1) ∧
      fuji_carry emptyLineParams info1.lines = .ok lines2 ∧
      lines2.cell 0 0 = info1.lines.cell 3 0 ∧ lines2.cell 2 1 = lines2.cell 1 0 := by
  have hx : ∃ r, fuji_decode_line false 0 (fun _ _ => CFAColor.GREEN) emptyLineParams
      bayerHeader14.decodePath emptyLineBlock emptyLineStrip 0 (blankImage 768 12) =
        .ok r := ⟨_, rfl⟩
  obtain ⟨⟨info1, img1⟩, hline⟩ := hx
  obtain ⟨l, h1, -, -, h4, h5, -⟩ := fuji_decode_strip_carry false 0
    (fun _ _ => CFAColor.GREEN) bayerHeader14 emptyLineParams emptyLineStrip 0 0
    emptyLineBlock info1 (blankImage 768 12) img1
    ⟨rfl, fun r c => by
      show (r + 2 * c) % 5 < 2 ^ 16
      omega⟩
    (by decide) hline (by decide)
  exact ⟨info1, img1, l, hline, h1, (h4 0 (by decide)).1, h5⟩

/-! ## Claim on the colour filter array and the decode path -/

/-- What a successful construction of the Fuji decompressor has checked. -/
theorem FujiDecompressor.construct_ok_inv (lineHeight : Nat) (img : RawImage)
    (input : ByteStream) (d : FujiDecompressor)
    (hd : FujiDecompressor.construct lineHeight img input = .ok d) :
    ∃ rest, FujiHeader.read input = .ok (d.header, rest) ∧
      d.header.isValid lineHeight = true ∧ d.mRaw = img ∧ checkCFA img = .ok () ∧
      fuji_compressed_load_raw d.header rest = .ok (d.common_info, d.strips, d.input) := by
  unfold FujiDecompressor.construct at hd
  split at hd
  · cases hd
  · cases hr : FujiHeader.read input with
    | error e => rw [hr] at hd; cases hd
    | ok r =>
      obtain ⟨header, rest⟩ := r
      rw [hr] at hd
      simp only at hd
      split at hd
      · cases hd
      · rename_i hv
        split at hd
        · cases hd
        · split at hd
          · cases hd
          · cases hc : checkCFA img with
            | error e => rw [hc] at hd; cases hd
            | ok u =>
              rw [hc] at hd
              simp only at hd
              cases hl : fuji_compressed_load_raw header rest with
              | error e => rw [hl] at hd; cases hd
              | ok r2 =>
                obtain ⟨ci, strips, input2⟩ := r2
                rw [hl] at hd
                cases hd
                exact ⟨rest, rfl, by simpa using hv, rfl, rfl, hl⟩

theorem FujiHeader.isValid_raw_type (lineHeight : Nat) (h : FujiHeader)
    (hv : h.isValid lineHeight = true) : h.raw_type = 16 ∨ h.raw_type = 0 := by
  have hc := FujiHeader.consistent_of_isValid lineHeight h hv
  rcases hc.2.2.2.2.1 with h0 | h16
  · exact Or.inr h0
  · exact Or.inl h16

theorem checkCFA_ok (mRaw : RawImage) (h : checkCFA mRaw = .ok ()) :
    (mRaw.cfaSize = ⟨6, 6⟩ ∧ mRaw.xtransPhase = some ⟨0, 0⟩) ∨
    (mRaw.cfaSize = ⟨2, 2⟩ ∧ mRaw.bayerPhase = some BayerPhase.RGGB) := by
  unfold checkCFA at h
  split at h
  · rename_i h6
    left
    refine ⟨h6, ?_⟩
    split at h
    · cases h
    · rename_i p hp
      split at h
      · cases h
      · rename_i hne
        rw [hp]
        simpa using hne
  · split at h
    · rename_i h2
      right
      refine ⟨h2, ?_⟩
      split at h
      · cases h
      · rename_i p hp
        split at h
        · cases h
        · rename_i hne
          rw [hp]
          simpa using hne
    · cases h

/-- C21 (as stated, refuted): the constructor accepts an image whose colour filter array
is the 2 x 2 Bayer RGGB layout together with a header whose `raw_type` is 16; the
strips of this decompressor are decoded along the X-Trans path. -/
theorem construct_accepts_bayer_cfa_with_xtrans_header :
    ∃ d, FujiDecompressor.construct 6 (blankImage 768 6)
        ⟨([0x49, 0x53, 1, 16, 14, 0, 6, 3, 0, 3, 0, 3, 0, 1, 0, 1] ++
          [0, 0, 0, 2, 0, 0, 0, 0, 0, 0, 0, 0, 0, 0, 0, 0, 0xAA, 0xBB]), 0⟩ = .ok d ∧
      d.mRaw.cfaSize = ⟨2, 2⟩ ∧ d.mRaw.bayerPhase = some BayerPhase.RGGB ∧
      d.header.raw_type = 16 ∧ d.header.decodePath = DecodePath.xtrans := by
  have hx : ∃ d, FujiDecompressor.construct 6 (blankImage 768 6)
      ⟨([0x49, 0x53, 1, 16, 14, 0, 6, 3, 0, 3, 0, 3, 0, 1, 0, 1] ++
        [0, 0, 0, 2, 0, 0, 0, 0, 0, 0, 0, 0, 0, 0, 0, 0, 0xAA, 0xBB]), 0⟩ = .ok d :=
    ⟨_, rfl⟩
  obtain ⟨d, hd⟩ := hx
  obtain ⟨rest, hread, -, hraw, -, -⟩ := FujiDecompressor.construct_ok_inv 6 _ _ d hd
  have hr : FujiHeader.read
      ⟨([0x49, 0x53, 1, 16, 14, 0, 6, 3, 0, 3, 0, 3, 0, 1, 0, 1] ++
          [0, 0, 0, 2, 0, 0, 0, 0, 0, 0, 0, 0, 0, 0, 0, 0, 0xAA, 0xBB]), 0⟩ =
      .ok (⟨0x4953, 1, 16, 14, 6, 768, 768, 768, 1, 1, ⟨6, 6⟩⟩,
        ⟨([0x49, 0x53, 1, 16, 14, 0, 6, 3, 0, 3, 0, 3, 0, 1, 0, 1] ++
          [0, 0, 0, 2, 0, 0, 0, 0, 0, 0, 0, 0, 0, 0, 0, 0, 0xAA, 0xBB]), 16⟩) := rfl
  rw [hr] at hread
  simp only [Except.ok.injEq, Prod.mk.injEq] at hread
  refine ⟨d, hd, by rw [hraw]; rfl, by rw [hraw]; rfl, by rw [← hread.1], by rw [← hread.1]; rfl⟩

/-- C21 (amended): the decode path is determined by the header: a decompressor that
the constructor returned has `raw_type` 16 or 0, and its lines are decoded along the
X-Trans path (`xtrans_decode_block`, `copy_line_to_xtrans`) when `raw_type` is 16 and
along the Bayer path when it is 0.  The colour filter array of the image is validated
on its own (6 x 6 X-Trans at phase (0, 0), or 2 x 2 Bayer RGGB). -/
theorem FujiDecompressor.decodePath_by_raw_type (lineHeight : Nat) (img : RawImage)
    (input : ByteStream) (d : FujiDecompressor)
    (hd : FujiDecompressor.construct lineHeight img input = .ok d) :
    (d.header.raw_type = 16 ∨ d.header.raw_type = 0) ∧
    ((d.mRaw.cfaSize = ⟨6, 6⟩ ∧ d.mRaw.xtransPhase = some ⟨0, 0⟩) ∨
      (d.mRaw.cfaSize = ⟨2, 2⟩ ∧ d.mRaw.bayerPhase = some BayerPhase.RGGB)) ∧
    (d.header.raw_type = 16 → d.header.decodePath = DecodePath.xtrans ∧
      ∀ ndebug slack xtransCFA info strip cur_line img2,
        fuji_decode_line ndebug slack xtransCFA d.common_info d.header.decodePath info strip
            cur_line img2 =
          match xtrans_decode_block ndebug slack d.common_info info with
          | .error e => .error e
          | .ok info1 =>
            match copy_line_to_xtrans ndebug xtransCFA info1 strip cur_line img2 with
            | .error e => .error e
            | .ok img1 => .ok (info1, img1)) ∧
    (d.header.raw_type = 0 → d.header.decodePath = DecodePath.bayer ∧
      ∀ ndebug slack xtransCFA info strip cur_line img2,
        fuji_decode_line ndebug slack xtransCFA d.common_info d.header.decodePath info strip
            cur_line img2 =
          match fuji_bayer_decode_block ndebug slack d.common_info info with
          | .error e => .error e
          | .ok info1 =>
            match copy_line_to_bayer ndebug info1 strip cur_line img2 with
            | .error e => .error e
            | .ok img1 => .ok (info1, img1)) := by
  obtain ⟨rest, -, hv, hraw, hcfa, -⟩ := FujiDecompressor.construct_ok_inv lineHeight img input
    d hd
  refine ⟨FujiHeader.isValid_raw_type lineHeight _ hv, ?_, ?_, ?_⟩
  · rw [hraw]; exact checkCFA_ok img hcfa
  · intro h16
    have hp : d.header.decodePath = DecodePath.xtrans := by
      simp only [FujiHeader.decodePath, if_pos h16]
    refine ⟨hp, ?_⟩
    intro ndebug slack xtransCFA info strip cur_line img2
    rw [hp]
    rfl
  · intro h0
    have hp : d.header.decodePath = DecodePath.bayer := by
      have : ¬ d.header.raw_type = 16 := by omega
      simp only [FujiHeader.decodePath, if_neg this]
    refine ⟨hp, ?_⟩
    intro ndebug slack xtransCFA info strip cur_line img2
    rw [hp]
    rfl

/-- Witness for C21 (amended): the 14-bit header of one block with `raw_type` 16. -/
theorem FujiDecompressor.decodePath_by_raw_type_witness :
    ∃ d, FujiDecompressor.construct 6 (blankImage 768 6)
        ⟨([0x49, 0x53, 1, 16, 14, 0, 6, 3, 0, 3, 0, 3, 0, 1, 0, 1] ++
          [0, 0, 0, 2, 0, 0, 0, 0, 0, 0, 0, 0, 0, 0, 0, 0, 0xAA, 0xBB]), 0⟩ = .ok d ∧
      (d.header.raw_type = 16 ∨ d.header.raw_type = 0) := by
  have hx : ∃ d, FujiDecompressor.construct 6 (blankImage 768 6)
      ⟨([0x49, 0x53, 1, 16, 14, 0, 6, 3, 0, 3, 0, 3, 0, 1, 0, 1] ++
        [0, 0, 0, 2, 0, 0, 0, 0, 0, 0, 0, 0, 0, 0, 0, 0, 0xAA, 0xBB]), 0⟩ = .ok d :=
    ⟨_, rfl⟩
  obtain ⟨d, hd⟩ := hx
  exact ⟨d, hd, (FujiDecompressor.decodePath_by_raw_type 6 _ _ d hd).1⟩

theorem getD_set_nat (n : List Nat) (i : Nat) (v : Nat) (l : Nat) (hi : i < n.length) :
    (n.set i v).getD l 0 = if l = i then v else n.getD l 0 := by
  simp only [List.getD_eq_getElem?_getD, List.getElem?_set]
  by_cases h : i = l
  · subst h
    simp [hi]
  · have h2 : ¬ l = i := fun e => h e.symm
    simp [h, h2]

theorem codesOfLength_cons (s : CodeSymbol) (ss : List CodeSymbol) (l : Nat) :
    codesOfLength (s :: ss) l = codesOfLength ss l + (if s.code_len = l then 1 else 0) := by
  simp [codesOfLength, List.countP_cons]

theorem codesOfLength_le (ss : List CodeSymbol) (l : Nat) : codesOfLength ss l ≤ ss.length :=
  List.countP_le_length _

/-- When no count wraps around, the counting loop of the constructor leaves the size of the
vector unchanged, has indexed it within its bounds, and has added to each entry the number
of symbols of that length. -/
theorem countCodes_counts (M : Nat) (ndebug : Bool) : ∀ (ss : List CodeSymbol) (n r : List Nat),
    countCodes M ndebug ss n = .ok r →
    (∀ l, n.getD l 0 + codesOfLength ss l < 2 ^ 32) →
    r.length = n.length ∧ (∀ s ∈ ss, s.code_len < n.length) ∧
      ∀ l, r.getD l 0 = n.getD l 0 + codesOfLength ss l := by
  intro ss
  induction ss with
  | nil =>
    intro n r h _
    simp only [countCodes, Except.ok.injEq] at h
    subst h
    simp [codesOfLength]
  | cons a ss ih =>
    intro n r h hb
    simp only [countCodes] at h
    split at h
    · cases h
    · split at h
      · rename_i hlt
        have hba := hb a.code_len
        rw [codesOfLength_cons] at hba
        simp only [if_true] at hba
        have hmod : (n.getD a.code_len 0 + 1) % 2 ^ 32 = n.getD a.code_len 0 + 1 :=
          Nat.mod_eq_of_lt (by omega)
        rw [hmod] at h
        have hb2 : ∀ l, (n.set a.code_len (n.getD a.code_len 0 + 1)).getD l 0 +
            codesOfLength ss l < 2 ^ 32 := by
          intro l
          have := hb l
          rw [codesOfLength_cons] at this
          rw [getD_set_nat _ _ _ _ hlt]
          by_cases e : l = a.code_len
          · subst e
            simp only [if_true] at this ⊢
            omega
          · have e2 : ¬ a.code_len = l := fun x => e x.symm
            simp only [if_neg e, if_neg e2] at this ⊢
            omega
        obtain ⟨h1, h2, h3⟩ := ih _ r h hb2
        refine ⟨by simpa using h1, ?_, ?_⟩
        · intro s hs
          rcases List.mem_cons.1 hs with rfl | hs
          · exact hlt
          · simpa using h2 s hs
        · intro l
          rw [h3 l, codesOfLength_cons, getD_set_nat _ _ _ _ hlt]
          by_cases e : l = a.code_len
          · subst e
            simp only [if_true]
            omega
          · have e2 : ¬ a.code_len = l := fun x => e x.symm
            simp only [if_neg e, if_neg e2]
            omega
      · cases h

theorem sum_set_succ : ∀ (n : List Nat) (i : Nat), i < n.length →
    (n.set i (n.getD i 0 + 1)).sum = n.sum + 1 := by
  intro n
  induction n with
  | nil => intro i h; simp at h
  | cons x xs ih =>
    intro i h
    cases i with
    | zero => simp; omega
    | succ i =>
      have := ih i (by simpa using h)
      simp only [List.set_cons_succ, List.sum_cons, List.getD_cons_succ, this]
      omega

/-- The counting loop adds one to the sum of the vector for each symbol. -/
theorem countCodes_sum (M : Nat) (ndebug : Bool) : ∀ (ss : List CodeSymbol) (n r : List Nat),
    countCodes M ndebug ss n = .ok r →
    (∀ l, n.getD l 0 + codesOfLength ss l < 2 ^ 32) →
    r.sum = n.sum + ss.length := by
  intro ss
  induction ss with
  | nil =>
    intro n r h _
    simp only [countCodes, Except.ok.injEq] at h
    subst h
    simp
  | cons a ss ih =>
    intro n r h hb
    simp only [countCodes] at h
    split at h
    · cases h
    · split at h
      · rename_i hlt
        have hba := hb a.code_len
        rw [codesOfLength_cons] at hba
        simp only [if_true] at hba
        have hmod : (n.getD a.code_len 0 + 1) % 2 ^ 32 = n.getD a.code_len 0 + 1 :=
          Nat.mod_eq_of_lt (by omega)
        rw [hmod] at h
        have hb2 : ∀ l, (n.set a.code_len (n.getD a.code_len 0 + 1)).getD l 0 +
            codesOfLength ss l < 2 ^ 32 := by
          intro l
          have := hb l
          rw [codesOfLength_cons] at this
          rw [getD_set_nat _ _ _ _ hlt]
          by_cases e : l = a.code_len
          · subst e
            simp only [if_true] at this ⊢
            omega
          · have e2 : ¬ a.code_len = l := fun x => e x.symm
            simp only [if_neg e, if_neg e2] at this ⊢
            omega
        rw [ih _ r h hb2, sum_set_succ n _ hlt, List.length_cons]
        omega
      · cases h

/-- Trimming removes a run of zero entries from the end and leaves a vector that is empty
or ends in a nonzero entry. -/
theorem trimTrailingZeros_spec (n : List Nat) :
    (∃ z, n = trimTrailingZeros n ++ List.replicate z 0) ∧
      ∀ h : trimTrailingZeros n ≠ [], (trimTrailingZeros n).getLast h ≠ 0 := by
  constructor
  · induction n using List.reverseRecOn with
    | nil => exact ⟨0, by simp [trimTrailingZeros]⟩
    | append_singleton l x ih =>
      obtain ⟨z, hz⟩ := ih
      by_cases hx : x = 0
      · subst hx
        refine ⟨z + 1, ?_⟩
        unfold trimTrailingZeros at hz ⊢
        rw [List.rdropWhile_concat_pos _ _ _ (by simp), List.replicate_succ', ← List.append_assoc,
          ← hz]
      · refine ⟨0, ?_⟩
        unfold trimTrailingZeros
        rw [List.rdropWhile_concat_neg _ _ _ (by simpa using hx)]
        simp
  · intro h
    have := List.rdropWhile_last_not (fun c : Nat => c == 0) n h
    simpa using this

theorem getD_append_replicate_zero (t : List Nat) (z l : Nat) :
    (t ++ List.replicate z 0).getD l 0 = t.getD l 0 := by
  simp only [List.getD_eq_getElem?_getD]
  by_cases h : l < t.length
  · rw [List.getElem?_append_left h]
  · rw [List.getElem?_append_right (by omega), List.getElem?_eq_none (by omega : t.length ≤ l)]
    by_cases h2 : l - t.length < z
    · rw [List.getElem?_replicate_of_lt h2]
      rfl
    · rw [List.getElem?_eq_none (by simpa using h2)]

/-- A successful construction has counted the code lengths, trimmed the counts and passed
`verifyCodeSymbols` on the trimmed counts. -/
theorem PrefixCode.construct_steps (M : Nat) (ndebug : Bool) (ss : List CodeSymbol)
    (vs : List Nat) (pc : PrefixCode) (h : PrefixCode.construct M ndebug ss vs = .ok pc) :
    ∃ counted, countCodes M ndebug ss (List.replicate (1 + M) 0) = .ok counted ∧
      pc.nCodesPerLength = trimTrailingZeros counted ∧
      verifyCodeSymbols ndebug (trimTrailingZeros counted) ss = .ok () := by
  unfold PrefixCode.construct at h
  split at h
  · cases h
  · rename_i counted hc
    simp only at h
    split at h
    · cases h
    · rename_i hv
      cases h
      exact ⟨counted, hc, rfl, hv⟩

theorem countCodes_pos (M : Nat) : ∀ (ss : List CodeSymbol) (n r : List Nat),
    countCodes M false ss n = .ok r → ∀ s ∈ ss, 0 < s.code_len :=
  fun ss n r h s hs => (countCodes_ok_range M ss n r h s hs).1

theorem codesOfLength_pos (ss : List CodeSymbol) (s : CodeSymbol) (hs : s ∈ ss) :
    0 < codesOfLength ss s.code_len := by
  unfold codesOfLength
  rw [List.countP_pos_iff]
  exact ⟨s, hs, by simp⟩

theorem codesOfLength_eq_zero (ss : List CodeSymbol) (l : Nat)
    (h : ∀ s ∈ ss, s.code_len ≠ l) : codesOfLength ss l = 0 := by
  unfold codesOfLength
  rw [List.countP_eq_zero]
  intro s hs
  simpa using h s hs

/-- The trimmed result of the counting loop, described through the counts of the symbols:
it misses only zero counts of the full vector, and is empty or ends in a nonzero count. -/
theorem countCodes_trimmed (M : Nat) (ndebug : Bool) (ss : List CodeSymbol)
    (counted : List Nat)
    (hc : countCodes M ndebug ss (List.replicate (1 + M) 0) = .ok counted)
    (hsize : ∀ l, codesOfLength ss l < 2 ^ 32) :
    (∀ l, (trimTrailingZeros counted).getD l 0 = codesOfLength ss l) ∧
    (trimTrailingZeros counted).sum = ss.length ∧
    (∀ hne : trimTrailingZeros counted ≠ [], (trimTrailingZeros counted).getLast hne ≠ 0) ∧
    (trimTrailingZeros counted).length ≤ 1 + M := by
  have h0 : ∀ l, (List.replicate (1 + M) 0).getD l 0 = 0 := by
    intro l
    simp
  have hb : ∀ l, (List.replicate (1 + M) 0).getD l 0 + codesOfLength ss l < 2 ^ 32 := by
    intro l
    have := hsize l
    have := h0 l
    omega
  obtain ⟨h1, -, h3⟩ := countCodes_counts M ndebug ss _ counted hc hb
  have h4 := countCodes_sum M ndebug ss _ counted hc hb
  obtain ⟨⟨z, hz⟩, hlast⟩ := trimTrailingZeros_spec counted
  refine ⟨?_, ?_, hlast, ?_⟩
  · intro l
    rw [← getD_append_replicate_zero _ z l, ← hz, h3 l, h0]
    omega
  · have : counted.sum = (trimTrailingZeros counted).sum := by
      conv_lhs => rw [hz]
      simp
    rw [← this, h4]
    simp
  · have : counted.length = (trimTrailingZeros counted).length + z := by
      conv_lhs => rw [hz]
      simp
    simp only [List.length_replicate] at h1
    omega

/-- The stored `nCodesPerLength` of a constructed code, described through the counts of
the symbols. -/
theorem PrefixCode.construct_counts (M : Nat) (ndebug : Bool) (ss : List CodeSymbol)
    (vs : List Nat) (pc : PrefixCode) (h : PrefixCode.construct M ndebug ss vs = .ok pc)
    (hsize : ss.length < 2 ^ 32) :
    (∀ l, pc.nCodesPerLength.getD l 0 = codesOfLength ss l) ∧
    pc.nCodesPerLength.sum = ss.length ∧
    (∀ hne : pc.nCodesPerLength ≠ [], pc.nCodesPerLength.getLast hne ≠ 0) ∧
    pc.nCodesPerLength.length ≤ 1 + M := by
  obtain ⟨counted, hc, hn, -⟩ := PrefixCode.construct_steps M ndebug ss vs pc h
  rw [hn]
  exact countCodes_trimmed M ndebug ss counted hc
    (fun l => lt_of_le_of_lt (codesOfLength_le ss l) hsize)

/-- C35: after a successful construction of a `PrefixCode` from a symbol list (of fewer
than 2^32 symbols, each of positive length, which the constructor asserts unless built
without assertions), `nCodesPerLength[l]` is the number of symbols whose `code_len` is
`l` for every index `l` it has, entry 0 is 0, the entries sum to the number of symbols,
and the trailing zero counts are trimmed: the vector is empty when the symbol list is
empty, and otherwise its size is 1 + the largest `code_len` present. -/
theorem PrefixCode.construct_nCodesPerLength (M : Nat) (ndebug : Bool)
    (symbols : List CodeSymbol) (codeValues : List Nat) (pc : PrefixCode)
    (hok : PrefixCode.construct M ndebug symbols codeValues = .ok pc)
    (hpos : ndebug = true → ∀ s ∈ symbols, 0 < s.code_len)
    (hsize : symbols.length < 2 ^ 32) :
    (∀ l, l < pc.nCodesPerLength.length →
      pc.nCodesPerLength.getD l 0 = codesOfLength symbols l) ∧
    pc.nCodesPerLength.getD 0 0 = 0 ∧
    pc.nCodesPerLength.sum = symbols.length ∧
    (symbols = [] → pc.nCodesPerLength = []) ∧
    (∀ s ∈ symbols, s.code_len + 1 ≤ pc.nCodesPerLength.length) ∧
    (symbols ≠ [] → ∃ s ∈ symbols, pc.nCodesPerLength.length = 1 + s.code_len) := by
  obtain ⟨hget, hsum, hlast, -⟩ :=
    PrefixCode.construct_counts M ndebug symbols codeValues pc hok hsize
  have hpos2 : ∀ s ∈ symbols, 0 < s.code_len := by
    cases ndebug with
    | true => exact hpos rfl
    | false =>
      obtain ⟨counted, hc, -, -⟩ :=
        PrefixCode.construct_steps M false symbols codeValues pc hok
      exact countCodes_pos M symbols _ counted hc
  have hexists : ∀ hne : pc.nCodesPerLength ≠ [],
      ∃ s ∈ symbols, pc.nCodesPerLength.length = 1 + s.code_len := by
    intro hne
    have hl := hlast hne
    have hlen : 0 < pc.nCodesPerLength.length := List.length_pos.2 hne
    have hg := hget (pc.nCodesPerLength.length - 1)
    rw [List.getD_eq_getElem?_getD, List.getElem?_eq_getElem (by omega)] at hg
    rw [List.getLast_eq_getElem] at hl
    simp only [Option.getD_some] at hg
    rw [hg] at hl
    have hp : 0 < codesOfLength symbols (pc.nCodesPerLength.length - 1) := by omega
    unfold codesOfLength at hp
    rw [List.countP_pos_iff] at hp
    obtain ⟨s, hs, he⟩ := hp
    refine ⟨s, hs, ?_⟩
    have : s.code_len = pc.nCodesPerLength.length - 1 := by simpa using he
    omega
  have hcover : ∀ s ∈ symbols, s.code_len + 1 ≤ pc.nCodesPerLength.length := by
    intro s hs
    by_contra hlt
    have hg := hget s.code_len
    rw [List.getD_eq_getElem?_getD, List.getElem?_eq_none (by omega)] at hg
    have := codesOfLength_pos symbols s hs
    simp only [Option.getD_none] at hg
    omega
  refine ⟨fun l _ => hget l, ?_, hsum, ?_, hcover, ?_⟩
  · rw [hget 0]
    exact codesOfLength_eq_zero symbols 0 (fun s hs => by have := hpos2 s hs; omega)
  · intro he
    by_contra hne
    obtain ⟨s, hs, -⟩ := hexists hne
    rw [he] at hs
    cases hs
  · intro hne
    apply hexists
    intro he
    obtain ⟨s, hs⟩ := List.exists_mem_of_ne_nil symbols hne
    have := hcover s hs
    rw [he] at this
    simp at this

/-- Witness for C35: the lengths 1, 2, 3, 3 with a maximal length of 16 give the counts
`[0, 1, 1, 2]`. -/
theorem PrefixCode.construct_nCodesPerLength_witness :
    PrefixCode.construct 16 false [⟨0, 1⟩, ⟨2, 2⟩, ⟨6, 3⟩, ⟨7, 3⟩] [4, 5, 6, 7] =
      .ok ⟨[4, 5, 6, 7], [0, 1, 1, 2], [⟨0, 1⟩, ⟨2, 2⟩, ⟨6, 3⟩, ⟨7, 3⟩]⟩ ∧
    ((∀ l, l < [0, 1, 1, 2].length →
      [0, 1, 1, 2].getD l 0 = codesOfLength [⟨0, 1⟩, ⟨2, 2⟩, ⟨6, 3⟩, ⟨7, 3⟩] l) ∧
    [0, 1, 1, 2].getD 0 0 = 0 ∧
    [0, 1, 1, 2].sum = [(⟨0, 1⟩ : CodeSymbol), ⟨2, 2⟩, ⟨6, 3⟩, ⟨7, 3⟩].length ∧
    ([(⟨0, 1⟩ : CodeSymbol), ⟨2, 2⟩, ⟨6, 3⟩, ⟨7, 3⟩] = [] → [0, 1, 1, 2] = []) ∧
    (∀ s ∈ [(⟨0, 1⟩ : CodeSymbol), ⟨2, 2⟩, ⟨6, 3⟩, ⟨7, 3⟩],
      s.code_len + 1 ≤ [0, 1, 1, 2].length) ∧
    ([(⟨0, 1⟩ : CodeSymbol), ⟨2, 2⟩, ⟨6, 3⟩, ⟨7, 3⟩] ≠ [] →
      ∃ s ∈ [(⟨0, 1⟩ : CodeSymbol), ⟨2, 2⟩, ⟨6, 3⟩, ⟨7, 3⟩],
        [0, 1, 1, 2].length = 1 + s.code_len)) :=
  ⟨rfl, PrefixCode.construct_nCodesPerLength 16 false [⟨0, 1⟩, ⟨2, 2⟩, ⟨6, 3⟩, ⟨7, 3⟩]
    [4, 5, 6, 7] ⟨[4, 5, 6, 7], [0, 1, 1, 2], [⟨0, 1⟩, ⟨2, 2⟩, ⟨6, 3⟩, ⟨7, 3⟩]⟩ rfl
    (fun h => absurd h (by decide)) (by decide)⟩

/-- Where the exact recurrence has enough slots and stays within `unsigned`, the loop of
the source passes all its assertions. -/
theorem checkCodeSpace_of_slotsSuffice (ndebug : Bool) : ∀ (n : List Nat) (m : Nat),
    m < 2 ^ 32 → slotsSuffice n m → checkCodeSpace ndebug n m = .ok () := by
  intro n
  induction n with
  | nil => intro m _ _; rfl
  | cons c rest ih =>
    intro m hm h
    obtain ⟨h1, h2, h3⟩ := h
    have e : ((m + 2 ^ 32 - c) % 2 ^ 32 * 2) % 2 ^ 32 = (m - c) * 2 := by
      have : (m + 2 ^ 32 - c) % 2 ^ 32 = m - c := by omega
      rw [this]
      exact Nat.mod_eq_of_lt h2
    simp only [checkCodeSpace]
    rw [if_neg (by simp [h1]), e]
    exact ih _ h2 h3

theorem leafSlots_le (symbols : List CodeSymbol) (h : PrefixFree symbols) (k : Nat) :
    leafSlots symbols k ≤ 2 ^ (k + 1) := by
  have hK := kraftSum_le k _ (incomparable_properPaths symbols h)
  rw [leafSlots_eq symbols k hK, pow_succ]
  push_cast
  omega

/-- The exact recurrence on the counts of feasible symbols, started at the slots of
length `k + 1`. -/
theorem slotsSuffice_of_feasible (symbols : List CodeSymbol) (hf : Feasible symbols) :
    ∀ (rest : List Nat) (k m : Nat), (m : Int) = leafSlots symbols k →
    (∀ i, i < rest.length → rest.getD i 0 = codesOfLength symbols (k + 1 + i)) →
    (∀ i, i < rest.length → leafSlots symbols (k + 1 + i) < 2 ^ 32) →
    slotsSuffice rest m := by
  intro rest
  induction rest with
  | nil => intro k m _ _ _; trivial
  | cons c rest ih =>
    intro k m hm hc hb
    have hc0 := hc 0 (by simp)
    have hb0 := hb 0 (by simp)
    simp only [List.getD_cons_zero, Nat.add_zero] at hc0 hb0
    have hfk := hf k
    rw [← hc0, ← hm] at hfk
    have hle : c ≤ m := by exact_mod_cast hfk
    have hnext : (((m - c) * 2 : Nat) : Int) = leafSlots symbols (k + 1) := by
      rw [leafSlots, ← hm, ← hc0]
      push_cast [hle]
      ring
    refine ⟨hle, ?_, ih (k + 1) _ hnext ?_ ?_⟩
    · have : (((m - c) * 2 : Nat) : Int) < 2 ^ 32 := by rw [hnext]; exact hb0
      exact_mod_cast this
    · intro i hi
      have := hc (i + 1) (by simpa using hi)
      simp only [List.getD_cons_succ] at this
      rw [this]
      congr 1
      omega
    · intro i hi
      have := hb (i + 1) (by simpa using hi)
      have e : k + 1 + (i + 1) = k + 1 + 1 + i := by omega
      rw [e] at this
      exact this

theorem countCodes_ok_of_range (M : Nat) (ndebug : Bool) : ∀ (ss : List CodeSymbol)
    (n : List Nat), (∀ s ∈ ss, 0 < s.code_len ∧ s.code_len ≤ M) → M < n.length →
    ∃ r, countCodes M ndebug ss n = .ok r := by
  intro ss
  induction ss with
  | nil => intro n _ _; exact ⟨n, rfl⟩
  | cons a ss ih =>
    intro n h hn
    have ha := h a (by simp)
    simp only [countCodes]
    rw [if_neg (by simp [ha]), if_pos (by omega)]
    exact ih _ (fun s hs => h s (List.mem_cons_of_mem _ hs)) (by simpa using hn)

theorem getD_drop_one (t : List Nat) (i : Nat) : (t.drop 1).getD i 0 = t.getD (1 + i) 0 := by
  simp only [List.getD_eq_getElem?_getD, List.getElem?_drop]

/-- C39: for symbols with `code_len` in 1..MaxCodeLenghtBits (at most 31 bits, the counters
being `unsigned`) whose bit patterns are pairwise prefix-free (so the symbols are distinct),
the constructor counts the lengths without fault, and the leaf-slot recurrence of
`verifyCodeSymbols` on the trimmed counts never finds more codes at a length than slots
and never overflows: the exact recurrence has enough slots and stays below 2^32 at every
length, and the loop of the source passes.  Hence the assertion `Too many codes` can only
fail for symbols that also fail prefix-freedom. -/
theorem verifyCodeSymbols_enough_slots (M : Nat) (symbols : List CodeSymbol)
    (hM : M ≤ 31) (hlen : ∀ s ∈ symbols, 0 < s.code_len ∧ s.code_len ≤ M)
    (hpf : PrefixFree symbols) :
    ∃ counted, countCodes M false symbols (List.replicate (1 + M) 0) = .ok counted ∧
      (∀ l, (trimTrailingZeros counted).getD l 0 = codesOfLength symbols l) ∧
      slotsSuffice ((trimTrailingZeros counted).drop 1) 2 ∧
      checkCodeSpace false ((trimTrailingZeros counted).drop 1) 2 = .ok () := by
  obtain ⟨counted, hc⟩ := countCodes_ok_of_range M false symbols (List.replicate (1 + M) 0)
    hlen (by simp)
  have hf := feasible_of_prefixFree symbols hpf
  have hsize : ∀ l, codesOfLength symbols l < 2 ^ 32 := by
    intro l
    by_cases h0 : 0 < l ∧ l ≤ M
    · obtain ⟨k, rfl⟩ : ∃ k, l = k + 1 := ⟨l - 1, by omega⟩
      have h1 := hf k
      have h2 := leafSlots_le symbols hpf k
      have h3 : (2 : Int) ^ (k + 1) ≤ 2 ^ 31 := by
        exact_mod_cast Nat.pow_le_pow_right (by norm_num) (by omega : k + 1 ≤ 31)
      have : (codesOfLength symbols (k + 1) : Int) < 2 ^ 32 := by
        have : (2 : Int) ^ 31 < 2 ^ 32 := by norm_num
        omega
      exact_mod_cast this
    · rw [codesOfLength_eq_zero symbols l (fun s hs e => h0 (e ▸ hlen s hs))]
      norm_num
  obtain ⟨hget, -, hlast, hlength⟩ := countCodes_trimmed M false symbols counted hc hsize
  have hs : slotsSuffice ((trimTrailingZeros counted).drop 1) 2 := by
    refine slotsSuffice_of_feasible symbols hf _ 0 2 rfl ?_ ?_
    · intro i _
      rw [getD_drop_one, hget]
    · intro i hi
      simp only [List.length_drop] at hi
      have h2 := leafSlots_le symbols hpf i
      have e : 0 + 1 + i = i + 1 := by omega
      rw [e, leafSlots]
      by_cases hi2 : i + 1 ≤ 30
      · have h3 : (2 : Int) ^ (i + 1) ≤ 2 ^ 30 := by
          exact_mod_cast Nat.pow_le_pow_right (by norm_num) hi2
        have : (2 : Int) ^ 30 = 1073741824 := by norm_num
        have : (2 : Int) ^ 32 = 4294967296 := by norm_num
        omega
      · have hi3 : i + 1 = (trimTrailingZeros counted).length - 1 := by omega
        have hne : trimTrailingZeros counted ≠ [] := by
          intro e0
          rw [e0] at hi
          simp at hi
        have hl := hlast hne
        rw [List.getLast_eq_getElem] at hl
        have hg := hget (i + 1)
        rw [List.getD_eq_getElem?_getD, List.getElem?_eq_getElem (by omega)] at hg
        simp only [Option.getD_some] at hg
        have hpos : 0 < codesOfLength symbols (i + 1) := by
          rw [← hg]
          simp only [hi3]
          omega
        have h3 : (2 : Int) ^ (i + 1) ≤ 2 ^ 31 := by
          exact_mod_cast Nat.pow_le_pow_right (by norm_num) (by omega : i + 1 ≤ 31)
        have : (2 : Int) ^ 31 = 2147483648 := by norm_num
        have : (2 : Int) ^ 32 = 4294967296 := by norm_num
        omega
  exact ⟨counted, hc, hget, hs, checkCodeSpace_of_slotsSuffice false _ 2 (by norm_num) hs⟩

/-- Witness for C39: the codes `0`, `10`, `110`, `111`. -/
theorem verifyCodeSymbols_enough_slots_witness :
    (16 ≤ 31 ∧ (∀ s ∈ [(⟨0, 1⟩ : CodeSymbol), ⟨2, 2⟩, ⟨6, 3⟩, ⟨7, 3⟩],
      0 < s.code_len ∧ s.code_len ≤ 16) ∧
      PrefixFree [⟨0, 1⟩, ⟨2, 2⟩, ⟨6, 3⟩, ⟨7, 3⟩]) ∧
    ∃ counted, countCodes 16 false [⟨0, 1⟩, ⟨2, 2⟩, ⟨6, 3⟩, ⟨7, 3⟩]
        (List.replicate (1 + 16) 0) = .ok counted ∧
      (∀ l, (trimTrailingZeros counted).getD l 0 =
        codesOfLength [⟨0, 1⟩, ⟨2, 2⟩, ⟨6, 3⟩, ⟨7, 3⟩] l) ∧
      slotsSuffice ((trimTrailingZeros counted).drop 1) 2 ∧
      checkCodeSpace false ((trimTrailingZeros counted).drop 1) 2 = .ok () :=
  have hlen : ∀ s ∈ [(⟨0, 1⟩ : CodeSymbol), ⟨2, 2⟩, ⟨6, 3⟩, ⟨7, 3⟩],
      0 < s.code_len ∧ s.code_len ≤ 16 := by decide
  have hpf : PrefixFree [⟨0, 1⟩, ⟨2, 2⟩, ⟨6, 3⟩, ⟨7, 3⟩] := by
    unfold PrefixFree Incomparable
    decide
  ⟨⟨by decide, hlen, hpf⟩, verifyCodeSymbols_enough_slots 16 _ (by decide) hlen hpf⟩

/-- The leading zeros of a nonzero `width`-bit value locate its highest 1 bit. -/
theorem countl_zero_spec : ∀ (w x : Nat), x < 2 ^ w →
    (x = 0 ∧ countl_zero w x = w) ∨
    (0 < x ∧ countl_zero w x < w ∧ 2 ^ (w - 1 - countl_zero w x) ≤ x ∧
      x < 2 ^ (w - countl_zero w x)) := by
  intro w
  induction w with
  | zero =>
    intro x hx
    left
    simp only [pow_zero, Nat.lt_one_iff] at hx
    exact ⟨hx, rfl⟩
  | succ w ih =>
    intro x hx
    have hp : 0 < 2 ^ w := Nat.two_pow_pos _
    have hlt : x / 2 ^ w < 2 := by
      rw [Nat.div_lt_iff_lt_mul hp]
      rw [pow_succ] at hx
      omega
    by_cases hb : x / 2 ^ w % 2 = 1
    · right
      have h1 : x / 2 ^ w = 1 := by
        generalize x / 2 ^ w = q at hlt hb
        omega
      have hge : 2 ^ w ≤ x := by
        by_contra hc
        rw [Nat.div_eq_of_lt (by omega)] at h1
        omega
      simp only [countl_zero, if_pos hb]
      refine ⟨by omega, by omega, ?_, ?_⟩
      · simpa using hge
      · simpa using hx
    · have h0 : x / 2 ^ w = 0 := by
        generalize x / 2 ^ w = q at hlt hb
        omega
      have hxw : x < 2 ^ w := by
        by_contra hc
        have := Nat.div_pos (not_lt.1 hc) hp
        omega
      simp only [countl_zero, if_neg hb]
      rcases ih x hxw with ⟨hx0, hc⟩ | ⟨hx0, hc, hlo, hhi⟩
      · left
        exact ⟨hx0, by omega⟩
      · right
        refine ⟨hx0, by omega, ?_, ?_⟩
        · have e : w + 1 - 1 - (1 + countl_zero w x) = w - 1 - countl_zero w x := by omega
          rw [e]
          exact hlo
        · have e : w + 1 - (1 + countl_zero w x) = w - countl_zero w x := by omega
          rw [e]
          exact hhi

/-- The arithmetic of `bitDiff` on natural numbers below 2^31: the shifted value stays
below 2^31, and the corrected shift count is the least `d` with `x1 ≤ x2 * 2 ^ d`. -/
theorem bitDiff_core (x1 x2 : Nat) (h1 : x1 < 2 ^ 31) (h2 : 0 < x2) (h2b : x2 < 2 ^ 31) :
    x2 * 2 ^ (countl_zero 32 x2 - countl_zero 32 x1) < 2 ^ 31 ∧
    x1 ≤ x2 * 2 ^ (if x2 * 2 ^ (countl_zero 32 x2 - countl_zero 32 x1) < x1
      then countl_zero 32 x2 - countl_zero 32 x1 + 1
      else countl_zero 32 x2 - countl_zero 32 x1) ∧
    ∀ e : Nat, x1 ≤ x2 * 2 ^ e →
      (if x2 * 2 ^ (countl_zero 32 x2 - countl_zero 32 x1) < x1
        then countl_zero 32 x2 - countl_zero 32 x1 + 1
        else countl_zero 32 x2 - countl_zero 32 x1) ≤ e := by
  have hx1 : x1 < 2 ^ 32 := by omega
  have hx2 : x2 < 2 ^ 32 := by omega
  rcases countl_zero_spec 32 x2 hx2 with ⟨h0, -⟩ | ⟨-, hc2, hlo2, hhi2⟩
  · omega
  generalize countl_zero 32 x2 = c2 at *
  have hc2pos : 1 ≤ c2 := by
    by_contra hc
    have : c2 = 0 := by omega
    subst this
    simp only [Nat.sub_zero] at hlo2
    omega
  rcases countl_zero_spec 32 x1 hx1 with ⟨h0, hc1⟩ | ⟨hpos1, hc1, hlo1, hhi1⟩
  · rw [hc1]
    subst h0
    have e : c2 - 32 = 0 := by omega
    simp only [e, pow_zero, Nat.mul_one, Nat.not_lt_zero, if_false]
    exact ⟨h2b, Nat.zero_le _, fun e _ => Nat.zero_le _⟩
  generalize countl_zero 32 x1 = c1 at *
  have hc1pos : 1 ≤ c1 := by
    by_contra hc
    have : c1 = 0 := by omega
    subst this
    simp only [Nat.sub_zero] at hlo1
    omega
  have hmono : ∀ a b : Nat, a ≤ b → x2 * 2 ^ a ≤ x2 * 2 ^ b := fun a b hab =>
    Nat.mul_le_mul_left _ (Nat.pow_le_pow_right (by norm_num) hab)
  by_cases hle : c2 < c1
  · -- the second value is longer than the first
    have e : c2 - c1 = 0 := by omega
    have hge : x1 ≤ x2 := by
      have : 2 ^ (32 - c1) ≤ 2 ^ (32 - 1 - c2) :=
        Nat.pow_le_pow_right (by norm_num) (by omega)
      omega
    simp only [e, pow_zero, Nat.mul_one, if_neg (not_lt.2 hge)]
    exact ⟨h2b, hge, fun e _ => Nat.zero_le _⟩
  · have hup : x2 * 2 ^ (c2 - c1) < 2 ^ (32 - c1) := by
      have e : 2 ^ (32 - c1) = 2 ^ (32 - c2) * 2 ^ (c2 - c1) := by
        rw [← pow_add]
        congr 1
        omega
      rw [e]
      exact Nat.mul_lt_mul_of_pos_right hhi2 (Nat.two_pow_pos _)
    have hlow : 2 ^ (32 - 1 - c1) ≤ x2 * 2 ^ (c2 - c1) := by
      have e : 2 ^ (32 - 1 - c1) = 2 ^ (32 - 1 - c2) * 2 ^ (c2 - c1) := by
        rw [← pow_add]
        congr 1
        omega
      rw [e]
      exact Nat.mul_le_mul_right _ hlo2
    have hprev : 1 ≤ c2 - c1 → x2 * 2 ^ (c2 - c1 - 1) < x1 := by
      intro hd
      have e : 2 ^ (32 - 1 - c1) = 2 ^ (32 - c2) * 2 ^ (c2 - c1 - 1) := by
        rw [← pow_add]
        congr 1
        omega
      have : x2 * 2 ^ (c2 - c1 - 1) < 2 ^ (32 - 1 - c1) := by
        rw [e]
        exact Nat.mul_lt_mul_of_pos_right hhi2 (Nat.two_pow_pos _)
      omega
    have h31 : 2 ^ (32 - c1) ≤ 2 ^ 31 := Nat.pow_le_pow_right (by norm_num) (by omega)
    refine ⟨by omega, ?_, ?_⟩
    · split
      · rw [pow_succ, ← Nat.mul_assoc]
        have e : 2 ^ (32 - c1) = 2 ^ (32 - 1 - c1) * 2 := by
          rw [← pow_succ]
          congr 1
          omega
        omega
      · omega
    · intro e he
      split
      · rename_i hlt
        by_contra hc
        have := hmono e (c2 - c1) (by omega)
        omega
      · by_contra hc
        have := hmono e (c2 - c1 - 1) (by omega)
        have := hprev (by omega)
        omega

/-- C32: for all 32-bit ints `value1 ≥ 0` and `value2 > 0`, `bitDiff(value1, value2)`
returns `min(15, d)` where `d` is the least non-negative integer with
`value2 * 2^d ≥ value1`; the intermediate shift `value2 << decBits` stays within a 32-bit
`int` (it is the value of the `int` expression, no overflow). -/
theorem bitDiff_least_shift (ndebug : Bool) (value1 value2 : Int)
    (h1 : 0 ≤ value1) (h1b : value1 < 2 ^ 31) (h2 : 0 < value2) (h2b : value2 < 2 ^ 31) :
    ∃ d : Nat, value1 ≤ value2 * 2 ^ d ∧ (∀ e : Nat, value1 ≤ value2 * 2 ^ e → d ≤ e) ∧
      bitDiff ndebug value1 value2 = .ok (min 15 (d : Int)) ∧
      int32 (value2 * 2 ^ (max ((countl_zero 32 (value2 % 2 ^ 32).toNat : Int) -
          countl_zero 32 (value1 % 2 ^ 32).toNat) 0).toNat) =
        .ok (value2 * 2 ^ (max ((countl_zero 32 (value2 % 2 ^ 32).toNat : Int) -
          countl_zero 32 (value1 % 2 ^ 32).toNat) 0).toNat) := by
  obtain ⟨x1, rfl⟩ := Int.eq_ofNat_of_zero_le h1
  obtain ⟨x2, rfl⟩ := Int.eq_ofNat_of_zero_le (le_of_lt h2)
  have hx1 : x1 < 2 ^ 31 := by exact_mod_cast h1b
  have hx2 : x2 < 2 ^ 31 := by exact_mod_cast h2b
  have hx2p : 0 < x2 := by exact_mod_cast h2
  have e1 : ((x1 : Int) % 2 ^ 32).toNat = x1 := by omega
  have e2 : ((x2 : Int) % 2 ^ 32).toNat = x2 := by omega
  obtain ⟨hs, hd, hmin⟩ := bitDiff_core x1 x2 hx1 hx2p hx2
  rw [e1, e2]
  have e3 : (max ((countl_zero 32 x2 : Int) - countl_zero 32 x1) 0).toNat =
      countl_zero 32 x2 - countl_zero 32 x1 := by omega
  have e4 : max ((countl_zero 32 x2 : Int) - countl_zero 32 x1) 0 =
      ((countl_zero 32 x2 - countl_zero 32 x1 : Nat) : Int) := by omega
  have hshift : int32 ((x2 : Int) * 2 ^ (countl_zero 32 x2 - countl_zero 32 x1)) =
      .ok ((x2 : Int) * 2 ^ (countl_zero 32 x2 - countl_zero 32 x1)) := by
    unfold int32
    rw [if_pos]
    constructor
    · have : (0 : Int) ≤ (x2 : Int) * 2 ^ (countl_zero 32 x2 - countl_zero 32 x1) := by
        positivity
      omega
    · exact_mod_cast hs
  refine ⟨(if x2 * 2 ^ (countl_zero 32 x2 - countl_zero 32 x1) < x1
      then countl_zero 32 x2 - countl_zero 32 x1 + 1
      else countl_zero 32 x2 - countl_zero 32 x1), ?_, ?_, ?_, ?_⟩
  · exact_mod_cast hd
  · intro e he
    exact hmin e (by exact_mod_cast he)
  · unfold bitDiff
    rw [if_neg (by simp), if_neg (by simp [hx2p]), e1, e2]
    simp only [e4, Int.toNat_ofNat, hshift]
    rw [min_comm]
    have : ((x2 : Int) * 2 ^ (countl_zero 32 x2 - countl_zero 32 x1) < (x1 : Int)) ↔
        x2 * 2 ^ (countl_zero 32 x2 - countl_zero 32 x1) < x1 := by
      constructor
      · intro h
        exact_mod_cast h
      · intro h
        exact_mod_cast h
    simp only [this]
    split <;> simp
  · rw [e3]
    exact hshift

/-- Witness for C32: `bitDiff(1000, 3) = 9`, as `3 * 2^8 = 768 < 1000 ≤ 1536 = 3 * 2^9`. -/
theorem bitDiff_least_shift_witness :
    ((0 : Int) ≤ 1000 ∧ (1000 : Int) < 2 ^ 31 ∧ (0 : Int) < 3 ∧ (3 : Int) < 2 ^ 31) ∧
    bitDiff false 1000 3 = .ok 9 ∧
    ∃ d : Nat, (1000 : Int) ≤ 3 * 2 ^ d ∧ (∀ e : Nat, (1000 : Int) ≤ 3 * 2 ^ e → d ≤ e) ∧
      bitDiff false 1000 3 = .ok (min 15 (d : Int)) ∧
      int32 (3 * 2 ^ (max ((countl_zero 32 ((3 : Int) % 2 ^ 32).toNat : Int) -
          countl_zero 32 ((1000 : Int) % 2 ^ 32).toNat) 0).toNat) =
        .ok (3 * 2 ^ (max ((countl_zero 32 ((3 : Int) % 2 ^ 32).toNat : Int) -
          countl_zero 32 ((1000 : Int) % 2 ^ 32).toNat) 0).toNat) :=
  ⟨⟨by decide, by decide, by decide, by decide⟩, rfl,
    bitDiff_least_shift false 1000 3 (by decide) (by decide) (by decide) (by decide)⟩

/-- The gradient tables of a block after `reset`. -/
theorem fuji_compressed_block.reset_grads (info blk : fuji_compressed_block)
    (params : fuji_compressed_params) (h : info.reset params = .ok blk) :
    blk.grad_even = List.replicate 3 (List.replicate 41 ⟨params.maxDiff, 1⟩) ∧
    blk.grad_odd = List.replicate 3 (List.replicate 41 ⟨params.maxDiff, 1⟩) ∧
    blk.pump = info.pump := by
  unfold fuji_compressed_block.reset at h
  simp only at h
  repeat' split at h
  all_goals cases h
  exact ⟨rfl, rfl, rfl⟩

theorem int32_ok (x v : Int) (h : int32 x = .ok v) : v = x ∧ -2 ^ 31 ≤ x ∧ x < 2 ^ 31 := by
  unfold int32 at h
  split at h
  · rename_i hb
    cases h
    exact ⟨rfl, hb⟩
  · cases h

/-- The update of a gradient pair: the magnitude of the residual is added to `value1`,
both members are halved when `value2` equals `min_value`, then `value2` is incremented. -/
theorem fuji_update_grad_eq (ci : fuji_compressed_params) (g g2 : int_pair) (code : Int)
    (h : fuji_update_grad ci g code = .ok g2) :
    g2.value1 = (if g.value2 = ci.min_value then (g.value1 + |code|) / 2
      else g.value1 + |code|) ∧
    g2.value2 = (if g.value2 = ci.min_value then g.value2 / 2 else g.value2) + 1 := by
  unfold fuji_update_grad at h
  split at h
  · cases h
  · rename_i v1 hv1
    obtain ⟨rfl, -⟩ := int32_ok _ _ hv1
    simp only at h
    split at h
    · cases h
    · rename_i v2 hv2
      obtain ⟨rfl, -⟩ := int32_ok _ _ hv2
      cases h
      split <;> simp [*]

/-- What a successful `fuji_decode_sample` does to the gradient table: the pair at the
index `|grad|` is updated with the residual of a code within `[0, total_values)`. -/
theorem fuji_decode_sample_grads (ndebug : Bool) (slack : Nat) (ci : fuji_compressed_params)
    (pump : BitStreamer) (grad interp_val : Int) (grads : List int_pair)
    (r : Int × BitStreamer × List int_pair)
    (h : fuji_decode_sample ndebug slack ci pump grad interp_val grads = .ok r) :
    ∃ code pump2 g g2, fuji_read_code ndebug slack ci pump grads grad.natAbs = .ok (code, pump2) ∧
      0 ≤ code ∧ code < ci.total_values ∧
      grads.get? grad.natAbs = some g ∧ fuji_update_grad ci g (fuji_residual code) = .ok g2 ∧
      r = (fuji_fold ci grad interp_val (fuji_residual code), pump2,
        grads.set grad.natAbs g2) := by
  unfold fuji_decode_sample at h
  simp only at h
  split at h
  · cases h
  · rename_i code pump2 hrc
    split at h
    · cases h
    · rename_i hcode
      split at h
      · cases h
      · rename_i g hg
        split at h
        · cases h
        · rename_i g2 hu
          cases h
          exact ⟨code, pump2, g, g2, hrc, by omega, by omega, hg, hu, rfl⟩

theorem int32_error (x : Int) (e : Fault) (h : int32 x = .error e) :
    e = .undefinedBehaviour := by
  unfold int32 at h
  split at h
  · cases h
  · cases h
    rfl

/-- The assertions of `bitDiff` hold for `value1 ≥ 0` and `value2 > 0`. -/
theorem bitDiff_no_assertion (ndebug : Bool) (value1 value2 : Int) (h1 : 0 ≤ value1)
    (h2 : 0 < value2) : bitDiff ndebug value1 value2 ≠ .error .assertion := by
  unfold bitDiff
  rw [if_neg (by simp [h1]), if_neg (by simp [h2])]
  simp only
  split
  · rename_i e he
    rw [int32_error _ e he]
    simp
  · simp

/-- The range of a gradient pair is kept by its update. -/
theorem fuji_update_grad_range (ci : fuji_compressed_params) (g g2 : int_pair) (code : Int)
    (hm : ci.min_value = 64) (hg : 0 ≤ g.value1 ∧ 1 ≤ g.value2 ∧ g.value2 ≤ 64)
    (h : fuji_update_grad ci g code = .ok g2) :
    0 ≤ g2.value1 ∧ 1 ≤ g2.value2 ∧ g2.value2 ≤ 64 := by
  obtain ⟨e1, e2⟩ := fuji_update_grad_eq ci g g2 code h
  rw [hm] at e1 e2
  have ha : 0 ≤ |code| := abs_nonneg code
  rw [e1, e2]
  split <;> omega

/-- C31: along every sequence of `fuji_decode_sample` calls that starts from a reset block
(all pairs `(maxDiff, 1)`), every gradient pair satisfies `1 ≤ value2 ≤ 64` (`min_value`)
and `value1 ≥ 0`: each use adds the magnitude of the residual to `value1`, halves both
members when `value2` equals 64, then increments `value2`.  Hence the assertions of
`bitDiff` on a pair of the table never fail. -/
theorem gradient_pairs_in_range (ndebug : Bool) (slack : Nat) (header : FujiHeader)
    (ci : fuji_compressed_params) (hc : fuji_compressed_params.construct header = .ok ci)
    (grads : List int_pair) (h : GradsReached ndebug slack ci grads) :
    ci.min_value = 64 ∧
    (∀ g ∈ grads, 0 ≤ g.value1 ∧ 1 ≤ g.value2 ∧ g.value2 ≤ 64 ∧
      bitDiff false g.value1 g.value2 ≠ .error .assertion) ∧
    (∀ g g2 code, fuji_update_grad ci g code = .ok g2 →
      g2.value1 = (if g.value2 = 64 then (g.value1 + |code|) / 2 else g.value1 + |code|) ∧
      g2.value2 = (if g.value2 = 64 then g.value2 / 2 else g.value2) + 1) := by
  obtain ⟨-, -, -, -, -, hm, hmd⟩ := fuji_compressed_params.construct_fields header ci hc
  have hm64 : ci.min_value = 64 := hm
  have hmd0 : 0 ≤ ci.maxDiff := by rw [hmd]; split <;> norm_num
  have hinv : ∀ g ∈ grads, 0 ≤ g.value1 ∧ 1 ≤ g.value2 ∧ g.value2 ≤ 64 := by
    induction h with
    | reset info blk grads hr hmem =>
      obtain ⟨he, ho, -⟩ := fuji_compressed_block.reset_grads info blk ci hr
      rw [he, ho] at hmem
      have hg : grads = List.replicate 41 ⟨ci.maxDiff, 1⟩ := by
        rcases hmem with h | h <;> exact (List.mem_replicate.1 h).2
      intro g hgm
      rw [hg] at hgm
      rw [(List.mem_replicate.1 hgm).2]
      exact ⟨hmd0, by norm_num, by norm_num⟩
    | sample grads pump grad interp_val r _ hs ih =>
      obtain ⟨code, pump2, g, g2, -, -, -, hg, hu, rfl⟩ :=
        fuji_decode_sample_grads ndebug slack ci pump grad interp_val grads r hs
      intro x hx
      rcases List.mem_or_eq_of_mem_set hx with hx | rfl
      · exact ih x hx
      · exact fuji_update_grad_range ci g x _ hm64 (ih g (List.get?_mem hg)) hu
  refine ⟨hm64, fun g hg => ?_, fun g g2 code hu => ?_⟩
  · obtain ⟨h1, h2, h3⟩ := hinv g hg
    exact ⟨h1, h2, h3, bitDiff_no_assertion false _ _ h1 (by omega)⟩
  · have := fuji_update_grad_eq ci g g2 code hu
    rw [hm64] at this
    exact this

/-- Witness for C31: the table after the first sample of a reset block, read from the
bits `1`, `00000001`. -/
theorem gradient_pairs_in_range_witness :
    ∃ v pump2 grads2,
      fuji_decode_sample false 0 xtransParams14 ⟨[0x80, 0x80, 0, 0, 0, 0, 0, 0], 0, []⟩
        0 100 (List.replicate 41 ⟨256, 1⟩) = .ok (v, pump2, grads2) ∧
      grads2.get? 0 = some ⟨257, 2⟩ ∧
      xtransParams14.min_value = 64 ∧
      (∀ g ∈ grads2, 0 ≤ g.value1 ∧ 1 ≤ g.value2 ∧ g.value2 ≤ 64 ∧
        bitDiff false g.value1 g.value2 ≠ .error .assertion) ∧
      (∀ g g2 code, fuji_update_grad xtransParams14 g code = .ok g2 →
        g2.value1 = (if g.value2 = 64 then (g.value1 + |code|) / 2
          else g.value1 + |code|) ∧
        g2.value2 = (if g.value2 = 64 then g.value2 / 2 else g.value2) + 1) := by
  have hx : ∃ r, fuji_decode_sample false 0 xtransParams14
      ⟨[0x80, 0x80, 0, 0, 0, 0, 0, 0], 0, []⟩ 0 100 (List.replicate 41 ⟨256, 1⟩) =
        .ok r ∧ r.2.2.get? 0 = some ⟨257, 2⟩ := ⟨_, rfl, rfl⟩
  obtain ⟨⟨v, p, g⟩, hv, hg⟩ := hx
  have hr : ∃ blk, emptyLineBlock.reset xtransParams14 = .ok blk ∧
      List.replicate 41 ⟨256, 1⟩ ∈ blk.grad_even := ⟨_, rfl, by decide⟩
  obtain ⟨blk, hblk, hmem⟩ := hr
  exact ⟨v, p, g, hv, hg, gradient_pairs_in_range false 0 xtransHeader14 xtransParams14
    xtransParams14_eq g (GradsReached.sample _ _ _ _ _
      (GradsReached.reset emptyLineBlock blk _ hblk (Or.inl hmem)) hv)⟩

theorem bitsMSB_getD : ∀ (n w j : Nat), j < n →
    (bitsMSB w n).getD j false = decide (w / 2 ^ (n - 1 - j) % 2 = 1) := by
  intro n
  induction n with
  | zero => intro w j h; omega
  | succ n ih =>
    intro w j h
    rw [bitsMSB, List.getD_eq_getElem?_getD]
    by_cases hj : j < n
    · rw [List.getElem?_append_left (by rw [bitsMSB_length]; exact hj),
        ← List.getD_eq_getElem?_getD, ih _ _ hj]
      have e : n + 1 - 1 - j = (n - 1 - j) + 1 := by omega
      rw [e, pow_succ, Nat.mul_comm, Nat.div_div_eq_div_mul]
    · have e : j = n := by omega
      subst e
      rw [List.getElem?_append_right (by rw [bitsMSB_length])]
      simp [bitsMSB_length]

theorem getBE32_bit (b0 b1 b2 b3 j : Nat) (hj : j < 32) :
    getBE32 b0 b1 b2 b3 / 2 ^ (31 - j) % 2 =
      [b0, b1, b2, b3].getD (j / 8) 0 / 2 ^ (7 - j % 8) % 2 := by
  unfold getBE32
  interval_cases j <;> simp <;> omega

theorem take_four_pad (l : List Nat) :
    (l ++ List.replicate 4 0).take 4 = [l.getD 0 0, l.getD 1 0, l.getD 2 0, l.getD 3 0] := by
  match l with
  | [] => rfl
  | [_] => rfl
  | [_, _] => rfl
  | [_, _, _] => rfl
  | _ :: _ :: _ :: _ :: _ => simp

theorem getD_drop_nat (l : List Nat) (p k : Nat) : (l.drop p).getD k 0 = l.getD (p + k) 0 := by
  simp only [List.getD_eq_getElem?_getD, List.getElem?_drop]

/-- The bits of the word that `fillCache` pushes are the next 32 bits of the bytes. -/
theorem fillWord_bit (input : List Nat) (pos j : Nat) (hj : j < 32) :
    (bitsMSB (getBE32 ((input.drop pos).getD 0 0) ((input.drop pos).getD 1 0)
      ((input.drop pos).getD 2 0) ((input.drop pos).getD 3 0)) 32).getD j false =
      streamBit input (8 * pos + j) := by
  rw [bitsMSB_getD 32 _ j hj]
  have e : 32 - 1 - j = 31 - j := by omega
  rw [e, getBE32_bit _ _ _ _ j hj]
  unfold streamBit
  have e1 : (8 * pos + j) / 8 = pos + j / 8 := by omega
  have e2 : (8 * pos + j) % 8 = j % 8 := by omega
  rw [e1, e2]
  simp only [getD_drop_nat]
  have hk : j / 8 = 0 ∨ j / 8 = 1 ∨ j / 8 = 2 ∨ j / 8 = 3 := by omega
  rcases hk with h | h | h | h <;> rw [h] <;> simp

/-- What `fill(n)` of `BitPumpMSB` does when it can still process bytes: at least `n`
bits are cached, and the upcoming bits are unchanged. -/
theorem BitStreamerMSB.fill_upcoming (slack : Nat) (s : BitStreamer) (n : Nat) (hn : n ≤ 32)
    (hpos : s.cache.length < n → s.pos ≤ s.input.length + slack) :
    ∃ s1, BitStreamerMSB.fill slack s n = .ok s1 ∧ n ≤ s1.cache.length ∧
      s1.input = s.input ∧ (∀ i, s1.upcoming i = s.upcoming i) ∧
      (s1 = s ∨ (s.cache.length < n ∧ s1.pos = s.pos + 4 ∧
        s1.cache.length = s.cache.length + 32)) := by
  unfold BitStreamerMSB.fill
  by_cases h1 : n ≤ s.cache.length
  · exact ⟨s, by rw [if_pos h1], h1, rfl, fun _ => rfl, Or.inl rfl⟩
  · have hp := hpos (by omega)
    rw [if_neg h1, if_neg (by omega), take_four_pad]
    simp only [BitStreamerMSB.fillCache, cachePush]
    refine ⟨_, rfl, ?_, rfl, ?_, Or.inr ⟨by omega, rfl, ?_⟩⟩
    · simp only [List.length_append, bitsMSB_length]
      omega
    · intro i
      simp only [BitStreamer.upcoming, List.length_append, bitsMSB_length]
      by_cases hi : i < s.cache.length
      · rw [if_pos (by omega), if_pos hi, List.getD_eq_getElem?_getD,
          List.getElem?_append_left hi, ← List.getD_eq_getElem?_getD]
      · rw [if_neg hi]
        by_cases hi2 : i < s.cache.length + 32
        · rw [if_pos hi2, List.getD_eq_getElem?_getD,
            List.getElem?_append_right (by omega), ← List.getD_eq_getElem?_getD,
            fillWord_bit _ _ _ (by omega)]
        · rw [if_neg hi2]
          congr 1
          omega
    · simp only [List.length_append, bitsMSB_length]

theorem accumulate_shift (bs : List Bool) : ∀ c : Nat,
    accumulate c bs = c * 2 ^ bs.length + accumulate 0 bs := by
  induction bs with
  | nil => intro c; simp [accumulate]
  | cons b bs ih =>
    intro c
    simp only [accumulate, List.length_cons]
    rw [ih (2 * c + _), ih (2 * 0 + _), pow_succ]
    ring

/-- The leading zeros of the value of a bit sequence are its leading 0 bits. -/
theorem countl_zero_accumulate : ∀ bits : List Bool,
    countl_zero bits.length (accumulate 0 bits) = zeroRun bits.length bits := by
  intro bits
  induction bits with
  | nil => rfl
  | cons b bs ih =>
    have hlt := accumulate_lt bs 0
    simp only [Nat.zero_add, Nat.one_mul] at hlt
    have hp : 0 < 2 ^ bs.length := Nat.two_pow_pos _
    simp only [List.length_cons, accumulate, countl_zero]
    rw [accumulate_shift]
    cases b with
    | true =>
      have : ((2 * 0 + if true = true then 1 else 0) * 2 ^ bs.length + accumulate 0 bs) /
          2 ^ bs.length = 1 := by
        simp only [if_true, Nat.mul_zero, Nat.zero_add, Nat.one_mul]
        rw [Nat.add_div_left _ hp, Nat.div_eq_of_lt hlt]
      rw [this]
      rfl
    | false =>
      have e : (2 * 0 + if false = true then 1 else 0) * 2 ^ bs.length + accumulate 0 bs =
          accumulate 0 bs := by simp
      rw [e, Nat.div_eq_of_lt hlt]
      simp only [Nat.zero_mod, Nat.zero_ne_one, if_false, zeroRun, ih]

theorem zeroRun_all : ∀ (n : Nat) (bits : List Bool), n ≤ bits.length →
    (∀ i, i < n → bits.getD i false = false) → zeroRun n bits = n := by
  intro n
  induction n with
  | zero => intro bits _ _; rfl
  | succ n ih =>
    intro bits hl h
    match bits, hl with
    | b :: bs, hl =>
      have h0 := h 0 (by omega)
      simp only [List.getD_cons_zero] at h0
      subst h0
      simp only [zeroRun]
      rw [ih bs (by simpa using hl) (fun i hi => by simpa using h (i + 1) (by omega))]
      omega

theorem zeroRun_first_one : ∀ (n p : Nat) (bits : List Bool), p < n →
    (∀ i, i < p → bits.getD i false = false) → bits.getD p false = true →
    zeroRun n bits = p := by
  intro n
  induction n with
  | zero => intro p bits hp; omega
  | succ n ih =>
    intro p bits hp h hone
    match bits with
    | [] => simp at hone
    | b :: bs =>
      cases p with
      | zero =>
        simp only [List.getD_cons_zero] at hone
        subst hone
        rfl
      | succ p =>
        have h0 := h 0 (by omega)
        simp only [List.getD_cons_zero] at h0
        subst h0
        simp only [zeroRun]
        rw [ih p bs (by omega) (fun i hi => by simpa using h (i + 1) (by omega))
          (by simpa using hone)]
        omega

theorem streamBit_true (input : List Nat) (k : Nat) (h : streamBit input k = true) :
    k / 8 < input.length := by
  by_contra hc
  unfold streamBit at h
  rw [List.getD_eq_getElem?_getD, List.getElem?_eq_none (by omega)] at h
  simp at h

/-- Skipping `k` cached bits moves the upcoming bits by `k`. -/
theorem BitStreamer.upcoming_drop (s : BitStreamer) (k : Nat) (hk : k ≤ s.cache.length)
    (i : Nat) :
    BitStreamer.upcoming { s with cache := s.cache.drop k } i = s.upcoming (k + i) := by
  simp only [BitStreamer.upcoming, List.length_drop]
  by_cases hi : i < s.cache.length - k
  · rw [if_pos hi, if_pos (by omega)]
    simp only [List.getD_eq_getElem?_getD, List.getElem?_drop]
  · rw [if_neg hi, if_neg (by omega)]
    congr 1
    omega

theorem getD_take_bool (l : List Bool) (n i : Nat) (h : i < n) :
    (l.take n).getD i false = l.getD i false := by
  simp only [List.getD_eq_getElem?_getD, List.getElem?_take, if_pos h]

/-- The batching loop of `fuji_zerobits` on a pump whose upcoming bits are `p` zeros and
a one: it adds `p` to the count and stops after the 1. -/
theorem fuji_zerobits_loop_spec (slack : Nat) (hslack : 3 ≤ slack) :
    ∀ (fuel : Nat) (count : Int) (s : BitStreamer) (p : Nat),
    (∀ i, i < p → s.upcoming i = false) → s.upcoming p = true → p / 32 < fuel →
    0 ≤ count → count + p < 2 ^ 31 → s.pos ≤ s.input.length + slack →
    ∃ s2, fuji_zerobits_loop slack fuel count s = .ok (count + p, s2) ∧
      s2.input = s.input ∧ ∀ i, s2.upcoming i = s.upcoming (p + 1 + i) := by
  intro fuel
  induction fuel with
  | zero => intro count s p _ _ hf; omega
  | succ fuel ih =>
    intro count s p hz hone hf hc hcp hpos
    obtain ⟨s1, hfill, hlen, hin, hup, hcase⟩ :=
      BitStreamerMSB.fill_upcoming slack s 32 (le_refl _) (fun _ => hpos)
    have hpeek : peekBitsNoFill s1.cache 32 = .ok (accumulate 0 (s1.cache.take 32)) := by
      unfold peekBitsNoFill
      rw [if_pos hlen]
    have htl : (s1.cache.take 32).length = 32 := by
      rw [List.length_take]
      omega
    have hclz : countl_zero 32 (accumulate 0 (s1.cache.take 32)) =
        zeroRun 32 (s1.cache.take 32) := by
      have := countl_zero_accumulate (s1.cache.take 32)
      rw [htl] at this
      exact this
    have hbit : ∀ i, i < 32 → (s1.cache.take 32).getD i false = s.upcoming i := by
      intro i hi
      rw [getD_take_bool _ _ _ hi, ← hup i]
      simp only [BitStreamer.upcoming]
      rw [if_pos (by omega)]
    by_cases hp : p < 32
    · have hrun : zeroRun 32 (s1.cache.take 32) = p :=
        zeroRun_first_one 32 p _ hp (fun i hi => by rw [hbit i (by omega)]; exact hz i hi)
          (by rw [hbit p hp]; exact hone)
      have hskip : skipBitsNoFill s1.cache (p + 1) = .ok (s1.cache.drop (p + 1)) := by
        unfold skipBitsNoFill
        rw [if_pos (by omega)]
      have hint : int32 (count + (p : Int)) = .ok (count + p) := by
        unfold int32
        rw [if_pos (by omega)]
      refine ⟨{ s1 with cache := s1.cache.drop (p + 1) }, ?_, hin, ?_⟩
      · simp only [fuji_zerobits_loop, hfill, hpeek, hclz, hrun]
        rw [if_neg (by omega)]
        simp only [hskip, hint]
        rw [if_neg (by omega)]
      · intro i
        rw [BitStreamer.upcoming_drop s1 (p + 1) (by omega), hup]
    · have hrun : zeroRun 32 (s1.cache.take 32) = 32 :=
        zeroRun_all 32 _ (by omega) (fun i hi => by rw [hbit i hi]; exact hz i (by omega))
      have hskip : skipBitsNoFill s1.cache 32 = .ok (s1.cache.drop 32) := by
        unfold skipBitsNoFill
        rw [if_pos hlen]
      have hint : int32 (count + ((32 : Nat) : Int)) = .ok (count + 32) := by
        unfold int32
        rw [if_pos (by omega)]
        rfl
      have hup2 : ∀ i, BitStreamer.upcoming { s1 with cache := s1.cache.drop 32 } i =
          s.upcoming (32 + i) := by
        intro i
        rw [BitStreamer.upcoming_drop s1 32 hlen, hup]
      have hpos2 : s1.pos ≤ s1.input.length + slack := by
        rcases hcase with rfl | ⟨hlt, hp1, -⟩
        · exact hpos
        · have h1 := hone
          simp only [BitStreamer.upcoming] at h1
          rw [if_neg (by omega)] at h1
          have := streamBit_true _ _ h1
          rw [hin, hp1]
          omega
      obtain ⟨s2, hloop, hin2, hup3⟩ := ih (count + 32)
        { s1 with cache := s1.cache.drop 32 } (p - 32)
        (fun i hi => by rw [hup2]; exact hz _ (by omega))
        (by rw [hup2]; have e : 32 + (p - 32) = p := by omega
            rw [e]; exact hone)
        (by omega) (by omega) (by omega) hpos2
      refine ⟨s2, ?_, by rw [hin2]; exact hin, ?_⟩
      · simp only [fuji_zerobits_loop, hfill, hpeek, hclz, hrun]
        simp only [if_true, hskip, hint, hloop]
        congr 2
        omega
      · intro i
        rw [hup3, hup2]
        congr 1
        omega

/-- The loop that reads one bit at a time, on a pump whose upcoming bits are `p` zeros and
a one: it adds `p` to the count and stops after the 1. -/
theorem zerobits_bitwise_spec (slack : Nat) (hslack : 3 ≤ slack) :
    ∀ (fuel : Nat) (count : Int) (s : BitStreamer) (p : Nat),
    (∀ i, i < p → s.upcoming i = false) → s.upcoming p = true → p < fuel →
    s.pos ≤ s.input.length + slack →
    ∃ s2, zerobits_bitwise slack fuel count s = .ok (count + p, s2) ∧
      s2.input = s.input ∧ ∀ i, s2.upcoming i = s.upcoming (p + 1 + i) := by
  intro fuel
  induction fuel with
  | zero => intro count s p _ _ hf; omega
  | succ fuel ih =>
    intro count s p hz hone hf hpos
    obtain ⟨s1, hfill, hlen, hin, hup, hcase⟩ :=
      BitStreamerMSB.fill_upcoming slack s 1 (by omega) (fun _ => hpos)
    have hget : getBitsNoFill s1.cache 1 =
        .ok (if s.upcoming 0 = true then 1 else 0, s1.cache.drop 1) := by
      have h0 : s.upcoming 0 = s1.cache.getD 0 false := by
        rw [← hup 0]
        simp only [BitStreamer.upcoming]
        rw [if_pos (by omega)]
      rw [h0]
      unfold getBitsNoFill
      rw [if_pos hlen]
      generalize s1.cache = c at hlen
      match c, hlen with
      | b :: bs, _ => cases b <;> simp [accumulate]
    by_cases hp : p = 0
    · subst hp
      refine ⟨{ s1 with cache := s1.cache.drop 1 }, ?_, hin, ?_⟩
      · simp only [zerobits_bitwise, hfill, hget, hone]
        simp
      · intro i
        rw [BitStreamer.upcoming_drop s1 1 hlen, hup]
    · have h0 := hz 0 (by omega)
      have hup2 : ∀ i, BitStreamer.upcoming { s1 with cache := s1.cache.drop 1 } i =
          s.upcoming (1 + i) := by
        intro i
        rw [BitStreamer.upcoming_drop s1 1 hlen, hup]
      have hpos2 : s1.pos ≤ s1.input.length + slack := by
        rcases hcase with rfl | ⟨hlt, hp1, -⟩
        · exact hpos
        · have h1 := hone
          simp only [BitStreamer.upcoming] at h1
          rw [if_neg (by omega)] at h1
          have := streamBit_true _ _ h1
          rw [hin, hp1]
          omega
      obtain ⟨s2, hloop, hin2, hup3⟩ := ih (count + 1)
        { s1 with cache := s1.cache.drop 1 } (p - 1)
        (fun i hi => by rw [hup2]; exact hz _ (by omega))
        (by rw [hup2]; have e : 1 + (p - 1) = p := by omega
            rw [e]; exact hone)
        (by omega) hpos2
      refine ⟨s2, ?_, by rw [hin2]; exact hin, ?_⟩
      · simp only [zerobits_bitwise, hfill, hget, h0]
        simp only [Bool.false_eq_true, if_false, Nat.zero_ne_one, hloop]
        congr 2
        omega
      · intro i
        rw [hup3, hup2]
        congr 1
        omega

/-- C33: for every bit stream whose upcoming bits are `p` zeros followed by a one (also
for `p ≥ 32`, where the 32-bit batching loop runs more than once), `fuji_zerobits`
returns `p` and leaves the cursor immediately after that 1 (`p + 1` bits consumed): the
same result as a loop that reads one bit at a time until it sees a 1.  The pump is one
that may still fill (its byte cursor is at most `slack ≥ 3` bytes beyond the bytes), and
`p` fits the `int` counter. -/
theorem fuji_zerobits_counts_zero_run (slack : Nat) (s : BitStreamer) (p : Nat)
    (hslack : 3 ≤ slack) (hpos : s.pos ≤ s.input.length + slack)
    (hz : ∀ i, i < p → s.upcoming i = false) (hone : s.upcoming p = true)
    (hp : p < 2 ^ 31) :
    ∃ s2 s3, fuji_zerobits slack s = .ok ((p : Int), s2) ∧
      zerobits_bitwise slack (p + 1) 0 s = .ok ((p : Int), s3) ∧
      s2.input = s.input ∧ s3.input = s.input ∧
      (∀ i, s2.upcoming i = s.upcoming (p + 1 + i)) ∧
      (∀ i, s3.upcoming i = s2.upcoming i) := by
  have hreal : p < s.remaining slack + 1 := by
    unfold BitStreamer.remaining
    by_cases hc : p < s.cache.length
    · omega
    · have h1 := hone
      simp only [BitStreamer.upcoming] at h1
      rw [if_neg hc] at h1
      have := streamBit_true _ _ h1
      omega
  obtain ⟨s2, h2, hin2, hup2⟩ := fuji_zerobits_loop_spec slack hslack
    (s.remaining slack + 1) 0 s p hz hone (by omega) (le_refl _)
    (by have : ((p : Nat) : Int) < 2 ^ 31 := by exact_mod_cast hp
        omega) hpos
  obtain ⟨s3, h3, hin3, hup3⟩ := zerobits_bitwise_spec slack hslack (p + 1) 0 s p hz hone
    (by omega) hpos
  rw [Int.zero_add] at h2 h3
  exact ⟨s2, s3, h2, h3, hin2, hin3, hup2, fun i => by rw [hup3, hup2]⟩

/-- Witness for C33: 37 zero bits and a one, in the bytes `00 00 00 00 04 ff`. -/
theorem fuji_zerobits_counts_zero_run_witness :
    (3 ≤ 8 ∧ (0 : Nat) ≤ [0, 0, 0, 0, 4, 255].length + 8 ∧
      (∀ i, i < 37 → BitStreamer.upcoming ⟨[0, 0, 0, 0, 4, 255], 0, []⟩ i = false) ∧
      BitStreamer.upcoming ⟨[0, 0, 0, 0, 4, 255], 0, []⟩ 37 = true ∧ 37 < 2 ^ 31) ∧
    ∃ s2 s3, fuji_zerobits 8 ⟨[0, 0, 0, 0, 4, 255], 0, []⟩ = .ok (((37 : Nat) : Int), s2) ∧
      zerobits_bitwise 8 (37 + 1) 0 ⟨[0, 0, 0, 0, 4, 255], 0, []⟩ =
        .ok (((37 : Nat) : Int), s3) ∧
      s2.input = [0, 0, 0, 0, 4, 255] ∧ s3.input = [0, 0, 0, 0, 4, 255] ∧
      (∀ i, s2.upcoming i = BitStreamer.upcoming ⟨[0, 0, 0, 0, 4, 255], 0, []⟩ (37 + 1 + i)) ∧
      (∀ i, s3.upcoming i = s2.upcoming i) :=
  have hz : ∀ i, i < 37 → BitStreamer.upcoming ⟨[0, 0, 0, 0, 4, 255], 0, []⟩ i = false := by
    decide
  ⟨⟨by decide, by decide, hz, by decide, by decide⟩,
    fuji_zerobits_counts_zero_run 8 ⟨[0, 0, 0, 0, 4, 255], 0, []⟩ 37 (by decide) (by decide)
      hz (by decide) (by decide)⟩

theorem fuji_zerobits_loop_nonneg (slack : Nat) : ∀ (fuel : Nat) (count : Int)
    (s : BitStreamer) (c : Int) (s2 : BitStreamer),
    fuji_zerobits_loop slack fuel count s = .ok (c, s2) → count ≤ c := by
  intro fuel
  induction fuel with
  | zero => intro count s c s2 h; cases h
  | succ fuel ih =>
    intro count s c s2 h
    simp only [fuji_zerobits_loop] at h
    split at h
    · cases h
    · split at h
      · cases h
      · split at h
        · cases h
        · split at h
          · cases h
          · rename_i count2 hint
            obtain ⟨rfl, -⟩ := int32_ok _ _ hint
            split at h
            · have := ih _ _ _ _ h
              omega
            · cases h
              omega

theorem fuji_zerobits_nonneg (slack : Nat) (s : BitStreamer) (c : Int) (s2 : BitStreamer)
    (h : fuji_zerobits slack s = .ok (c, s2)) : 0 ≤ c :=
  fuji_zerobits_loop_nonneg slack _ 0 s c s2 h

/-- The parts of the code that `fuji_decode_sample` reads: the zero run, the number of
literal bits and the code delta of the two paths, and the literal bits. -/
theorem fuji_read_code_parts (ndebug : Bool) (slack : Nat) (ci : fuji_compressed_params)
    (pump : BitStreamer) (grads : List int_pair) (gradient : Nat) (code : Int)
    (pump3 : BitStreamer)
    (h : fuji_read_code ndebug slack ci pump grads gradient = .ok (code, pump3)) :
    ∃ (sampleBits : Int) (pump1 pump2 : BitStreamer) (codeBits codeDelta : Int)
      (literal : Nat),
      fuji_zerobits slack pump = .ok (sampleBits, pump1) ∧ 0 ≤ sampleBits ∧
      BitStreamerMSB.fill slack pump1 32 = .ok pump2 ∧
      ((¬ sampleBits < ci.max_bits - ci.raw_bits - 1 ∧ codeBits = ci.raw_bits ∧
          codeDelta = 1) ∨
        (sampleBits < ci.max_bits - ci.raw_bits - 1 ∧
          ∃ g, grads.get? gradient = some g ∧
            bitDiff ndebug g.value1 g.value2 = .ok codeBits ∧
            codeDelta = sampleBits * 2 ^ codeBits.toNat)) ∧
      literal = (if codeBits ≠ 0 then accumulate 0 (pump2.cache.take codeBits.toNat) else 0) ∧
      pump3 = (if codeBits ≠ 0 then { pump2 with cache := pump2.cache.drop codeBits.toNat }
        else pump2) ∧
      code = (literal : Int) + codeDelta := by
  unfold fuji_read_code at h
  split at h
  · cases h
  · rename_i sampleBits pump1 hz
    have hs := fuji_zerobits_nonneg slack pump sampleBits pump1 hz
    split at h
    · cases h
    · rename_i codeBits codeDelta hsel
      have hpath : (¬ sampleBits < ci.max_bits - ci.raw_bits - 1 ∧ codeBits = ci.raw_bits ∧
          codeDelta = 1) ∨
        (sampleBits < ci.max_bits - ci.raw_bits - 1 ∧
          ∃ g, grads.get? gradient = some g ∧
            bitDiff ndebug g.value1 g.value2 = .ok codeBits ∧
            codeDelta = sampleBits * 2 ^ codeBits.toNat) := by
        split at hsel
        · rename_i hlt
          right
          refine ⟨hlt, ?_⟩
          split at hsel
          · cases hsel
          · rename_i g hg
            split at hsel
            · cases hsel
            · rename_i cb hb
              split at hsel
              · cases hsel
              · rename_i cd hcd
                obtain ⟨rfl, -⟩ := int32_ok _ _ hcd
                simp only [Except.ok.injEq, Prod.mk.injEq] at hsel
                obtain ⟨rfl, rfl⟩ := hsel
                exact ⟨g, hg, hb, rfl⟩
        · rename_i hlt
          left
          simp only [Except.ok.injEq, Prod.mk.injEq] at hsel
          exact ⟨hlt, hsel.1.symm, hsel.2.symm⟩
      split at h
      · cases h
      · rename_i pump2 hfill
        split at h
        · rename_i hne
          split at h
          · cases h
          · rename_i lit cache3 hget
            split at h
            · cases h
            · rename_i code2 hint
              obtain ⟨rfl, -⟩ := int32_ok _ _ hint
              simp only [Except.ok.injEq, Prod.mk.injEq] at h
              obtain ⟨rfl, rfl⟩ := h
              unfold getBitsNoFill at hget
              split at hget
              · simp only [Except.ok.injEq, Prod.mk.injEq] at hget
                obtain ⟨rfl, rfl⟩ := hget
                exact ⟨sampleBits, pump1, pump2, codeBits, codeDelta, _, hz, hs, hfill,
                  hpath, by rw [if_pos hne], by rw [if_pos hne], rfl⟩
              · cases hget
        · rename_i hne
          simp only [Except.ok.injEq, Prod.mk.injEq] at h
          obtain ⟨rfl, rfl⟩ := h
          exact ⟨sampleBits, pump1, pump2, codeBits, codeDelta, 0, hz, hs, hfill,
            hpath, by rw [if_neg hne], by rw [if_neg hne], by simp⟩

theorem BitStreamerMSB.fill_error (slack : Nat) (s : BitStreamer) (n : Nat) (e : Fault)
    (h : BitStreamerMSB.fill slack s n = .error e) : ∃ msg, e = .ioe msg := by
  unfold BitStreamerMSB.fill at h
  split at h
  · cases h
  · split at h
    · cases h
      exact ⟨_, rfl⟩
    · rw [take_four_pad] at h
      simp only [BitStreamerMSB.fillCache] at h
      cases h

theorem BitStreamerMSB.fill_ok_cached (slack : Nat) (s s1 : BitStreamer) (n : Nat)
    (hn : n ≤ 32) (h : BitStreamerMSB.fill slack s n = .ok s1) : n ≤ s1.cache.length := by
  unfold BitStreamerMSB.fill at h
  split at h
  · rename_i hc
    cases h
    exact hc
  · split at h
    · cases h
    · rw [take_four_pad] at h
      simp only [BitStreamerMSB.fillCache, cachePush, Except.ok.injEq] at h
      subst h
      simp only [List.length_append, bitsMSB_length]
      omega

theorem skipBitsNoFill_error (c : List Bool) (n : Nat) (e : Fault)
    (h : skipBitsNoFill c n = .error e) : e = .assertion := by
  unfold skipBitsNoFill at h
  split at h
  · cases h
  · cases h
    rfl

theorem fuji_zerobits_loop_error (slack : Nat) : ∀ (fuel : Nat) (count : Int)
    (s : BitStreamer) (e : Fault), fuji_zerobits_loop slack fuel count s = .error e →
    ∀ msg, e ≠ .rde msg := by
  intro fuel
  induction fuel with
  | zero =>
    intro count s e h msg
    cases h
    simp
  | succ fuel ih =>
    intro count s e h msg
    simp only [fuji_zerobits_loop] at h
    split at h
    · rename_i e2 hf
      obtain ⟨m, rfl⟩ := BitStreamerMSB.fill_error _ _ _ _ hf
      cases h
      simp
    · split at h
      · rename_i e2 hp
        unfold peekBitsNoFill at hp
        split at hp
        · cases hp
        · cases hp
          cases h
          simp
      · split at h
        · rename_i e2 hk
          rw [skipBitsNoFill_error _ _ _ hk] at h
          cases h
          simp
        · split at h
          · rename_i e2 hi
            rw [int32_error _ _ hi] at h
            cases h
            simp
          · split at h
            · exact ih _ _ _ h msg
            · cases h

theorem bitDiff_error (ndebug : Bool) (v1 v2 : Int) (e : Fault)
    (h : bitDiff ndebug v1 v2 = .error e) : ∀ msg, e ≠ .rde msg := by
  intro msg
  unfold bitDiff at h
  split at h
  · cases h
    simp
  · split at h
    · cases h
      simp
    · simp only at h
      split at h
      · rename_i e2 hi
        rw [int32_error _ _ hi] at h
        cases h
        simp
      · cases h

/-- Reading the code raises no decode error (`ThrowRDE`): its faults are those of the
bit pump, failed assertions and undefined behaviour. -/
theorem fuji_read_code_error (ndebug : Bool) (slack : Nat) (ci : fuji_compressed_params)
    (pump : BitStreamer) (grads : List int_pair) (gradient : Nat) (e : Fault)
    (h : fuji_read_code ndebug slack ci pump grads gradient = .error e) :
    ∀ msg, e ≠ .rde msg := by
  intro msg
  unfold fuji_read_code at h
  split at h
  · rename_i e2 hz
    cases h
    exact fuji_zerobits_loop_error slack _ _ _ _ hz msg
  · split at h
    · rename_i e2 hsel
      cases h
      split at hsel
      · split at hsel
        · cases hsel
          simp
        · split at hsel
          · rename_i e3 hb
            cases hsel
            exact bitDiff_error _ _ _ _ hb msg
          · split at hsel
            · rename_i e3 hi
              rw [int32_error _ _ hi] at hsel
              cases hsel
              simp
            · cases hsel
      · cases hsel
    · split at h
      · rename_i e2 hf
        obtain ⟨m, rfl⟩ := BitStreamerMSB.fill_error _ _ _ _ hf
        cases h
        simp
      · split at h
        · split at h
          · rename_i e2 hg
            unfold getBitsNoFill at hg
            split at hg
            · cases hg
            · cases hg
              cases h
              simp
          · split at h
            · rename_i e2 hi
              rw [int32_error _ _ hi] at h
              cases h
              simp
            · cases h
        · cases h

theorem accumulate_all_ones : ∀ bits : List Bool,
    accumulate 0 bits = 2 ^ bits.length - 1 ↔ bits = List.replicate bits.length true := by
  intro bits
  induction bits with
  | nil => simp [accumulate]
  | cons b bs ih =>
    have hlt := accumulate_lt bs 0
    simp only [Nat.zero_add, Nat.one_mul] at hlt
    have hp : 0 < 2 ^ bs.length := Nat.two_pow_pos _
    simp only [accumulate, List.length_cons, List.replicate_succ, List.cons.injEq]
    rw [accumulate_shift, pow_succ]
    cases b with
    | true =>
      simp only [if_true, Nat.mul_zero, Nat.zero_add, Nat.one_mul, true_and]
      rw [← ih]
      omega
    | false =>
      simp only [Bool.false_eq_true, if_false, Nat.mul_zero, Nat.zero_add, Nat.zero_mul,
        false_and, iff_false]
      omega

theorem int32_of_range (x : Int) (h1 : -2147483648 ≤ x) (h2 : x < 2147483648) :
    int32 x = .ok x := by
  unfold int32
  rw [if_pos]
  constructor
  · have : (-2 : Int) ^ 31 = -2147483648 := by norm_num
    omega
  · have : (2 : Int) ^ 31 = 2147483648 := by norm_num
    omega

/-- The code read in the escape path: the `raw_bits`-bit literal plus 1. -/
theorem fuji_read_code_escape (ndebug : Bool) (slack : Nat) (rb : Nat)
    (ci : fuji_compressed_params) 
    (pump : BitStreamer) (grads : List int_pair) (gradient : Nat)
    (sampleBits : Int) (pump1 pump2 : BitStreamer)
    (hz : fuji_zerobits slack pump = .ok (sampleBits, pump1))
    (hesc : ¬ sampleBits < ci.max_bits - ci.raw_bits - 1)
    (hfill : BitStreamerMSB.fill slack pump1 32 = .ok pump2)
    (hrb : ci.raw_bits = (rb : Int)) (hrb0 : ci.raw_bits ≠ 0) (hrb32 : rb ≤ 32)
    (hcached : 32 ≤ pump2.cache.length)
    (hlt : accumulate 0 (pump2.cache.take rb) < 65536) :
    fuji_read_code ndebug slack ci pump grads gradient =
      .ok (((accumulate 0 (pump2.cache.take rb) : Nat) : Int) + 1,
        { pump2 with cache := pump2.cache.drop rb }) := by
  have hg : getBitsNoFill pump2.cache rb =
      .ok (accumulate 0 (pump2.cache.take rb), pump2.cache.drop rb) := by
    unfold getBitsNoFill
    rw [if_pos (by omega)]
  have e : ci.raw_bits.toNat = rb := by rw [hrb]; rfl
  have hi := int32_of_range ((accumulate 0 (pump2.cache.take rb) : Nat) + 1 : Int)
    (by omega) (by omega)
  cases hres : fuji_read_code ndebug slack ci pump grads gradient with
  | ok r =>
    obtain ⟨code, pump3⟩ := r
    obtain ⟨sb, p1, p2, cb, cd, lit, hz2, -, hf2, hpath, hlit, hp3, hcode⟩ :=
      fuji_read_code_parts ndebug slack ci pump grads gradient code pump3 hres
    rw [hz] at hz2
    simp only [Except.ok.injEq, Prod.mk.injEq] at hz2
    obtain ⟨rfl, rfl⟩ := hz2
    rw [hfill] at hf2
    simp only [Except.ok.injEq] at hf2
    subst hf2
    rcases hpath with ⟨-, rfl, rfl⟩ | ⟨hlt2, -⟩
    · rw [if_pos hrb0, e] at hlit hp3
      rw [hcode, hlit, hp3]
    · exact absurd hlt2 hesc
  | error err =>
    exfalso
    unfold fuji_read_code at hres
    split at hres
    · rename_i e2 hz2
      rw [hz] at hz2
      cases hz2
    · rename_i sb p1 hz2
      rw [hz] at hz2
      simp only [Except.ok.injEq, Prod.mk.injEq] at hz2
      obtain ⟨rfl, rfl⟩ := hz2
      split at hres
      · rename_i e2 hsel
        rw [if_neg hesc] at hsel
        cases hsel
      · rename_i cb cd hsel
        rw [if_neg hesc] at hsel
        simp only [Except.ok.injEq, Prod.mk.injEq] at hsel
        obtain ⟨hcb, hcd⟩ := hsel
        split at hres
        · rename_i e2 hf2
          rw [hfill] at hf2
          cases hf2
        · rename_i p2 hf2
          rw [hfill] at hf2
          simp only [Except.ok.injEq] at hf2
          subst hf2
          split at hres
          · split at hres
            · rename_i e2 hget
              rw [← hcb, e, hg] at hget
              cases hget
            · rename_i lit cache3 hget
              rw [← hcb, e, hg] at hget
              simp only [Except.ok.injEq, Prod.mk.injEq] at hget
              obtain ⟨hlit, -⟩ := hget
              split at hres
              · rename_i e2 hint
                rw [← hcd, ← hlit, hi] at hint
                cases hint
              · cases hres
          · rename_i hne
            rw [← hcb] at hne
            exact hne hrb0

/-- C34: `fuji_decode_sample` raises its decode error exactly when the code it has read
(the literal bits plus `codeDelta`) is at least `total_values`; the code is never
negative, so the `code < 0` half of the test never fires.  In the escape path (a zero run
of at least `max_bits - raw_bits - 1`) it raises exactly when the `raw_bits`-bit literal
is all ones. -/
theorem fuji_decode_sample_error_iff (ndebug : Bool) (slack : Nat) (header : FujiHeader)
    (ci : fuji_compressed_params) (hc : fuji_compressed_params.construct header = .ok ci)
    (pump : BitStreamer) (grad interp_val : Int) (grads : List int_pair) :
    (∀ code pump3, fuji_read_code ndebug slack ci pump grads grad.natAbs = .ok (code, pump3) →
      0 ≤ code) ∧
    (fuji_decode_sample ndebug slack ci pump grad interp_val grads =
        .error (.rde "fuji_decode_sample") ↔
      ∃ code pump3, fuji_read_code ndebug slack ci pump grads grad.natAbs =
        .ok (code, pump3) ∧ ci.total_values ≤ code) ∧
    (∀ sampleBits pump1 pump2, fuji_zerobits slack pump = .ok (sampleBits, pump1) →
      ¬ sampleBits < ci.max_bits - ci.raw_bits - 1 →
      BitStreamerMSB.fill slack pump1 32 = .ok pump2 →
      (fuji_decode_sample ndebug slack ci pump grad interp_val grads =
          .error (.rde "fuji_decode_sample") ↔
        pump2.cache.take header.raw_bits = List.replicate header.raw_bits true)) := by
  obtain ⟨hb, -, htv, hrb, -, -, -⟩ := fuji_compressed_params.construct_fields header ci hc
  have hnonneg : ∀ code pump3,
      fuji_read_code ndebug slack ci pump grads grad.natAbs = .ok (code, pump3) →
      0 ≤ code := by
    intro code pump3 h
    obtain ⟨sb, p1, p2, cb, cd, lit, -, hsb, -, hpath, -, -, rfl⟩ :=
      fuji_read_code_parts ndebug slack ci pump grads grad.natAbs code pump3 h
    have hcd : 0 ≤ cd := by
      rcases hpath with ⟨-, -, rfl⟩ | ⟨-, g, -, -, rfl⟩
      · norm_num
      · positivity
    omega
  have hiff : fuji_decode_sample ndebug slack ci pump grad interp_val grads =
        .error (.rde "fuji_decode_sample") ↔
      ∃ code pump3, fuji_read_code ndebug slack ci pump grads grad.natAbs =
        .ok (code, pump3) ∧ ci.total_values ≤ code := by
    constructor
    · intro h
      unfold fuji_decode_sample at h
      simp only at h
      split at h
      · rename_i e he
        cases h
        exact absurd rfl (fuji_read_code_error _ _ _ _ _ _ _ he "fuji_decode_sample")
      · rename_i code pump3 hr
        split at h
        · rename_i hcond
          have := hnonneg code pump3 hr
          exact ⟨code, pump3, hr, by omega⟩
        · split at h
          · cases h
          · split at h
            · rename_i e hu
              unfold fuji_update_grad at hu
              split at hu
              · rename_i e2 hi
                rw [int32_error _ _ hi] at hu
                cases hu
                cases h
              · simp only at hu
                split at hu
                · rename_i e2 hi
                  rw [int32_error _ _ hi] at hu
                  cases hu
                  cases h
                · cases hu
            · cases h
    · rintro ⟨code, pump3, hr, hge⟩
      unfold fuji_decode_sample
      simp only [hr]
      rw [if_pos (Or.inr hge)]
  refine ⟨hnonneg, hiff, ?_⟩
  intro sampleBits pump1 pump2 hz hesc hfill
  have hcached := BitStreamerMSB.fill_ok_cached slack pump1 pump2 32 (le_refl _) hfill
  have hrb32 : header.raw_bits ≤ 32 := by rcases hb with h | h <;> omega
  have hrb0 : ci.raw_bits ≠ 0 := by rw [hrb]; rcases hb with h | h <;> rw [h] <;> norm_num
  have htl : (pump2.cache.take header.raw_bits).length = header.raw_bits := by
    rw [List.length_take]
    omega
  have hlt := accumulate_lt (pump2.cache.take header.raw_bits) 0
  simp only [Nat.zero_add, Nat.one_mul, htl] at hlt
  have hpow : 2 ^ header.raw_bits ≤ 65536 := by
    rcases hb with h | h <;> rw [h] <;> norm_num
  have hrc : fuji_read_code ndebug slack ci pump grads grad.natAbs =
      .ok (((accumulate 0 (pump2.cache.take header.raw_bits) : Nat) : Int) + 1,
        { pump2 with cache := pump2.cache.drop header.raw_bits }) :=
    fuji_read_code_escape ndebug slack header.raw_bits ci pump grads grad.natAbs sampleBits
      pump1 pump2 hz hesc hfill hrb hrb0 hrb32 hcached (by omega)
  rw [hiff]
  have hall := accumulate_all_ones (pump2.cache.take header.raw_bits)
  rw [htl] at hall
  rw [← hall]
  have htv2 : ci.total_values = ((2 ^ header.raw_bits : Nat) : Int) := by
    rw [htv]
    push_cast
    rfl
  constructor
  · rintro ⟨code, pump3, hr, hge⟩
    rw [hrc] at hr
    simp only [Except.ok.injEq, Prod.mk.injEq] at hr
    rw [← hr.1, htv2] at hge
    omega
  · intro hl
    refine ⟨_, _, hrc, ?_⟩
    rw [htv2, hl]
    have : 0 < 2 ^ header.raw_bits := Nat.two_pow_pos _
    omega

/-- Witness for C34: 41 zero bits and a one (the escape path for 14 bits), then a literal
of fourteen 1 bits: the code is `0x3fff + 1 = total_values`, and the decode error is
raised. -/
theorem fuji_decode_sample_error_iff_witness :
    fuji_decode_sample false 8 xtransParams14 ⟨[0, 0, 0, 0, 0, 0x7f, 0xff, 0], 0, []⟩ 0 100
      (List.replicate 41 ⟨256, 1⟩) = .error (.rde "fuji_decode_sample") ∧
    fuji_read_code false 8 xtransParams14 ⟨[0, 0, 0, 0, 0, 0x7f, 0xff, 0], 0, []⟩
      (List.replicate 41 ⟨256, 1⟩) 0 = .ok (0x4000, ⟨[0, 0, 0, 0, 0, 0x7f, 0xff, 0], 12,
        List.replicate 40 false⟩) ∧
    (fuji_decode_sample false 8 xtransParams14 ⟨[0, 0, 0, 0, 0, 0x7f, 0xff, 0], 0, []⟩ 0 100
        (List.replicate 41 ⟨256, 1⟩) = .error (.rde "fuji_decode_sample") ↔
      ∃ code pump3, fuji_read_code false 8 xtransParams14
        ⟨[0, 0, 0, 0, 0, 0x7f, 0xff, 0], 0, []⟩ (List.replicate 41 ⟨256, 1⟩)
        (0 : Int).natAbs = .ok (code, pump3) ∧ xtransParams14.total_values ≤ code) :=
  ⟨rfl, rfl, (fuji_decode_sample_error_iff false 8 xtransHeader14 xtransParams14
    xtransParams14_eq ⟨[0, 0, 0, 0, 0, 0x7f, 0xff, 0], 0, []⟩ 0 100
    (List.replicate 41 ⟨256, 1⟩)).2.1⟩

theorem and_7FFFFFFE (x : Nat) (hx : x < 2 ^ 31) : x &&& 0x7FFFFFFE = 2 * (x / 2) := by
  have h1 : (x &&& 0x7FFFFFFE) / 2 = x / 2 := by
    rw [Nat.and_div_two]
    have e : (0x7FFFFFFE : Nat) / 2 = 2 ^ 30 - 1 := by norm_num
    rw [e, Nat.and_pow_two_sub_one_eq_mod]
    exact Nat.mod_eq_of_lt (by omega)
  have h2 : (x &&& 0x7FFFFFFE) % 2 ≠ 1 := by
    rw [Ne, Nat.and_mod_two_eq_one]
    rintro ⟨-, h⟩
    norm_num at h
  omega

theorem even_or_bit (a b : Nat) (hb : b < 2) : 2 * a ||| b = 2 * a + b := by
  have := Nat.mul_add_lt_is_or (show b < 2 ^ 1 by omega) a
  simp only [pow_one] at this
  exact this.symm

/-- The column map of `copy_line_to_xtrans` in closed form. -/
theorem xtrans_index_eq (c : Int) (h0 : 0 ≤ c) (h1 : c < 2 ^ 30) :
    xtrans_index c = 2 * (c / 3) + min (c % 3) 1 := by
  obtain ⟨n, rfl⟩ := Int.eq_ofNat_of_zero_le h0
  have hn : n < 2 ^ 30 := by exact_mod_cast h1
  have e1 : ((n : Int) * 2 / 3).toNat = n * 2 / 3 := by omega
  have e2 : ((n : Int) % 3).toNat = n % 3 := by omega
  unfold xtrans_index
  rw [e1, e2, and_7FFFFFFE _ (by omega), Nat.and_one_is_mod,
    even_or_bit _ _ (Nat.mod_lt _ (by norm_num))]
  push_cast
  omega

/-- The body of the innermost loop of `copy_line` at a position of an image row below 6
whose buffer column is inside the buffer: the row read is a decoded row of the colour,
and the cell is read without fault. -/
theorem copy_line_cell_eq (MCU : iPoint2D) (CFA : Nat → Nat → CFAColor) (idx : Int → Int)
    (info : fuji_compressed_block) (strip : FujiStrip) (cur_line : Int) (img : RawImage)
    (p : Nat × Nat × Nat × Nat)
    (hr0 : 0 ≤ MCU.y * p.2.1 + p.2.2.1) (hr1 : MCU.y * p.2.1 + p.2.2.1 < 6)
    (hc0 : 0 ≤ 1 + idx (MCU.x * p.1 + p.2.2.2))
    (hc1 : 1 + idx (MCU.x * p.1 + p.2.2.2) < info.lines.width) :
    ∃ row : Int, ((R2 ≤ row ∧ row ≤ R4) ∨ (G2 ≤ row ∧ row ≤ G7) ∨ (B2 ≤ row ∧ row ≤ B4)) ∧
      info.lines.get row (1 + idx (MCU.x * p.1 + p.2.2.2)) =
        .ok (info.lines.cell row.toNat (1 + idx (MCU.x * p.1 + p.2.2.2)).toNat) ∧
      copy_line_cell MCU CFA idx info strip cur_line img p =
        (if strip.offsetX + (MCU.x * p.1 + p.2.2.2) < 0 then .error .assertion
        else img.write (strip.offsetY cur_line + (MCU.y * p.2.1 + p.2.2.1))
          (strip.offsetX + (MCU.x * p.1 + p.2.2.2)).toNat
          (info.lines.cell row.toNat (1 + idx (MCU.x * p.1 + p.2.2.2)).toNat)) := by
  have hget : ∀ row : Int, 0 ≤ row → row < 18 →
      info.lines.get row (1 + idx (MCU.x * p.1 + p.2.2.2)) =
        .ok (info.lines.cell row.toNat (1 + idx (MCU.x * p.1 + p.2.2.2)).toNat) := by
    intro row h0 h1
    unfold LineBuffer.get ltotal
    rw [if_pos ⟨h0, h1, hc0, hc1⟩]
  unfold copy_line_cell
  simp only
  cases CFA p.2.2.1 p.2.2.2 with
  | RED =>
    refine ⟨R2 + (MCU.y * p.2.1 + p.2.2.1) / 2, Or.inl ?_, ?_, ?_⟩
    · unfold R2 R4
      omega
    · exact hget _ (by unfold R2; omega) (by unfold R2; omega)
    · simp only [hget _ (by unfold R2; omega : 0 ≤ R2 + (MCU.y * p.2.1 + p.2.2.1) / 2)
        (by unfold R2; omega), Int.toNat_ofNat]
  | GREEN =>
    refine ⟨G2 + (MCU.y * p.2.1 + p.2.2.1), Or.inr (Or.inl ?_), ?_, ?_⟩
    · unfold G2 G7
      omega
    · exact hget _ (by unfold G2; omega) (by unfold G2; omega)
    · simp only [hget _ (by unfold G2; omega : 0 ≤ G2 + (MCU.y * p.2.1 + p.2.2.1))
        (by unfold G2; omega), Int.toNat_ofNat]
  | BLUE =>
    refine ⟨B2 + (MCU.y * p.2.1 + p.2.2.1) / 2, Or.inr (Or.inr ?_), ?_, ?_⟩
    · unfold B2 B4
      omega
    · exact hget _ (by unfold B2; omega) (by unfold B2; omega)
    · simp only [hget _ (by unfold B2; omega : 0 ≤ B2 + (MCU.y * p.2.1 + p.2.2.1) / 2)
        (by unfold B2; omega), Int.toNat_ofNat]

theorem copy_line_positions_mem (MCU NumMCUs : iPoint2D) (p : Nat × Nat × Nat × Nat)
    (h : p ∈ copy_line_positions MCU NumMCUs) :
    (p.1 : Int) < NumMCUs.x ∧ (p.2.1 : Int) < NumMCUs.y ∧ (p.2.2.1 : Int) < MCU.y ∧
      (p.2.2.2 : Int) < MCU.x := by
  unfold copy_line_positions at h
  simp only [List.mem_flatMap, List.mem_range, List.mem_map] at h
  obtain ⟨mx, hmx, my, hmy, r, hr, c, hc, rfl⟩ := h
  simp only
  omega

/-- C38: the X-Trans column map is `index(c) = 2 * (c div 3) + min(c mod 3, 1)` for
`c ≥ 0` (as long as `c * 2` is an `int`), the Bayer map is `c div 2`; for every
`c < block_size` (0x300) the read position `1 + index(c)` is a real sample column (at
most `line_width`: 512 for X-Trans, 384 for Bayer); the loops of `copy_line` stay below
the numbers of MCUs; and at a position of an image row below 6 the colour row read is one
of `R2..R4`, `G2..G7`, `B2..B4`, so that the read of the line buffer (of
`line_width + 2` columns) is inside the buffer and the cell is what is written. -/
theorem copy_line_reads_in_buffer :
    (∀ k : Int, 0 ≤ k → k < 2 ^ 30 → xtrans_index k = 2 * (k / 3) + min (k % 3) 1) ∧
    (∀ k : Int, 0 ≤ k → k < 0x300 →
      1 ≤ 1 + xtrans_index k ∧ 1 + xtrans_index k ≤ 512 ∧ 1 ≤ 1 + k / 2 ∧ 1 + k / 2 ≤ 384) ∧
    (∀ (MCU NumMCUs : iPoint2D) (p : Nat × Nat × Nat × Nat),
      p ∈ copy_line_positions MCU NumMCUs →
      (p.1 : Int) < NumMCUs.x ∧ (p.2.1 : Int) < NumMCUs.y ∧ (p.2.2.1 : Int) < MCU.y ∧
        (p.2.2.2 : Int) < MCU.x) ∧
    (∀ (xtransCFA : Nat → Nat → CFAColor) (info : fuji_compressed_block) (strip : FujiStrip)
      (cur_line : Int) (img : RawImage) (p : Nat × Nat × Nat × Nat),
      info.lines.width = 512 + 2 → (6 : Int) * p.1 + p.2.2.2 < 0x300 →
      (6 : Int) * p.2.1 + p.2.2.1 < 6 →
      ∃ row : Int,
        ((R2 ≤ row ∧ row ≤ R4) ∨ (G2 ≤ row ∧ row ≤ G7) ∨ (B2 ≤ row ∧ row ≤ B4)) ∧
        info.lines.get row (1 + xtrans_index (6 * p.1 + p.2.2.2)) =
          .ok (info.lines.cell row.toNat (1 + xtrans_index (6 * p.1 + p.2.2.2)).toNat) ∧
        copy_line_cell ⟨6, 6⟩ xtransCFA xtrans_index info strip cur_line img p =
          (if strip.offsetX + (6 * p.1 + p.2.2.2) < 0 then .error .assertion
          else img.write (strip.offsetY cur_line + (6 * p.2.1 + p.2.2.1))
            (strip.offsetX + (6 * p.1 + p.2.2.2)).toNat
            (info.lines.cell row.toNat (1 + xtrans_index (6 * p.1 + p.2.2.2)).toNat))) ∧
    (∀ (info : fuji_compressed_block) (strip : FujiStrip)
      (cur_line : Int) (img : RawImage) (p : Nat × Nat × Nat × Nat),
      info.lines.width = 384 + 2 → (2 : Int) * p.1 + p.2.2.2 < 0x300 →
      (2 : Int) * p.2.1 + p.2.2.1 < 6 →
      ∃ row : Int,
        ((R2 ≤ row ∧ row ≤ R4) ∨ (G2 ≤ row ∧ row ≤ G7) ∨ (B2 ≤ row ∧ row ≤ B4)) ∧
        info.lines.get row (1 + (2 * p.1 + p.2.2.2) / 2) =
          .ok (info.lines.cell row.toNat (1 + ((2 : Int) * p.1 + p.2.2.2) / 2).toNat) ∧
        copy_line_cell ⟨2, 2⟩ bayerRGGB (fun imgCol => imgCol / 2) info strip cur_line img p =
          (if strip.offsetX + (2 * p.1 + p.2.2.2) < 0 then .error .assertion
          else img.write (strip.offsetY cur_line + (2 * p.2.1 + p.2.2.1))
            (strip.offsetX + (2 * p.1 + p.2.2.2)).toNat
            (info.lines.cell row.toNat (1 + ((2 : Int) * p.1 + p.2.2.2) / 2).toNat))) := by
  have hx : ∀ k : Int, 0 ≤ k → k < 0x300 →
      1 ≤ 1 + xtrans_index k ∧ 1 + xtrans_index k ≤ 512 := by
    intro k h0 h1
    have h30 : (2 : Int) ^ 30 = 1073741824 := by norm_num
    rw [xtrans_index_eq k h0 (by omega)]
    omega
  refine ⟨xtrans_index_eq, ?_, copy_line_positions_mem, ?_, ?_⟩
  · intro k h0 h1
    obtain ⟨a, b⟩ := hx k h0 h1
    exact ⟨a, b, by omega, by omega⟩
  · intro xtransCFA info strip cur_line img p hw hc hr
    obtain ⟨a, b⟩ := hx (6 * p.1 + p.2.2.2) (by omega) hc
    exact copy_line_cell_eq ⟨6, 6⟩ xtransCFA xtrans_index info strip cur_line img p
      (by show (0 : Int) ≤ 6 * p.2.1 + p.2.2.1; omega) hr
      (by show (0 : Int) ≤ 1 + xtrans_index (6 * p.1 + p.2.2.2); omega)
      (by show 1 + xtrans_index (6 * p.1 + p.2.2.2) < (info.lines.width : Int)
          rw [hw]; push_cast; omega)
  · intro info strip cur_line img p hw hc hr
    exact copy_line_cell_eq ⟨2, 2⟩ bayerRGGB (fun imgCol => imgCol / 2) info strip cur_line
      img p
      (by show (0 : Int) ≤ 2 * p.2.1 + p.2.2.1; omega) hr
      (by show (0 : Int) ≤ 1 + (2 * p.1 + p.2.2.2) / 2; omega)
      (by show 1 + ((2 : Int) * p.1 + p.2.2.2) / 2 < (info.lines.width : Int)
          rw [hw]; push_cast; omega)

/-- Witness for C38: the last column of a block, `c = 767`, in the last row of a line:
`index(767) = 511`, read at the buffer column 512. -/
theorem copy_line_reads_in_buffer_witness :
    ((0 : Int) ≤ 767 ∧ (767 : Int) < 2 ^ 30 ∧ (767 : Int) < 0x300) ∧
    xtrans_index 767 = 511 ∧
    xtrans_index 767 = 2 * (767 / 3) + min (767 % 3) 1 ∧
    (1 ≤ 1 + xtrans_index 767 ∧ 1 + xtrans_index 767 ≤ 512 ∧
      1 ≤ 1 + (767 : Int) / 2 ∧ 1 + (767 : Int) / 2 ≤ 384) ∧
    ∃ row : Int,
      ((R2 ≤ row ∧ row ≤ R4) ∨ (G2 ≤ row ∧ row ≤ G7) ∨ (B2 ≤ row ∧ row ≤ B4)) ∧
      LineBuffer.get ⟨514, fun r c => r + c⟩ row
          (1 + xtrans_index (6 * ((127 : Nat) : Int) + ((5 : Nat) : Int))) =
        .ok (((fun r c => r + c : Nat → Nat → Nat) row.toNat
          (1 + xtrans_index (6 * ((127 : Nat) : Int) + ((5 : Nat) : Int))).toNat : Nat) : Int) ∧
      copy_line_cell ⟨6, 6⟩ (fun _ _ => CFAColor.GREEN) xtrans_index
          ⟨⟨514, fun r c => r + c⟩, [], [], ⟨[], 0, []⟩⟩ emptyLineStrip 0 (blankImage 768 6)
          (127, 0, 5, 5) =
        (if emptyLineStrip.offsetX + (6 * ((127 : Nat) : Int) + ((5 : Nat) : Int)) < 0 then
          .error .assertion
        else (blankImage 768 6).write
          (emptyLineStrip.offsetY 0 + (6 * ((0 : Nat) : Int) + ((5 : Nat) : Int)))
          (emptyLineStrip.offsetX + (6 * ((127 : Nat) : Int) + ((5 : Nat) : Int))).toNat
          ((fun r c => r + c : Nat → Nat → Nat) row.toNat
            (1 + xtrans_index (6 * ((127 : Nat) : Int) + ((5 : Nat) : Int))).toNat)) :=
  ⟨⟨by decide, by decide, by decide⟩, by decide,
    copy_line_reads_in_buffer.1 767 (by decide) (by decide),
    copy_line_reads_in_buffer.2.1 767 (by decide) (by decide),
    copy_line_reads_in_buffer.2.2.2.1 (fun _ _ => CFAColor.GREEN)
      ⟨⟨514, fun r c => r + c⟩, [], [], ⟨[], 0, []⟩⟩ emptyLineStrip 0 (blankImage 768 6)
      (127, 0, 5, 5) rfl (by decide) (by decide)⟩

theorem LineBuffer.get_bounded (M : Int) (lines : LineBuffer) (row col v : Int)
    (h : lines.Bounded M) (hg : lines.get row col = .ok v) : 0 ≤ v ∧ v ≤ M := by
  unfold LineBuffer.get at hg
  split at hg
  · cases hg
    exact ⟨Int.ofNat_nonneg _, h _ _⟩
  · cases hg

theorem LineBuffer.set_bounded (M : Int) (lines l : LineBuffer) (row col v : Int)
    (h : lines.Bounded M) (hM : M < 2 ^ 16) (hv0 : 0 ≤ v) (hv1 : v ≤ M)
    (hs : lines.set row col v = .ok l) : l.Bounded M := by
  unfold LineBuffer.set at hs
  split at hs
  · cases hs
    intro r c
    simp only
    split
    · have h16 : (2 : Int) ^ 16 = 65536 := by norm_num
      omega
    · exact h r c
  · cases hs

theorem LineBuffer.set_width (lines l : LineBuffer) (row col v : Int)
    (hs : lines.set row col v = .ok l) : l.width = lines.width := by
  unfold LineBuffer.set at hs
  split at hs
  · cases hs
    rfl
  · cases hs

/-- The even kernel returns a value between the smallest and the largest of the four
neighbours that it reads. -/
theorem fuji_decode_interpolation_even_inner_between (ci : fuji_compressed_params)
    (lines : LineBuffer) (c col grad interp_val : Int)
    (h : fuji_decode_interpolation_even_inner ci lines c col = .ok (grad, interp_val)) :
    ∃ Rb Rc Rd Rf : Int,
      lines.get (c - 1) (1 + 2 * (col + 0) + 0) = .ok Rb ∧
      lines.get (c - 1) (1 + 2 * (col - 1) + 1) = .ok Rc ∧
      lines.get (c - 1) (1 + 2 * (col + 0) + 1) = .ok Rd ∧
      lines.get (c - 2) (1 + 2 * (col + 0) + 0) = .ok Rf ∧
      min (min Rb Rc) (min Rd Rf) ≤ interp_val ∧ interp_val ≤ max (max Rb Rc) (max Rd Rf) := by
  unfold fuji_decode_interpolation_even_inner at h
  split at h
  · cases h
  · rename_i Rb hb
    split at h
    · cases h
    · rename_i Rc hcc
      split at h
      · cases h
      · rename_i Rd hd
        split at h
        · cases h
        · rename_i Rf hf
          simp only at h
          split at h
          · cases h
          · simp only [Except.ok.injEq, Prod.mk.injEq] at h
            obtain ⟨-, rfl⟩ := h
            refine ⟨Rb, Rc, Rd, Rf, hb, hcc, hd, hf, ?_⟩
            split_ifs <;> simp only <;> omega

/-- The odd kernel returns a value between the smallest and the largest of the
neighbours that it reads. -/
theorem fuji_decode_interpolation_odd_inner_between (ci : fuji_compressed_params)
    (lines : LineBuffer) (c col grad interp_val : Int)
    (h : fuji_decode_interpolation_odd_inner ci lines c col = .ok (grad, interp_val)) :
    ∃ Ra Rb Rc Rd Rg : Int,
      lines.get (c + 0) (1 + 2 * (col + 0) + 0) = .ok Ra ∧
      lines.get (c - 1) (1 + 2 * (col + 0) + 1) = .ok Rb ∧
      lines.get (c - 1) (1 + 2 * (col + 0) + 0) = .ok Rc ∧
      lines.get (c - 1) (1 + 2 * (col + 1) + 0) = .ok Rd ∧
      lines.get (c + 0) (1 + 2 * (col + 1) + 0) = .ok Rg ∧
      min (min Ra Rb) (min (min Rc Rd) Rg) ≤ interp_val ∧
      interp_val ≤ max (max Ra Rb) (max (max Rc Rd) Rg) := by
  unfold fuji_decode_interpolation_odd_inner at h
  split at h
  · cases h
  · rename_i Ra ha
    split at h
    · cases h
    · rename_i Rb hb
      split at h
      · cases h
      · rename_i Rc hcc
        split at h
        · cases h
        · rename_i Rd hd
          split at h
          · cases h
          · rename_i Rg hg
            simp only at h
            split at h
            · cases h
            · simp only [Except.ok.injEq, Prod.mk.injEq] at h
              obtain ⟨-, rfl⟩ := h
              refine ⟨Ra, Rb, Rc, Rd, Rg, ha, hb, hcc, hd, hg, ?_⟩
              split_ifs <;> omega

/-- A decoded sample lies in `[0, q_point[4]]`. -/
theorem fuji_decode_sample_bounds (ndebug : Bool) (slack : Nat) (ci : fuji_compressed_params)
    (pump : BitStreamer) (grad interp_val : Int) (grads : List int_pair)
    (r : Int × BitStreamer × List int_pair) (h0 : 0 ≤ ci.q_point.getD 4 0)
    (h : fuji_decode_sample ndebug slack ci pump grad interp_val grads = .ok r) :
    0 ≤ r.1 ∧ r.1 ≤ ci.q_point.getD 4 0 := by
  obtain ⟨code, pump2, g, g2, -, -, -, -, -, rfl⟩ :=
    fuji_decode_sample_grads ndebug slack ci pump grad interp_val grads r h
  exact fuji_fold_range ci grad interp_val _ h0

/-- One round of `pass_loop`: the even half, the odd half, then the rounds that remain. -/
theorem pass_loop_succ (ndebug : Bool) (slack : Nat) (ci : fuji_compressed_params)
    (func_even : FuncEven) (c0 c1 row : Int) (grad : Nat) (line_width : Int) (more : Nat)
    (i : Int) (pos : ColorPos × ColorPos) (info : fuji_compressed_block) :
    pass_loop ndebug slack ci func_even c0 c1 row grad line_width (more + 1) i pos info =
      match pass_evens func_even c0 c1 row grad line_width i pos info with
      | .error e => .error e
      | .ok (info2, pos2) =>
        match pass_odds ndebug slack ci c0 c1 grad i pos2 info2 with
        | .error e => .error e
        | .ok (info4, pos4) =>
          pass_loop ndebug slack ci func_even c0 c1 row grad line_width more (i + 1) pos4
            info4 := rfl

/-- An invariant of the block that both halves of a round keep is kept by the loop of
`pass`. -/
theorem pass_loop_invariant (ndebug : Bool) (slack : Nat) (ci : fuji_compressed_params)
    (func_even : FuncEven) (c0 c1 row : Int) (grad : Nat) (line_width : Int)
    (P : fuji_compressed_block → Prop)
    (hE : ∀ info c pos i comp r, P info →
      pass_even func_even info c pos grad row i comp = .ok r → P r.1)
    (hO : ∀ info c pos r, P info → pass_odd ndebug slack ci info c pos grad = .ok r → P r.1) :
    ∀ (more : Nat) (i : Int) (pos : ColorPos × ColorPos) (info info2 : fuji_compressed_block),
    P info →
    pass_loop ndebug slack ci func_even c0 c1 row grad line_width more i pos info =
      .ok info2 → P info2 := by
  intro more
  induction more with
  | zero =>
    intro i pos info info2 h hs
    simp only [pass_loop, Except.ok.injEq] at hs
    rw [← hs]
    exact h
  | succ more ih =>
    intro i pos info info2 h hs
    rw [pass_loop_succ] at hs
    cases hA : pass_evens func_even c0 c1 row grad line_width i pos info with
    | error e => rw [hA] at hs; cases hs
    | ok ra =>
      obtain ⟨infoA, posA⟩ := ra
      rw [hA] at hs
      simp only at hs
      have hPA : P infoA := by
        unfold pass_evens at hA
        split at hA
        · cases h1 : pass_even func_even info c0 pos.1 grad row i 0 with
          | error e => rw [h1] at hA; cases hA
          | ok r1 =>
            obtain ⟨info1, p0⟩ := r1
            rw [h1] at hA
            simp only at hA
            cases h2 : pass_even func_even info1 c1 pos.2 grad row i 1 with
            | error e => rw [h2] at hA; cases hA
            | ok r2 =>
              obtain ⟨info2b, p1⟩ := r2
              rw [h2] at hA
              cases hA
              exact hE _ _ _ _ _ _ (hE _ _ _ _ _ _ h h1) h2
        · cases hA
          exact h
      cases hB : pass_odds ndebug slack ci c0 c1 grad i posA infoA with
      | error e => rw [hB] at hs; cases hs
      | ok rb =>
        obtain ⟨infoB, posB⟩ := rb
        rw [hB] at hs
        simp only at hs
        have hPB : P infoB := by
          unfold pass_odds at hB
          split at hB
          · cases h1 : pass_odd ndebug slack ci infoA c0 posA.1 grad with
            | error e => rw [h1] at hB; cases hB
            | ok r1 =>
              obtain ⟨info3, p0⟩ := r1
              rw [h1] at hB
              simp only at hB
              cases h2 : pass_odd ndebug slack ci info3 c1 posA.2 grad with
              | error e => rw [h2] at hB; cases hB
              | ok r2 =>
                obtain ⟨info4, p1⟩ := r2
                rw [h2] at hB
                cases hB
                exact hO _ _ _ _ (hO _ _ _ _ hPA h1) h2
          · cases hB
            exact hPA
        exact ih _ _ _ _ hPB hs

theorem pass_even_bounded (M : Int) (hM : M < 2 ^ 16) (func_even : FuncEven)
    (hF : ∀ lines pump c col grads row i comp r, LineBuffer.Bounded M lines →
      func_even lines pump c col grads row i comp = .ok r → 0 ≤ r.1 ∧ r.1 ≤ M)
    (grad : Nat) (row : Int) (info : fuji_compressed_block) (c : Int) (pos : ColorPos)
    (i comp : Int) (r : fuji_compressed_block × ColorPos) (h : info.lines.Bounded M)
    (hs : pass_even func_even info c pos grad row i comp = .ok r) : r.1.lines.Bounded M := by
  unfold pass_even at hs
  split at hs
  · cases hs
  · split at hs
    · cases hs
    · rename_i sample pump2 grads2 hf
      split at hs
      · cases hs
      · rename_i lines2 hset
        cases hs
        have hr := hF _ _ _ _ _ _ _ _ _ h hf
        exact LineBuffer.set_bounded M _ _ _ _ _ h hM hr.1 hr.2 hset

theorem pass_odd_bounded (ndebug : Bool) (slack : Nat) (ci : fuji_compressed_params)
    (h0 : 0 ≤ ci.q_point.getD 4 0) (hM : ci.q_point.getD 4 0 < 2 ^ 16)
    (grad : Nat) (info : fuji_compressed_block) (c : Int) (pos : ColorPos)
    (r : fuji_compressed_block × ColorPos) (h : info.lines.Bounded (ci.q_point.getD 4 0))
    (hs : pass_odd ndebug slack ci info c pos grad = .ok r) :
    r.1.lines.Bounded (ci.q_point.getD 4 0) := by
  unfold pass_odd at hs
  split at hs
  · cases hs
  · split at hs
    · cases hs
    · rename_i sample pump2 grads2 hf
      split at hs
      · cases hs
      · rename_i lines2 hset
        cases hs
        unfold fuji_decode_sample_odd at hf
        split at hf
        · cases hf
        · have hr := fuji_decode_sample_bounds _ _ _ _ _ _ _ _ h0 hf
          exact LineBuffer.set_bounded _ _ _ _ _ _ h hM hr.1 hr.2 hset

theorem fuji_extend_row_bounded (M : Int) (hM : M < 2 ^ 16) (lines l : LineBuffer) (i : Int)
    (h : lines.Bounded M) (hs : fuji_extend_row lines i = .ok l) : l.Bounded M := by
  unfold fuji_extend_row at hs
  split at hs
  · cases hs
  · rename_i first hg1
    split at hs
    · cases hs
    · rename_i l1 hset
      split at hs
      · cases hs
      · rename_i last hg2
        have b1 := LineBuffer.get_bounded M _ _ _ _ h hg1
        have hl1 := LineBuffer.set_bounded M _ _ _ _ _ h hM b1.1 b1.2 hset
        have b2 := LineBuffer.get_bounded M _ _ _ _ hl1 hg2
        exact LineBuffer.set_bounded M _ _ _ _ _ hl1 hM b2.1 b2.2 hs

theorem fuji_extend_generic_bounded (M : Int) (hM : M < 2 ^ 16) : ∀ (more : Nat)
    (start : Int) (lines l : LineBuffer), lines.Bounded M →
    fuji_extend_generic more start lines = .ok l → l.Bounded M := by
  intro more
  induction more with
  | zero =>
    intro start lines l h hs
    simp only [fuji_extend_generic, Except.ok.injEq] at hs
    rw [← hs]
    exact h
  | succ more ih =>
    intro start lines l h hs
    unfold fuji_extend_generic at hs
    cases h1 : fuji_extend_row lines start with
    | error e => rw [h1] at hs; cases hs
    | ok l1 =>
      rw [h1] at hs
      exact ih _ _ _ (fuji_extend_row_bounded M hM _ _ _ h h1) hs

theorem fuji_extend_bounded (M : Int) (hM : M < 2 ^ 16) (c : CFAColor) (lines l : LineBuffer)
    (h : lines.Bounded M) (hs : fuji_extend c lines = .ok l) : l.Bounded M := by
  cases c <;> exact fuji_extend_generic_bounded M hM _ _ _ _ h hs

/-- An invariant of the block that `pass` keeps, and that depends on the line buffer only
through a property that `fuji_extend` keeps, is kept by the loop over the six rows. -/
theorem fuji_decode_block_rows_invariant (ndebug : Bool) (slack : Nat)
    (ci : fuji_compressed_params) (func_even : FuncEven)
    (P : LineBuffer → Prop)
    (hP : ∀ c0 c1 row info info1, P info.lines →
      pass ndebug slack ci func_even c0 c1 row info = .ok info1 → P info1.lines)
    (hX : ∀ c lines l, P lines → fuji_extend c lines = .ok l → P l) :
    ∀ (more row : Nat) (counter : CFAColor → Int) (info info2 : fuji_compressed_block),
    P info.lines →
    fuji_decode_block_rows ndebug slack ci func_even more row counter info = .ok info2 →
    P info2.lines := by
  intro more
  induction more with
  | zero =>
    intro row counter info info2 h hs
    simp only [fuji_decode_block_rows, Except.ok.injEq] at hs
    rw [← hs]
    exact h
  | succ more ih =>
    intro row counter info info2 h hs
    unfold fuji_decode_block_rows at hs
    simp only at hs
    cases h1 : pass ndebug slack ci func_even (CurLineForColor counter (bayerRGGB row 0)).1
        (CurLineForColor (CurLineForColor counter (bayerRGGB row 0)).2 (bayerRGGB row 1)).1
        row info with
    | error e => rw [h1] at hs; cases hs
    | ok info1 =>
      rw [h1] at hs
      simp only at hs
      cases h2 : fuji_extend (bayerRGGB row 0) info1.lines with
      | error e => rw [h2] at hs; cases hs
      | ok lines2 =>
        rw [h2] at hs
        simp only at hs
        cases h3 : fuji_extend (bayerRGGB row 1) lines2 with
        | error e => rw [h3] at hs; cases hs
        | ok lines3 =>
          rw [h3] at hs
          simp only at hs
          exact ih _ _ _ _ (hX _ _ _ (hX _ _ _ (hP _ _ _ _ _ h h1) h2) h3) hs

/-- The values that `fuji_decode_block` stores keep the cells within `[0, q_point[4]]`,
for a `func_even` that returns such values. -/
theorem fuji_decode_block_bounded (ndebug : Bool) (slack : Nat)
    (ci : fuji_compressed_params) (func_even : FuncEven)
    (h0 : 0 ≤ ci.q_point.getD 4 0) (hM : ci.q_point.getD 4 0 < 2 ^ 16)
    (hF : ∀ lines pump c col grads row i comp r,
      LineBuffer.Bounded (ci.q_point.getD 4 0) lines →
      func_even lines pump c col grads row i comp = .ok r →
      0 ≤ r.1 ∧ r.1 ≤ ci.q_point.getD 4 0)
    (info info2 : fuji_compressed_block) (h : info.lines.Bounded (ci.q_point.getD 4 0))
    (hs : fuji_decode_block ndebug slack ci func_even info = .ok info2) :
    info2.lines.Bounded (ci.q_point.getD 4 0) := by
  unfold fuji_decode_block at hs
  split at hs
  · cases hs
  · refine fuji_decode_block_rows_invariant ndebug slack ci func_even
      (LineBuffer.Bounded (ci.q_point.getD 4 0)) ?_ ?_ 6 0 _ info info2 h hs
    · intro c0 c1 row infoa infob ha hp
      unfold pass at hp
      exact pass_loop_invariant ndebug slack ci func_even c0 c1 row (row % 3)
        (ci.line_width / 2) (fun b => b.lines.Bounded (ci.q_point.getD 4 0))
        (fun info c pos i comp r hb he =>
          pass_even_bounded _ hM func_even hF _ _ info c pos i comp r hb he)
        (fun info c pos r hb ho => pass_odd_bounded ndebug slack ci h0 hM _ info c pos r hb ho)
        _ _ _ _ _ ha hp
    · intro c lines l hl hx
      exact fuji_extend_bounded _ hM c lines l hl hx

theorem bayer_func_even_bounded (ndebug : Bool) (slack : Nat) (ci : fuji_compressed_params)
    (h0 : 0 ≤ ci.q_point.getD 4 0) (lines : LineBuffer) (pump : BitStreamer) (c col : Int)
    (grads : List int_pair) (row i comp : Int) (r : Int × BitStreamer × List int_pair)
    (h : bayer_func_even ndebug slack ci lines pump c col grads row i comp = .ok r) :
    0 ≤ r.1 ∧ r.1 ≤ ci.q_point.getD 4 0 := by
  unfold bayer_func_even fuji_decode_sample_even at h
  split at h
  · cases h
  · exact fuji_decode_sample_bounds _ _ _ _ _ _ _ _ h0 h

/-- The value that `fuji_decode_interpolation_even` returns for a line buffer whose cells
lie in `[0, M]` lies in `[0, M]`. -/
theorem fuji_decode_interpolation_even_bounded (M : Int) (ci : fuji_compressed_params)
    (lines : LineBuffer) (c col v : Int) (hb : lines.Bounded M)
    (h : fuji_decode_interpolation_even ci lines c col = .ok v) : 0 ≤ v ∧ v ≤ M := by
  unfold fuji_decode_interpolation_even at h
  split at h
  · cases h
  · rename_i grad interp hi
    cases h
    obtain ⟨Rb, Rc, Rd, Rf, g1, g2, g3, g4, hlo, hhi⟩ :=
      fuji_decode_interpolation_even_inner_between ci lines c col grad _ hi
    have b1 := LineBuffer.get_bounded M _ _ _ _ hb g1
    have b2 := LineBuffer.get_bounded M _ _ _ _ hb g2
    have b3 := LineBuffer.get_bounded M _ _ _ _ hb g3
    have b4 := LineBuffer.get_bounded M _ _ _ _ hb g4
    omega

theorem xtrans_func_even_bounded (ndebug : Bool) (slack : Nat) (ci : fuji_compressed_params)
    (h0 : 0 ≤ ci.q_point.getD 4 0) (lines : LineBuffer) (pump : BitStreamer) (c col : Int)
    (grads : List int_pair) (row i comp : Int) (r : Int × BitStreamer × List int_pair)
    (hb : lines.Bounded (ci.q_point.getD 4 0))
    (h : xtrans_func_even ndebug slack ci lines pump c col grads row i comp = .ok r) :
    0 ≤ r.1 ∧ r.1 ≤ ci.q_point.getD 4 0 := by
  unfold xtrans_func_even at h
  split at h
  · split at h
    · cases h
    · rename_i v hv
      cases h
      exact fuji_decode_interpolation_even_bounded _ ci lines c col v hb hv
  · split at h
    · cases h
    · unfold fuji_decode_sample_even at h
      split at h
      · cases h
      · exact fuji_decode_sample_bounds _ _ _ _ _ _ _ _ h0 h

theorem fuji_decode_line_bounded (ndebug : Bool) (slack : Nat)
    (xtransCFA : Nat → Nat → CFAColor) (ci : fuji_compressed_params) (path : DecodePath)
    (h0 : 0 ≤ ci.q_point.getD 4 0) (hM : ci.q_point.getD 4 0 < 2 ^ 16)
    (info info1 : fuji_compressed_block) (strip : FujiStrip) (cur_line : Int)
    (img img1 : RawImage) (h : info.lines.Bounded (ci.q_point.getD 4 0))
    (hs : fuji_decode_line ndebug slack xtransCFA ci path info strip cur_line img =
      .ok (info1, img1)) :
    info1.lines.Bounded (ci.q_point.getD 4 0) := by
  unfold fuji_decode_line at hs
  cases path with
  | xtrans =>
    simp only at hs
    cases h1 : xtrans_decode_block ndebug slack ci info with
    | error e => rw [h1] at hs; cases hs
    | ok infoA =>
      rw [h1] at hs
      simp only at hs
      cases h2 : copy_line_to_xtrans ndebug xtransCFA infoA strip cur_line img with
      | error e => rw [h2] at hs; cases hs
      | ok imgA =>
        rw [h2] at hs
        cases hs
        exact fuji_decode_block_bounded ndebug slack ci _ h0 hM
          (fun lines pump c col grads row i comp r hb hf =>
            xtrans_func_even_bounded ndebug slack ci h0 lines pump c col grads row i comp r
              hb hf) info _ h h1
  | bayer =>
    simp only at hs
    cases h1 : fuji_bayer_decode_block ndebug slack ci info with
    | error e => rw [h1] at hs; cases hs
    | ok infoA =>
      rw [h1] at hs
      simp only at hs
      cases h2 : copy_line_to_bayer ndebug infoA strip cur_line img with
      | error e => rw [h2] at hs; cases hs
      | ok imgA =>
        rw [h2] at hs
        cases hs
        exact fuji_decode_block_bounded ndebug slack ci _ h0 hM
          (fun lines pump c col grads row i comp r _ hf =>
            bayer_func_even_bounded ndebug slack ci h0 lines pump c col grads row i comp r
              hf) info _ h h1

theorem LineBuffer.memcpy_bounded (M : Int) (lines l : LineBuffer) (dst src count : Nat)
    (h : lines.Bounded M) (hs : lines.memcpy dst src count = .ok l) : l.Bounded M := by
  unfold LineBuffer.memcpy at hs
  split at hs
  · cases hs
    intro r c
    simp only
    split
    · exact h _ _
    · exact h _ _
  · cases hs

theorem fuji_carry_helper_bounded (M : Int) (hM : M < 2 ^ 16) (lines l : LineBuffer)
    (a : Int) (h : lines.Bounded M) (hs : fuji_carry_helper lines a = .ok l) :
    l.Bounded M := by
  unfold fuji_carry_helper at hs
  split at hs
  · cases hs
  · rename_i v hg
    have b := LineBuffer.get_bounded M _ _ _ _ h hg
    exact LineBuffer.set_bounded M _ _ _ _ _ h hM b.1 b.2 hs

/-- The carry between two lines keeps the cells within `[0, M]`. -/
theorem fuji_carry_bounded (M : Int) (hM : M < 2 ^ 16) (ci : fuji_compressed_params)
    (lines l : LineBuffer) (h : lines.Bounded M) (hs : fuji_carry ci lines = .ok l) :
    l.Bounded M := by
  unfold fuji_carry at hs
  cases h1 : fuji_carry_rows ci lines R0 5 with
  | error e => rw [h1] at hs; cases hs
  | ok l1 =>
    rw [h1] at hs
    simp only at hs
    cases h2 : fuji_carry_rows ci l1 G0 8 with
    | error e => rw [h2] at hs; cases hs
    | ok l2 =>
      rw [h2] at hs
      simp only at hs
      cases h3 : fuji_carry_rows ci l2 B0 5 with
      | error e => rw [h3] at hs; cases hs
      | ok l3 =>
        rw [h3] at hs
        simp only at hs
        cases h4 : fuji_carry_helper l3 R0 with
        | error e => rw [h4] at hs; cases hs
        | ok l4 =>
          rw [h4] at hs
          simp only at hs
          cases h5 : fuji_carry_helper l4 G0 with
          | error e => rw [h5] at hs; cases hs
          | ok l5 =>
            rw [h5] at hs
            simp only at hs
            have b1 := LineBuffer.memcpy_bounded M _ _ _ _ _ h h1
            have b2 := LineBuffer.memcpy_bounded M _ _ _ _ _ b1 h2
            have b3 := LineBuffer.memcpy_bounded M _ _ _ _ _ b2 h3
            have b4 := fuji_carry_helper_bounded M hM _ _ _ b3 h4
            have b5 := fuji_carry_helper_bounded M hM _ _ _ b4 h5
            exact fuji_carry_helper_bounded M hM _ _ _ b5 hs

/-- The whole strip, when it ends without a fault, keeps the cells within
`[0, q_point[4]]`. -/
theorem fuji_decode_lines_bounded (ndebug : Bool) (slack : Nat)
    (xtransCFA : Nat → Nat → CFAColor) (header : FujiHeader) (ci : fuji_compressed_params)
    (strip : FujiStrip) (h0 : 0 ≤ ci.q_point.getD 4 0) (hM : ci.q_point.getD 4 0 < 2 ^ 16) :
    ∀ (more : Nat) (cur_line : Int) (info blk : fuji_compressed_block) (img : RawImage),
    info.lines.Bounded (ci.q_point.getD 4 0) →
    (fuji_decode_lines ndebug slack xtransCFA header ci strip more cur_line info
      img).1 = some blk → blk.lines.Bounded (ci.q_point.getD 4 0) := by
  intro more
  induction more with
  | zero =>
    intro cur_line info blk img h hb
    simp only [fuji_decode_lines, Option.some.injEq] at hb
    rw [← hb]
    exact h
  | succ more ih =>
    intro cur_line info blk img h hb
    unfold fuji_decode_lines at hb
    cases h1 : fuji_decode_line ndebug slack xtransCFA ci header.decodePath info strip
        cur_line img with
    | error e =>
      rw [h1] at hb
      cases hb
    | ok r =>
      obtain ⟨info1, img1⟩ := r
      have b1 := fuji_decode_line_bounded ndebug slack xtransCFA ci _ h0 hM info info1 strip
        cur_line img img1 h h1
      rw [h1] at hb
      simp only at hb
      split at hb
      · simp only [Option.some.injEq] at hb
        rw [← hb]
        exact b1
      · cases h2 : fuji_carry ci info1.lines with
        | error e =>
          rw [h2] at hb
          cases hb
        | ok lines2 =>
          rw [h2] at hb
          exact ih _ _ _ _ (fuji_carry_bounded _ hM ci _ _ b1 h2) hb

/-- The reset of a block keeps the cells within `[0, M]`: they become 0 or stay. -/
theorem fuji_compressed_block.reset_bounded (M : Int) (h0 : 0 ≤ M) (hM : M < 2 ^ 16)
    (info blk : fuji_compressed_block) (params : fuji_compressed_params)
    (h : info.lines.Bounded M) (hr : info.reset params = .ok blk) : blk.lines.Bounded M := by
  unfold fuji_compressed_block.reset at hr
  simp only at hr
  have hz : LineBuffer.Bounded M
      { width := (params.line_width + 2).toNat
        cell := fun r c =>
          if (r * (params.line_width + 2).toNat + c < 2 * (params.line_width + 2).toNat) ∨
              (5 * (params.line_width + 2).toNat ≤ r * (params.line_width + 2).toNat + c ∧
                r * (params.line_width + 2).toNat + c <
                  5 * (params.line_width + 2).toNat + 2 * (params.line_width + 2).toNat) ∨
              (13 * (params.line_width + 2).toNat ≤ r * (params.line_width + 2).toNat + c ∧
                r * (params.line_width + 2).toNat + c <
                  13 * (params.line_width + 2).toNat + 2 * (params.line_width + 2).toNat)
          then 0 else info.lines.cell r c } := by
    intro r c
    simp only
    split
    · exact_mod_cast h0
    · exact h r c
  split at hr
  · cases hr
  · rename_i v1 g1
    split at hr
    · cases hr
    · rename_i l1 s1
      split at hr
      · cases hr
      · rename_i v2 g2
        split at hr
        · cases hr
        · rename_i l2 s2
          split at hr
          · cases hr
          · rename_i v3 g3
            split at hr
            · cases hr
            · rename_i l3 s3
              cases hr
              have b1 := LineBuffer.get_bounded M _ _ _ _ hz g1
              have hl1 := LineBuffer.set_bounded M _ _ _ _ _ hz hM b1.1 b1.2 s1
              have b2 := LineBuffer.get_bounded M _ _ _ _ hl1 g2
              have hl2 := LineBuffer.set_bounded M _ _ _ _ _ hl1 hM b2.1 b2.2 s2
              have b3 := LineBuffer.get_bounded M _ _ _ _ hl2 g3
              exact LineBuffer.set_bounded M _ _ _ _ _ hl2 hM b3.1 b3.2 s3

/-- C36: during the decoding of a Fuji block every value stored in the line buffer
(carry-in rows, decoded samples, interpolated samples, helper columns) lies in
`[0, maxValue]` (`maxValue = 2^raw_bits - 1`).  From a buffer whose cells lie in the range
(a fresh buffer, or one left by a block of the same parameters), every operation that
stores to the buffer leaves a buffer whose cells lie in the range: `reset`, the store
of an even sample and of an odd sample of `pass` (on either path), `fuji_extend`, the
decoding of a whole line, the carry between two lines, and the whole of
`fuji_decode_strip` when it ends without a fault.  A run that faults has gone through
such stores only.  Both interpolation kernels return a value between the smallest and
the largest neighbour that they read, and `fuji_decode_sample` returns a value in the
range; consequently every lookup of `q_table` at `maxValue` plus the difference of two
stored samples is within the table. -/
theorem fuji_line_buffer_in_range (ndebug : Bool) (slack : Nat)
    (xtransCFA : Nat → Nat → CFAColor) (header : FujiHeader) (ci : fuji_compressed_params)
    (hc : fuji_compressed_params.construct header = .ok ci)
    (info : fuji_compressed_block) (strip : FujiStrip) (img : RawImage)
    (hb : info.lines.Bounded (2 ^ header.raw_bits - 1)) :
    (∀ blk, info.reset ci = .ok blk → blk.lines.Bounded (2 ^ header.raw_bits - 1)) ∧
    (∀ c pos grad row i comp r,
      (pass_even (xtrans_func_even ndebug slack ci) info c pos grad row i comp = .ok r ∨
        pass_even (bayer_func_even ndebug slack ci) info c pos grad row i comp = .ok r) →
      r.1.lines.Bounded (2 ^ header.raw_bits - 1)) ∧
    (∀ c pos grad r, pass_odd ndebug slack ci info c pos grad = .ok r →
      r.1.lines.Bounded (2 ^ header.raw_bits - 1)) ∧
    (∀ c lines2, fuji_extend c info.lines = .ok lines2 →
      lines2.Bounded (2 ^ header.raw_bits - 1)) ∧
    (∀ cur_line info1 img1,
      fuji_decode_line ndebug slack xtransCFA ci header.decodePath info strip cur_line img =
        .ok (info1, img1) → info1.lines.Bounded (2 ^ header.raw_bits - 1)) ∧
    (∀ lines2, fuji_carry ci info.lines = .ok lines2 →
      lines2.Bounded (2 ^ header.raw_bits - 1)) ∧
    (∀ blk, (fuji_decode_strip ndebug slack xtransCFA header ci info strip img).1 = some blk →
      blk.lines.Bounded (2 ^ header.raw_bits - 1)) ∧
    (∀ c col grad interp_val,
      fuji_decode_interpolation_even_inner ci info.lines c col = .ok (grad, interp_val) →
      ∃ Rb Rc Rd Rf : Int,
        info.lines.get (c - 1) (1 + 2 * (col + 0) + 0) = .ok Rb ∧
        info.lines.get (c - 1) (1 + 2 * (col - 1) + 1) = .ok Rc ∧
        info.lines.get (c - 1) (1 + 2 * (col + 0) + 1) = .ok Rd ∧
        info.lines.get (c - 2) (1 + 2 * (col + 0) + 0) = .ok Rf ∧
        min (min Rb Rc) (min Rd Rf) ≤ interp_val ∧
        interp_val ≤ max (max Rb Rc) (max Rd Rf) ∧
        0 ≤ interp_val ∧ interp_val ≤ 2 ^ header.raw_bits - 1) ∧
    (∀ c col grad interp_val,
      fuji_decode_interpolation_odd_inner ci info.lines c col = .ok (grad, interp_val) →
      ∃ Ra Rb Rc Rd Rg : Int,
        info.lines.get (c + 0) (1 + 2 * (col + 0) + 0) = .ok Ra ∧
        info.lines.get (c - 1) (1 + 2 * (col + 0) + 1) = .ok Rb ∧
        info.lines.get (c - 1) (1 + 2 * (col + 0) + 0) = .ok Rc ∧
        info.lines.get (c - 1) (1 + 2 * (col + 1) + 0) = .ok Rd ∧
        info.lines.get (c + 0) (1 + 2 * (col + 1) + 0) = .ok Rg ∧
        min (min Ra Rb) (min (min Rc Rd) Rg) ≤ interp_val ∧
        interp_val ≤ max (max Ra Rb) (max (max Rc Rd) Rg) ∧
        0 ≤ interp_val ∧ interp_val ≤ 2 ^ header.raw_bits - 1) ∧
    (∀ pump grad interp_val grads r,
      fuji_decode_sample ndebug slack ci pump grad interp_val grads = .ok r →
      0 ≤ r.1 ∧ r.1 ≤ 2 ^ header.raw_bits - 1) ∧
    (∀ r1 c1 r2 c2, ∃ q,
      q_lookup ci ((info.lines.cell r1 c1 : Int) - info.lines.cell r2 c2) = .ok q ∧
      (ci.q_point.getD 4 0 +
        ((info.lines.cell r1 c1 : Int) - info.lines.cell r2 c2)).toNat < ci.q_table.length) := by
  obtain ⟨hbits, hq, -⟩ := fuji_compressed_params.construct_fields header ci hc
  have hpos : (1 : Int) ≤ 2 ^ header.raw_bits := one_le_pow₀ (by norm_num)
  have h0 : 0 ≤ ci.q_point.getD 4 0 := by rw [hq]; omega
  have hM : ci.q_point.getD 4 0 < 2 ^ 16 := by
    rw [hq]
    rcases hbits with h | h <;> rw [h] <;> norm_num
  rw [← hq] at hb ⊢
  refine ⟨?_, ?_, ?_, ?_, ?_, ?_, ?_, ?_, ?_, ?_, ?_⟩
  · intro blk hr
    exact fuji_compressed_block.reset_bounded _ h0 hM info blk ci hb hr
  · intro c pos grad row i comp r hr
    rcases hr with hr | hr
    · exact pass_even_bounded _ hM (xtrans_func_even ndebug slack ci)
        (fun lines pump c col grads row i comp r hl hf =>
          xtrans_func_even_bounded ndebug slack ci h0 lines pump c col grads row i comp r
            hl hf)
        grad row info c pos i comp r hb hr
    · exact pass_even_bounded _ hM (bayer_func_even ndebug slack ci)
        (fun lines pump c col grads row i comp r _ hf =>
          bayer_func_even_bounded ndebug slack ci h0 lines pump c col grads row i comp r hf)
        grad row info c pos i comp r hb hr
  · intro c pos grad r hr
    exact pass_odd_bounded ndebug slack ci h0 hM grad info c pos r hb hr
  · intro c lines2 hx
    exact fuji_extend_bounded _ hM c info.lines lines2 hb hx
  · intro cur_line info1 img1 hl
    exact fuji_decode_line_bounded ndebug slack xtransCFA ci _ h0 hM info info1 strip
      cur_line img img1 hb hl
  · intro lines2 hcarry
    exact fuji_carry_bounded _ hM ci _ _ hb hcarry
  · intro blk hs
    exact fuji_decode_lines_bounded ndebug slack xtransCFA header ci strip h0 hM _ _ _ _ _
      hb hs
  · intro c col grad interp_val hk
    obtain ⟨Rb, Rc, Rd, Rf, g1, g2, g3, g4, hlo, hhi⟩ :=
      fuji_decode_interpolation_even_inner_between ci info.lines c col grad interp_val hk
    have b1 := LineBuffer.get_bounded _ _ _ _ _ hb g1
    have b2 := LineBuffer.get_bounded _ _ _ _ _ hb g2
    have b3 := LineBuffer.get_bounded _ _ _ _ _ hb g3
    have b4 := LineBuffer.get_bounded _ _ _ _ _ hb g4
    exact ⟨Rb, Rc, Rd, Rf, g1, g2, g3, g4, hlo, hhi, by omega, by omega⟩
  · intro c col grad interp_val hk
    obtain ⟨Ra, Rb, Rc, Rd, Rg, g1, g2, g3, g4, g5, hlo, hhi⟩ :=
      fuji_decode_interpolation_odd_inner_between ci info.lines c col grad interp_val hk
    have b1 := LineBuffer.get_bounded _ _ _ _ _ hb g1
    have b2 := LineBuffer.get_bounded _ _ _ _ _ hb g2
    have b3 := LineBuffer.get_bounded _ _ _ _ _ hb g3
    have b4 := LineBuffer.get_bounded _ _ _ _ _ hb g4
    have b5 := LineBuffer.get_bounded _ _ _ _ _ hb g5
    exact ⟨Ra, Rb, Rc, Rd, Rg, g1, g2, g3, g4, g5, hlo, hhi, by omega, by omega⟩
  · intro pump grad interp_val grads r hs
    exact fuji_decode_sample_bounds ndebug slack ci pump grad interp_val grads r h0 hs
  · intro r1 c1 r2 c2
    have a1 := hb r1 c1
    have a2 := hb r2 c2
    rw [hq] at a1 a2
    obtain ⟨e1, e2, -⟩ := q_lookup_ok header ci hc
      ((info.lines.cell r1 c1 : Int) - info.lines.cell r2 c2) (by omega) (by omega)
    exact ⟨_, e1, e2⟩

theorem zeroWidthParams_eq :
    fuji_compressed_params.construct zeroWidthHeader = .ok zeroWidthParams := rfl

theorem smallBayerParams_eq :
    fuji_compressed_params.construct smallBayerHeader = .ok smallBayerParams := rfl

/-- The first even sample of a line on the Bayer path, decoded from `smallBayerBlock`:
the sample 129 is stored in the row `R2`. -/
theorem pass_even_stores_sample :
    ∃ r, pass_even (bayer_func_even false 0 smallBayerParams) smallBayerBlock 2 ⟨0, 0⟩ 0 0 0 0 =
      .ok r ∧ r.1.lines.cell 2 1 = 129 := by
  have hq := (fuji_quant_gradient_ok smallBayerHeader smallBayerParams smallBayerParams_eq
    0 0 0 0 (by decide) (by decide) (by decide) (by decide)).1
  have hk : fuji_decode_interpolation_even_inner smallBayerParams smallBayerBlock.lines 2 0 =
      .ok (0, 0) := by
    unfold fuji_decode_interpolation_even_inner
    have g1 : smallBayerBlock.lines.get (2 - 1) (1 + 2 * (0 + 0) + 0) = .ok 0 := rfl
    have g2 : smallBayerBlock.lines.get (2 - 1) (1 + 2 * (0 - 1) + 1) = .ok 0 := rfl
    have g3 : smallBayerBlock.lines.get (2 - 1) (1 + 2 * (0 + 0) + 1) = .ok 0 := rfl
    have g4 : smallBayerBlock.lines.get (2 - 2) (1 + 2 * (0 + 0) + 0) = .ok 0 := rfl
    rw [g1, g2, g3, g4]
    simp only [Nat.cast_zero, sub_zero] at hq
    simp only [sub_zero, hq]
    rfl
  obtain ⟨pump2, grads2, hs⟩ : ∃ pump2 grads2, fuji_decode_sample false 0 smallBayerParams
      ⟨[0x40, 0x80, 0, 0, 0, 0, 0, 0], 0, []⟩ 0 0 (List.replicate 41 ⟨256, 1⟩) =
      .ok (129, pump2, grads2) := ⟨_, _, rfl⟩
  have hg : smallBayerBlock.grad_even.get? 0 = some (List.replicate 41 ⟨256, 1⟩) := rfl
  have hp : smallBayerBlock.pump = ⟨[0x40, 0x80, 0, 0, 0, 0, 0, 0], 0, []⟩ := rfl
  obtain ⟨lines2, hset, hcell⟩ : ∃ lines2,
      smallBayerBlock.lines.set 2 (1 + 2 * (⟨0, 0⟩ : ColorPos).even + 0) 129 = .ok lines2 ∧
      lines2.cell 2 1 = 129 := ⟨_, rfl, rfl⟩
  unfold pass_even
  rw [hg]
  simp only [bayer_func_even, fuji_decode_sample_even, hk, hp, hs, hset]
  exact ⟨_, rfl, hcell⟩

/-- Witness for C36: a strip of two lines without columns, decoded without a fault from
a line buffer of two columns with the cells `(r + 2 c) % 5`, with the parameters of a
14-bit Bayer header; and the first even sample of a line of four columns, decoded from
the bytes of `smallBayerBlock`: the sample 129 is stored, and the buffer after the store
is in the range. -/
theorem fuji_line_buffer_in_range_witness :
    LineBuffer.Bounded (2 ^ zeroWidthHeader.raw_bits - 1) emptyLineBlock.lines ∧
    (∃ blk, (fuji_decode_strip false 0 (fun _ _ => CFAColor.GREEN) zeroWidthHeader
        zeroWidthParams emptyLineBlock emptyLineStrip (blankImage 768 12)).1 = some blk ∧
      blk.lines.Bounded (2 ^ zeroWidthHeader.raw_bits - 1)) ∧
    (∀ blk, emptyLineBlock.reset zeroWidthParams = .ok blk →
      blk.lines.Bounded (2 ^ zeroWidthHeader.raw_bits - 1)) ∧
    (∃ q, q_lookup zeroWidthParams
      ((emptyLineBlock.lines.cell 0 0 : Int) - emptyLineBlock.lines.cell 1 1) = .ok q ∧
      (zeroWidthParams.q_point.getD 4 0 +
        ((emptyLineBlock.lines.cell 0 0 : Int) - emptyLineBlock.lines.cell 1 1)).toNat <
          zeroWidthParams.q_table.length) ∧
    LineBuffer.Bounded (2 ^ smallBayerHeader.raw_bits - 1) smallBayerBlock.lines ∧
    ∃ r, pass_even (bayer_func_even false 0 smallBayerParams) smallBayerBlock 2 ⟨0, 0⟩ 0 0 0 0 =
        .ok r ∧ r.1.lines.cell 2 1 = 129 ∧
      r.1.lines.Bounded (2 ^ smallBayerHeader.raw_bits - 1) :=
  have hb : LineBuffer.Bounded (2 ^ zeroWidthHeader.raw_bits - 1) emptyLineBlock.lines :=
    fun r c => by
      show (((r + 2 * c) % 5 : Nat) : Int) ≤ 2 ^ 14 - 1
      omega
  have h := fuji_line_buffer_in_range false 0 (fun _ _ => CFAColor.GREEN) zeroWidthHeader
    zeroWidthParams zeroWidthParams_eq emptyLineBlock emptyLineStrip (blankImage 768 12) hb
  have hx : ∃ blk, (fuji_decode_strip false 0 (fun _ _ => CFAColor.GREEN) zeroWidthHeader
      zeroWidthParams emptyLineBlock emptyLineStrip (blankImage 768 12)).1 = some blk :=
    ⟨_, rfl⟩
  have hb2 : LineBuffer.Bounded (2 ^ smallBayerHeader.raw_bits - 1) smallBayerBlock.lines :=
    fun _ _ => by
      show ((0 : Nat) : Int) ≤ 2 ^ 14 - 1
      omega
  have h2 := fuji_line_buffer_in_range false 0 (fun _ _ => CFAColor.GREEN) smallBayerHeader
    smallBayerParams smallBayerParams_eq smallBayerBlock emptyLineStrip (blankImage 768 12) hb2
  ⟨hb, hx.elim (fun blk hblk => ⟨blk, hblk, h.2.2.2.2.2.2.1 blk hblk⟩), h.1,
    h.2.2.2.2.2.2.2.2.2.2 0 0 1 1, hb2,
    pass_even_stores_sample.elim (fun r hr =>
      ⟨r, hr.1, hr.2, h2.2.1 2 ⟨0, 0⟩ 0 0 0 0 r (Or.inr hr.1)⟩)⟩

theorem ExceptRel.ok_left {α : Type} {R : α → α → Prop} {a : α} {y : Except Fault α}
    (h : ExceptRel R (.ok a) y) : ∃ b, y = .ok b ∧ R a b := by
  cases y with
  | error e => exact absurd h (by simp [ExceptRel])
  | ok b => exact ⟨b, rfl, h⟩

theorem ExceptRel.error_left {α : Type} {R : α → α → Prop} {e : Fault} {y : Except Fault α}
    (h : ExceptRel R (.error e) y) : y = .error e := by
  cases y with
  | error e2 =>
    have : e = e2 := h
    rw [this]
  | ok b => exact absurd h (by simp [ExceptRel])

theorem ExceptRel.of_eq {α : Type} {R : α → α → Prop} (x y : Except Fault α) (h : x = y)
    (hR : ∀ a, R a a) : ExceptRel R x y := by
  subst h
  cases x with
  | error e => rfl
  | ok a => exact hR a

theorem ExceptRel.weaken {α : Type} {R Q : α → α → Prop} {x y : Except Fault α}
    (h : ExceptRel R x y) (hRQ : ∀ a b, R a b → Q a b) : ExceptRel Q x y := by
  cases x <;> cases y <;> first | exact h | exact hRQ _ _ h

theorem LineBuffer.AgreeOn.subset {S T : Nat → Nat → Prop} {l1 l2 : LineBuffer}
    (h : l1.AgreeOn S l2) (hTS : ∀ r c, T r c → S r c) : l1.AgreeOn T l2 :=
  ⟨h.1, fun r c ht => h.2 r c (hTS r c ht)⟩

/-- Line buffers that agree on the cell read give the same result of the read. -/
theorem LineBuffer.get_agree {S : Nat → Nat → Prop} {l1 l2 : LineBuffer}
    (h : l1.AgreeOn S l2) (row col : Int)
    (hS : 0 ≤ row → row < 18 → 0 ≤ col → col < l1.width → S row.toNat col.toNat) :
    l1.get row col = l2.get row col := by
  unfold LineBuffer.get ltotal
  rw [← h.1]
  by_cases hc : 0 ≤ row ∧ row < 18 ∧ 0 ≤ col ∧ col < (l1.width : Int)
  · rw [if_pos hc, if_pos hc, h.2 _ _ (hS hc.1 hc.2.1 hc.2.2.1 hc.2.2.2)]
  · rw [if_neg hc, if_neg hc]

/-- Writing the same value to line buffers that agree on `S` gives the same fault or
line buffers that agree on `S` and on the cell written. -/
theorem LineBuffer.set_agree {S : Nat → Nat → Prop} {l1 l2 : LineBuffer}
    (h : l1.AgreeOn S l2) (row col v : Int) :
    ExceptRel (LineBuffer.AgreeOn (fun r c => S r c ∨ (r = row.toNat ∧ c = col.toNat)))
      (l1.set row col v) (l2.set row col v) := by
  unfold LineBuffer.set
  rw [← h.1]
  by_cases hc : 0 ≤ row ∧ row < ltotal ∧ 0 ≤ col ∧ col < (l1.width : Int)
  · rw [if_pos hc, if_pos hc]
    refine ⟨rfl, ?_⟩
    intro r c hs
    simp only
    by_cases hrc : r = row.toNat ∧ c = col.toNat
    · rw [if_pos hrc, if_pos hrc]
    · rw [if_neg hrc, if_neg hrc]
      rcases hs with hs | hs
      · exact h.2 r c hs
      · exact absurd hs hrc
  · rw [if_neg hc, if_neg hc]
    rfl
theorem fuji_decode_interpolation_even_inner_congr (ci : fuji_compressed_params)
    (l1 l2 : LineBuffer) (c col : Int)
    (g1 : l1.get (c - 1) (1 + 2 * (col + 0) + 0) = l2.get (c - 1) (1 + 2 * (col + 0) + 0))
    (g2 : l1.get (c - 1) (1 + 2 * (col - 1) + 1) = l2.get (c - 1) (1 + 2 * (col - 1) + 1))
    (g3 : l1.get (c - 1) (1 + 2 * (col + 0) + 1) = l2.get (c - 1) (1 + 2 * (col + 0) + 1))
    (g4 : l1.get (c - 2) (1 + 2 * (col + 0) + 0) = l2.get (c - 2) (1 + 2 * (col + 0) + 0)) :
    fuji_decode_interpolation_even_inner ci l1 c col =
      fuji_decode_interpolation_even_inner ci l2 c col := by
  unfold fuji_decode_interpolation_even_inner
  rw [g1, g2, g3, g4]

theorem fuji_decode_interpolation_odd_inner_congr (ci : fuji_compressed_params)
    (l1 l2 : LineBuffer) (c col : Int)
    (g1 : l1.get (c + 0) (1 + 2 * (col + 0) + 0) = l2.get (c + 0) (1 + 2 * (col + 0) + 0))
    (g2 : l1.get (c - 1) (1 + 2 * (col + 0) + 1) = l2.get (c - 1) (1 + 2 * (col + 0) + 1))
    (g3 : l1.get (c - 1) (1 + 2 * (col + 0) + 0) = l2.get (c - 1) (1 + 2 * (col + 0) + 0))
    (g4 : l1.get (c - 1) (1 + 2 * (col + 1) + 0) = l2.get (c - 1) (1 + 2 * (col + 1) + 0))
    (g5 : l1.get (c + 0) (1 + 2 * (col + 1) + 0) = l2.get (c + 0) (1 + 2 * (col + 1) + 0)) :
    fuji_decode_interpolation_odd_inner ci l1 c col =
      fuji_decode_interpolation_odd_inner ci l2 c col := by
  unfold fuji_decode_interpolation_odd_inner
  rw [g1, g2, g3, g4, g5]

/-- The `func_even` of the Bayer path reads the line buffer through the even kernel
only. -/
theorem bayer_func_even_congr (ndebug : Bool) (slack : Nat) (ci : fuji_compressed_params)
    (l1 l2 : LineBuffer) (pump : BitStreamer) (c col : Int) (grads : List int_pair)
    (row i comp : Int)
    (h : fuji_decode_interpolation_even_inner ci l1 c col =
      fuji_decode_interpolation_even_inner ci l2 c col) :
    bayer_func_even ndebug slack ci l1 pump c col grads row i comp =
      bayer_func_even ndebug slack ci l2 pump c col grads row i comp := by
  unfold bayer_func_even fuji_decode_sample_even
  rw [h]

/-- The `func_even` of the X-Trans path reads the line buffer through the even kernel
only. -/
theorem xtrans_func_even_congr (ndebug : Bool) (slack : Nat) (ci : fuji_compressed_params)
    (l1 l2 : LineBuffer) (pump : BitStreamer) (c col : Int) (grads : List int_pair)
    (row i comp : Int)
    (h : fuji_decode_interpolation_even_inner ci l1 c col =
      fuji_decode_interpolation_even_inner ci l2 c col) :
    xtrans_func_even ndebug slack ci l1 pump c col grads row i comp =
      xtrans_func_even ndebug slack ci l2 pump c col grads row i comp := by
  unfold xtrans_func_even fuji_decode_sample_even fuji_decode_interpolation_even
  rw [h]

/-- An even sample of two blocks that agree on `S` and on what the even kernel reads:
the same fault, or blocks that agree on `S` and on the cell written, and the same
positions. -/
theorem pass_even_agree (ci : fuji_compressed_params) (func_even : FuncEven)
    (hF : ∀ l1 l2 pump c col grads row i comp,
      fuji_decode_interpolation_even_inner ci l1 c col =
        fuji_decode_interpolation_even_inner ci l2 c col →
      func_even l1 pump c col grads row i comp = func_even l2 pump c col grads row i comp)
    (S : Nat → Nat → Prop) (b1 b2 : fuji_compressed_block) (h : b1.AgreeOn S b2)
    (c : Int) (pos : ColorPos) (grad : Nat) (row i comp : Int)
    (hk : fuji_decode_interpolation_even_inner ci b1.lines c pos.even =
      fuji_decode_interpolation_even_inner ci b2.lines c pos.even) :
    ExceptRel (fun r1 r2 =>
        r1.1.AgreeOn (fun r k => S r k ∨ (r = c.toNat ∧ k = (1 + 2 * pos.even + 0).toNat))
          r2.1 ∧ r1.2 = r2.2 ∧ r1.1.lines.width = b1.lines.width ∧
          r1.2 = { pos with even := pos.even + 1 })
      (pass_even func_even b1 c pos grad row i comp)
      (pass_even func_even b2 c pos grad row i comp) := by
  obtain ⟨hl, hge, hgo, hp⟩ := h
  have hF2 : ∀ pump grads, func_even b2.lines pump c pos.even grads row i comp =
      func_even b1.lines pump c pos.even grads row i comp :=
    fun pump grads => (hF _ _ _ _ _ _ _ _ _ hk).symm
  unfold pass_even
  rw [← hge, ← hp]
  simp only [hF2]
  cases b1.grad_even.get? grad with
  | none => rfl
  | some grads =>
    simp only
    cases func_even b1.lines b1.pump c pos.even grads row i comp with
    | error e => rfl
    | ok r =>
      obtain ⟨sample, pump2, grads2⟩ := r
      simp only
      have hs := LineBuffer.set_agree hl c (1 + 2 * pos.even + 0) sample
      cases h1 : b1.lines.set c (1 + 2 * pos.even + 0) sample with
      | error e =>
        rw [h1] at hs
        rw [hs.error_left]
        rfl
      | ok la =>
        rw [h1] at hs
        obtain ⟨lb, h2, hab⟩ := hs.ok_left
        rw [h2]
        exact ⟨⟨hab, rfl, hgo, rfl⟩, rfl, LineBuffer.set_width _ _ _ _ _ h1, rfl⟩

/-- An odd sample of two blocks that agree on `S` and on what the odd kernel reads. -/
theorem pass_odd_agree (ndebug : Bool) (slack : Nat) (ci : fuji_compressed_params)
    (S : Nat → Nat → Prop) (b1 b2 : fuji_compressed_block) (h : b1.AgreeOn S b2)
    (c : Int) (pos : ColorPos) (grad : Nat)
    (hk : fuji_decode_interpolation_odd_inner ci b1.lines c pos.odd =
      fuji_decode_interpolation_odd_inner ci b2.lines c pos.odd) :
    ExceptRel (fun r1 r2 =>
        r1.1.AgreeOn (fun r k => S r k ∨ (r = c.toNat ∧ k = (1 + 2 * pos.odd + 1).toNat))
          r2.1 ∧ r1.2 = r2.2 ∧ r1.1.lines.width = b1.lines.width ∧
          r1.2 = { pos with odd := pos.odd + 1 })
      (pass_odd ndebug slack ci b1 c pos grad) (pass_odd ndebug slack ci b2 c pos grad) := by
  obtain ⟨hl, hge, hgo, hp⟩ := h
  unfold pass_odd fuji_decode_sample_odd
  rw [← hgo, ← hp, ← hk]
  cases b1.grad_odd.get? grad with
  | none => rfl
  | some grads =>
    simp only
    cases fuji_decode_interpolation_odd_inner ci b1.lines c pos.odd with
    | error e => rfl
    | ok gi =>
      obtain ⟨g, iv⟩ := gi
      simp only
      cases fuji_decode_sample ndebug slack ci b1.pump g iv grads with
      | error e => rfl
      | ok r =>
        obtain ⟨sample, pump2, grads2⟩ := r
        simp only
        have hs := LineBuffer.set_agree hl c (1 + 2 * pos.odd + 1) sample
        cases h1 : b1.lines.set c (1 + 2 * pos.odd + 1) sample with
        | error e =>
          rw [h1] at hs
          rw [hs.error_left]
          rfl
        | ok la =>
          rw [h1] at hs
          obtain ⟨lb, h2, hab⟩ := hs.ok_left
          rw [h2]
          exact ⟨⟨hab, hge, rfl, rfl⟩, rfl, LineBuffer.set_width _ _ _ _ _ h1, rfl⟩
theorem LineBuffer.get_agree_row {X : Nat → Nat → Prop} {l1 l2 : LineBuffer}
    (h : l1.AgreeOn X l2) (w rn : Nat) (hw : l1.width = w) (row col : Int) (hr : row = rn)
    (hX : ∀ k, k < w → X rn k) : l1.get row col = l2.get row col := by
  refine LineBuffer.get_agree h row col ?_
  intro _ _ h3 h4
  subst hr
  have := hX col.toNat (by omega)
  simpa using this

theorem LineBuffer.get_agree_cell {X : Nat → Nat → Prop} {l1 l2 : LineBuffer}
    (h : l1.AgreeOn X l2) (rn kn : Nat) (row col : Int) (hr : row = rn) (hk : col = kn)
    (hX : X rn kn) : l1.get row col = l2.get row col := by
  refine LineBuffer.get_agree h row col ?_
  intro _ _ _ _
  subst hr hk
  simpa using hX

/-- The even kernel on the row `c` at the column `col` reads the rows `c - 1` and
`c - 2` only. -/
theorem even_inner_agree (ci : fuji_compressed_params) {X : Nat → Nat → Prop}
    {l1 l2 : LineBuffer} (h : l1.AgreeOn X l2) (w c : Nat) (hw : l1.width = w) (hc : 2 ≤ c)
    (col : Int) (h1 : ∀ k, k < w → X (c - 1) k) (h2 : ∀ k, k < w → X (c - 2) k) :
    fuji_decode_interpolation_even_inner ci l1 c col =
      fuji_decode_interpolation_even_inner ci l2 c col := by
  have e1 : ((c : Int) - 1) = ((c - 1 : Nat) : Int) := by omega
  have e2 : ((c : Int) - 2) = ((c - 2 : Nat) : Int) := by omega
  exact fuji_decode_interpolation_even_inner_congr ci l1 l2 c col
    (LineBuffer.get_agree_row h w _ hw _ _ e1 h1)
    (LineBuffer.get_agree_row h w _ hw _ _ e1 h1)
    (LineBuffer.get_agree_row h w _ hw _ _ e1 h1)
    (LineBuffer.get_agree_row h w _ hw _ _ e2 h2)

/-- The odd kernel on the row `c` at the column `col` reads the row `c - 1` and the
cells `2 col + 1` and `2 col + 3` of the row `c`. -/
theorem odd_inner_agree (ci : fuji_compressed_params) {X : Nat → Nat → Prop}
    {l1 l2 : LineBuffer} (h : l1.AgreeOn X l2) (w c : Nat) (hw : l1.width = w) (hc : 2 ≤ c)
    (col : Nat) (h1 : ∀ k, k < w → X (c - 1) k) (ha : X c (2 * col + 1))
    (hg : X c (2 * col + 3)) :
    fuji_decode_interpolation_odd_inner ci l1 c col =
      fuji_decode_interpolation_odd_inner ci l2 c col := by
  have e1 : ((c : Int) - 1) = ((c - 1 : Nat) : Int) := by omega
  exact fuji_decode_interpolation_odd_inner_congr ci l1 l2 c col
    (LineBuffer.get_agree_cell h c (2 * col + 1) _ _ (by omega) (by omega) ha)
    (LineBuffer.get_agree_row h w _ hw _ _ e1 h1)
    (LineBuffer.get_agree_row h w _ hw _ _ e1 h1)
    (LineBuffer.get_agree_row h w _ hw _ _ e1 h1)
    (LineBuffer.get_agree_cell h c (2 * col + 3) _ _ (by omega) (by omega) hg)

theorem fuji_compressed_block.AgreeOn.subset_block {S T : Nat → Nat → Prop}
    {b1 b2 : fuji_compressed_block} (h : b1.AgreeOn S b2) (hTS : ∀ r c, T r c → S r c) :
    b1.AgreeOn T b2 :=
  ⟨h.1.subset hTS, h.2⟩
theorem Written_even_succ (e o : Int) (k : Nat) (he : 0 ≤ e) (h : Written (e + 1) o k) :
    Written e o k ∨ k = (1 + 2 * e + 0).toNat := by
  unfold Written at h ⊢
  omega

theorem Written_odd_succ (e o : Int) (k : Nat) (ho : 0 ≤ o) (h : Written e (o + 1) k) :
    Written e o k ∨ k = (1 + 2 * o + 1).toNat := by
  unfold Written at h ⊢
  omega

/-- The even half of a round on two blocks that agree on the cells of `S` and on the
cells written so far, where `S` holds the rows above the rows `c0` and `c1`. -/
theorem pass_evens_agree (ci : fuji_compressed_params) (func_even : FuncEven)
    (hF : ∀ l1 l2 pump c col grads row i comp,
      fuji_decode_interpolation_even_inner ci l1 c col =
        fuji_decode_interpolation_even_inner ci l2 c col →
      func_even l1 pump c col grads row i comp = func_even l2 pump c col grads row i comp)
    (S : Nat → Nat → Prop) (w c0 c1 : Nat) (hc0 : 2 ≤ c0) (hc1 : 2 ≤ c1)
    (hrow : ∀ k, k < w → S (c0 - 1) k ∧ S (c0 - 2) k ∧ S (c1 - 1) k ∧ S (c1 - 2) k)
    (row : Int) (grad : Nat) (line_width i : Int) (pos : ColorPos × ColorPos)
    (b1 b2 : fuji_compressed_block) (h : b1.AgreeOn (PassSet S c0 c1 pos) b2)
    (hw : b1.lines.width = w) (he0 : 0 ≤ pos.1.even) (he1 : 0 ≤ pos.2.even) :
    ExceptRel (fun r1 r2 =>
        r1.1.AgreeOn (PassSet S c0 c1 r1.2) r2.1 ∧ r1.2 = r2.2 ∧ r1.1.lines.width = w ∧
        r1.2 = (if i < line_width then
          (({ pos.1 with even := pos.1.even + 1 } : ColorPos),
            ({ pos.2 with even := pos.2.even + 1 } : ColorPos)) else pos))
      (pass_evens func_even c0 c1 row grad line_width i pos b1)
      (pass_evens func_even c0 c1 row grad line_width i pos b2) := by
  unfold pass_evens
  by_cases hi : i < line_width
  · simp only [if_pos hi]
    have hk0 := even_inner_agree ci h.1 w c0 hw hc0 pos.1.even
      (fun k hk => Or.inl (hrow k hk).1) (fun k hk => Or.inl (hrow k hk).2.1)
    have hr := pass_even_agree ci func_even hF _ b1 b2 h c0 pos.1 grad row i 0 hk0
    cases hA : pass_even func_even b1 c0 pos.1 grad row i 0 with
    | error e =>
      rw [hA] at hr
      rw [hr.error_left]
      rfl
    | ok ra =>
      rw [hA] at hr
      obtain ⟨rb, hB, hab, hpp, hwa, hpa⟩ := hr.ok_left
      rw [hB]
      obtain ⟨infoA, pA⟩ := ra
      obtain ⟨infoB, pB⟩ := rb
      simp only at hab hpp hwa hpa ⊢
      subst hpp
      have hk1 := even_inner_agree ci hab.1 w c1 (by rw [hwa, hw]) hc1 pos.2.even
        (fun k hk => Or.inl (Or.inl (hrow k hk).2.2.1))
        (fun k hk => Or.inl (Or.inl (hrow k hk).2.2.2))
      have hr2 := pass_even_agree ci func_even hF _ infoA infoB hab c1 pos.2 grad row i 1 hk1
      cases hA2 : pass_even func_even infoA c1 pos.2 grad row i 1 with
      | error e =>
        rw [hA2] at hr2
        rw [hr2.error_left]
        rfl
      | ok ra2 =>
        rw [hA2] at hr2
        obtain ⟨rb2, hB2, hab2, hpp2, hwa2, hpa2⟩ := hr2.ok_left
        rw [hB2]
        obtain ⟨infoA2, pA2⟩ := ra2
        obtain ⟨infoB2, pB2⟩ := rb2
        simp only at hab2 hpp2 hwa2 hpa2 ⊢
        subst hpp2
        refine ⟨hab2.subset_block ?_, rfl, by rw [hwa2, hwa, hw], by rw [hpa, hpa2]⟩
        intro r k hP
        rw [hpa, hpa2] at hP
        unfold PassSet at hP ⊢
        simp only at hP
        rcases hP with hS | ⟨hr0, hW⟩ | ⟨hr1, hW⟩
        · exact Or.inl (Or.inl (Or.inl hS))
        · rcases Written_even_succ _ _ _ he0 hW with h1 | h1
          · exact Or.inl (Or.inl (Or.inr (Or.inl ⟨hr0, h1⟩)))
          · exact Or.inl (Or.inr ⟨by rw [hr0]; simp, h1⟩)
        · rcases Written_even_succ _ _ _ he1 hW with h1 | h1
          · exact Or.inl (Or.inl (Or.inr (Or.inr ⟨hr1, h1⟩)))
          · exact Or.inr ⟨by rw [hr1]; simp, h1⟩
  · simp only [if_neg hi]
    exact ⟨h, rfl, hw, rfl⟩
theorem Written_odd_cell (e o : Int) (ho : 0 ≤ o) (h : o < e) :
    Written e o (2 * o.toNat + 1) := by
  unfold Written
  omega

/-- The odd half of a round on two blocks that agree on the cells of `S` and on the
cells written so far, where `S` holds the row above each of the rows `c0` and `c1`, and
the even sample after the odd sample is written or in `S`. -/
theorem pass_odds_agree (ndebug : Bool) (slack : Nat) (ci : fuji_compressed_params)
    (S : Nat → Nat → Prop) (w c0 c1 : Nat) (hc0 : 2 ≤ c0) (hc1 : 2 ≤ c1)
    (hrow : ∀ k, k < w → S (c0 - 1) k ∧ S (c1 - 1) k)
    (grad : Nat) (i : Int) (pos : ColorPos × ColorPos)
    (b1 b2 : fuji_compressed_block) (h : b1.AgreeOn (PassSet S c0 c1 pos) b2)
    (hw : b1.lines.width = w) (ho0 : 0 ≤ pos.1.odd) (ho1 : 0 ≤ pos.2.odd)
    (ha0 : i ≥ 4 → pos.1.odd < pos.1.even) (ha1 : i ≥ 4 → pos.2.odd < pos.2.even)
    (hg0 : i ≥ 4 → pos.1.odd + 1 < pos.1.even ∨ S c0 (2 * pos.1.odd.toNat + 3))
    (hg1 : i ≥ 4 → pos.2.odd + 1 < pos.2.even ∨ S c1 (2 * pos.2.odd.toNat + 3)) :
    ExceptRel (fun r1 r2 =>
        r1.1.AgreeOn (PassSet S c0 c1 r1.2) r2.1 ∧ r1.2 = r2.2 ∧ r1.1.lines.width = w ∧
        r1.2 = (if i ≥ 4 then
          (({ pos.1 with odd := pos.1.odd + 1 } : ColorPos),
            ({ pos.2 with odd := pos.2.odd + 1 } : ColorPos)) else pos))
      (pass_odds ndebug slack ci c0 c1 grad i pos b1)
      (pass_odds ndebug slack ci c0 c1 grad i pos b2) := by
  unfold pass_odds
  by_cases hi : i ≥ 4
  · simp only [if_pos hi]
    have e0 : pos.1.odd = ((pos.1.odd.toNat : Nat) : Int) := by omega
    have e1 : pos.2.odd = ((pos.2.odd.toNat : Nat) : Int) := by omega
    have hG0 : PassSet S c0 c1 pos c0 (2 * pos.1.odd.toNat + 3) := by
      rcases hg0 hi with h1 | h1
      · refine Or.inr (Or.inl ⟨rfl, ?_⟩)
        unfold Written
        omega
      · exact Or.inl h1
    have hk0 : fuji_decode_interpolation_odd_inner ci b1.lines c0 pos.1.odd =
        fuji_decode_interpolation_odd_inner ci b2.lines c0 pos.1.odd := by
      rw [e0]
      exact odd_inner_agree ci h.1 w c0 hw hc0 pos.1.odd.toNat
        (fun k hk => Or.inl (hrow k hk).1)
        (Or.inr (Or.inl ⟨rfl, Written_odd_cell _ _ ho0 (ha0 hi)⟩)) hG0
    have hr := pass_odd_agree ndebug slack ci _ b1 b2 h c0 pos.1 grad hk0
    cases hA : pass_odd ndebug slack ci b1 c0 pos.1 grad with
    | error e =>
      rw [hA] at hr
      rw [hr.error_left]
      rfl
    | ok ra =>
      rw [hA] at hr
      obtain ⟨rb, hB, hab, hpp, hwa, hpa⟩ := hr.ok_left
      rw [hB]
      obtain ⟨infoA, pA⟩ := ra
      obtain ⟨infoB, pB⟩ := rb
      simp only at hab hpp hwa hpa ⊢
      subst hpp
      have hG1 : PassSet S c0 c1 pos c1 (2 * pos.2.odd.toNat + 3) := by
        rcases hg1 hi with h1 | h1
        · refine Or.inr (Or.inr ⟨rfl, ?_⟩)
          unfold Written
          omega
        · exact Or.inl h1
      have hk1 : fuji_decode_interpolation_odd_inner ci infoA.lines c1 pos.2.odd =
          fuji_decode_interpolation_odd_inner ci infoB.lines c1 pos.2.odd := by
        rw [e1]
        exact odd_inner_agree ci hab.1 w c1 (by rw [hwa, hw]) hc1 pos.2.odd.toNat
          (fun k hk => Or.inl (Or.inl (hrow k hk).2))
          (Or.inl (Or.inr (Or.inr ⟨rfl, Written_odd_cell _ _ ho1 (ha1 hi)⟩)))
          (Or.inl hG1)
      have hr2 := pass_odd_agree ndebug slack ci _ infoA infoB hab c1 pos.2 grad hk1
      cases hA2 : pass_odd ndebug slack ci infoA c1 pos.2 grad with
      | error e =>
        rw [hA2] at hr2
        rw [hr2.error_left]
        rfl
      | ok ra2 =>
        rw [hA2] at hr2
        obtain ⟨rb2, hB2, hab2, hpp2, hwa2, hpa2⟩ := hr2.ok_left
        rw [hB2]
        obtain ⟨infoA2, pA2⟩ := ra2
        obtain ⟨infoB2, pB2⟩ := rb2
        simp only at hab2 hpp2 hwa2 hpa2 ⊢
        subst hpp2
        refine ⟨hab2.subset_block ?_, rfl, by rw [hwa2, hwa, hw], by rw [hpa, hpa2]⟩
        intro r k hP
        rw [hpa, hpa2] at hP
        unfold PassSet at hP ⊢
        simp only at hP
        rcases hP with hS | ⟨hr0, hW⟩ | ⟨hr1, hW⟩
        · exact Or.inl (Or.inl (Or.inl hS))
        · rcases Written_odd_succ _ _ _ ho0 hW with h1 | h1
          · exact Or.inl (Or.inl (Or.inr (Or.inl ⟨hr0, h1⟩)))
          · exact Or.inl (Or.inr ⟨by rw [hr0]; simp, h1⟩)
        · rcases Written_odd_succ _ _ _ ho1 hW with h1 | h1
          · exact Or.inl (Or.inl (Or.inr (Or.inr ⟨hr1, h1⟩)))
          · exact Or.inr ⟨by rw [hr1]; simp, h1⟩
  · simp only [if_neg hi]
    exact ⟨h, rfl, hw, rfl⟩

/-- The loop of `pass` on two blocks that agree on the cells of `S` and on the cells
written so far: the same fault, or blocks that agree on `S` and on the real columns of
the rows `c0` and `c1`.  `S` holds the two rows above each of the rows `c0` and `c1` and
the last helper column of both; the line buffer has `2 lw + 2` columns. -/
theorem pass_loop_agree (ndebug : Bool) (slack : Nat) (ci : fuji_compressed_params)
    (func_even : FuncEven)
    (hF : ∀ l1 l2 pump c col grads row i comp,
      fuji_decode_interpolation_even_inner ci l1 c col =
        fuji_decode_interpolation_even_inner ci l2 c col →
      func_even l1 pump c col grads row i comp = func_even l2 pump c col grads row i comp)
    (S : Nat → Nat → Prop) (w c0 c1 : Nat) (hc0 : 2 ≤ c0) (hc1 : 2 ≤ c1)
    (hrow : ∀ k, k < w → S (c0 - 1) k ∧ S (c0 - 2) k ∧ S (c1 - 1) k ∧ S (c1 - 2) k)
    (hlast : S c0 (w - 1) ∧ S c1 (w - 1))
    (row : Int) (grad : Nat) (lw : Int) (hlw : 0 ≤ lw) (hwl : (w : Int) = 2 * lw + 2) :
    ∀ (more : Nat) (i : Int) (pos : ColorPos × ColorPos) (b1 b2 : fuji_compressed_block),
    0 ≤ i → i + more = lw + 4 →
    pos.1.even = min i lw → pos.2.even = min i lw →
    pos.1.odd = max (i - 4) 0 → pos.2.odd = max (i - 4) 0 →
    b1.AgreeOn (PassSet S c0 c1 pos) b2 → b1.lines.width = w →
    ExceptRel (fun r1 r2 =>
        r1.AgreeOn (PassSet S c0 c1 (⟨lw, lw⟩, ⟨lw, lw⟩)) r2 ∧ r1.lines.width = w)
      (pass_loop ndebug slack ci func_even c0 c1 row grad lw more i pos b1)
      (pass_loop ndebug slack ci func_even c0 c1 row grad lw more i pos b2) := by
  intro more
  induction more with
  | zero =>
    intro i pos b1 b2 hi0 him he0 he1 ho0 ho1 h hw
    simp only [pass_loop]
    refine ⟨h.subset_block ?_, hw⟩
    intro r k hP
    unfold PassSet at hP ⊢
    simp only at hP
    have e1 : pos.1.even = lw := by omega
    have e2 : pos.2.even = lw := by omega
    have e3 : pos.1.odd = lw := by omega
    have e4 : pos.2.odd = lw := by omega
    rw [e1, e2, e3, e4]
    exact hP
  | succ more ih =>
    intro i pos b1 b2 hi0 him he0 he1 ho0 ho1 h hw
    rw [pass_loop_succ, pass_loop_succ]
    have hr := pass_evens_agree ci func_even hF S w c0 c1 hc0 hc1 hrow row grad lw i pos
      b1 b2 h hw (by omega) (by omega)
    cases hA : pass_evens func_even c0 c1 row grad lw i pos b1 with
    | error e =>
      rw [hA] at hr
      rw [hr.error_left]
      rfl
    | ok ra =>
      rw [hA] at hr
      obtain ⟨rb, hB, hab, hpp, hwa, hpa⟩ := hr.ok_left
      rw [hB]
      obtain ⟨infoA, pA⟩ := ra
      obtain ⟨infoB, pB⟩ := rb
      simp only at hab hpp hwa hpa ⊢
      subst hpp
      have hAe0 : pA.1.even = min (i + 1) lw := by
        rw [hpa]
        split <;> (try simp only) <;> omega
      have hAe1 : pA.2.even = min (i + 1) lw := by
        rw [hpa]
        split <;> (try simp only) <;> omega
      have hAo0 : pA.1.odd = max (i - 4) 0 := by
        rw [hpa]
        split <;> (try simp only) <;> omega
      have hAo1 : pA.2.odd = max (i - 4) 0 := by
        rw [hpa]
        split <;> (try simp only) <;> omega
      have hr2 := pass_odds_agree ndebug slack ci S w c0 c1 hc0 hc1
        (fun k hk => ⟨(hrow k hk).1, (hrow k hk).2.2.1⟩) grad i pA infoA infoB hab hwa
        (by omega) (by omega) (by intro h4; omega) (by intro h4; omega)
        (by
          intro h4
          by_cases hlt : i - 3 < lw
          · left
            omega
          · right
            have e : 2 * pA.1.odd.toNat + 3 = w - 1 := by omega
            rw [e]
            exact hlast.1)
        (by
          intro h4
          by_cases hlt : i - 3 < lw
          · left
            omega
          · right
            have e : 2 * pA.2.odd.toNat + 3 = w - 1 := by omega
            rw [e]
            exact hlast.2)
      cases hA2 : pass_odds ndebug slack ci c0 c1 grad i pA infoA with
      | error e =>
        rw [hA2] at hr2
        rw [hr2.error_left]
        rfl
      | ok ra2 =>
        rw [hA2] at hr2
        obtain ⟨rb2, hB2, hab2, hpp2, hwa2, hpa2⟩ := hr2.ok_left
        rw [hB2]
        obtain ⟨infoA2, pA2⟩ := ra2
        obtain ⟨infoB2, pB2⟩ := rb2
        simp only at hab2 hpp2 hwa2 hpa2 ⊢
        subst hpp2
        refine ih (i + 1) pA2 infoA2 infoB2 (by omega) (by push_cast at him; omega)
          ?_ ?_ ?_ ?_ hab2 hwa2
        · rw [hpa2]
          split <;> (try simp only) <;> omega
        · rw [hpa2]
          split <;> (try simp only) <;> omega
        · rw [hpa2]
          split <;> (try simp only) <;> omega
        · rw [hpa2]
          split <;> (try simp only) <;> omega

/-- Reads of line buffers of the same width: the same fault, or two values that are equal
where the buffers agree. -/
theorem LineBuffer.get_rel {S : Nat → Nat → Prop} {l1 l2 : LineBuffer}
    (h : l1.AgreeOn S l2) (row col : Int) :
    ExceptRel (fun a b => S row.toNat col.toNat → a = b) (l1.get row col)
      (l2.get row col) := by
  unfold LineBuffer.get
  rw [← h.1]
  by_cases hc : 0 ≤ row ∧ row < ltotal ∧ 0 ≤ col ∧ col < (l1.width : Int)
  · rw [if_pos hc, if_pos hc]
    intro hS
    rw [h.2 _ _ hS]
  · rw [if_neg hc, if_neg hc]
    rfl

/-- Writes to line buffers that agree on `S`: the same fault, or line buffers that agree
on the other cells of `S`, and on the cell written if the values are equal. -/
theorem LineBuffer.set_rel {S : Nat → Nat → Prop} {l1 l2 : LineBuffer}
    (h : l1.AgreeOn S l2) (row col v1 v2 : Int) (p : Prop) (hp : p → v1 = v2) :
    ExceptRel (fun a b => a.AgreeOn (fun r c =>
        (r = row.toNat ∧ c = col.toNat ∧ p) ∨ (¬ (r = row.toNat ∧ c = col.toNat) ∧ S r c)) b ∧
        a.width = l1.width)
      (l1.set row col v1) (l2.set row col v2) := by
  unfold LineBuffer.set
  rw [← h.1]
  by_cases hc : 0 ≤ row ∧ row < ltotal ∧ 0 ≤ col ∧ col < (l1.width : Int)
  · rw [if_pos hc, if_pos hc]
    refine ⟨⟨rfl, ?_⟩, rfl⟩
    intro r c hs
    simp only
    rcases hs with ⟨hr, hk, hpp⟩ | ⟨hn, hs⟩
    · rw [if_pos ⟨hr, hk⟩, if_pos ⟨hr, hk⟩, hp hpp]
    · rw [if_neg hn, if_neg hn]
      exact h.2 r c hs
  · rw [if_neg hc, if_neg hc]
    rfl

/-- One row of `fuji_extend_generic` on line buffers of `w` columns that agree on `S`:
the same fault, or line buffers that agree on `T`, where a helper cell of the row `i` is
in `T` only if the cell that it is copied from is in `S`, and the other cells of `T` are
in `S`. -/
theorem fuji_extend_row_agree {S T : Nat → Nat → Prop} {l1 l2 : LineBuffer}
    (h : l1.AgreeOn S l2) (w i : Nat) (hw : l1.width = w) (hw2 : 2 ≤ w) (hi : 1 ≤ i)
    (h0 : T i 0 → S (i - 1) 1) (h1 : T i (w - 1) → S (i - 1) (w - 2))
    (h2 : ∀ r k, T r k → ¬ (r = i ∧ (k = 0 ∨ k = w - 1)) → S r k) :
    ExceptRel (fun a b => a.AgreeOn T b ∧ a.width = w)
      (fuji_extend_row l1 i) (fuji_extend_row l2 i) := by
  unfold fuji_extend_row
  have e1 : ((i : Int) - 1).toNat = i - 1 := by omega
  have g1 := LineBuffer.get_rel h ((i : Int) - 1) 1
  cases hA : l1.get ((i : Int) - 1) 1 with
  | error e =>
    rw [hA] at g1
    rw [g1.error_left]
    rfl
  | ok a1 =>
    rw [hA] at g1
    obtain ⟨a2, hB, ha⟩ := g1.ok_left
    rw [hB]
    simp only
    have s1 := LineBuffer.set_rel h (i : Int) 0 a1 a2 (S (i - 1) 1)
      (fun hs => ha (by rw [e1]; exact hs))
    cases hA1 : l1.set (i : Int) 0 a1 with
    | error e =>
      rw [hA1] at s1
      rw [s1.error_left]
      rfl
    | ok la =>
      rw [hA1] at s1
      obtain ⟨lb, hB1, hab, hwa⟩ := s1.ok_left
      rw [hB1]
      simp only
      have hwb : lb.width = la.width := hab.1.symm
      rw [hwb]
      have g2 := LineBuffer.get_rel hab ((i : Int) - 1) ((la.width : Int) - 2)
      cases hA2 : la.get ((i : Int) - 1) ((la.width : Int) - 2) with
      | error e =>
        rw [hA2] at g2
        rw [g2.error_left]
        rfl
      | ok b1 =>
        rw [hA2] at g2
        obtain ⟨b2, hB2, hb⟩ := g2.ok_left
        rw [hB2]
        simp only
        have hwla : la.width = w := by rw [hwa, hw]
        have e2 : ((la.width : Int) - 2).toNat = w - 2 := by omega
        have e3 : ((la.width : Int) - 1).toNat = w - 1 := by omega
        have s2 := LineBuffer.set_rel hab (i : Int) ((la.width : Int) - 1) b1 b2
          (S (i - 1) (w - 2))
          (fun hs => hb (by
            rw [e1, e2]
            right
            exact ⟨by omega, hs⟩))
        refine ExceptRel.weaken s2 ?_
        rintro a b ⟨hagree, hwidth⟩
        refine ⟨hagree.subset ?_, by rw [hwidth, hwla]⟩
        intro r k hT
        simp only [Int.toNat_ofNat, e3, Int.toNat_zero]
        by_cases hlast : r = i ∧ k = w - 1
        · left
          exact ⟨hlast.1, hlast.2, h1 (by rw [← hlast.1, ← hlast.2]; exact hT)⟩
        · right
          refine ⟨hlast, ?_⟩
          by_cases hfirst : r = i ∧ k = 0
          · left
            exact ⟨hfirst.1, hfirst.2, h0 (by rw [← hfirst.1, ← hfirst.2]; exact hT)⟩
          · right
            exact ⟨hfirst, h2 r k hT (by tauto)⟩

/-- The lambda `pass` on two blocks that agree on the cells of `S`: the same fault, or
blocks that agree on `S` and on the real columns of the rows `c0` and `c1`. -/
theorem pass_agree (ndebug : Bool) (slack : Nat) (ci : fuji_compressed_params)
    (func_even : FuncEven)
    (hF : ∀ l1 l2 pump c col grads row i comp,
      fuji_decode_interpolation_even_inner ci l1 c col =
        fuji_decode_interpolation_even_inner ci l2 c col →
      func_even l1 pump c col grads row i comp = func_even l2 pump c col grads row i comp)
    (S : Nat → Nat → Prop) (w c0 c1 : Nat) (hc0 : 2 ≤ c0) (hc1 : 2 ≤ c1)
    (hrow : ∀ k, k < w → S (c0 - 1) k ∧ S (c0 - 2) k ∧ S (c1 - 1) k ∧ S (c1 - 2) k)
    (hlast : S c0 (w - 1) ∧ S c1 (w - 1))
    (row : Nat) (hlw : 0 ≤ ci.line_width) (heven : ci.line_width % 2 = 0)
    (hwl : (w : Int) = ci.line_width + 2) (b1 b2 : fuji_compressed_block)
    (h : b1.AgreeOn S b2) (hw : b1.lines.width = w) :
    ExceptRel (fun r1 r2 =>
        r1.AgreeOn (fun r k => S r k ∨ ((r = c0 ∨ r = c1) ∧ 1 ≤ k ∧ k + 2 ≤ w)) r2 ∧
          r1.lines.width = w)
      (pass ndebug slack ci func_even c0 c1 row b1)
      (pass ndebug slack ci func_even c0 c1 row b2) := by
  unfold pass
  have hl0 : 0 ≤ ci.line_width / 2 := by omega
  have hl1 : (w : Int) = 2 * (ci.line_width / 2) + 2 := by omega
  have key := pass_loop_agree ndebug slack ci func_even hF S w c0 c1 hc0 hc1 hrow hlast
    (row : Int) (row % 3) (ci.line_width / 2) hl0 hl1 (ci.line_width / 2 + 4).toNat 0
    (⟨0, 0⟩, ⟨0, 0⟩) b1 b2 (le_refl 0) (by omega) (by simp only; omega) (by simp only; omega)
    (by simp only; omega) (by simp only; omega)
    (h.subset_block (by
      intro r k hP
      unfold PassSet Written at hP
      simp only at hP
      rcases hP with hP | hP | hP
      · exact hP
      · omega
      · omega)) hw
  refine ExceptRel.weaken key ?_
  rintro a b ⟨hab, hwa⟩
  refine ⟨hab.subset_block ?_, hwa⟩
  intro r k hP
  unfold PassSet Written
  simp only
  rcases hP with hP | ⟨hr, hk1, hk2⟩
  · left
    exact hP
  · rcases hr with hr | hr
    · right
      left
      refine ⟨hr, ?_⟩
      omega
    · right
      right
      refine ⟨hr, ?_⟩
      omega

/-- The rows `lo ≤ i < hi` of `fuji_extend_generic` on line buffers of `w` columns: if
the sets `G i` shrink along the rows as the copies of `fuji_extend_row_agree` allow, two
line buffers that agree on `G s` have the same fault or agree on `G (s + more)`. -/
theorem fuji_extend_generic_agree (w lo hi : Nat) (hw2 : 2 ≤ w) (hlo : 1 ≤ lo)
    (G : Nat → Nat → Nat → Prop)
    (hstep : ∀ i, lo ≤ i → i < hi →
      (G (i + 1) i 0 → G i (i - 1) 1) ∧ (G (i + 1) i (w - 1) → G i (i - 1) (w - 2)) ∧
      ∀ r k, G (i + 1) r k → ¬ (r = i ∧ (k = 0 ∨ k = w - 1)) → G i r k) :
    ∀ (more s : Nat) (l1 l2 : LineBuffer), lo ≤ s → s + more ≤ hi →
      l1.AgreeOn (G s) l2 → l1.width = w →
      ExceptRel (fun a b => a.AgreeOn (G (s + more)) b ∧ a.width = w)
        (fuji_extend_generic more (s : Int) l1) (fuji_extend_generic more (s : Int) l2) := by
  intro more
  induction more with
  | zero =>
    intro s l1 l2 _ _ h hw
    simp only [fuji_extend_generic]
    exact ⟨h, hw⟩
  | succ more ih =>
    intro s l1 l2 hs hsm h hw
    simp only [fuji_extend_generic]
    obtain ⟨h0, h1, h2⟩ := hstep s hs (by omega)
    have hr := fuji_extend_row_agree h w s hw hw2 (by omega) h0 h1 h2
    cases hA : fuji_extend_row l1 (s : Int) with
    | error e =>
      rw [hA] at hr
      rw [hr.error_left]
      rfl
    | ok la =>
      rw [hA] at hr
      obtain ⟨lb, hB, hab, hwa⟩ := hr.ok_left
      rw [hB]
      simp only
      have key := ih (s + 1) la lb (by omega) (by omega) hab hwa
      have e : ((s + 1 : Nat) : Int) = (s : Int) + 1 := by push_cast; rfl
      rw [e] at key
      have e2 : s + 1 + more = s + (more + 1) := by omega
      rw [e2] at key
      exact key

/-- The rows of one colour after `fuji_extend_generic`.  The colour has the rows from
`base` on, two carried rows and `tot` rows of the line; `n` rows of the line were
decoded before the row `base + 2 + n`, whose real columns are decoded now.  Two line
buffers that agree on these cells (and on `O` in the rows of the other colours) have the
same fault or agree on the `n + 1` rows with their helper columns and on the last helper
column of the row after them. -/
theorem fuji_extend_colour_agree (w base tot n : Nat) (hw2 : 2 ≤ w)
    (O : Nat → Nat → Prop) (l1 l2 : LineBuffer)
    (h : l1.AgreeOn (fun r k => k < w ∧
      (((base ≤ r ∧ r < base + 2 + tot) ∧ (r < base + 2 + n ∨ (r = base + 2 + n ∧ 1 ≤ k))) ∨
        (¬ (base ≤ r ∧ r < base + 2 + tot) ∧ O r k))) l2)
    (hw : l1.width = w) :
    ExceptRel (fun a b => a.AgreeOn (fun r k => k < w ∧
      (((base ≤ r ∧ r < base + 2 + tot) ∧
          (r < base + 3 + n ∨ (r = base + 3 + n ∧ n + 1 < tot ∧ k = w - 1))) ∨
        (¬ (base ≤ r ∧ r < base + 2 + tot) ∧ O r k))) b ∧ a.width = w)
      (fuji_extend_generic tot ((base + 2 : Nat) : Int) l1)
      (fuji_extend_generic tot ((base + 2 : Nat) : Int) l2) := by
  have key := fuji_extend_generic_agree w (base + 2) (base + 2 + tot) hw2 (by omega)
    (fun j r k => k < w ∧
      (((base ≤ r ∧ r < base + 2 + tot) ∧
          (r < base + 2 ∨ (¬ (k = 0 ∨ k = w - 1) ∧ r ≤ base + 2 + n) ∨
            ((k = 0 ∨ k = w - 1) ∧ r < j ∧ r ≤ base + 3 + n))) ∨
        (¬ (base ≤ r ∧ r < base + 2 + tot) ∧ O r k)))
    (by
      intro i hi1 hi2
      refine ⟨?_, ?_, ?_⟩
      · rintro ⟨_, hG⟩
        refine ⟨by omega, ?_⟩
        left
        rcases hG with hG | hG
        · omega
        · omega
      · rintro ⟨_, hG⟩
        refine ⟨by omega, ?_⟩
        left
        rcases hG with hG | hG
        · omega
        · omega
      · rintro r k ⟨hk, hG⟩ hne
        refine ⟨hk, ?_⟩
        rcases hG with hG | hG
        · left
          omega
        · right
          exact hG)
    tot (base + 2) l1 l2 (le_refl _) (le_refl _)
    (h.subset (by
      rintro r k ⟨hk, hG⟩
      refine ⟨hk, ?_⟩
      rcases hG with hG | hG
      · left
        omega
      · right
        exact hG)) hw
  refine ExceptRel.weaken key ?_
  rintro a b ⟨hab, hwa⟩
  refine ⟨hab.subset ?_, hwa⟩
  rintro r k ⟨hk, hG⟩
  refine ⟨hk, ?_⟩
  rcases hG with hG | hG
  · left
    omega
  · right
    exact hG

/-- A round of `fuji_decode_block_rows` is `fuji_decode_row` and the rest of the rows. -/
theorem fuji_decode_block_rows_succ (ndebug : Bool) (slack : Nat)
    (ci : fuji_compressed_params) (func_even : FuncEven) (more row : Nat)
    (counter : CFAColor → Int) (info : fuji_compressed_block) :
    fuji_decode_block_rows ndebug slack ci func_even (more + 1) row counter info =
      match fuji_decode_row ndebug slack ci func_even row counter info with
      | .error e => .error e
      | .ok info1 =>
        fuji_decode_block_rows ndebug slack ci func_even more (row + 1)
          (CurLineForColor (CurLineForColor counter (bayerRGGB row 0)).2
            (bayerRGGB row 1)).2 info1 := by
  simp only [fuji_decode_block_rows, fuji_decode_row]
  cases pass ndebug slack ci func_even (CurLineForColor counter (bayerRGGB row 0)).1
      (CurLineForColor (CurLineForColor counter (bayerRGGB row 0)).2 (bayerRGGB row 1)).1
      row info with
  | error e => rfl
  | ok info1 =>
    simp only
    cases fuji_extend (bayerRGGB row 0) info1.lines with
    | error e => rfl
    | ok lines2 =>
      simp only
      cases fuji_extend (bayerRGGB row 1) lines2 with
      | error e => rfl
      | ok lines3 => rfl

/-- The pass over the rows `c0`, `c1` of two colours and the two calls of
`fuji_extend_generic`, on two blocks that agree on the cells of `S`: the same fault, or
blocks that agree on `T`.  The colours have `nA` and `nB` rows decoded; `S` holds these
rows, their carried rows and the last helper column of the next row; `T` holds one row
more of each colour, and of the rows of other colours what `S` holds. -/
theorem pass_extend_agree (ndebug : Bool) (slack : Nat) (ci : fuji_compressed_params)
    (func_even : FuncEven)
    (hF : ∀ l1 l2 pump c col grads row i comp,
      fuji_decode_interpolation_even_inner ci l1 c col =
        fuji_decode_interpolation_even_inner ci l2 c col →
      func_even l1 pump c col grads row i comp = func_even l2 pump c col grads row i comp)
    (S T : Nat → Nat → Prop) (w baseA totA nA baseB totB nB : Nat)
    (hdisj : baseA + 2 + totA ≤ baseB)
    (hS : ∀ r k, k < w → ((baseA ≤ r ∧ r < baseA + 2 + nA) ∨
      (baseB ≤ r ∧ r < baseB + 2 + nB) ∨
      ((r = baseA + 2 + nA ∨ r = baseB + 2 + nB) ∧ k = w - 1)) → S r k)
    (hT : ∀ r k, T r k → k < w ∧
      (((baseA ≤ r ∧ r < baseA + 2 + totA) ∧
          (r < baseA + 3 + nA ∨ (r = baseA + 3 + nA ∧ nA + 1 < totA ∧ k = w - 1))) ∨
        ((baseB ≤ r ∧ r < baseB + 2 + totB) ∧
          (r < baseB + 3 + nB ∨ (r = baseB + 3 + nB ∧ nB + 1 < totB ∧ k = w - 1))) ∨
        (¬ (baseA ≤ r ∧ r < baseA + 2 + totA) ∧ ¬ (baseB ≤ r ∧ r < baseB + 2 + totB) ∧
          S r k)))
    (row : Nat) (hlw : 0 ≤ ci.line_width) (heven : ci.line_width % 2 = 0)
    (hwl : (w : Int) = ci.line_width + 2) (b1 b2 : fuji_compressed_block)
    (h : b1.AgreeOn S b2) (hw : b1.lines.width = w) :
    ExceptRel (fun r1 r2 => r1.AgreeOn T r2 ∧ r1.lines.width = w)
      (match pass ndebug slack ci func_even ((baseA + 2 + nA : Nat) : Int)
          ((baseB + 2 + nB : Nat) : Int) row b1 with
        | .error e => .error e
        | .ok info1 =>
          match fuji_extend_generic totA ((baseA + 2 : Nat) : Int) info1.lines with
          | .error e => .error e
          | .ok lines2 =>
            match fuji_extend_generic totB ((baseB + 2 : Nat) : Int) lines2 with
            | .error e => .error e
            | .ok lines3 => .ok { info1 with lines := lines3 })
      (match pass ndebug slack ci func_even ((baseA + 2 + nA : Nat) : Int)
          ((baseB + 2 + nB : Nat) : Int) row b2 with
        | .error e => .error e
        | .ok info1 =>
          match fuji_extend_generic totA ((baseA + 2 : Nat) : Int) info1.lines with
          | .error e => .error e
          | .ok lines2 =>
            match fuji_extend_generic totB ((baseB + 2 : Nat) : Int) lines2 with
            | .error e => .error e
            | .ok lines3 => .ok { info1 with lines := lines3 }) := by
  have hw2 : 2 ≤ w := by omega
  have hp := pass_agree ndebug slack ci func_even hF S w (baseA + 2 + nA) (baseB + 2 + nB)
    (by omega) (by omega)
    (by
      intro k hk
      refine ⟨hS _ _ hk ?_, hS _ _ hk ?_, hS _ _ hk ?_, hS _ _ hk ?_⟩ <;> omega)
    ⟨hS _ _ (by omega) (by omega), hS _ _ (by omega) (by omega)⟩
    row hlw heven hwl b1 b2 h hw
  cases hA : pass ndebug slack ci func_even ((baseA + 2 + nA : Nat) : Int)
      ((baseB + 2 + nB : Nat) : Int) row b1 with
  | error e =>
    rw [hA] at hp
    rw [hp.error_left]
    rfl
  | ok ia =>
    rw [hA] at hp
    obtain ⟨ib, hB, ⟨hlines, hge, hgo, hpump⟩, hwa⟩ := hp.ok_left
    rw [hB]
    simp only
    have he1 := fuji_extend_colour_agree w baseA totA nA hw2
      (fun r k => S r k ∨ ((r = baseA + 2 + nA ∨ r = baseB + 2 + nB) ∧ 1 ≤ k ∧ k + 2 ≤ w))
      ia.lines ib.lines
      (hlines.subset (by
        rintro r k ⟨hk, hP⟩
        rcases hP with hP | hP
        · by_cases hk2 : k + 2 ≤ w ∧ 1 ≤ k ∧ r = baseA + 2 + nA
          · right
            omega
          · left
            apply hS _ _ hk
            omega
        · exact hP.2)) hwa
    cases hA1 : fuji_extend_generic totA ((baseA + 2 : Nat) : Int) ia.lines with
    | error e =>
      rw [hA1] at he1
      rw [he1.error_left]
      rfl
    | ok la =>
      rw [hA1] at he1
      obtain ⟨lb, hB1, hab, hwla⟩ := he1.ok_left
      rw [hB1]
      simp only
      have he2 := fuji_extend_colour_agree w baseB totB nB hw2
        (fun r k => (baseA ≤ r ∧ r < baseA + 2 + totA) ∧
            (r < baseA + 3 + nA ∨ (r = baseA + 3 + nA ∧ nA + 1 < totA ∧ k = w - 1)) ∨
          ¬ (baseA ≤ r ∧ r < baseA + 2 + totA) ∧ S r k)
        la lb
        (hab.subset (by
          rintro r k ⟨hk, hP⟩
          refine ⟨hk, ?_⟩
          rcases hP with hP | hP
          · right
            refine ⟨by omega, ?_⟩
            by_cases hk2 : k + 2 ≤ w ∧ 1 ≤ k ∧ r = baseB + 2 + nB
            · right
              omega
            · left
              apply hS _ _ hk
              omega
          · rcases hP.2 with hQ | hQ
            · left
              exact hQ
            · right
              exact ⟨hQ.1, Or.inl hQ.2⟩)) hwla
      cases hA2 : fuji_extend_generic totB ((baseB + 2 : Nat) : Int) la with
      | error e =>
        rw [hA2] at he2
        rw [he2.error_left]
        rfl
      | ok la2 =>
        rw [hA2] at he2
        obtain ⟨lb2, hB2, hab2, hwla2⟩ := he2.ok_left
        rw [hB2]
        refine ⟨⟨hab2.subset ?_, hge, hgo, hpump⟩, hwla2⟩
        intro r k hTr
        obtain ⟨hk, hTT⟩ := hT r k hTr
        refine ⟨hk, ?_⟩
        rcases hTT with hTT | hTT | hTT
        · right
          exact ⟨by omega, Or.inl hTT⟩
        · left
          exact hTT
        · right
          exact ⟨hTT.2.1, Or.inr ⟨hTT.1, hTT.2.2⟩⟩

/-- The rows that the pass over a red and a green row reads are decoded. -/
theorem Decoded_rows_red_green (w nR nG nB r k : Nat) (hR : nR < 3) (hG : nG < 6)
    (hk : k < w)
    (h : (0 ≤ r ∧ r < 0 + 2 + nR) ∨ (5 ≤ r ∧ r < 5 + 2 + nG) ∨
      ((r = 0 + 2 + nR ∨ r = 5 + 2 + nG) ∧ k = w - 1)) :
    Decoded w nR nG nB r k := by
  refine ⟨hk, ?_⟩
  rcases h with h | h | ⟨h | h, hk2⟩
  · left
    omega
  · right; right; left
    omega
  · right; left
    omega
  · right; right; right; left
    omega

/-- The rows that the pass over a green and a blue row reads are decoded. -/
theorem Decoded_rows_green_blue (w nR nG nB r k : Nat) (hG : nG < 6) (hB : nB < 3)
    (hk : k < w)
    (h : (5 ≤ r ∧ r < 5 + 2 + nG) ∨ (13 ≤ r ∧ r < 13 + 2 + nB) ∨
      ((r = 5 + 2 + nG ∨ r = 13 + 2 + nB) ∧ k = w - 1)) :
    Decoded w nR nG nB r k := by
  refine ⟨hk, ?_⟩
  rcases h with h | h | ⟨h | h, hk2⟩
  · right; right; left
    omega
  · right; right; right; right; left
    omega
  · right; right; right; left
    omega
  · right; right; right; right; right
    omega

/-- The cells decoded after a red and a green row. -/
theorem Decoded_step_red_green (w nR nG nB r k : Nat) (hR : nR < 3) (hG : nG < 6)
    (h : Decoded w (nR + 1) (nG + 1) nB r k) :
    k < w ∧
      (((0 ≤ r ∧ r < 0 + 2 + 3) ∧
          (r < 0 + 3 + nR ∨ (r = 0 + 3 + nR ∧ nR + 1 < 3 ∧ k = w - 1))) ∨
        ((5 ≤ r ∧ r < 5 + 2 + 6) ∧
          (r < 5 + 3 + nG ∨ (r = 5 + 3 + nG ∧ nG + 1 < 6 ∧ k = w - 1))) ∨
        (¬ (0 ≤ r ∧ r < 0 + 2 + 3) ∧ ¬ (5 ≤ r ∧ r < 5 + 2 + 6) ∧
          Decoded w nR nG nB r k)) := by
  obtain ⟨hk, h⟩ := h
  refine ⟨hk, ?_⟩
  rcases h with h | h | h | h | h | h
  · left
    omega
  · left
    omega
  · right; left
    omega
  · right; left
    omega
  · right; right
    refine ⟨by omega, by omega, hk, ?_⟩
    right; right; right; right; left
    exact h
  · right; right
    refine ⟨by omega, by omega, hk, ?_⟩
    right; right; right; right; right
    exact h

/-- The cells decoded after a green and a blue row. -/
theorem Decoded_step_green_blue (w nR nG nB r k : Nat) (hR : nR ≤ 3) (hG : nG < 6)
    (hB : nB < 3) (h : Decoded w nR (nG + 1) (nB + 1) r k) :
    k < w ∧
      (((5 ≤ r ∧ r < 5 + 2 + 6) ∧
          (r < 5 + 3 + nG ∨ (r = 5 + 3 + nG ∧ nG + 1 < 6 ∧ k = w - 1))) ∨
        ((13 ≤ r ∧ r < 13 + 2 + 3) ∧
          (r < 13 + 3 + nB ∨ (r = 13 + 3 + nB ∧ nB + 1 < 3 ∧ k = w - 1))) ∨
        (¬ (5 ≤ r ∧ r < 5 + 2 + 6) ∧ ¬ (13 ≤ r ∧ r < 13 + 2 + 3) ∧
          Decoded w nR nG nB r k)) := by
  obtain ⟨hk, h⟩ := h
  refine ⟨hk, ?_⟩
  rcases h with h | h | h | h | h | h
  · right; right
    refine ⟨by omega, by omega, hk, ?_⟩
    left
    exact h
  · right; right
    refine ⟨by omega, by omega, hk, ?_⟩
    right; left
    exact h
  · left
    omega
  · left
    omega
  · right; left
    omega
  · right; left
    omega

/-- A red and a green row of a line on two blocks that agree on the cells decoded before
it: the same fault, or blocks that agree on the cells decoded after it. -/
theorem fuji_decode_row_even_agree (ndebug : Bool) (slack : Nat)
    (ci : fuji_compressed_params) (func_even : FuncEven)
    (hF : ∀ l1 l2 pump c col grads row i comp,
      fuji_decode_interpolation_even_inner ci l1 c col =
        fuji_decode_interpolation_even_inner ci l2 c col →
      func_even l1 pump c col grads row i comp = func_even l2 pump c col grads row i comp)
    (w row nR nG nB : Nat) (hpar : row % 2 = 0) (hnR : nR < 3) (hnG : nG < 6)
    (counter : CFAColor → Int) (hR : counter .RED = (nR : Nat))
    (hG : counter .GREEN = (nG : Nat))
    (hlw : 0 ≤ ci.line_width) (heven : ci.line_width % 2 = 0)
    (hwl : (w : Int) = ci.line_width + 2) (b1 b2 : fuji_compressed_block)
    (h : b1.AgreeOn (Decoded w nR nG nB) b2) (hw : b1.lines.width = w) :
    ExceptRel (fun r1 r2 =>
        r1.AgreeOn (Decoded w (nR + 1) (nG + 1) nB) r2 ∧ r1.lines.width = w)
      (fuji_decode_row ndebug slack ci func_even row counter b1)
      (fuji_decode_row ndebug slack ci func_even row counter b2) := by
  have key := pass_extend_agree ndebug slack ci func_even hF
    (Decoded w nR nG nB) (Decoded w (nR + 1) (nG + 1) nB) w 0 3 nR 5 6 nG (by omega)
    (fun r k hk hP => Decoded_rows_red_green w nR nG nB r k hnR hnG hk hP)
    (fun r k hP => Decoded_step_red_green w nR nG nB r k hnR hnG hP)
    row hlw heven hwl b1 b2 h hw
  have e0 : R2 + counter .RED = ((0 + 2 + nR : Nat) : Int) := by
    rw [hR]
    simp only [R2]
    push_cast
    omega
  have e1 : G2 + counter .GREEN = ((5 + 2 + nG : Nat) : Int) := by
    rw [hG]
    simp only [G2]
    push_cast
    omega
  have c0 : bayerRGGB row 0 = .RED := by simp [bayerRGGB, hpar]
  have c1 : bayerRGGB row 1 = .GREEN := by simp [bayerRGGB, hpar]
  unfold fuji_decode_row
  simp only [c0, c1, CurLineForColor, fuji_extend, reduceCtorEq, if_false, e0, e1]
  exact key

/-- A green and a blue row of a line on two blocks that agree on the cells decoded
before it: the same fault, or blocks that agree on the cells decoded after it. -/
theorem fuji_decode_row_odd_agree (ndebug : Bool) (slack : Nat)
    (ci : fuji_compressed_params) (func_even : FuncEven)
    (hF : ∀ l1 l2 pump c col grads row i comp,
      fuji_decode_interpolation_even_inner ci l1 c col =
        fuji_decode_interpolation_even_inner ci l2 c col →
      func_even l1 pump c col grads row i comp = func_even l2 pump c col grads row i comp)
    (w row nR nG nB : Nat) (hpar : row % 2 = 1) (hnR : nR ≤ 3) (hnG : nG < 6)
    (hnB : nB < 3)
    (counter : CFAColor → Int) (hG : counter .GREEN = (nG : Nat))
    (hB : counter .BLUE = (nB : Nat))
    (hlw : 0 ≤ ci.line_width) (heven : ci.line_width % 2 = 0)
    (hwl : (w : Int) = ci.line_width + 2) (b1 b2 : fuji_compressed_block)
    (h : b1.AgreeOn (Decoded w nR nG nB) b2) (hw : b1.lines.width = w) :
    ExceptRel (fun r1 r2 =>
        r1.AgreeOn (Decoded w nR (nG + 1) (nB + 1)) r2 ∧ r1.lines.width = w)
      (fuji_decode_row ndebug slack ci func_even row counter b1)
      (fuji_decode_row ndebug slack ci func_even row counter b2) := by
  have key := pass_extend_agree ndebug slack ci func_even hF
    (Decoded w nR nG nB) (Decoded w nR (nG + 1) (nB + 1)) w 5 6 nG 13 3 nB (by omega)
    (fun r k hk hP => Decoded_rows_green_blue w nR nG nB r k hnG hnB hk hP)
    (fun r k hP => Decoded_step_green_blue w nR nG nB r k hnR hnG hnB hP)
    row hlw heven hwl b1 b2 h hw
  have e0 : G2 + counter .GREEN = ((5 + 2 + nG : Nat) : Int) := by
    rw [hG]
    simp only [G2]
    push_cast
    omega
  have e1 : B2 + counter .BLUE = ((13 + 2 + nB : Nat) : Int) := by
    rw [hB]
    simp only [B2]
    push_cast
    omega
  have c0 : bayerRGGB row 0 = .GREEN := by simp [bayerRGGB, hpar]
  have c1 : bayerRGGB row 1 = .BLUE := by simp [bayerRGGB, hpar]
  unfold fuji_decode_row
  simp only [c0, c1, CurLineForColor, fuji_extend, reduceCtorEq, if_false, e0, e1]
  exact key

/-- The rows of a line from the row `row` on, on two blocks that agree on the cells
decoded before it: the same fault, or blocks whose line buffers agree on every cell. -/
theorem fuji_decode_block_rows_agree (ndebug : Bool) (slack : Nat)
    (ci : fuji_compressed_params) (func_even : FuncEven)
    (hF : ∀ l1 l2 pump c col grads row i comp,
      fuji_decode_interpolation_even_inner ci l1 c col =
        fuji_decode_interpolation_even_inner ci l2 c col →
      func_even l1 pump c col grads row i comp = func_even l2 pump c col grads row i comp)
    (w : Nat) (hlw : 0 ≤ ci.line_width) (heven : ci.line_width % 2 = 0)
    (hwl : (w : Int) = ci.line_width + 2) :
    ∀ (more row : Nat) (counter : CFAColor → Int) (b1 b2 : fuji_compressed_block),
    row + more = 6 → counter .RED = ((row + 1) / 2 : Nat) → counter .GREEN = (row : Nat) →
    counter .BLUE = (row / 2 : Nat) →
    b1.AgreeOn (Decoded w ((row + 1) / 2) row (row / 2)) b2 → b1.lines.width = w →
    ExceptRel (fun r1 r2 => r1.AgreeOn (Decoded w 3 6 3) r2 ∧ r1.lines.width = w)
      (fuji_decode_block_rows ndebug slack ci func_even more row counter b1)
      (fuji_decode_block_rows ndebug slack ci func_even more row counter b2) := by
  intro more
  induction more with
  | zero =>
    intro row counter b1 b2 hrow _ _ _ h hw
    have e : row = 6 := by omega
    subst e
    simp only [fuji_decode_block_rows]
    exact ⟨h, hw⟩
  | succ more ih =>
    intro row counter b1 b2 hrow hR hG hB h hw
    rw [fuji_decode_block_rows_succ, fuji_decode_block_rows_succ]
    by_cases hpar : row % 2 = 0
    · have hr := fuji_decode_row_even_agree ndebug slack ci func_even hF w row
        ((row + 1) / 2) row (row / 2) hpar (by omega) (by omega) counter hR hG hlw heven hwl
        b1 b2 h hw
      have c0 : bayerRGGB row 0 = .RED := by simp [bayerRGGB, hpar]
      have c1 : bayerRGGB row 1 = .GREEN := by simp [bayerRGGB, hpar]
      cases hA : fuji_decode_row ndebug slack ci func_even row counter b1 with
      | error e =>
        rw [hA] at hr
        rw [hr.error_left]
        rfl
      | ok ia =>
        rw [hA] at hr
        obtain ⟨ib, hB1, hab, hwa⟩ := hr.ok_left
        rw [hB1]
        simp only
        have e1 : (row + 1) / 2 + 1 = (row + 1 + 1) / 2 := by omega
        have e2 : row / 2 = (row + 1) / 2 := by omega
        rw [e1, e2] at hab
        refine ih (row + 1) _ ia ib (by omega) ?_ ?_ ?_ hab hwa
        · simp only [c0, c1, CurLineForColor, reduceCtorEq, if_false, if_true, hR]
          push_cast
          omega
        · simp only [c0, c1, CurLineForColor, reduceCtorEq, if_false, if_true, hG]
          push_cast
          omega
        · simp only [c0, c1, CurLineForColor, reduceCtorEq, if_false, if_true, hB]
          push_cast
          omega
    · have hr := fuji_decode_row_odd_agree ndebug slack ci func_even hF w row
        ((row + 1) / 2) row (row / 2) (by omega) (by omega) (by omega) (by omega) counter hG
        hB hlw heven hwl b1 b2 h hw
      have c0 : bayerRGGB row 0 = .GREEN := by simp [bayerRGGB, hpar]
      have c1 : bayerRGGB row 1 = .BLUE := by simp [bayerRGGB, hpar]
      cases hA : fuji_decode_row ndebug slack ci func_even row counter b1 with
      | error e =>
        rw [hA] at hr
        rw [hr.error_left]
        rfl
      | ok ia =>
        rw [hA] at hr
        obtain ⟨ib, hB1, hab, hwa⟩ := hr.ok_left
        rw [hB1]
        simp only
        have e1 : (row + 1) / 2 = (row + 1 + 1) / 2 := by omega
        have e2 : row / 2 + 1 = (row + 1) / 2 := by omega
        rw [e1, e2] at hab
        refine ih (row + 1) _ ia ib (by omega) ?_ ?_ ?_ hab hwa
        · simp only [c0, c1, CurLineForColor, reduceCtorEq, if_false, if_true, hR]
          push_cast
          omega
        · simp only [c0, c1, CurLineForColor, reduceCtorEq, if_false, if_true, hG]
          push_cast
          omega
        · simp only [c0, c1, CurLineForColor, reduceCtorEq, if_false, if_true, hB]
          push_cast
          omega

/-- The decoding of a block on two blocks that agree on the carried rows: the same fault,
or blocks whose line buffers agree on every cell. -/
theorem fuji_decode_block_agree (ndebug : Bool) (slack : Nat)
    (ci : fuji_compressed_params) (func_even : FuncEven)
    (hF : ∀ l1 l2 pump c col grads row i comp,
      fuji_decode_interpolation_even_inner ci l1 c col =
        fuji_decode_interpolation_even_inner ci l2 c col →
      func_even l1 pump c col grads row i comp = func_even l2 pump c col grads row i comp)
    (w : Nat) (hlw : 0 ≤ ci.line_width) (heven : ndebug = true → ci.line_width % 2 = 0)
    (hwl : (w : Int) = ci.line_width + 2) (b1 b2 : fuji_compressed_block)
    (h : b1.AgreeOn (Decoded w 0 0 0) b2) (hw : b1.lines.width = w) :
    ExceptRel (fun r1 r2 => r1.AgreeOn (Decoded w 3 6 3) r2 ∧ r1.lines.width = w)
      (fuji_decode_block ndebug slack ci func_even b1)
      (fuji_decode_block ndebug slack ci func_even b2) := by
  unfold fuji_decode_block
  by_cases hc : ndebug = false ∧ ci.line_width % 2 ≠ 0
  · rw [if_pos hc, if_pos hc]
    rfl
  · rw [if_neg hc, if_neg hc]
    have he : ci.line_width % 2 = 0 := by
      cases hn : ndebug with
      | true => exact heven hn
      | false =>
        by_contra hne
        exact hc ⟨hn, hne⟩
    exact fuji_decode_block_rows_agree ndebug slack ci func_even hF w hlw he hwl 6 0
      (fun _ => 0) b1 b2 rfl rfl rfl rfl h hw

/-- The scatter of a line reads the line buffer only: two blocks whose line buffers agree
on every cell give the same image or the same fault. -/
theorem copy_line_agree (ndebug : Bool) (MCU : iPoint2D) (CFA : Nat → Nat → CFAColor)
    (idx : Int → Int) (w : Nat) (b1 b2 : fuji_compressed_block)
    (h : b1.lines.AgreeOn (Decoded w 3 6 3) b2.lines) (hw : b1.lines.width = w)
    (strip : FujiStrip) (cur_line : Int) (img : RawImage) :
    copy_line ndebug MCU CFA idx b1 strip cur_line img =
      copy_line ndebug MCU CFA idx b2 strip cur_line img := by
  have hcell : copy_line_cell MCU CFA idx b1 strip cur_line =
      copy_line_cell MCU CFA idx b2 strip cur_line := by
    funext im p
    unfold copy_line_cell
    simp only
    rw [LineBuffer.get_agree h _ _ (by
      intro h0 h1 h2 h3
      unfold Decoded
      omega)]
  unfold copy_line
  rw [hcell]

/-- A `memcpy` within two line buffers that agree on every cell: the same fault, or line
buffers that agree on every cell. -/
theorem LineBuffer.memcpy_agree (w : Nat) (l1 l2 : LineBuffer)
    (h : l1.AgreeOn (Decoded w 3 6 3) l2) (hw : l1.width = w) (dst src count : Nat) :
    ExceptRel (fun a b => a.AgreeOn (Decoded w 3 6 3) b ∧ a.width = w)
      (l1.memcpy dst src count) (l2.memcpy dst src count) := by
  obtain ⟨w1, cell1⟩ := l1
  obtain ⟨w2, cell2⟩ := l2
  simp only at hw
  subst hw
  have hw2 : w1 = w2 := h.1
  subst hw2
  have e18 : ltotal.toNat = 18 := rfl
  unfold LineBuffer.memcpy
  simp only [e18, LineBuffer.position]
  by_cases hc : dst + count ≤ 18 * w1 ∧ src + count ≤ 18 * w1
  · rw [if_pos hc, if_pos hc]
    refine ⟨⟨rfl, ?_⟩, rfl⟩
    intro r c hD
    simp only
    by_cases hm : dst ≤ r * w1 + c ∧ r * w1 + c < dst + count
    · rw [if_pos hm, if_pos hm]
      apply h.2
      have hk : c < w1 := hD.1
      have hlt : (r * w1 + c - dst + src) / w1 < 18 := by
        rw [Nat.div_lt_iff_lt_mul (by omega)]
        omega
      have hmod : (r * w1 + c - dst + src) % w1 < w1 := Nat.mod_lt _ (by omega)
      unfold Decoded
      omega
    · rw [if_neg hm, if_neg hm]
      exact h.2 r c hD
  · rw [if_neg hc, if_neg hc]
    rfl

/-- The copy of a helper column between two lines, on two line buffers that agree on
every cell: the same fault, or line buffers that agree on every cell. -/
theorem fuji_carry_helper_agree (w : Nat) (l1 l2 : LineBuffer)
    (h : l1.AgreeOn (Decoded w 3 6 3) l2) (hw : l1.width = w) (a : Int) :
    ExceptRel (fun x y => x.AgreeOn (Decoded w 3 6 3) y ∧ x.width = w)
      (fuji_carry_helper l1 a) (fuji_carry_helper l2 a) := by
  unfold fuji_carry_helper
  rw [← h.1]
  rw [← LineBuffer.get_agree h _ _ (by
    intro h0 h1 h2 h3
    unfold Decoded
    omega)]
  cases l1.get (a + 2 - 1) ((l1.width : Int) - 2) with
  | error e => rfl
  | ok v =>
    simp only
    have hs := LineBuffer.set_rel h (a + 2) ((l1.width : Int) - 1) v v True (fun _ => rfl)
    refine ExceptRel.weaken hs ?_
    rintro x y ⟨hxy, hwx⟩
    refine ⟨hxy.subset ?_, by rw [hwx, hw]⟩
    intro r c hD
    by_cases hrc : r = (a + 2).toNat ∧ c = ((l1.width : Int) - 1).toNat
    · left
      exact ⟨hrc.1, hrc.2, trivial⟩
    · right
      exact ⟨hrc, hD⟩

/-- The carry between two lines on two line buffers that agree on every cell: the same
fault, or line buffers that agree on every cell. -/
theorem fuji_carry_agree (ci : fuji_compressed_params) (w : Nat) (l1 l2 : LineBuffer)
    (h : l1.AgreeOn (Decoded w 3 6 3) l2) (hw : l1.width = w) :
    ExceptRel (fun x y => x.AgreeOn (Decoded w 3 6 3) y ∧ x.width = w)
      (fuji_carry ci l1) (fuji_carry ci l2) := by
  unfold fuji_carry fuji_carry_rows
  have hw2 : l2.width = w := by rw [← h.1, hw]
  have m1 := LineBuffer.memcpy_agree w l1 l2 h hw (l1.position R0.toNat 0)
    (l1.position (R0 + 5 - 2).toNat 0) (2 * (ci.line_width + 2).toNat)
  have p1 : ∀ r c, l2.position r c = l1.position r c := by
    intro r c
    simp only [LineBuffer.position, hw, hw2]
  rw [p1, p1]
  cases hA : l1.memcpy (l1.position R0.toNat 0) (l1.position (R0 + 5 - 2).toNat 0)
      (2 * (ci.line_width + 2).toNat) with
  | error e =>
    rw [hA] at m1
    rw [m1.error_left]
    rfl
  | ok la =>
    rw [hA] at m1
    obtain ⟨lb, hB, hab, hwa⟩ := m1.ok_left
    rw [hB]
    simp only
    have hwb : lb.width = w := by rw [← hab.1, hwa]
    have m2 := LineBuffer.memcpy_agree w la lb hab hwa (la.position G0.toNat 0)
      (la.position (G0 + 8 - 2).toNat 0) (2 * (ci.line_width + 2).toNat)
    have p2 : ∀ r c, lb.position r c = la.position r c := by
      intro r c
      simp only [LineBuffer.position, hwa, hwb]
    rw [p2, p2]
    cases hA2 : la.memcpy (la.position G0.toNat 0) (la.position (G0 + 8 - 2).toNat 0)
        (2 * (ci.line_width + 2).toNat) with
    | error e =>
      rw [hA2] at m2
      rw [m2.error_left]
      rfl
    | ok lc =>
      rw [hA2] at m2
      obtain ⟨ld, hB2, hcd, hwc⟩ := m2.ok_left
      rw [hB2]
      simp only
      have hwd : ld.width = w := by rw [← hcd.1, hwc]
      have m3 := LineBuffer.memcpy_agree w lc ld hcd hwc (lc.position B0.toNat 0)
        (lc.position (B0 + 5 - 2).toNat 0) (2 * (ci.line_width + 2).toNat)
      have p3 : ∀ r c, ld.position r c = lc.position r c := by
        intro r c
        simp only [LineBuffer.position, hwc, hwd]
      rw [p3, p3]
      cases hA3 : lc.memcpy (lc.position B0.toNat 0) (lc.position (B0 + 5 - 2).toNat 0)
          (2 * (ci.line_width + 2).toNat) with
      | error e =>
        rw [hA3] at m3
        rw [m3.error_left]
        rfl
      | ok le =>
        rw [hA3] at m3
        obtain ⟨lf, hB3, hef, hwe⟩ := m3.ok_left
        rw [hB3]
        simp only
        have c1 := fuji_carry_helper_agree w le lf hef hwe R0
        cases hA4 : fuji_carry_helper le R0 with
        | error e =>
          rw [hA4] at c1
          rw [c1.error_left]
          rfl
        | ok lg =>
          rw [hA4] at c1
          obtain ⟨lh, hB4, hgh, hwg⟩ := c1.ok_left
          rw [hB4]
          simp only
          have c2 := fuji_carry_helper_agree w lg lh hgh hwg G0
          cases hA5 : fuji_carry_helper lg G0 with
          | error e =>
            rw [hA5] at c2
            rw [c2.error_left]
            rfl
          | ok li =>
            rw [hA5] at c2
            obtain ⟨lj, hB5, hij, hwi⟩ := c2.ok_left
            rw [hB5]
            exact fuji_carry_helper_agree w li lj hij hwi B0

/-- After `reset`, two blocks with any line buffers and gradient pairs have the same
fault, or the same gradient pairs and line buffers that agree on the carried rows and on
the last helper column of the first row of each colour. -/
theorem fuji_compressed_block.reset_agree (ci : fuji_compressed_params) (w : Nat)
    (hlw : 0 ≤ ci.line_width) (hwl : (w : Int) = ci.line_width + 2)
    (b1 b2 : fuji_compressed_block) :
    ExceptRel (fun x y => x.lines.AgreeOn (Decoded w 0 0 0) y.lines ∧
        x.grad_even = y.grad_even ∧ x.grad_odd = y.grad_odd ∧ x.lines.width = w)
      (b1.reset ci) (b2.reset ci) := by
  have ew : (ci.line_width + 2).toNat = w := by omega
  unfold fuji_compressed_block.reset
  simp only [ew]
  have hz : LineBuffer.AgreeOn
      (fun r k => k < w ∧ (r < 2 ∨ (5 ≤ r ∧ r < 7) ∨ (13 ≤ r ∧ r < 15)))
      ⟨w, fun r c => if (r * w + c < 2 * w) ∨ (5 * w ≤ r * w + c ∧ r * w + c < 5 * w + 2 * w) ∨
        (13 * w ≤ r * w + c ∧ r * w + c < 13 * w + 2 * w) then 0 else b1.lines.cell r c⟩
      ⟨w, fun r c => if (r * w + c < 2 * w) ∨ (5 * w ≤ r * w + c ∧ r * w + c < 5 * w + 2 * w) ∨
        (13 * w ≤ r * w + c ∧ r * w + c < 13 * w + 2 * w) then 0 else b2.lines.cell r c⟩ := by
    refine ⟨rfl, ?_⟩
    rintro r k ⟨hk, hr⟩
    simp only
    have hr6 : r = 0 ∨ r = 1 ∨ r = 5 ∨ r = 6 ∨ r = 13 ∨ r = 14 := by omega
    have hcond : (r * w + k < 2 * w) ∨ (5 * w ≤ r * w + k ∧ r * w + k < 5 * w + 2 * w) ∨
        (13 * w ≤ r * w + k ∧ r * w + k < 13 * w + 2 * w) := by
      rcases hr6 with h | h | h | h | h | h <;> subst h <;> omega
    rw [if_pos hcond, if_pos hcond]
  generalize hZ1 : (⟨w, fun r c => if (r * w + c < 2 * w) ∨
      (5 * w ≤ r * w + c ∧ r * w + c < 5 * w + 2 * w) ∨
      (13 * w ≤ r * w + c ∧ r * w + c < 13 * w + 2 * w) then 0 else b1.lines.cell r c⟩ :
      LineBuffer) = z1 at hz
  generalize hZ2 : (⟨w, fun r c => if (r * w + c < 2 * w) ∨
      (5 * w ≤ r * w + c ∧ r * w + c < 5 * w + 2 * w) ∨
      (13 * w ≤ r * w + c ∧ r * w + c < 13 * w + 2 * w) then 0 else b2.lines.cell r c⟩ :
      LineBuffer) = z2 at hz
  have hwz : z1.width = w := by rw [← hZ1]
  have hR2 : (R2 - 1).toNat = 1 := rfl
  have hG2 : (G2 - 1).toNat = 6 := rfl
  have hB2 : (B2 - 1).toNat = 14 := rfl
  have hR2n : R2.toNat = 2 := rfl
  have hG2n : G2.toNat = 7 := rfl
  have hB2n : B2.toNat = 15 := rfl
  have hc2 : ((w : Int) - 2).toNat = w - 2 := by omega
  have hc1 : ((w : Int) - 1).toNat = w - 1 := by omega
  rw [← LineBuffer.get_agree hz (R2 - 1) ((w : Int) - 2) (by
    intro _ _ _ _
    rw [hR2, hc2]
    omega)]
  cases z1.get (R2 - 1) ((w : Int) - 2) with
  | error e => rfl
  | ok r =>
    simp only
    have s1 := LineBuffer.set_rel hz R2 ((w : Int) - 1) r r True (fun _ => rfl)
    cases hA1 : z1.set R2 ((w : Int) - 1) r with
    | error e =>
      rw [hA1] at s1
      rw [s1.error_left]
      rfl
    | ok la =>
      rw [hA1] at s1
      obtain ⟨lb, hB1, hab, hwa⟩ := s1.ok_left
      rw [hB1]
      simp only
      rw [← LineBuffer.get_agree hab (G2 - 1) ((w : Int) - 2) (by
        intro _ _ _ _
        right
        rw [hG2, hc2, hR2n]
        omega)]
      cases la.get (G2 - 1) ((w : Int) - 2) with
      | error e => rfl
      | ok g =>
        simp only
        have s2 := LineBuffer.set_rel hab G2 ((w : Int) - 1) g g True (fun _ => rfl)
        cases hA2 : la.set G2 ((w : Int) - 1) g with
        | error e =>
          rw [hA2] at s2
          rw [s2.error_left]
          rfl
        | ok lc =>
          rw [hA2] at s2
          obtain ⟨ld, hB2', hcd, hwc⟩ := s2.ok_left
          rw [hB2']
          simp only
          rw [← LineBuffer.get_agree hcd (B2 - 1) ((w : Int) - 2) (by
            intro _ _ _ _
            right
            rw [hB2, hc2, hG2n]
            refine ⟨by omega, ?_⟩
            right
            rw [hR2n]
            omega)]
          cases lc.get (B2 - 1) ((w : Int) - 2) with
          | error e => rfl
          | ok b =>
            simp only
            have s3 := LineBuffer.set_rel hcd B2 ((w : Int) - 1) b b True (fun _ => rfl)
            cases hA3 : lc.set B2 ((w : Int) - 1) b with
            | error e =>
              rw [hA3] at s3
              rw [s3.error_left]
              rfl
            | ok le =>
              rw [hA3] at s3
              obtain ⟨lf, hB3, hef, hwe⟩ := s3.ok_left
              rw [hB3]
              refine ⟨hef.subset ?_, rfl, rfl, by rw [hwe, hwc, hwa, hwz]⟩
              rintro r k ⟨hk, hD⟩
              rw [hB2n, hG2n, hR2n, hc1]
              by_cases h15 : r = 15 ∧ k = w - 1
              · left
                exact ⟨h15.1, h15.2, trivial⟩
              · right
                refine ⟨h15, ?_⟩
                by_cases h7 : r = 7 ∧ k = w - 1
                · left
                  exact ⟨h7.1, h7.2, trivial⟩
                · right
                  refine ⟨h7, ?_⟩
                  by_cases h2 : r = 2 ∧ k = w - 1
                  · left
                    exact ⟨h2.1, h2.2, trivial⟩
                  · right
                    refine ⟨h2, hk, ?_⟩
                    omega

/-- One line of a strip on two blocks that agree on the carried rows: the same fault, or
the same image and blocks whose line buffers agree on every cell. -/
theorem fuji_decode_line_agree (ndebug : Bool) (slack : Nat)
    (xtransCFA : Nat → Nat → CFAColor) (ci : fuji_compressed_params) (path : DecodePath)
    (w : Nat) (hlw : 0 ≤ ci.line_width) (heven : ndebug = true → ci.line_width % 2 = 0)
    (hwl : (w : Int) = ci.line_width + 2) (b1 b2 : fuji_compressed_block)
    (h : b1.AgreeOn (Decoded w 0 0 0) b2) (hw : b1.lines.width = w)
    (strip : FujiStrip) (cur_line : Int) (img : RawImage) :
    ExceptRel (fun x y => x.1.AgreeOn (Decoded w 3 6 3) y.1 ∧ x.1.lines.width = w ∧
        x.2 = y.2)
      (fuji_decode_line ndebug slack xtransCFA ci path b1 strip cur_line img)
      (fuji_decode_line ndebug slack xtransCFA ci path b2 strip cur_line img) := by
  unfold fuji_decode_line
  cases path with
  | xtrans =>
    simp only
    have hb := fuji_decode_block_agree ndebug slack ci (xtrans_func_even ndebug slack ci)
      (fun l1 l2 pump c col grads row i comp hk =>
        xtrans_func_even_congr ndebug slack ci l1 l2 pump c col grads row i comp hk)
      w hlw heven hwl b1 b2 h hw
    unfold xtrans_decode_block
    cases hA : fuji_decode_block ndebug slack ci (xtrans_func_even ndebug slack ci) b1 with
    | error e =>
      rw [hA] at hb
      rw [hb.error_left]
      rfl
    | ok ia =>
      rw [hA] at hb
      obtain ⟨ib, hB, hab, hwa⟩ := hb.ok_left
      rw [hB]
      simp only
      unfold copy_line_to_xtrans
      rw [← copy_line_agree ndebug ⟨6, 6⟩ xtransCFA xtrans_index w ia ib hab.1 hwa strip
        cur_line img]
      cases copy_line ndebug ⟨6, 6⟩ xtransCFA xtrans_index ia strip cur_line img with
      | error e => rfl
      | ok img1 => exact ⟨hab, hwa, rfl⟩
  | bayer =>
    simp only
    have hb := fuji_decode_block_agree ndebug slack ci (bayer_func_even ndebug slack ci)
      (fun l1 l2 pump c col grads row i comp hk =>
        bayer_func_even_congr ndebug slack ci l1 l2 pump c col grads row i comp hk)
      w hlw heven hwl b1 b2 h hw
    unfold fuji_bayer_decode_block
    cases hA : fuji_decode_block ndebug slack ci (bayer_func_even ndebug slack ci) b1 with
    | error e =>
      rw [hA] at hb
      rw [hb.error_left]
      rfl
    | ok ia =>
      rw [hA] at hb
      obtain ⟨ib, hB, hab, hwa⟩ := hb.ok_left
      rw [hB]
      simp only
      unfold copy_line_to_bayer
      rw [← copy_line_agree ndebug ⟨2, 2⟩ bayerRGGB (fun imgCol => imgCol / 2) w ia ib hab.1
        hwa strip cur_line img]
      cases copy_line ndebug ⟨2, 2⟩ bayerRGGB (fun imgCol => imgCol / 2) ia strip cur_line
          img with
      | error e => rfl
      | ok img1 => exact ⟨hab, hwa, rfl⟩

/-- The lines of a strip on two blocks that agree on the carried rows: the same image
and the same fault. -/
theorem fuji_decode_lines_agree (ndebug : Bool) (slack : Nat)
    (xtransCFA : Nat → Nat → CFAColor) (header : FujiHeader) (ci : fuji_compressed_params)
    (strip : FujiStrip)
    (w : Nat) (hlw : 0 ≤ ci.line_width) (heven : ndebug = true → ci.line_width % 2 = 0)
    (hwl : (w : Int) = ci.line_width + 2) :
    ∀ (more : Nat) (cur_line : Int) (b1 b2 : fuji_compressed_block) (img : RawImage),
    b1.AgreeOn (Decoded w 0 0 0) b2 → b1.lines.width = w →
    (fuji_decode_lines ndebug slack xtransCFA header ci strip more cur_line b1 img).2 =
      (fuji_decode_lines ndebug slack xtransCFA header ci strip more cur_line b2 img).2 := by
  intro more
  induction more with
  | zero =>
    intro cur_line b1 b2 img _ _
    rfl
  | succ more ih =>
    intro cur_line b1 b2 img h hw
    simp only [fuji_decode_lines]
    have hl := fuji_decode_line_agree ndebug slack xtransCFA ci header.decodePath w hlw
      heven hwl b1 b2 h hw strip cur_line img
    cases hA : fuji_decode_line ndebug slack xtransCFA ci header.decodePath b1 strip
        cur_line img with
    | error e =>
      rw [hA] at hl
      rw [hl.error_left]
    | ok ra =>
      rw [hA] at hl
      obtain ⟨rb, hB, hab, hwa, himg⟩ := hl.ok_left
      rw [hB]
      obtain ⟨ia, imga⟩ := ra
      obtain ⟨ib, imgb⟩ := rb
      simp only at hab hwa himg ⊢
      subst himg
      by_cases hlast : cur_line + 1 = strip.height
      · rw [if_pos hlast, if_pos hlast]
      · rw [if_neg hlast, if_neg hlast]
        have hcarry := fuji_carry_agree ci w ia.lines ib.lines hab.1 hwa
        cases hC : fuji_carry ci ia.lines with
        | error e =>
          rw [hC] at hcarry
          rw [hcarry.error_left]
        | ok la =>
          rw [hC] at hcarry
          obtain ⟨lb, hD, hlab, hwla⟩ := hcarry.ok_left
          rw [hD]
          simp only
          refine ih (cur_line + 1) _ _ imga ⟨hlab.subset ?_, hab.2⟩ hwla
          rintro r k ⟨hk, hD⟩
          exact ⟨hk, by omega⟩

/-- With a line buffer of fewer than two columns `reset` fails at its first read. -/
theorem fuji_compressed_block.reset_narrow (ci : fuji_compressed_params)
    (hlw : ci.line_width < 0) (b : fuji_compressed_block) :
    b.reset ci = .error .assertion := by
  unfold fuji_compressed_block.reset
  simp only
  have hg : ∀ l : LineBuffer, l.width = (ci.line_width + 2).toNat →
      l.get (R2 - 1) (((ci.line_width + 2).toNat : Int) - 2) = .error .assertion := by
    intro l hl
    unfold LineBuffer.get
    rw [if_neg (by omega)]
  rw [hg _ rfl]

/-- C37: the samples decoded for a Fuji block depend only on the bit stream of the block
and on the decoder parameters.  For any two initial contents `info1`, `info2` of the
reused block (line buffer, gradient pairs and pump), `reset` gives the same fault or the
same gradient pairs and line buffers that agree on the carried rows, and `reset`
followed by `fuji_decode_strip` on the same strip produces the same image and the same
fault: every cell whose value reaches a sample or the image is written after `reset`
before it is read.  With `NDEBUG` the width of a line is taken to be even, as the
invariant of `fuji_decode_block` states. -/
theorem fuji_strip_independent_of_initial_block (ndebug : Bool) (slack : Nat)
    (xtransCFA : Nat → Nat → CFAColor) (header : FujiHeader) (ci : fuji_compressed_params)
    (heven : ndebug = true → ci.line_width % 2 = 0)
    (info1 info2 : fuji_compressed_block) (strip : FujiStrip) (img : RawImage) :
    ExceptRel (fun x y => x.lines.AgreeOn (Decoded (ci.line_width + 2).toNat 0 0 0) y.lines ∧
        x.grad_even = y.grad_even ∧ x.grad_odd = y.grad_odd)
      (info1.reset ci) (info2.reset ci) ∧
    (decompressThread_strip ndebug slack xtransCFA header ci info1 strip img).2 =
      (decompressThread_strip ndebug slack xtransCFA header ci info2 strip img).2 := by
  by_cases hlw : 0 ≤ ci.line_width
  · have hwl : (((ci.line_width + 2).toNat : Nat) : Int) = ci.line_width + 2 := by omega
    have hr := fuji_compressed_block.reset_agree ci (ci.line_width + 2).toNat hlw hwl
      info1 info2
    refine ⟨ExceptRel.weaken hr (fun x y hxy => ⟨hxy.1, hxy.2.1, hxy.2.2.1⟩), ?_⟩
    unfold decompressThread_strip
    cases hA : info1.reset ci with
    | error e =>
      rw [hA] at hr
      rw [hr.error_left]
    | ok ia =>
      rw [hA] at hr
      obtain ⟨ib, hB, hab, hge, hgo, hwa⟩ := hr.ok_left
      rw [hB]
      simp only
      unfold fuji_decode_strip
      exact fuji_decode_lines_agree ndebug slack xtransCFA header ci strip
        (ci.line_width + 2).toNat hlw heven hwl strip.height.toNat 0 _ _ img
        ⟨hab, hge, hgo, rfl⟩ hwa
  · have h1 := fuji_compressed_block.reset_narrow ci (by omega) info1
    have h2 := fuji_compressed_block.reset_narrow ci (by omega) info2
    unfold decompressThread_strip
    rw [h1, h2]
    exact ⟨rfl, rfl⟩

/-- Witness for C37: with `NDEBUG` and the parameters of a 14-bit X-Trans header, a
block whose line buffer holds 100 in every cell and a block with another line buffer
and with other gradient pairs give the same image and fault. -/
theorem fuji_strip_independent_of_initial_block_witness :
    xtransParams14.line_width % 2 = 0 ∧
    (decompressThread_strip true 0 (fun _ _ => CFAColor.GREEN) xtransHeader14 xtransParams14
      ⟨⟨8, fun _ _ => 100⟩, [], [], ⟨[], 0, []⟩⟩ emptyLineStrip (blankImage 768 12)).2 =
      (decompressThread_strip true 0 (fun _ _ => CFAColor.GREEN) xtransHeader14
        xtransParams14
        ⟨⟨514, fun r c => (r + 2 * c) % 5⟩, [[⟨7, 3⟩]], [], ⟨[1, 2, 3], 1, [true]⟩⟩
        emptyLineStrip (blankImage 768 12)).2 :=
  ⟨rfl, (fuji_strip_independent_of_initial_block true 0 (fun _ _ => CFAColor.GREEN)
    xtransHeader14 xtransParams14 (fun _ => rfl)
    ⟨⟨8, fun _ _ => 100⟩, [], [], ⟨[], 0, []⟩⟩
    ⟨⟨514, fun r c => (r + 2 * c) % 5⟩, [[⟨7, 3⟩]], [], ⟨[1, 2, 3], 1, [true]⟩⟩
    emptyLineStrip (blankImage 768 12)).2⟩

/-! ## The drivers attempt every unit -/

/-- The reset of a block raises no `RawspeedException`: the only fault of it is a failed
invariant of an access to the line buffer.  In `decompressThread` the reset stands
before the `try`, where an exception would not be caught. -/
theorem fuji_compressed_block.reset_no_exception (info : fuji_compressed_block)
    (params : fuji_compressed_params) (e : Fault) (h : info.reset params = .error e) :
    e = .assertion := by
  have hg : ∀ (l : LineBuffer) r c e, l.get r c = .error e → e = .assertion := by
    intro l r c e h
    unfold LineBuffer.get at h
    split at h
    · cases h
    · cases h; rfl
  have hs : ∀ (l : LineBuffer) r c v e, l.set r c v = .error e → e = .assertion := by
    intro l r c v e h
    unfold LineBuffer.set at h
    split at h
    · cases h
    · cases h; rfl
  unfold fuji_compressed_block.reset at h
  simp only at h
  split at h
  · next h1 => cases h; exact hg _ _ _ _ h1
  · split at h
    · next h1 => cases h; exact hs _ _ _ _ _ h1
    · split at h
      · next h1 => cases h; exact hg _ _ _ _ h1
      · split at h
        · next h1 => cases h; exact hs _ _ _ _ _ h1
        · split at h
          · next h1 => cases h; exact hg _ _ _ _ h1
          · split at h
            · next h1 => cases h; exact hs _ _ _ _ _ h1
            · cases h

/-- A write to the plane is within two images of the same dimensions alike, and leaves
the dimensions and the recorded errors alone. -/
theorem RawImage.write_framed (dim : iPoint2D) (cpp : Nat) (e1 e2 : List String)
    (a b : RawImage) (ha : a.Framed dim cpp e1) (hb : b.Framed dim cpp e2)
    (row : Int) (col value : Nat) :
    ExceptRel (fun x y => x.Framed dim cpp e1 ∧ y.Framed dim cpp e2)
      (a.write row col value) (b.write row col value) := by
  have ec : (0 ≤ row ∧ row < a.height ∧ (col : Int) < a.width) ↔
      (0 ≤ row ∧ row < b.height ∧ (col : Int) < b.width) := by
    unfold RawImage.height RawImage.width
    rw [ha.1, ha.2.1, hb.1, hb.2.1]
  unfold RawImage.write
  by_cases hc : 0 ≤ row ∧ row < a.height ∧ (col : Int) < a.width
  · rw [if_pos hc, if_pos (ec.1 hc)]
    exact ⟨⟨ha.1, ha.2.1, ha.2.2⟩, ⟨hb.1, hb.2.1, hb.2.2⟩⟩
  · rw [if_neg hc, if_neg (fun h => hc (ec.2 h))]
    rfl

/-- A fold of a step that keeps a relation keeps the relation. -/
theorem foldlM_rel {α β : Type} (R : β → β → Prop) (f : β → α → Except Fault β)
    (hstep : ∀ a b x, R a b → ExceptRel R (f a x) (f b x)) :
    ∀ (l : List α) (a b : β), R a b → ExceptRel R (l.foldlM f a) (l.foldlM f b) := by
  intro l
  induction l with
  | nil =>
    intro a b h
    exact h
  | cons x xs ih =>
    intro a b h
    simp only [List.foldlM_cons]
    have hs := hstep a b x h
    cases hA : f a x with
    | error e =>
      rw [hA] at hs
      rw [hs.error_left]
      rfl
    | ok a2 =>
      rw [hA] at hs
      obtain ⟨b2, hB, hab⟩ := hs.ok_left
      rw [hB]
      exact ih a2 b2 hab

/-- The scatter of a line into two images of the same dimensions: the same fault, or
two images of these dimensions, with their recorded errors. -/
theorem copy_line_framed (ndebug : Bool) (MCU : iPoint2D) (CFA : Nat → Nat → CFAColor)
    (idx : Int → Int) (info : fuji_compressed_block) (strip : FujiStrip) (cur_line : Int)
    (dim : iPoint2D) (cpp : Nat) (e1 e2 : List String)
    (a b : RawImage) (ha : a.Framed dim cpp e1) (hb : b.Framed dim cpp e2) :
    ExceptRel (fun x y => x.Framed dim cpp e1 ∧ y.Framed dim cpp e2)
      (copy_line ndebug MCU CFA idx info strip cur_line a)
      (copy_line ndebug MCU CFA idx info strip cur_line b) := by
  unfold copy_line
  split
  · rfl
  · refine foldlM_rel _ _ ?_ _ a b ⟨ha, hb⟩
    intro x y p hxy
    unfold copy_line_cell
    simp only
    split
    · rfl
    · split
      · rfl
      · exact RawImage.write_framed dim cpp e1 e2 x y hxy.1 hxy.2 _ _ _

/-- One line of a strip decoded into two images of the same dimensions: the same fault,
or the same block and two images of these dimensions, with their recorded errors. -/
theorem fuji_decode_line_framed (ndebug : Bool) (slack : Nat)
    (xtransCFA : Nat → Nat → CFAColor) (ci : fuji_compressed_params) (path : DecodePath)
    (info : fuji_compressed_block) (strip : FujiStrip) (cur_line : Int)
    (dim : iPoint2D) (cpp : Nat) (e1 e2 : List String)
    (a b : RawImage) (ha : a.Framed dim cpp e1) (hb : b.Framed dim cpp e2) :
    ExceptRel (fun x y => x.1 = y.1 ∧ x.2.Framed dim cpp e1 ∧ y.2.Framed dim cpp e2)
      (fuji_decode_line ndebug slack xtransCFA ci path info strip cur_line a)
      (fuji_decode_line ndebug slack xtransCFA ci path info strip cur_line b) := by
  unfold fuji_decode_line
  cases path with
  | xtrans =>
    simp only
    cases xtrans_decode_block ndebug slack ci info with
    | error e => rfl
    | ok info1 =>
      simp only
      have hc := copy_line_framed ndebug ⟨6, 6⟩ xtransCFA xtrans_index info1 strip cur_line
        dim cpp e1 e2 a b ha hb
      unfold copy_line_to_xtrans
      cases hA : copy_line ndebug ⟨6, 6⟩ xtransCFA xtrans_index info1 strip cur_line a with
      | error e =>
        rw [hA] at hc
        rw [hc.error_left]
        rfl
      | ok a2 =>
        rw [hA] at hc
        obtain ⟨b2, hB, hab⟩ := hc.ok_left
        rw [hB]
        exact ⟨rfl, hab.1, hab.2⟩
  | bayer =>
    simp only
    cases fuji_bayer_decode_block ndebug slack ci info with
    | error e => rfl
    | ok info1 =>
      simp only
      have hc := copy_line_framed ndebug ⟨2, 2⟩ bayerRGGB (fun imgCol => imgCol / 2) info1
        strip cur_line dim cpp e1 e2 a b ha hb
      unfold copy_line_to_bayer
      cases hA : copy_line ndebug ⟨2, 2⟩ bayerRGGB (fun imgCol => imgCol / 2) info1 strip
          cur_line a with
      | error e =>
        rw [hA] at hc
        rw [hc.error_left]
        rfl
      | ok a2 =>
        rw [hA] at hc
        obtain ⟨b2, hB, hab⟩ := hc.ok_left
        rw [hB]
        exact ⟨rfl, hab.1, hab.2⟩

/-- The lines of a strip decoded into two images of the same dimensions: the same block
and fault, and two images of these dimensions, with their recorded errors. -/
theorem fuji_decode_lines_framed (ndebug : Bool) (slack : Nat)
    (xtransCFA : Nat → Nat → CFAColor) (header : FujiHeader) (ci : fuji_compressed_params)
    (strip : FujiStrip) (dim : iPoint2D) (cpp : Nat) (e1 e2 : List String) :
    ∀ (more : Nat) (cur_line : Int) (info : fuji_compressed_block) (a b : RawImage),
    a.Framed dim cpp e1 → b.Framed dim cpp e2 →
    (fuji_decode_lines ndebug slack xtransCFA header ci strip more cur_line info a).1 =
      (fuji_decode_lines ndebug slack xtransCFA header ci strip more cur_line info b).1 ∧
    (fuji_decode_lines ndebug slack xtransCFA header ci strip more cur_line info a).2.2 =
      (fuji_decode_lines ndebug slack xtransCFA header ci strip more cur_line info b).2.2 ∧
    (fuji_decode_lines ndebug slack xtransCFA header ci strip more cur_line info
      a).2.1.Framed dim cpp e1 ∧
    (fuji_decode_lines ndebug slack xtransCFA header ci strip more cur_line info
      b).2.1.Framed dim cpp e2 := by
  intro more
  induction more with
  | zero =>
    intro cur_line info a b ha hb
    exact ⟨rfl, rfl, ha, hb⟩
  | succ more ih =>
    intro cur_line info a b ha hb
    simp only [fuji_decode_lines]
    have hl := fuji_decode_line_framed ndebug slack xtransCFA ci header.decodePath info
      strip cur_line dim cpp e1 e2 a b ha hb
    cases hA : fuji_decode_line ndebug slack xtransCFA ci header.decodePath info strip
        cur_line a with
    | error e =>
      rw [hA] at hl
      rw [hl.error_left]
      exact ⟨rfl, rfl, ha, hb⟩
    | ok ra =>
      rw [hA] at hl
      obtain ⟨rb, hB, hinfo, hfa, hfb⟩ := hl.ok_left
      rw [hB]
      obtain ⟨ia, imga⟩ := ra
      obtain ⟨ib, imgb⟩ := rb
      simp only at hinfo hfa hfb ⊢
      subst hinfo
      by_cases hlast : cur_line + 1 = strip.height
      · rw [if_pos hlast, if_pos hlast]
        exact ⟨rfl, rfl, hfa, hfb⟩
      · rw [if_neg hlast, if_neg hlast]
        cases fuji_carry ci ia.lines with
        | error e => exact ⟨rfl, rfl, hfa, hfb⟩
        | ok lines2 => exact ih _ _ imga imgb hfa hfb

/-- A strip decoded into two images of the same dimensions: the same block and fault,
and two images of these dimensions, with their recorded errors. -/
theorem decompressThread_strip_framed (ndebug : Bool) (slack : Nat)
    (xtransCFA : Nat → Nat → CFAColor) (header : FujiHeader) (ci : fuji_compressed_params)
    (info : fuji_compressed_block) (strip : FujiStrip) (dim : iPoint2D) (cpp : Nat)
    (e1 e2 : List String) (a b : RawImage)
    (ha : a.Framed dim cpp e1) (hb : b.Framed dim cpp e2) :
    (decompressThread_strip ndebug slack xtransCFA header ci info strip a).2.2 =
      (decompressThread_strip ndebug slack xtransCFA header ci info strip b).2.2 ∧
    (decompressThread_strip ndebug slack xtransCFA header ci info strip a).2.1.Framed dim cpp
      e1 ∧
    (decompressThread_strip ndebug slack xtransCFA header ci info strip b).2.1.Framed dim cpp
      e2 := by
  unfold decompressThread_strip
  cases info.reset ci with
  | error e => exact ⟨rfl, ha, hb⟩
  | ok blk =>
    simp only
    unfold fuji_decode_strip
    exact (fuji_decode_lines_framed ndebug slack xtransCFA header ci strip dim cpp e1 e2 _ _
      _ a b ha hb).2

/-- The image and the fault of a strip do not depend on the block that it starts from,
when the width of a line is even (as the invariant of `fuji_decode_block` states; without
`NDEBUG` an odd width faults alike). -/
theorem decompressThread_strip_block_free (ndebug : Bool) (slack : Nat)
    (xtransCFA : Nat → Nat → CFAColor) (header : FujiHeader) (ci : fuji_compressed_params)
    (heven : ndebug = true → ci.line_width % 2 = 0)
    (info1 info2 : fuji_compressed_block) (strip : FujiStrip) (img : RawImage) :
    (decompressThread_strip ndebug slack xtransCFA header ci info1 strip img).2 =
      (decompressThread_strip ndebug slack xtransCFA header ci info2 strip img).2 := by
  by_cases hlw : 0 ≤ ci.line_width
  · have hwl : (((ci.line_width + 2).toNat : Nat) : Int) = ci.line_width + 2 := by omega
    have hr := fuji_compressed_block.reset_agree ci (ci.line_width + 2).toNat hlw hwl
      info1 info2
    unfold decompressThread_strip
    cases hA : info1.reset ci with
    | error e =>
      rw [hA] at hr
      rw [hr.error_left]
    | ok ia =>
      rw [hA] at hr
      obtain ⟨ib, hB, hab, hge, hgo, hwa⟩ := hr.ok_left
      rw [hB]
      simp only
      unfold fuji_decode_strip
      exact fuji_decode_lines_agree ndebug slack xtransCFA header ci strip
        (ci.line_width + 2).toNat hlw heven hwl strip.height.toNat 0 _ _ img
        ⟨hab, hge, hgo, rfl⟩ hwa
  · have h1 := fuji_compressed_block.reset_narrow ci (by omega) info1
    have h2 := fuji_compressed_block.reset_narrow ci (by omega) info2
    unfold decompressThread_strip
    rw [h1, h2]

/-- The blocks are all attempted, one after the other on the one block and image: each
`RawspeedException` is recorded and no block ends the thread, provided that no block
aborts when it is decoded on its own from the block `fresh` into the image `ref`. -/
theorem FujiDecompressor.decompressThread_attempts_all (ndebug : Bool) (slack : Nat)
    (xtransCFA : Nat → Nat → CFAColor) (geometry : Nat → FujiStrip)
    (left : Nat → fuji_compressed_block) (d : FujiDecompressor)
    (fresh : fuji_compressed_block) (ref : RawImage)
    (heven : ndebug = true → d.common_info.line_width % 2 = 0) :
    ∀ (more block : Nat) (info : fuji_compressed_block) (img : RawImage),
    img.dim = ref.dim → img.cpp = ref.cpp →
    (∀ b, block ≤ b → b < block + more → ∀ e,
      d.unitFault ndebug slack xtransCFA geometry fresh ref b = some e →
      e.isRawspeedException = true) →
    ∃ img2, d.decompressThread ndebug slack xtransCFA geometry left more block info img =
        (img2, none) ∧
      img2.errors = img.errors ++
        (unitFaults (d.unitFault ndebug slack xtransCFA geometry fresh ref)
          (List.range' block more)).map Fault.what := by
  intro more
  induction more with
  | zero =>
    intro block info img _ _ _
    exact ⟨img, rfl, by simp [unitFaults]⟩
  | succ more ih =>
    intro block info img hdim hcpp hexc
    have hx := hexc block (le_refl _) (by omega)
    simp only [FujiDecompressor.decompressThread]
    unfold FujiDecompressor.unitFault at hx
    cases hs : d.strips.get? block with
    | none =>
      rw [hs] at hx
      exact absurd (hx _ rfl) (by decide)
    | some bs =>
      rw [hs] at hx
      simp only at hx ⊢
      have hfree := decompressThread_strip_block_free ndebug slack xtransCFA d.header
        d.common_info heven info fresh (FujiStrip.construct geometry d.header block bs) img
      have hfr := decompressThread_strip_framed ndebug slack xtransCFA d.header
        d.common_info fresh (FujiStrip.construct geometry d.header block bs) ref.dim ref.cpp
        img.errors ref.errors img ref ⟨hdim, hcpp, rfl⟩ ⟨rfl, rfl, rfl⟩
      have hfault : (decompressThread_strip ndebug slack xtransCFA d.header d.common_info info
          (FujiStrip.construct geometry d.header block bs) img).2.2 =
          d.unitFault ndebug slack xtransCFA geometry fresh ref block := by
        unfold FujiDecompressor.unitFault
        rw [hs, hfree, hfr.1]
      have hframe : (decompressThread_strip ndebug slack xtransCFA d.header d.common_info info
          (FujiStrip.construct geometry d.header block bs) img).2.1.Framed ref.dim ref.cpp
          img.errors := by
        rw [hfree]
        exact hfr.2.1
      have hrest : ∀ b, block + 1 ≤ b → b < block + 1 + more → ∀ e,
          d.unitFault ndebug slack xtransCFA geometry fresh ref b = some e →
          e.isRawspeedException = true :=
        fun b h1 h2 => hexc b (by omega) (by omega)
      cases hr : decompressThread_strip ndebug slack xtransCFA d.header d.common_info info
          (FujiStrip.construct geometry d.header block bs) img with
      | mk oinfo rest =>
        obtain ⟨img1, f⟩ := rest
        rw [hr] at hfault hframe
        simp only at hfault hframe
        cases f with
        | none =>
          obtain ⟨img2, h1, h2⟩ := ih (block + 1) (oinfo.getD (left block)) img1 hframe.1
            hframe.2.1 hrest
          refine ⟨img2, h1, ?_⟩
          rw [h2, hframe.2.2]
          simp only [unitFaults, List.range'_succ, List.filterMap_cons, ← hfault]
        | some e =>
          have hexn : e.isRawspeedException = true := by
            apply hexc block (le_refl _) (by omega)
            rw [← hfault]
          obtain ⟨img2, h1, h2⟩ := ih (block + 1) (left block) (img1.setError e.what)
            hframe.1 hframe.2.1 hrest
          simp only [hexn, if_true]
          refine ⟨img2, h1, ?_⟩
          rw [h2]
          simp only [unitFaults, List.range'_succ, List.filterMap_cons, ← hfault]
          simp [RawImage.setError, hframe.2.2]

/-- C18: the Phase One and the Fuji `decompress()` attempt every unit, also after one
has failed: every unit's `RawspeedException` is in the error tally (and, for Phase One,
every strip's decoded samples are in its row).  On an image without earlier errors
they raise the aggregated `Too many errors encountered` error, quoting the first
recorded unit error, if and only if at least one unit raised; when no unit raised they
return normally.  For Fuji the unit is the reset of the block and `fuji_decode_strip`
on the strip of the block; what a block ends with on its own is what it ends with in
the run, and no block is taken to abort (a failed assertion or undefined behaviour ends
the program). -/
theorem decompress_aggregates (slack : Nat) (img : RawImage)
    (strips : List PhaseOneStrip) (d : PhaseOneDecompressor)
    (ndebug : Bool) (xtransCFA : Nat → Nat → CFAColor) (geometry : Nat → FujiStrip)
    (left : Nat → fuji_compressed_block) (fresh : fuji_compressed_block)
    (f : FujiDecompressor)
    (hn : ∀ s ∈ strips, -2 ^ 31 ≤ s.n ∧ s.n < 2 ^ 31)
    (hc : PhaseOneDecompressor.construct img strips = .ok d)
    (h0 : img.errors = [])
    (hf0 : f.mRaw.errors = [])
    (heven : ndebug = true → f.common_info.line_width % 2 = 0)
    (hexc : ∀ b, b < f.header.blocks_in_row → ∀ e,
      f.unitFault ndebug slack xtransCFA geometry fresh f.mRaw b = some e →
      e.isRawspeedException = true) :
    ((d.decompress slack).2 = aggregated
        (unitFaults (fun s => (stripSamples slack img.width.toNat s.bs).2) d.strips) ∧
      (d.decompress slack).1.errors =
        (unitFaults (fun s => (stripSamples slack img.width.toNat s.bs).2) d.strips).map
          Fault.what ∧
      ((d.decompress slack).2 = none ↔
        ∀ s ∈ d.strips, (stripSamples slack img.width.toNat s.bs).2 = none) ∧
      (∀ s ∈ d.strips, ∀ c, c < (stripSamples slack img.width.toNat s.bs).1.length →
        (d.decompress slack).1.data s.n.toNat c =
          some ((stripSamples slack img.width.toNat s.bs).1.getD c 0))) ∧
    ((f.decompress ndebug slack xtransCFA geometry left fresh).2 = aggregated
        (unitFaults (f.unitFault ndebug slack xtransCFA geometry fresh f.mRaw)
          (List.range f.header.blocks_in_row)) ∧
      (f.decompress ndebug slack xtransCFA geometry left fresh).1.errors =
        (unitFaults (f.unitFault ndebug slack xtransCFA geometry fresh f.mRaw)
          (List.range f.header.blocks_in_row)).map Fault.what ∧
      ((f.decompress ndebug slack xtransCFA geometry left fresh).2 = none ↔
        ∀ b, b < f.header.blocks_in_row →
          f.unitFault ndebug slack xtransCFA geometry fresh f.mRaw b = none)) := by
  constructor
  · obtain ⟨-, -, -, -, -, img2, himg, herrs, hout, hdata⟩ :=
      PhaseOneDecompressor.decompress_spec slack img strips d hn hc
    rw [h0, List.nil_append] at herrs
    have hagg : (d.decompress slack).2 = aggregated
        (unitFaults (fun s => (stripSamples slack img.width.toNat s.bs).2) d.strips) := by
      rw [hout, herrs]
      exact aggregated_of_errors _
    refine ⟨hagg, by rw [himg, herrs], ?_, by rw [himg]; exact hdata⟩
    rw [hagg, aggregated_eq_none_iff, unitFaults, List.filterMap_eq_nil_iff]
  · obtain ⟨img2, ht, herrs⟩ := FujiDecompressor.decompressThread_attempts_all ndebug slack
      xtransCFA geometry left f fresh f.mRaw heven f.header.blocks_in_row 0 fresh f.mRaw rfl
      rfl (fun b _ hb => hexc b (by omega))
    rw [hf0, List.nil_append, ← List.range_eq_range'] at herrs
    have himg : (f.decompress ndebug slack xtransCFA geometry left fresh).1 = img2 := by
      simp only [FujiDecompressor.decompress, ht]
      split <;> rfl
    have hagg : (f.decompress ndebug slack xtransCFA geometry left fresh).2 = aggregated
        (unitFaults (f.unitFault ndebug slack xtransCFA geometry fresh f.mRaw)
          (List.range f.header.blocks_in_row)) := by
      rw [← aggregated_of_errors, ← herrs]
      simp only [FujiDecompressor.decompress, ht, RawImage.isTooManyErrors,
        decide_eq_true_eq]
      split <;> rfl
    refine ⟨hagg, by rw [himg, herrs], ?_⟩
    rw [hagg, aggregated_eq_none_iff, unitFaults, List.filterMap_eq_nil_iff]
    simp only [List.mem_range]

/-- The first even sample of a line on the Bayer path, from a reset block whose pump has
no bytes and no slack: the pump raises. -/
theorem pass_even_no_bytes (ndebug : Bool) (blk : fuji_compressed_block)
    (g1 : blk.lines.get (2 - 1) (1 + 2 * (0 + 0) + 0) = .ok 0)
    (g2 : blk.lines.get (2 - 1) (1 + 2 * (0 - 1) + 1) = .ok 0)
    (g3 : blk.lines.get (2 - 1) (1 + 2 * (0 + 0) + 1) = .ok 0)
    (g4 : blk.lines.get (2 - 2) (1 + 2 * (0 + 0) + 0) = .ok 0)
    (hg : blk.grad_even.get? 0 = some (List.replicate 41 ⟨256, 1⟩))
    (hp : blk.pump = ⟨[], 0, []⟩) :
    pass_even (bayer_func_even ndebug 0 smallBayerParams) blk 2 ⟨0, 0⟩ 0 0 0 0 =
      .error (.ioe "Buffer overflow read in BitStreamer") := by
  have hq := (fuji_quant_gradient_ok smallBayerHeader smallBayerParams smallBayerParams_eq
    0 0 0 0 (by decide) (by decide) (by decide) (by decide)).1
  have hk : fuji_decode_interpolation_even_inner smallBayerParams blk.lines 2 0 =
      .ok (0, 0) := by
    unfold fuji_decode_interpolation_even_inner
    rw [g1, g2, g3, g4]
    simp only [Nat.cast_zero, sub_zero] at hq
    simp only [sub_zero, hq]
    rfl
  have hs : ∀ nd, fuji_decode_sample nd 0 smallBayerParams ⟨[], 0, []⟩ 0 0
      (List.replicate 41 ⟨256, 1⟩) = .error (.ioe "Buffer overflow read in BitStreamer") := by
    intro nd
    cases nd <;> rfl
  unfold pass_even
  rw [hg]
  simp only [bayer_func_even, fuji_decode_sample_even, hk, hp, hs]

/-- A fault of the first even sample of the first row of a line is the fault of
`fuji_decode_block`. -/
theorem fuji_decode_block_first_error (ndebug : Bool) (slack : Nat)
    (ci : fuji_compressed_params) (func_even : FuncEven) (info : fuji_compressed_block)
    (e : Fault) (heven : ci.line_width % 2 = 0) (hw : 0 < ci.line_width / 2)
    (h : pass_even func_even info 2 ⟨0, 0⟩ 0 0 0 0 = .error e) :
    fuji_decode_block ndebug slack ci func_even info = .error e := by
  have hpass : pass ndebug slack ci func_even 2 7 0 info = .error e := by
    unfold pass
    have h5 : (ci.line_width / 2 + 4).toNat = (ci.line_width / 2 + 3).toNat + 1 := by omega
    rw [h5, pass_loop_succ]
    unfold pass_evens
    rw [if_pos hw]
    have h2 : pass_even func_even info 2 ((⟨0, 0⟩, ⟨0, 0⟩) : ColorPos × ColorPos).1
        (0 % 3) ((0 : Nat) : Int) 0 0 = .error e := h
    rw [h2]
  have hrow : fuji_decode_row ndebug slack ci func_even 0 (fun _ => 0) info = .error e := by
    unfold fuji_decode_row
    have h2 : pass ndebug slack ci func_even
        (CurLineForColor (fun _ => 0) (bayerRGGB 0 0)).1
        (CurLineForColor (CurLineForColor (fun _ => 0) (bayerRGGB 0 0)).2 (bayerRGGB 0 1)).1
        0 info = .error e := hpass
    simp only [h2]
  unfold fuji_decode_block
  rw [if_neg (fun hh => hh.2 heven), fuji_decode_block_rows_succ, hrow]

/-- A block of `twoBlockFuji`, decoded on its own from `emptyLineBlock`, raises the
input error of the pump at its first sample: its strip has no bytes. -/
theorem twoBlockFuji_unitFault (ndebug : Bool) (xtransCFA : Nat → Nat → CFAColor)
    (img : RawImage) (b : Nat) (hb : b < 2) :
    twoBlockFuji.unitFault ndebug 0 xtransCFA twoBlockGeometry emptyLineBlock img b =
      some (.ioe "Buffer overflow read in BitStreamer") := by
  obtain ⟨blk, hreset, g1, g2, g3, g4, hg⟩ : ∃ blk,
      emptyLineBlock.reset smallBayerParams = .ok blk ∧
      blk.lines.get (2 - 1) (1 + 2 * (0 + 0) + 0) = .ok 0 ∧
      blk.lines.get (2 - 1) (1 + 2 * (0 - 1) + 1) = .ok 0 ∧
      blk.lines.get (2 - 1) (1 + 2 * (0 + 0) + 1) = .ok 0 ∧
      blk.lines.get (2 - 2) (1 + 2 * (0 + 0) + 0) = .ok 0 ∧
      blk.grad_even.get? 0 = some (List.replicate 41 ⟨256, 1⟩) :=
    ⟨_, rfl, rfl, rfl, rfl, rfl, rfl⟩
  have hblock : fuji_bayer_decode_block ndebug 0 smallBayerParams
      { blk with pump := ⟨[], 0, []⟩ } = .error (.ioe "Buffer overflow read in BitStreamer") :=
    fuji_decode_block_first_error ndebug 0 smallBayerParams _ _ _ rfl (by decide)
      (pass_even_no_bytes ndebug _ g1 g2 g3 g4 hg rfl)
  have hstrip : ∀ n, (decompressThread_strip ndebug 0 xtransCFA twoBlockFuji.header
      smallBayerParams emptyLineBlock
      (FujiStrip.construct twoBlockGeometry twoBlockFuji.header n ⟨[], 0⟩) img).2.2 =
      some (.ioe "Buffer overflow read in BitStreamer") := by
    intro n
    unfold decompressThread_strip
    rw [hreset]
    have hl : fuji_decode_line ndebug 0 xtransCFA smallBayerParams
        twoBlockFuji.header.decodePath { blk with pump := ⟨[], 0, []⟩ }
        (FujiStrip.construct twoBlockGeometry twoBlockFuji.header n ⟨[], 0⟩) 0 img =
        .error (.ioe "Buffer overflow read in BitStreamer") := by
      have hp : twoBlockFuji.header.decodePath = .bayer := rfl
      rw [hp]
      unfold fuji_decode_line
      simp only [hblock]
    have h1 : fuji_decode_strip ndebug 0 xtransCFA twoBlockFuji.header smallBayerParams
        { blk with pump := ⟨[], 0, []⟩ }
        (FujiStrip.construct twoBlockGeometry twoBlockFuji.header n ⟨[], 0⟩) img =
        fuji_decode_lines ndebug 0 xtransCFA twoBlockFuji.header smallBayerParams
          (FujiStrip.construct twoBlockGeometry twoBlockFuji.header n ⟨[], 0⟩) (0 + 1) 0
          { blk with pump := ⟨[], 0, []⟩ } img := rfl
    show (fuji_decode_strip ndebug 0 xtransCFA twoBlockFuji.header smallBayerParams
        { blk with pump := ⟨[], 0, []⟩ }
        (FujiStrip.construct twoBlockGeometry twoBlockFuji.header n ⟨[], 0⟩) img).2.2 = _
    rw [h1, fuji_decode_lines, hl]
  unfold FujiDecompressor.unitFault
  have hs : twoBlockFuji.strips.get? b = some ⟨[], 0⟩ := by
    interval_cases b <;> rfl
  rw [hs]
  exact hstrip b

/-- Witness for C18: a Phase One image of two strips, and the Fuji
decompressor `twoBlockFuji`, both of whose blocks raise the input error of the pump:
both errors are recorded, and `decompress` raises the aggregated error that quotes the
first. -/
theorem decompress_aggregates_witness :
    (((⟨blankImage 2 2, [⟨0, []⟩, ⟨1, [1, 2, 3, 4]⟩]⟩ :
          PhaseOneDecompressor).decompress 0).2 = aggregated
        (unitFaults (fun s : PhaseOneStrip => (stripSamples 0 (blankImage 2 2).width.toNat s.bs).2)
          [⟨0, []⟩, ⟨1, [1, 2, 3, 4]⟩]) ∧
      ((⟨blankImage 2 2, [⟨0, []⟩, ⟨1, [1, 2, 3, 4]⟩]⟩ :
          PhaseOneDecompressor).decompress 0).1.errors =
        (unitFaults (fun s : PhaseOneStrip => (stripSamples 0 (blankImage 2 2).width.toNat s.bs).2)
          [⟨0, []⟩, ⟨1, [1, 2, 3, 4]⟩]).map Fault.what ∧
      (((⟨blankImage 2 2, [⟨0, []⟩, ⟨1, [1, 2, 3, 4]⟩]⟩ :
          PhaseOneDecompressor).decompress 0).2 = none ↔
        ∀ s ∈ [(⟨0, []⟩ : PhaseOneStrip), ⟨1, [1, 2, 3, 4]⟩],
          (stripSamples 0 (blankImage 2 2).width.toNat s.bs).2 = none) ∧
      (∀ s ∈ [(⟨0, []⟩ : PhaseOneStrip), ⟨1, [1, 2, 3, 4]⟩],
        ∀ c, c < (stripSamples 0 (blankImage 2 2).width.toNat s.bs).1.length →
        ((⟨blankImage 2 2, [⟨0, []⟩, ⟨1, [1, 2, 3, 4]⟩]⟩ :
            PhaseOneDecompressor).decompress 0).1.data s.n.toNat c =
          some ((stripSamples 0 (blankImage 2 2).width.toNat s.bs).1.getD c 0))) ∧
    (∀ b, b < 2 → twoBlockFuji.unitFault false 0 (fun _ _ => .RED) twoBlockGeometry
        emptyLineBlock twoBlockFuji.mRaw b =
      some (.ioe "Buffer overflow read in BitStreamer")) ∧
    (twoBlockFuji.decompress false 0 (fun _ _ => .RED) twoBlockGeometry
        (fun _ => emptyLineBlock) emptyLineBlock).2 =
      some (.rde ("Too many errors encountered. Giving up. First Error:\n" ++
        "Buffer overflow read in BitStreamer")) ∧
    (twoBlockFuji.decompress false 0 (fun _ _ => .RED) twoBlockGeometry
        (fun _ => emptyLineBlock) emptyLineBlock).1.errors =
      ["Buffer overflow read in BitStreamer", "Buffer overflow read in BitStreamer"] ∧
    ¬ ((twoBlockFuji.decompress false 0 (fun _ _ => .RED) twoBlockGeometry
        (fun _ => emptyLineBlock) emptyLineBlock).2 = none) := by
  have hu := twoBlockFuji_unitFault false (fun _ _ => .RED) twoBlockFuji.mRaw
  have h := decompress_aggregates 0 (blankImage 2 2) [⟨1, [1, 2, 3, 4]⟩, ⟨0, []⟩]
    ⟨blankImage 2 2, [⟨0, []⟩, ⟨1, [1, 2, 3, 4]⟩]⟩ false (fun _ _ => .RED) twoBlockGeometry
    (fun _ => emptyLineBlock) emptyLineBlock twoBlockFuji
    (by decide) rfl rfl rfl (fun _ => rfl)
    (fun b hb e he => by
      rw [hu b hb] at he
      cases he
      rfl)
  have hl : unitFaults (twoBlockFuji.unitFault false 0 (fun _ _ => .RED) twoBlockGeometry
      emptyLineBlock twoBlockFuji.mRaw) (List.range twoBlockFuji.header.blocks_in_row) =
      [.ioe "Buffer overflow read in BitStreamer",
        .ioe "Buffer overflow read in BitStreamer"] := by
    have hr : List.range twoBlockFuji.header.blocks_in_row = [0, 1] := rfl
    rw [hr]
    simp only [unitFaults, List.filterMap_cons, List.filterMap_nil, hu 0 (by decide),
      hu 1 (by decide)]
  rw [hl] at h
  refine ⟨h.1, hu, h.2.1, h.2.2.1, ?_⟩
  rw [h.2.1]
  exact fun hh => nomatch hh

end rawspeed
